import Mathlib

/-! The NDS32 instruction encoder (`opcodes/nds32-asm.c`)

A shallow embedding of the table-driven assembler: the operand-field table, the
keyword tables, the pattern compiler `build_opcode_syntax`, the operand encoder
`parse_operand`, the matcher `parse_insn` and the driver `nds32_assemble`.

Conventions of the embedding.

* A C string is a `List Char`; the terminating NUL is implicit, so reading at the
  end of the list reads `'\0'` (`peek`).
* `int64_t` values are `Int`; where the C arithmetic can leave the 64-bit range
  the result is reduced by `wrap64`.  The instruction word is a `uint32_t`,
  modelled as a `Nat` reduced modulo `2 ^ 32` on every store.
* A function that can call `abort ()`, fail an `assert`, or read outside an
  array returns `Option`; `none` stands for "does not return normally".
* Pointers into `nds32_opcodes` are indices into the table.
-/

namespace Nds32

/-! ## Constants -/

/-- There are at most `MAX_LEX_NUM` lexical elements in a compiled pattern. -/
def MAX_LEX_NUM : Nat := 32

/-- The size of the buffer `odstr` that receives a keyword
(`#define MAX_KEYWORD_LEN 32`). -/
def MAX_KEYWORD_LEN : Nat := 32

def SYN_FIELD : Nat := 0x100
def SYN_INPUT : Nat := 0x1000
def SYN_OUTPUT : Nat := 0x2000
def SYN_LOPT : Nat := 0x4000
def SYN_ROPT : Nat := 0x8000

def HW_GPR : Nat := 0
def HW_USR : Nat := 1
def HW_DXR : Nat := 2
def HW_SR : Nat := 3
def HW_FSR : Nat := 4
def HW_FDR : Nat := 5
def HW_CP : Nat := 6
def HW_CPR : Nat := 7
def HW_ABDIM : Nat := 8
def HW_ABM : Nat := 9
def HW_DTITON : Nat := 10
def HW_DTITOFF : Nat := 11
def HW_DPREF_ST : Nat := 12
def HW_CCTL_ST0 : Nat := 13
def HW_CCTL_ST1 : Nat := 14
def HW_CCTL_ST2 : Nat := 15
def HW_CCTL_ST3 : Nat := 16
def HW_CCTL_ST4 : Nat := 17
def HW_CCTL_ST5 : Nat := 18
def HW_CCTL_LV : Nat := 19
def HW_TLBOP_ST : Nat := 20
def HW_STANDBY_ST : Nat := 21
def HW_MSYNC_ST : Nat := 22
def _HW_LAST : Nat := 23
def HW_INT : Nat := 24
def HW_UINT : Nat := 25

/-- Modelled from the spec: the enumeration of `nds32-asm.h` (not among the
sources) holding the outcome codes of an encode call and the three answers of the
external resolver.  Only the identity of the codes matters, not their numbers. -/
inductive nasm_code where
  | NASM_OK
  | NASM_ERR_UNKNOWN_OP
  | NASM_ERR_SYNTAX
  | NASM_ERR_OPERAND
  | NASM_ERR_OUT_OF_RANGE
  | NASM_ERR_REG_REDUCED
  | NASM_ERR_JUNK_EOL
  | NASM_R_CONST
  | NASM_R_SYMBOL
  | NASM_R_ILLEGAL
deriving DecidableEq, Repr

/-- Modelled from the spec: the flag of `nds32-asm.h` (not among the sources)
selecting the reduced register set; one bit of `pdesc->flags`. -/
def NASM_OPEN_REDUCED_REG : Nat := 0x10

/-- Modelled from the spec: the mask of `nds32-asm.h` (not among the sources)
selecting the ISA variant inside `pdesc->flags`. -/
def NASM_OPEN_ARCH_MASK : Nat := 0xf

/-- Modelled from the spec: the keyword attribute "valid in reduced-register
mode" of `nds32-asm.h` (not among the sources); one nonzero bit. -/
def NASM_ATTR_RDREG : Nat := 0x100

/-- Modelled from the spec: the instruction attribute recorded by a `hi20(`
modifier (`nds32-asm.h`, not among the sources). -/
def NASM_ATTR_HI20 : Nat := 0x10000000

/-- Modelled from the spec: the instruction attribute recorded by a `lo12(`
modifier (`nds32-asm.h`, not among the sources). -/
def NASM_ATTR_LO12 : Nat := 0x20000000

/-- Modelled from the spec: the instruction attribute recorded by a `lo20(`
modifier (`nds32-asm.h`, not among the sources). -/
def NASM_ATTR_LO20 : Nat := 0x40000000

/-- Modelled from the spec: the macro `__BIT` of `opcode/nds32.h` (not among the
sources), the single bit at position `n`. -/
def __BIT (n : Nat) : Nat := 1 <<< n

/-- Modelled from the spec: the macro `__MASK` of `opcode/nds32.h` (not among the
sources), `mask(width)`: the `n` low bits set. -/
def __MASK (n : Nat) : Nat := __BIT n - 1

def DEF_REG (r : Nat) : Nat := __BIT r
def USE_REG (r : Nat) : Nat := __BIT r

def USRIDX (group usr : Nat) : Nat := group ||| (usr <<< 5)
def SRIDX (major minor ext : Nat) : Nat := (major <<< 7) ||| (minor <<< 3) ||| ext

/-- This lexical element is a plain character (not an operand or a group mark). -/
def IS_LEX_CHAR (c : Nat) : Bool := (c >>> 7) == 0
def LEX_SET_FIELD (c : Nat) : Nat := c ||| SYN_FIELD
/-- The character held by a plain lexical element. -/
def LEX_CHAR (c : Nat) : Nat := c &&& 0xff

/-- Two's-complement reduction of an integer to the range of `int64_t`. -/
def wrap64 (x : Int) : Int := (x + 2 ^ 63) % 2 ^ 64 - 2 ^ 63

/-- The character under a cursor into a C string (`*p`). -/
def peek (p : List Char) : Char := p.headD (Char.ofNat 0)

/-! ## Data model -/

/-- The custom parsing hooks a field may carry (`fld->parse`). -/
inductive parse_hook where
  | parse_re2
  | parse_fe5
  | parse_pi5
deriving DecidableEq, Repr

/-- One operand position of an encoded instruction (`field_t`). -/
structure field_t where
  name : List Char
  bitpos : Nat
  bitsize : Nat
  shift : Nat
  hw_res : Nat
  parse : Option parse_hook
deriving DecidableEq, Repr

/-- One named value of a hardware-resource class (`keyword_t`). -/
structure keyword_t where
  name : List Char
  value : Nat
  attr : Nat
deriving DecidableEq, Repr

/-- One entry of the opcode table (`struct nds32_opcode`).  The compiled pattern
(member `syntax` in C) is `lexes`; `next` links the entries sharing a mnemonic. -/
structure nds32_opcode where
  opcode : List Char
  instruction : List Char
  value : Nat
  isize : Nat
  attr : Nat
  defuse : Nat
  lexes : Option (List Nat)
  variant : Nat
  next : Option Nat
deriving DecidableEq, Repr

/-- The in-progress instruction (`nds32_asm_insn_t`). -/
structure nds32_asm_insn where
  opcode : Option Nat
  insn : Nat
  attr : Nat
  defuse : Nat
  field : Option field_t
deriving DecidableEq, Repr

/-- What one call of the external resolver `pdesc->parse_operand (pdesc, pinsn,
&end, &value)` leaves behind: its return code, the cursor and the value slot. -/
structure resolved where
  r : nasm_code
  pstr : List Char
  value : Int
deriving DecidableEq, Repr

/-- The assembler description (`nds32_asm_desc_t`); the resolver is a function of
the text under the cursor. -/
structure nds32_asm_desc where
  flags : Nat
  mach : Nat
  result : nasm_code
  parse_operand : List Char → resolved

/-- What a call of `parse_operand` leaves behind: the returned flag, the
description (its `result`), the instruction and the caller's cursor `*str`. -/
structure operand_result where
  ret : Bool
  pdesc : nds32_asm_desc
  pinsn : nds32_asm_insn
  str : List Char

/-! ## Tables -/

def operand_fields : List field_t := [
  field_t.mk "rt".toList 20 5 0 HW_GPR none,
  field_t.mk "ra".toList 15 5 0 HW_GPR none,
  field_t.mk "rb".toList 10 5 0 HW_GPR none,
  field_t.mk "rd".toList 5 5 0 HW_GPR none,
  field_t.mk "fst".toList 20 5 0 HW_FSR none,
  field_t.mk "fsa".toList 15 5 0 HW_FSR none,
  field_t.mk "fsb".toList 10 5 0 HW_FSR none,
  field_t.mk "fdt".toList 20 5 0 HW_FDR none,
  field_t.mk "fda".toList 15 5 0 HW_FDR none,
  field_t.mk "fdb".toList 10 5 0 HW_FDR none,
  field_t.mk "cprt".toList 20 5 0 HW_CPR none,
  field_t.mk "cp".toList 13 2 0 HW_CP none,
  field_t.mk "sh".toList 5 5 0 HW_UINT none,
  field_t.mk "sv".toList 8 2 0 HW_UINT none,
  field_t.mk "dt".toList 21 1 0 HW_DXR none,
  field_t.mk "usr".toList 10 10 0 HW_USR none,
  field_t.mk "sr".toList 10 10 0 HW_SR none,
  field_t.mk "ridx".toList 10 10 0 HW_UINT none,
  field_t.mk "enb4".toList 6 9 0 HW_UINT none,
  field_t.mk "swid".toList 5 15 0 HW_UINT none,
  field_t.mk "stdby_st".toList 5 2 0 HW_STANDBY_ST none,
  field_t.mk "tlbop_st".toList 5 5 0 HW_TLBOP_ST none,
  field_t.mk "tlbop_stx".toList 5 5 0 HW_UINT none,
  field_t.mk "cctl_st0".toList 5 5 0 HW_CCTL_ST0 none,
  field_t.mk "cctl_st1".toList 5 5 0 HW_CCTL_ST1 none,
  field_t.mk "cctl_st2".toList 5 5 0 HW_CCTL_ST2 none,
  field_t.mk "cctl_st3".toList 5 5 0 HW_CCTL_ST3 none,
  field_t.mk "cctl_st4".toList 5 5 0 HW_CCTL_ST4 none,
  field_t.mk "cctl_st5".toList 5 5 0 HW_CCTL_ST5 none,
  field_t.mk "cctl_stx".toList 5 5 0 HW_UINT none,
  field_t.mk "cctl_lv".toList 10 1 0 HW_CCTL_LV none,
  field_t.mk "msync_st".toList 5 3 0 HW_MSYNC_ST none,
  field_t.mk "msync_stx".toList 5 3 0 HW_UINT none,
  field_t.mk "dpref_st".toList 20 5 0 HW_DPREF_ST none,
  field_t.mk "rt5".toList 5 5 0 HW_GPR none,
  field_t.mk "ra5".toList 0 5 0 HW_GPR none,
  field_t.mk "rt4".toList 5 4 0 HW_GPR none,
  field_t.mk "rt3".toList 6 3 0 HW_GPR none,
  field_t.mk "rt38".toList 8 3 0 HW_GPR none,
  field_t.mk "ra3".toList 3 3 0 HW_GPR none,
  field_t.mk "rb3".toList 0 3 0 HW_GPR none,
  field_t.mk "rt5e".toList 4 4 1 HW_GPR none,
  field_t.mk "ra5e".toList 0 4 1 HW_GPR none,
  field_t.mk "re2".toList 5 2 0 HW_GPR (some .parse_re2),
  field_t.mk "fe5".toList 0 5 2 HW_UINT (some .parse_fe5),
  field_t.mk "pi5".toList 0 5 0 HW_UINT (some .parse_pi5),
  field_t.mk "abdim".toList 2 3 0 HW_ABDIM none,
  field_t.mk "abm".toList 2 3 0 HW_ABM none,
  field_t.mk "dtiton".toList 8 2 0 HW_DTITON none,
  field_t.mk "dtitoff".toList 8 2 0 HW_DTITOFF none,
  field_t.mk "i5s".toList 0 5 0 HW_INT none,
  field_t.mk "i10s".toList 0 10 0 HW_INT none,
  field_t.mk "i15s".toList 0 15 0 HW_INT none,
  field_t.mk "i19s".toList 0 19 0 HW_INT none,
  field_t.mk "i20s".toList 0 20 0 HW_INT none,
  field_t.mk "i8s1".toList 0 8 1 HW_INT none,
  field_t.mk "i11br3".toList 8 11 0 HW_INT none,
  field_t.mk "i14s1".toList 0 14 1 HW_INT none,
  field_t.mk "i15s1".toList 0 15 1 HW_INT none,
  field_t.mk "i16s1".toList 0 16 1 HW_INT none,
  field_t.mk "i18s1".toList 0 18 1 HW_INT none,
  field_t.mk "i24s1".toList 0 24 1 HW_INT none,
  field_t.mk "i8s2".toList 0 8 2 HW_INT none,
  field_t.mk "i12s2".toList 0 12 2 HW_INT none,
  field_t.mk "i15s2".toList 0 15 2 HW_INT none,
  field_t.mk "i17s2".toList 0 17 2 HW_INT none,
  field_t.mk "i19s2".toList 0 19 2 HW_INT none,
  field_t.mk "i3u".toList 0 3 0 HW_UINT none,
  field_t.mk "i5u".toList 0 5 0 HW_UINT none,
  field_t.mk "ib5u".toList 10 5 0 HW_UINT none,
  field_t.mk "ib5s".toList 10 5 0 HW_INT none,
  field_t.mk "i9u".toList 0 9 0 HW_UINT none,
  field_t.mk "ia3u".toList 3 3 0 HW_UINT none,
  field_t.mk "i8u".toList 0 8 0 HW_UINT none,
  field_t.mk "i15u".toList 0 15 0 HW_UINT none,
  field_t.mk "i20u".toList 0 20 0 HW_UINT none,
  field_t.mk "i3u1".toList 0 3 1 HW_UINT none,
  field_t.mk "i9u1".toList 0 9 1 HW_UINT none,
  field_t.mk "i3u2".toList 0 3 2 HW_UINT none,
  field_t.mk "i6u2".toList 0 6 2 HW_UINT none,
  field_t.mk "i7u2".toList 0 7 2 HW_UINT none,
  field_t.mk "i5u3".toList 0 5 3 HW_UINT none,
  field_t.mk "i15s3".toList 0 15 3 HW_UINT none]

def keyword_gpr : List keyword_t := [
  keyword_t.mk "r0".toList 0 NASM_ATTR_RDREG, keyword_t.mk "r1".toList 1 NASM_ATTR_RDREG,
  keyword_t.mk "r2".toList 2 NASM_ATTR_RDREG, keyword_t.mk "r3".toList 3 NASM_ATTR_RDREG,
  keyword_t.mk "r4".toList 4 NASM_ATTR_RDREG, keyword_t.mk "r5".toList 5 NASM_ATTR_RDREG,
  keyword_t.mk "r6".toList 6 NASM_ATTR_RDREG, keyword_t.mk "r7".toList 7 NASM_ATTR_RDREG,
  keyword_t.mk "r8".toList 8 NASM_ATTR_RDREG, keyword_t.mk "r9".toList 9 NASM_ATTR_RDREG,
  keyword_t.mk "r10".toList 10 NASM_ATTR_RDREG, keyword_t.mk "r11".toList 11 0,
  keyword_t.mk "r12".toList 12 0, keyword_t.mk "r13".toList 13 0,
  keyword_t.mk "r14".toList 14 0, keyword_t.mk "r15".toList 15 NASM_ATTR_RDREG,
  keyword_t.mk "r16".toList 16 0, keyword_t.mk "r17".toList 17 0,
  keyword_t.mk "r18".toList 18 0, keyword_t.mk "r19".toList 19 0,
  keyword_t.mk "r20".toList 20 0, keyword_t.mk "r21".toList 21 0,
  keyword_t.mk "r22".toList 22 0, keyword_t.mk "r23".toList 23 0,
  keyword_t.mk "r24".toList 24 0, keyword_t.mk "r25".toList 25 0,
  keyword_t.mk "r26".toList 26 0, keyword_t.mk "r27".toList 27 0,
  keyword_t.mk "r28".toList 28 NASM_ATTR_RDREG, keyword_t.mk "r29".toList 29 NASM_ATTR_RDREG,
  keyword_t.mk "r30".toList 30 NASM_ATTR_RDREG, keyword_t.mk "r31".toList 31 NASM_ATTR_RDREG,
  keyword_t.mk "ta".toList 15 NASM_ATTR_RDREG, keyword_t.mk "p0".toList 26 0,
  keyword_t.mk "p1".toList 27 0, keyword_t.mk "fp".toList 28 NASM_ATTR_RDREG,
  keyword_t.mk "gp".toList 29 NASM_ATTR_RDREG, keyword_t.mk "lp".toList 30 NASM_ATTR_RDREG,
  keyword_t.mk "sp".toList 31 NASM_ATTR_RDREG]

def keyword_usr : List keyword_t := [
  keyword_t.mk "d0.lo".toList (USRIDX 0 0) 0, keyword_t.mk "d0.hi".toList (USRIDX 0 1) 0,
  keyword_t.mk "d1.lo".toList (USRIDX 0 2) 0, keyword_t.mk "d1.hi".toList (USRIDX 0 3) 0,
  keyword_t.mk "itb".toList (USRIDX 0 28) 0, keyword_t.mk "ifc_lp".toList (USRIDX 0 29) 0,
  keyword_t.mk "pc".toList (USRIDX 0 31) 0, keyword_t.mk "dma_cfg".toList (USRIDX 1 0) 0,
  keyword_t.mk "dma_gcsw".toList (USRIDX 1 1) 0,
  keyword_t.mk "dma_chnsel".toList (USRIDX 1 2) 0,
  keyword_t.mk "dma_act".toList (USRIDX 1 3) 0, keyword_t.mk "dma_setup".toList (USRIDX 1 4) 0,
  keyword_t.mk "dma_isaddr".toList (USRIDX 1 5) 0,
  keyword_t.mk "dma_esaddr".toList (USRIDX 1 6) 0,
  keyword_t.mk "dma_tcnt".toList (USRIDX 1 7) 0,
  keyword_t.mk "dma_status".toList (USRIDX 1 8) 0,
  keyword_t.mk "dma_2dset".toList (USRIDX 1 9) 0,
  keyword_t.mk "dma_rcnt".toList (USRIDX 1 23) 0,
  keyword_t.mk "dma_hstatus".toList (USRIDX 1 24) 0,
  keyword_t.mk "dma_2dsctl".toList (USRIDX 1 25) 0, keyword_t.mk "pfmc0".toList (USRIDX 2 0) 0,
  keyword_t.mk "pfmc1".toList (USRIDX 2 1) 0, keyword_t.mk "pfmc2".toList (USRIDX 2 2) 0,
  keyword_t.mk "pfm_ctl".toList (USRIDX 2 4) 0]

def keyword_dxr : List keyword_t := [
  keyword_t.mk "d0".toList 0 0, keyword_t.mk "d1".toList 1 0]

def keyword_sr : List keyword_t := [
  keyword_t.mk "cr0".toList (SRIDX 0 0 0) 0, keyword_t.mk "cpu_ver".toList (SRIDX 0 0 0) 0,
  keyword_t.mk "cr1".toList (SRIDX 0 1 0) 0, keyword_t.mk "icm_cfg".toList (SRIDX 0 1 0) 0,
  keyword_t.mk "cr2".toList (SRIDX 0 2 0) 0, keyword_t.mk "dcm_cfg".toList (SRIDX 0 2 0) 0,
  keyword_t.mk "cr3".toList (SRIDX 0 3 0) 0, keyword_t.mk "mmu_cfg".toList (SRIDX 0 3 0) 0,
  keyword_t.mk "cr4".toList (SRIDX 0 4 0) 0, keyword_t.mk "msc_cfg".toList (SRIDX 0 4 0) 0,
  keyword_t.mk "cr5".toList (SRIDX 0 0 1) 0, keyword_t.mk "core_id".toList (SRIDX 0 0 1) 0,
  keyword_t.mk "cr6".toList (SRIDX 0 5 0) 0, keyword_t.mk "fucop_exist".toList (SRIDX 0 5 0) 0,
  keyword_t.mk "ir0".toList (SRIDX 1 0 0) 0, keyword_t.mk "psw".toList (SRIDX 1 0 0) 0,
  keyword_t.mk "ir1".toList (SRIDX 1 0 1) 0, keyword_t.mk "ipsw".toList (SRIDX 1 0 1) 0,
  keyword_t.mk "ir2".toList (SRIDX 1 0 2) 0, keyword_t.mk "p_ipsw".toList (SRIDX 1 0 2) 0,
  keyword_t.mk "ir3".toList (SRIDX 1 1 1) 0, keyword_t.mk "ivb".toList (SRIDX 1 1 1) 0,
  keyword_t.mk "ir4".toList (SRIDX 1 2 1) 0, keyword_t.mk "p_eva".toList (SRIDX 1 2 2) 0,
  keyword_t.mk "ir5".toList (SRIDX 1 2 2) 0, keyword_t.mk "eva".toList (SRIDX 1 2 1) 0,
  keyword_t.mk "ir6".toList (SRIDX 1 3 1) 0, keyword_t.mk "itype".toList (SRIDX 1 3 1) 0,
  keyword_t.mk "ir7".toList (SRIDX 1 3 2) 0, keyword_t.mk "p_itype".toList (SRIDX 1 3 2) 0,
  keyword_t.mk "ir8".toList (SRIDX 1 4 1) 0, keyword_t.mk "merr".toList (SRIDX 1 4 1) 0,
  keyword_t.mk "ir9".toList (SRIDX 1 5 1) 0, keyword_t.mk "ipc".toList (SRIDX 1 5 1) 0,
  keyword_t.mk "ir10".toList (SRIDX 1 5 2) 0, keyword_t.mk "p_ipc".toList (SRIDX 1 5 2) 0,
  keyword_t.mk "ir11".toList (SRIDX 1 5 3) 0, keyword_t.mk "oipc".toList (SRIDX 1 5 3) 0,
  keyword_t.mk "ir12".toList (SRIDX 1 6 2) 0, keyword_t.mk "p_p0".toList (SRIDX 1 6 2) 0,
  keyword_t.mk "ir13".toList (SRIDX 1 7 2) 0, keyword_t.mk "p_p1".toList (SRIDX 1 7 2) 0,
  keyword_t.mk "ir14".toList (SRIDX 1 8 0) 0, keyword_t.mk "int_mask".toList (SRIDX 1 8 0) 0,
  keyword_t.mk "ir15".toList (SRIDX 1 9 0) 0, keyword_t.mk "int_pend".toList (SRIDX 1 9 0) 0,
  keyword_t.mk "ir16".toList (SRIDX 1 10 0) 0, keyword_t.mk "sp_usr".toList (SRIDX 1 10 0) 0,
  keyword_t.mk "ir17".toList (SRIDX 1 10 1) 0, keyword_t.mk "sp_priv".toList (SRIDX 1 10 1) 0,
  keyword_t.mk "ir18".toList (SRIDX 1 11 0) 0, keyword_t.mk "int_pri".toList (SRIDX 1 11 0) 0,
  keyword_t.mk "ir19".toList (SRIDX 1 1 2) 0, keyword_t.mk "int_ctrl".toList (SRIDX 1 1 2) 0,
  keyword_t.mk "ir20".toList (SRIDX 1 10 2) 0, keyword_t.mk "sp_usr1".toList (SRIDX 1 10 2) 0,
  keyword_t.mk "ir21".toList (SRIDX 1 10 3) 0, keyword_t.mk "sp_priv1".toList (SRIDX 1 10 3) 0,
  keyword_t.mk "ir22".toList (SRIDX 1 10 4) 0, keyword_t.mk "sp_usr2".toList (SRIDX 1 10 4) 0,
  keyword_t.mk "ir23".toList (SRIDX 1 10 5) 0, keyword_t.mk "sp_priv2".toList (SRIDX 1 10 5) 0,
  keyword_t.mk "ir24".toList (SRIDX 1 10 6) 0, keyword_t.mk "sp_usr3".toList (SRIDX 1 10 6) 0,
  keyword_t.mk "ir25".toList (SRIDX 1 10 7) 0, keyword_t.mk "sp_priv3".toList (SRIDX 1 10 7) 0,
  keyword_t.mk "ir26".toList (SRIDX 1 8 1) 0, keyword_t.mk "int_mask2".toList (SRIDX 1 8 1) 0,
  keyword_t.mk "ir27".toList (SRIDX 1 9 1) 0, keyword_t.mk "int_pend2".toList (SRIDX 1 9 1) 0,
  keyword_t.mk "ir28".toList (SRIDX 1 11 1) 0, keyword_t.mk "int_pri2".toList (SRIDX 1 11 1) 0,
  keyword_t.mk "ir29".toList (SRIDX 1 9 4) 0,
  keyword_t.mk "int_trigger".toList (SRIDX 1 9 4) 0,
  keyword_t.mk "ir30".toList (SRIDX 1 1 3) 0, keyword_t.mk "mr0".toList (SRIDX 2 0 0) 0,
  keyword_t.mk "mmu_ctl".toList (SRIDX 2 0 0) 0, keyword_t.mk "mr1".toList (SRIDX 2 1 0) 0,
  keyword_t.mk "l1_pptb".toList (SRIDX 2 1 0) 0, keyword_t.mk "mr2".toList (SRIDX 2 2 0) 0,
  keyword_t.mk "tlb_vpn".toList (SRIDX 2 2 0) 0, keyword_t.mk "mr3".toList (SRIDX 2 3 0) 0,
  keyword_t.mk "tlb_data".toList (SRIDX 2 3 0) 0, keyword_t.mk "mr4".toList (SRIDX 2 4 0) 0,
  keyword_t.mk "tlb_misc".toList (SRIDX 2 4 0) 0, keyword_t.mk "mr5".toList (SRIDX 2 5 0) 0,
  keyword_t.mk "vlpt_idx".toList (SRIDX 2 5 0) 0, keyword_t.mk "mr6".toList (SRIDX 2 6 0) 0,
  keyword_t.mk "ilmb".toList (SRIDX 2 6 0) 0, keyword_t.mk "mr7".toList (SRIDX 2 7 0) 0,
  keyword_t.mk "dlmb".toList (SRIDX 2 7 0) 0, keyword_t.mk "mr8".toList (SRIDX 2 8 0) 0,
  keyword_t.mk "cache_ctl".toList (SRIDX 2 8 0) 0, keyword_t.mk "mr9".toList (SRIDX 2 9 0) 0,
  keyword_t.mk "hsmp_saddr".toList (SRIDX 2 9 0) 0, keyword_t.mk "mr10".toList (SRIDX 2 9 1) 0,
  keyword_t.mk "hsmp_eaddr".toList (SRIDX 2 9 1) 0, keyword_t.mk "mr11".toList (SRIDX 2 0 1) 0,
  keyword_t.mk "bg_region".toList (SRIDX 2 0 1) 0, keyword_t.mk "pfr0".toList (SRIDX 4 0 0) 0,
  keyword_t.mk "pfmc0".toList (SRIDX 4 0 0) 0, keyword_t.mk "pfr1".toList (SRIDX 4 0 1) 0,
  keyword_t.mk "pfmc1".toList (SRIDX 4 0 1) 0, keyword_t.mk "pfr2".toList (SRIDX 4 0 2) 0,
  keyword_t.mk "pfmc2".toList (SRIDX 4 0 2) 0, keyword_t.mk "pfr3".toList (SRIDX 4 1 0) 0,
  keyword_t.mk "pfm_ctl".toList (SRIDX 4 1 0) 0, keyword_t.mk "dmar0".toList (SRIDX 5 0 0) 0,
  keyword_t.mk "dma_cfg".toList (SRIDX 5 0 0) 0, keyword_t.mk "dmar1".toList (SRIDX 5 1 0) 0,
  keyword_t.mk "dma_gcsw".toList (SRIDX 5 1 0) 0, keyword_t.mk "dmar2".toList (SRIDX 5 2 0) 0,
  keyword_t.mk "dma_chnsel".toList (SRIDX 5 2 0) 0,
  keyword_t.mk "dmar3".toList (SRIDX 5 3 0) 0, keyword_t.mk "dma_act".toList (SRIDX 5 3 0) 0,
  keyword_t.mk "dmar4".toList (SRIDX 5 4 0) 0, keyword_t.mk "dma_setup".toList (SRIDX 5 4 0) 0,
  keyword_t.mk "dmar5".toList (SRIDX 5 5 0) 0,
  keyword_t.mk "dma_isaddr".toList (SRIDX 5 5 0) 0,
  keyword_t.mk "dmar6".toList (SRIDX 5 6 0) 0,
  keyword_t.mk "dma_esaddr".toList (SRIDX 5 6 0) 0,
  keyword_t.mk "dmar7".toList (SRIDX 5 7 0) 0, keyword_t.mk "dma_tcnt".toList (SRIDX 5 7 0) 0,
  keyword_t.mk "dmar8".toList (SRIDX 5 8 0) 0,
  keyword_t.mk "dma_status".toList (SRIDX 5 8 0) 0,
  keyword_t.mk "dmar9".toList (SRIDX 5 9 0) 0, keyword_t.mk "dma_2dset".toList (SRIDX 5 9 0) 0,
  keyword_t.mk "dmar10".toList (SRIDX 5 9 1) 0,
  keyword_t.mk "dma_2dsctl".toList (SRIDX 5 9 1) 0,
  keyword_t.mk "dmar11".toList (SRIDX 5 7 1) 0, keyword_t.mk "dma_rcnt".toList (SRIDX 5 7 1) 0,
  keyword_t.mk "dmar12".toList (SRIDX 5 8 1) 0,
  keyword_t.mk "dma_hstatus".toList (SRIDX 5 8 1) 0,
  keyword_t.mk "idr0".toList (SRIDX 2 15 0) 0, keyword_t.mk "sdz_ctl".toList (SRIDX 2 15 0) 0,
  keyword_t.mk "idr1".toList (SRIDX 2 15 1) 0,
  keyword_t.mk "n12misc_ctl".toList (SRIDX 2 15 1) 0,
  keyword_t.mk "misc_ctl".toList (SRIDX 2 15 1) 0,
  keyword_t.mk "secur0".toList (SRIDX 6 0 0) 0, keyword_t.mk "sfcr".toList (SRIDX 6 0 0) 0,
  keyword_t.mk "prusr_acc_ctl".toList (SRIDX 4 4 0) 0,
  keyword_t.mk "fucpr".toList (SRIDX 4 5 0) 0, keyword_t.mk "fucop_ctl".toList (SRIDX 4 5 0) 0]

def keyword_cp : List keyword_t := [
  keyword_t.mk "cp0".toList 0 0, keyword_t.mk "cp1".toList 1 0, keyword_t.mk "cp2".toList 2 0,
  keyword_t.mk "cp3".toList 3 0]

def keyword_cpr : List keyword_t := [
  keyword_t.mk "cpr0".toList 0 0, keyword_t.mk "cpr1".toList 1 0,
  keyword_t.mk "cpr2".toList 2 0, keyword_t.mk "cpr3".toList 3 0,
  keyword_t.mk "cpr4".toList 4 0, keyword_t.mk "cpr5".toList 5 0,
  keyword_t.mk "cpr6".toList 6 0, keyword_t.mk "cpr7".toList 7 0,
  keyword_t.mk "cpr8".toList 8 0, keyword_t.mk "cpr9".toList 9 0,
  keyword_t.mk "cpr10".toList 10 0, keyword_t.mk "cpr11".toList 11 0,
  keyword_t.mk "cpr12".toList 12 0, keyword_t.mk "cpr13".toList 13 0,
  keyword_t.mk "cpr14".toList 14 0, keyword_t.mk "cpr15".toList 15 0,
  keyword_t.mk "cpr16".toList 16 0, keyword_t.mk "cpr17".toList 17 0,
  keyword_t.mk "cpr18".toList 18 0, keyword_t.mk "cpr19".toList 19 0,
  keyword_t.mk "cpr20".toList 20 0, keyword_t.mk "cpr21".toList 21 0,
  keyword_t.mk "cpr22".toList 22 0, keyword_t.mk "cpr23".toList 23 0,
  keyword_t.mk "cpr24".toList 24 0, keyword_t.mk "cpr25".toList 25 0,
  keyword_t.mk "cpr26".toList 26 0, keyword_t.mk "cpr27".toList 27 0,
  keyword_t.mk "cpr28".toList 28 0, keyword_t.mk "cpr29".toList 29 0,
  keyword_t.mk "cpr30".toList 30 0, keyword_t.mk "cpr31".toList 31 0]

def keyword_fsr : List keyword_t := [
  keyword_t.mk "fs0".toList 0 0, keyword_t.mk "fs1".toList 1 0, keyword_t.mk "fs2".toList 2 0,
  keyword_t.mk "fs3".toList 3 0, keyword_t.mk "fs4".toList 4 0, keyword_t.mk "fs5".toList 5 0,
  keyword_t.mk "fs6".toList 6 0, keyword_t.mk "fs7".toList 7 0, keyword_t.mk "fs8".toList 8 0,
  keyword_t.mk "fs9".toList 9 0, keyword_t.mk "fs10".toList 10 0,
  keyword_t.mk "fs11".toList 11 0, keyword_t.mk "fs12".toList 12 0,
  keyword_t.mk "fs13".toList 13 0, keyword_t.mk "fs14".toList 14 0,
  keyword_t.mk "fs15".toList 15 0, keyword_t.mk "fs16".toList 16 0,
  keyword_t.mk "fs17".toList 17 0, keyword_t.mk "fs18".toList 18 0,
  keyword_t.mk "fs19".toList 19 0, keyword_t.mk "fs20".toList 20 0,
  keyword_t.mk "fs21".toList 21 0, keyword_t.mk "fs22".toList 22 0,
  keyword_t.mk "fs23".toList 23 0, keyword_t.mk "fs24".toList 24 0,
  keyword_t.mk "fs25".toList 25 0, keyword_t.mk "fs26".toList 26 0,
  keyword_t.mk "fs27".toList 27 0, keyword_t.mk "fs28".toList 28 0,
  keyword_t.mk "fs29".toList 29 0, keyword_t.mk "fs30".toList 30 0,
  keyword_t.mk "fs31".toList 31 0]

def keyword_fdr : List keyword_t := [
  keyword_t.mk "fd0".toList 0 0, keyword_t.mk "fd1".toList 1 0, keyword_t.mk "fd2".toList 2 0,
  keyword_t.mk "fd3".toList 3 0, keyword_t.mk "fd4".toList 4 0, keyword_t.mk "fd5".toList 5 0,
  keyword_t.mk "fd6".toList 6 0, keyword_t.mk "fd7".toList 7 0, keyword_t.mk "fd8".toList 8 0,
  keyword_t.mk "fd9".toList 9 0, keyword_t.mk "fd10".toList 10 0,
  keyword_t.mk "fd11".toList 11 0, keyword_t.mk "fd12".toList 12 0,
  keyword_t.mk "fd13".toList 13 0, keyword_t.mk "fd14".toList 14 0,
  keyword_t.mk "fd15".toList 15 0, keyword_t.mk "fd16".toList 16 0,
  keyword_t.mk "fd17".toList 17 0, keyword_t.mk "fd18".toList 18 0,
  keyword_t.mk "fd19".toList 19 0, keyword_t.mk "fd20".toList 20 0,
  keyword_t.mk "fd21".toList 21 0, keyword_t.mk "fd22".toList 22 0,
  keyword_t.mk "fd23".toList 23 0, keyword_t.mk "fd24".toList 24 0,
  keyword_t.mk "fd25".toList 25 0, keyword_t.mk "fd26".toList 26 0,
  keyword_t.mk "fd27".toList 27 0, keyword_t.mk "fd28".toList 28 0,
  keyword_t.mk "fd29".toList 29 0, keyword_t.mk "fd30".toList 30 0,
  keyword_t.mk "fd31".toList 31 0]

def keyword_abdim : List keyword_t := [
  keyword_t.mk "bi".toList 0 0, keyword_t.mk "bim".toList 1 0, keyword_t.mk "bd".toList 2 0,
  keyword_t.mk "bdm".toList 3 0, keyword_t.mk "ai".toList 4 0, keyword_t.mk "aim".toList 5 0,
  keyword_t.mk "ad".toList 6 0, keyword_t.mk "adm".toList 7 0]

def keyword_abm : List keyword_t := [
  keyword_t.mk "b".toList 0 0, keyword_t.mk "bm".toList 1 0, keyword_t.mk "a".toList 4 0,
  keyword_t.mk "am".toList 5 0]

def keyword_dtiton : List keyword_t := [
  keyword_t.mk "iton".toList 1 0, keyword_t.mk "ton".toList 3 0]

def keyword_dtitoff : List keyword_t := [
  keyword_t.mk "itoff".toList 1 0, keyword_t.mk "toff".toList 3 0]

def keyword_dpref_st : List keyword_t := [
  keyword_t.mk "srd".toList 0 0, keyword_t.mk "mrd".toList 1 0, keyword_t.mk "swr".toList 2 0,
  keyword_t.mk "mwr".toList 3 0, keyword_t.mk "pte".toList 4 0, keyword_t.mk "clwr".toList 5 0]

def keyword_cctl_st0 : List keyword_t := [
  keyword_t.mk "l1d_ix_inval".toList 0x0 0, keyword_t.mk "l1d_ix_wb".toList 0x1 0,
  keyword_t.mk "l1d_ix_wbinval".toList 0x2 0, keyword_t.mk "l1d_va_fillck".toList 0xB 0,
  keyword_t.mk "l1d_va_ulck".toList 0xC 0, keyword_t.mk "l1i_ix_inval".toList 0x10 0,
  keyword_t.mk "l1i_va_fillck".toList 0x1B 0, keyword_t.mk "l1i_va_ulck".toList 0x1C 0]

def keyword_cctl_st1 : List keyword_t := [
  keyword_t.mk "l1d_va_inval".toList 0x8 0, keyword_t.mk "l1d_va_wb".toList 0x9 0,
  keyword_t.mk "l1d_va_wbinval".toList 0xA 0, keyword_t.mk "l1i_va_inval".toList 0x18 0]

def keyword_cctl_st2 : List keyword_t := [
  keyword_t.mk "l1d_ix_rtag".toList 0x3 0, keyword_t.mk "l1d_ix_rwd".toList 0x4 0,
  keyword_t.mk "l1i_ix_rtag".toList 0x13 0, keyword_t.mk "l1i_ix_rwd".toList 0x14 0]

def keyword_cctl_st3 : List keyword_t := [
  keyword_t.mk "l1d_ix_wtag".toList 0x5 0, keyword_t.mk "l1d_ix_wwd".toList 0x6 0,
  keyword_t.mk "l1i_ix_wtag".toList 0x15 0, keyword_t.mk "l1i_ix_wwd".toList 0x16 0]

def keyword_cctl_st4 : List keyword_t := [
  keyword_t.mk "l1d_invalall".toList 0x7 0]

def keyword_cctl_st5 : List keyword_t := [
  keyword_t.mk "l1d_wball".toList 0xf 0]

def keyword_cctl_lv : List keyword_t := [
  keyword_t.mk "1level".toList 0 0, keyword_t.mk "alevel".toList 1 0,
  keyword_t.mk "0".toList 0 0, keyword_t.mk "1".toList 1 0]

def keyword_tlbop_st : List keyword_t := [
  keyword_t.mk "trd".toList 0 0, keyword_t.mk "targetread".toList 0 0,
  keyword_t.mk "twr".toList 1 0, keyword_t.mk "targetwrite".toList 1 0,
  keyword_t.mk "rwr".toList 2 0, keyword_t.mk "rwrite".toList 2 0,
  keyword_t.mk "rwlk".toList 3 0, keyword_t.mk "rwritelock".toList 3 0,
  keyword_t.mk "unlk".toList 4 0, keyword_t.mk "unlock".toList 4 0,
  keyword_t.mk "inv".toList 6 0, keyword_t.mk "invalidate".toList 6 0]

def keyword_standby_st : List keyword_t := [
  keyword_t.mk "no_wake_grant".toList 0 0, keyword_t.mk "wake_grant".toList 1 0,
  keyword_t.mk "wait_done".toList 2 0, keyword_t.mk "0".toList 0 0,
  keyword_t.mk "1".toList 1 0, keyword_t.mk "2".toList 2 0, keyword_t.mk "3".toList 3 0]

def keyword_msync_st : List keyword_t := [
  keyword_t.mk "all".toList 0 0, keyword_t.mk "store".toList 1 0]

/-- The keyword table of each hardware resource (`hw_ktabs`, filled by
`nds32_asm_init` in the order of the `keywords` array). -/
def hw_ktabs (hw : Nat) : List keyword_t :=
  match hw with
  | 0 => keyword_gpr
  | 1 => keyword_usr
  | 2 => keyword_dxr
  | 3 => keyword_sr
  | 4 => keyword_fsr
  | 5 => keyword_fdr
  | 6 => keyword_cp
  | 7 => keyword_cpr
  | 8 => keyword_abdim
  | 9 => keyword_abm
  | 10 => keyword_dtiton
  | 11 => keyword_dtitoff
  | 12 => keyword_dpref_st
  | 13 => keyword_cctl_st0
  | 14 => keyword_cctl_st1
  | 15 => keyword_cctl_st2
  | 16 => keyword_cctl_st3
  | 17 => keyword_cctl_st4
  | 18 => keyword_cctl_st5
  | 19 => keyword_cctl_lv
  | 20 => keyword_tlbop_st
  | 21 => keyword_standby_st
  | 22 => keyword_msync_st
  | _ => []

/-- Exact-name lookup in a keyword hash table (`htab_find_with_hash` with
`htab_hash_eq`, i.e. `strcmp`); names are unique in every table. -/
def keyword_find (tab : List keyword_t) (name : List Char) : Option keyword_t :=
  tab.find? (fun k => k.name = name)

/-- Exact-name lookup in `field_htab`, giving the index `fd - operand_fields`. -/
def field_find (name : List Char) : Option Nat :=
  operand_fields.findIdx? (fun f => f.name = name)

/-- The field a lexical element refers to (`LEX_GET_FIELD`); `none` outside the
table. -/
def LEX_GET_FIELD (c : Nat) : Option field_t := operand_fields[c &&& 0xff]?

/-! ## Operand parsing -/

/-- Copy the keyword under the cursor, lower-cased, into `odstr`
(`parse_to_delimiter`): the pair is (returned cursor, content of `odstr`).  The C
function writes the copy and its terminating NUL into `char odstr[MAX_KEYWORD_LEN]`
without testing the length: this definition describes the call for a run shorter
than `MAX_KEYWORD_LEN` (the test `odstr_fits`); a longer run is written past the end
of the buffer. -/
def parse_to_delimiter : List Char → List Char × List Char
  | [] => ([], [])
  | c :: cs =>
    if c.isAlphanum ∨ c = '.' ∨ c = '_' then
      ((parse_to_delimiter cs).1, c.toLower :: (parse_to_delimiter cs).2)
    else (c :: cs, [])

/-- The keyword that `parse_to_delimiter` copies from the cursor `p`, after an
optional `$`, fits with its terminating NUL the buffer `char odstr[MAX_KEYWORD_LEN]`
of `parse_operand` and of `parse_re2`. -/
def odstr_fits (p : List Char) : Bool :=
  decide ((parse_to_delimiter (if peek p = '$' then p.drop 1 else p)).2.length
    < MAX_KEYWORD_LEN)

/-- The hook of field `re2` (operand of push25/pop25).  On failure neither the
cursor nor the value slot is written. -/
def parse_re2 (pstr : List Char) (value : Int) : resolved :=
  let end0 := if peek pstr = '$' then pstr.drop 1 else pstr
  let d := parse_to_delimiter end0
  match keyword_find (hw_ktabs HW_GPR) d.2 with
  | none => ⟨.NASM_ERR_OPERAND, pstr, value⟩
  | some k =>
    if k.value = 6 then ⟨.NASM_R_CONST, d.1, 0⟩
    else if k.value = 8 then ⟨.NASM_R_CONST, d.1, 1⟩
    else if k.value = 10 then ⟨.NASM_R_CONST, d.1, 2⟩
    else if k.value = 14 then ⟨.NASM_R_CONST, d.1, 3⟩
    else ⟨.NASM_ERR_OPERAND, pstr, value⟩

/-- The hook of field `fe5` (operand of lwi45.fe): the resolved constant plus 128. -/
def parse_fe5 (pdesc : nds32_asm_desc) (pstr : List Char) : resolved :=
  let c := pdesc.parse_operand pstr
  if c.r ≠ .NASM_R_CONST then ⟨c.r, c.pstr, wrap64 c.value⟩
  else ⟨c.r, c.pstr, wrap64 (128 + wrap64 c.value)⟩

/-- The hook of field `pi5` (operand of movpi45): the resolved constant minus 16. -/
def parse_pi5 (pdesc : nds32_asm_desc) (pstr : List Char) : resolved :=
  let c := pdesc.parse_operand pstr
  if c.r ≠ .NASM_R_CONST then ⟨c.r, c.pstr, wrap64 c.value⟩
  else ⟨c.r, c.pstr, wrap64 (wrap64 c.value - 16)⟩

/-- Dispatch of `fld->parse (pdesc, pinsn, &end, &value)`. -/
def run_hook (h : parse_hook) (pdesc : nds32_asm_desc) (pstr : List Char) (value : Int) :
    resolved :=
  match h with
  | .parse_re2 => parse_re2 pstr value
  | .parse_fe5 => parse_fe5 pdesc pstr
  | .parse_pi5 => parse_pi5 pdesc pstr

/-- The test `strncasecmp (end, lit, 5) == 0` for a lower-case literal of five
characters. -/
def strncasecmp5 (s lit : List Char) : Bool := (s.take 5).map Char.toLower == lit

/-- Where `parse_operand` stands when it leaves its first half. -/
inductive operand_stage where
  | aborted
  | failed (res : operand_result)
  | parsed (pinsn : nds32_asm_insn) (endp : List Char) (value : Int)

/-- The def/use bookkeeping of a general-register operand: `USE_REG` for an input
element, `DEF_REG` for an output element, both into `pinsn->defuse`. -/
def record_defuse (pinsn : nds32_asm_insn) (fld : field_t) (syn : Nat) (k : keyword_t) :
    nds32_asm_insn :=
  let pinsn1 :=
    if fld.hw_res = HW_GPR ∧ syn &&& SYN_INPUT ≠ 0 then
      { pinsn with defuse := pinsn.defuse ||| USE_REG k.value }
    else pinsn
  if fld.hw_res = HW_GPR ∧ syn &&& SYN_OUTPUT ≠ 0 then
    { pinsn1 with defuse := pinsn1.defuse ||| DEF_REG k.value }
  else pinsn1

/-- The value of a keyword operand: `k->value`, sent through `nds32_r54map` for
a general register whose `bitsize + shift` is 4. -/
def keyword_value (nds32_r54map : Nat → Int) (fld : field_t) (k : keyword_t) : Int :=
  if fld.hw_res = HW_GPR ∧ fld.bitsize + fld.shift = 4 then nds32_r54map k.value
  else (k.value : Int)

/-- The branch `fld->hw_res < _HW_LAST` of `parse_operand`: a register or an
enumeration keyword. -/
def parse_operand_keyword (nds32_r54map : Nat → Int) (pdesc : nds32_asm_desc)
    (pinsn : nds32_asm_insn) (str : List Char) (fld : field_t) (syn : Nat) : operand_stage :=
  let end0 := if peek str = '$' then str.drop 1 else str
  let d := parse_to_delimiter end0
  match keyword_find (hw_ktabs fld.hw_res) d.2 with
  | none => .failed ⟨false, { pdesc with result := .NASM_ERR_OPERAND }, pinsn, str⟩
  | some k =>
    if fld.hw_res = HW_GPR ∧ pdesc.flags &&& NASM_OPEN_REDUCED_REG ≠ 0
        ∧ k.attr &&& NASM_ATTR_RDREG = 0 then
      .failed ⟨false, { pdesc with result := .NASM_ERR_REG_REDUCED }, pinsn, str⟩
    else
      .parsed (record_defuse pinsn fld syn k) d.1 (keyword_value nds32_r54map fld k)

/-- The modifier opened at the cursor, as its attribute bit (`0` for none). -/
def modifier_at (end0 : List Char) : Nat :=
  if strncasecmp5 end0 "hi20(".toList then NASM_ATTR_HI20
  else if strncasecmp5 end0 "lo12(".toList then NASM_ATTR_LO12
  else if strncasecmp5 end0 "lo20(".toList then NASM_ATTR_LO20
  else 0

/-- The part of a resolved constant a modifier selects (case `NASM_R_CONST`). -/
def modifier_value (modifier : Nat) (value : Int) : Int :=
  if modifier &&& NASM_ATTR_HI20 ≠ 0 then Int.land (value >>> (12 : Nat)) 0xfffff
  else if modifier &&& NASM_ATTR_LO12 ≠ 0 then Int.land value 0xfff
  else if modifier &&& NASM_ATTR_LO20 ≠ 0 then Int.land value 0xfffff
  else value

/-- The statement `pinsn->attr |= modifier` under `if (modifier)`. -/
def record_modifier (pinsn : nds32_asm_insn) (modifier : Nat) : nds32_asm_insn :=
  if modifier ≠ 0 then { pinsn with attr := pinsn.attr ||| modifier } else pinsn

/-- The branch `HW_INT` / `HW_UINT` of `parse_operand`: an integer read by the
external resolver, under an optional `#` and an optional modifier.  After a
modifier the statement `end++` steps over one character, whatever it is; when the
resolver has stopped at the end of the text, the C cursor then stands past the
terminating NUL, which this definition shows as the empty cursor (the test
`stays_in_text` tells the two cases apart). -/
def parse_operand_int (pdesc : nds32_asm_desc) (pinsn : nds32_asm_insn) (str : List Char)
    (fld : field_t) : operand_stage :=
  let end0 := if peek str = '#' then str.drop 1 else str
  let modifier := modifier_at end0
  let end1 := if modifier ≠ 0 then end0.drop 5 else end0
  let c := pdesc.parse_operand end1
  let end2 := if modifier ≠ 0 then c.pstr.drop 1 else c.pstr
  let pinsn1 := record_modifier pinsn modifier
  match c.r with
  | .NASM_R_ILLEGAL => .failed ⟨false, { pdesc with result := .NASM_ERR_OPERAND }, pinsn1, str⟩
  | .NASM_R_SYMBOL => .parsed { pinsn1 with field := some fld } end2 (wrap64 c.value)
  | .NASM_R_CONST => .parsed pinsn1 end2 (modifier_value modifier (wrap64 c.value))
  | _ => .aborted

/-- The first half of `parse_operand`, up to the label `done`: obtain the operand
value through the hook, the keyword table or the resolver.  `nds32_r54map` is the
external register map (defined outside this file). -/
def parse_operand_value (nds32_r54map : Nat → Int) (pdesc : nds32_asm_desc)
    (pinsn : nds32_asm_insn) (str : List Char) (fld : field_t) (syn : Nat) : operand_stage :=
  match fld.parse with
  | some h =>
    let c := run_hook h pdesc str 0x100000000
    .parsed pinsn c.pstr c.value
  | none =>
    if fld.hw_res < _HW_LAST then parse_operand_keyword nds32_r54map pdesc pinsn str fld syn
    else if fld.hw_res = HW_INT ∨ fld.hw_res = HW_UINT then parse_operand_int pdesc pinsn str fld
    else .aborted

/-- The value a 64-bit operand stands for once the signed branch has read a 32-bit
pattern with bit 31 set as the negative number it encodes (a name for the effect
of `value |= (int64_t) -1 << 31`, used to state properties). -/
def sext32 (v : Int) : Int := if 2 ^ 31 ≤ v ∧ v < 2 ^ 32 then v - 2 ^ 32 else v

/-- The second half of `parse_operand`, from the label `done`: the alignment
check, the range check of the signed or unsigned value, and the packing of the
field into the instruction word.  `str` is the caller's cursor on entry, `endp`
the cursor reached by the first half. -/
def parse_operand_done (pdesc : nds32_asm_desc) (pinsn : nds32_asm_insn)
    (str endp : List Char) (fld : field_t) (value : Int) : operand_result :=
  if Int.land value (__MASK fld.shift) ≠ 0 then
    ⟨false, { pdesc with result := .NASM_ERR_OUT_OF_RANGE }, pinsn, str⟩
  else if fld.hw_res ≠ HW_INT ∧ value >>> (fld.bitsize + fld.shift) ≠ 0 then
    ⟨false, { pdesc with result := .NASM_ERR_OUT_OF_RANGE }, pinsn, str⟩
  else
    let value1 : Int :=
      if fld.hw_res = HW_INT ∧ value >>> (32 : Nat) = 0 ∧ Int.land value 0x80000000 ≠ 0 then
        Int.lor value (-(2 ^ 31))
      else value
    if fld.hw_res = HW_INT
        ∧ wrap64 (value1 + ((1 <<< (fld.bitsize + fld.shift - 1) : Nat) : Int))
            >>> (fld.bitsize + fld.shift) ≠ 0 then
      ⟨false, { pdesc with result := .NASM_ERR_OUT_OF_RANGE }, pinsn, str⟩
    else
      ⟨true, pdesc,
        { pinsn with
          insn := (pinsn.insn |||
            ((Int.land (value1 >>> fld.shift) (__MASK fld.bitsize)).toNat <<< fld.bitpos))
              % 2 ^ 32 },
        endp⟩

/-- The operand encoder on an explicit field descriptor: `parse_operand` after
the line `fld = &LEX_GET_FIELD (syn)`. -/
def parse_operand_fld (nds32_r54map : Nat → Int) (pdesc : nds32_asm_desc)
    (pinsn : nds32_asm_insn) (str : List Char) (fld : field_t) (syn : Nat) :
    Option operand_result :=
  match parse_operand_value nds32_r54map pdesc pinsn str fld syn with
  | .aborted => none
  | .failed res => some res
  | .parsed pinsn1 endp value => some (parse_operand_done pdesc pinsn1 str endp fld value)

/-- Generic operand parse based on the information provided by the field
(`parse_operand`). -/
def parse_operand (nds32_r54map : Nat → Int) (pdesc : nds32_asm_desc)
    (pinsn : nds32_asm_insn) (str : List Char) (syn : Nat) : Option operand_result :=
  match LEX_GET_FIELD syn with
  | none => none
  | some fld => parse_operand_fld nds32_r54map pdesc pinsn str fld syn

/-! ## Pattern compiler -/

/-- The scanning loop of `build_opcode_syntax` over the pattern `str`: the pair is
(the lexical elements written, the number of optional groups `opt`).  `none`
when a referenced field name is not in the field table (the `assert`).  The loop
consumes at least one character per round, so `fuel` above the length of the
pattern is never used up. -/
def build_lex_loop : Nat → List Char → Option (List Nat × Nat)
  | 0, _ => none
  | _ + 1, [] => some ([], 0)
  | fuel + 1, c :: str =>
    if c = '\x7b' then
      (build_lex_loop fuel str).map (fun r => (SYN_LOPT :: r.1, r.2 + 1))
    else if c = '\x7d' then
      (build_lex_loop fuel str).map (fun r => (SYN_ROPT :: r.1, r.2))
    else if c = '%' ∨ c = '=' ∨ c = '&' then
      let dir : Nat :=
        if c = '%' then SYN_INPUT else if c = '=' then SYN_OUTPUT else SYN_INPUT ||| SYN_OUTPUT
      let odstr := str.takeWhile (fun x => x.isAlphanum || x == '_')
      match field_find odstr with
      | none => none
      | some fidx =>
        (build_lex_loop fuel (str.drop odstr.length)).map
          (fun r => ((dir ||| LEX_SET_FIELD fidx) :: r.1, r.2))
    else
      (build_lex_loop fuel str).map (fun r => (c.toNat :: r.1, r.2))

/-- Build the compiled pattern of an opcode entry (`build_opcode_syntax`): a no-op
when the entry is already compiled; otherwise the elements followed by a `0`
element, and the group count in `variant`.  `none` on a failed `assert`, or when
the elements do not fit the `MAX_LEX_NUM` slots of the allocated array. -/
def build_opcode_syntax (opc : nds32_opcode) : Option nds32_opcode :=
  match opc.lexes with
  | some _ => some opc
  | none =>
    match build_lex_loop (opc.instruction.length + 1) opc.instruction with
    | none => none
    | some r =>
      if r.1.length + 1 ≤ MAX_LEX_NUM then
        some { opc with lexes := some (r.1 ++ [0]), variant := r.2 }
      else none

/-! ## Template matcher -/

/-- What the walk over the lexical elements of one variant leaves behind: whether
the end of the pattern was reached, and the state and input cursor at that
point. -/
structure walk_result where
  finished : Bool
  pdesc : nds32_asm_desc
  pinsn : nds32_asm_insn
  p : List Char

/-- The inner loop `while (*plex)` of `parse_insn` for the combination `variant`.
`skipping` is set while the loop `while ((*plex & SYN_ROPT) == 0) plex++` runs
over a group that is not used; `opt` counts the group starts seen.  `none` when
the walk leaves the compiled array or `parse_operand` does not return. -/
def parse_insn_walk (nds32_r54map : Nat → Int) (variant : Nat) :
    List Nat → Bool → Nat → nds32_asm_desc → nds32_asm_insn → List Char → Option walk_result
  | [], _, _, _, _, _ => none
  | x :: plex, true, opt, pdesc, pinsn, p =>
    if x &&& SYN_ROPT ≠ 0 then parse_insn_walk nds32_r54map variant plex false opt pdesc pinsn p
    else parse_insn_walk nds32_r54map variant plex true opt pdesc pinsn p
  | x :: plex, false, opt, pdesc, pinsn, p =>
    if x = 0 then some ⟨true, pdesc, pinsn, p⟩
    else if IS_LEX_CHAR x then
      if LEX_CHAR x ≠ (peek p).toNat then
        some ⟨false, { pdesc with result := .NASM_ERR_SYNTAX }, pinsn, p⟩
      else parse_insn_walk nds32_r54map variant plex false opt pdesc pinsn (p.drop 1)
    else if x &&& SYN_LOPT ≠ 0 then
      if (1 <<< opt) &&& variant ≠ 0 then
        if x &&& SYN_ROPT ≠ 0 then
          parse_insn_walk nds32_r54map variant plex false (opt + 1) pdesc pinsn p
        else parse_insn_walk nds32_r54map variant plex true (opt + 1) pdesc pinsn p
      else parse_insn_walk nds32_r54map variant plex false (opt + 1) pdesc pinsn p
    else if x &&& SYN_ROPT ≠ 0 then
      parse_insn_walk nds32_r54map variant plex false opt pdesc pinsn p
    else
      match parse_operand nds32_r54map pdesc pinsn p x with
      | none => none
      | some res =>
        if res.ret then
          parse_insn_walk nds32_r54map variant plex false opt res.pdesc res.pinsn res.str
        else some ⟨false, res.pdesc, res.pinsn, p⟩

/-- The test that ends a variant: the input is at its end or at a `!` or `#`. -/
def at_insn_end (p : List Char) : Bool :=
  peek p == Char.ofNat 0 || peek p == '!' || peek p == '#'

/-- One round of the outer loop of `parse_insn`, up to the label `reject`: reset
the instruction word to the base value, walk the pattern, test the end of the
input.  The flag tells whether the variant is accepted. -/
def parse_insn_variant (nds32_r54map : Nat → Int) (pdesc : nds32_asm_desc)
    (pinsn : nds32_asm_insn) (str : List Char) (opc : nds32_opcode) (variant : Nat) :
    Option (Bool × nds32_asm_desc × nds32_asm_insn) :=
  match opc.lexes with
  | none => none
  | some lex =>
    match parse_insn_walk nds32_r54map variant lex false 0 pdesc
        { pinsn with insn := opc.value } str with
    | none => none
    | some w => some (w.finished && at_insn_end w.p, w.pdesc, w.pinsn)

/-- The outer `do ... while (variant < (1 << opc->variant))` loop of `parse_insn`,
entered with the current `variant`; `fuel` bounds the number of rounds. -/
def parse_insn_loop (nds32_r54map : Nat → Int) (str : List Char) (opc : nds32_opcode) :
    Nat → Nat → nds32_asm_desc → nds32_asm_insn → Option (Bool × nds32_asm_desc × nds32_asm_insn)
  | 0, _, _, _ => none
  | fuel + 1, variant, pdesc, pinsn =>
    match parse_insn_variant nds32_r54map pdesc pinsn str opc variant with
    | none => none
    | some (true, pdesc1, pinsn1) => some (true, pdesc1, pinsn1)
    | some (false, pdesc1, pinsn1) =>
      if variant + 1 < 1 <<< opc.variant then
        parse_insn_loop nds32_r54map str opc fuel (variant + 1) pdesc1 pinsn1
      else some (false, pdesc1, pinsn1)

/-- Try to parse an instruction string based on the opcode pattern (`parse_insn`). -/
def parse_insn (nds32_r54map : Nat → Int) (pdesc : nds32_asm_desc) (pinsn : nds32_asm_insn)
    (str : List Char) (opc : nds32_opcode) :
    Option (Bool × nds32_asm_desc × nds32_asm_insn) :=
  parse_insn_loop nds32_r54map str opc (1 <<< opc.variant) 0 pdesc pinsn

/-! ## Initialisation and the encode call -/

/-- Exact-name lookup in `opcode_htab`: the first table entry stored under the
name. -/
def opcode_find (htab : List (List Char × Nat)) (name : List Char) : Option Nat :=
  (htab.find? (fun e => e.1 = name)).map (fun e => e.2)

/-- The loop `while (opc->next) opc = opc->next` of `nds32_asm_init`, from entry
`i`: the last entry of the chain. -/
def chain_last (tbl : List nds32_opcode) : Nat → Nat → Option Nat
  | 0, _ => none
  | fuel + 1, i =>
    match tbl[i]? with
    | none => none
    | some opc =>
      match opc.next with
      | none => some i
      | some j => chain_last tbl fuel j

/-- One round of the table loop of `nds32_asm_init`, for entry `i`: compile its
pattern, then store it in the hash table or append it to the chain of its name. -/
def nds32_asm_init_step (st : List nds32_opcode × List (List Char × Nat)) (i : Nat) :
    Option (List nds32_opcode × List (List Char × Nat)) :=
  match st.1[i]? with
  | none => none
  | some opc =>
    match build_opcode_syntax opc with
    | none => none
    | some opc1 =>
      let tbl1 := st.1.set i opc1
      match opcode_find st.2 opc.opcode with
      | none => some (tbl1, st.2 ++ [(opc.opcode, i)])
      | some j =>
        match chain_last tbl1 tbl1.length j with
        | none => none
        | some l =>
          match tbl1[l]? with
          | none => none
          | some last => some (tbl1.set l { last with next := some i }, st.2)

/-- The rounds of the table loop of `nds32_asm_init` for the entries `is`. -/
def nds32_asm_init_loop :
    List Nat → List nds32_opcode × List (List Char × Nat) →
      Option (List nds32_opcode × List (List Char × Nat))
  | [], st => some st
  | i :: is, st =>
    match nds32_asm_init_step st i with
    | none => none
    | some st1 => nds32_asm_init_loop is st1

/-- Initialize the assembler (`nds32_asm_init`) over the opcode table
`nds32_opcodes`: set the flags and build the opcode hash table. -/
def nds32_asm_init (pdesc : nds32_asm_desc) (flags : Nat) (nds32_opcodes : List nds32_opcode) :
    Option (nds32_asm_desc × List nds32_opcode × List (List Char × Nat)) :=
  match nds32_asm_init_loop (List.range nds32_opcodes.length) (nds32_opcodes, []) with
  | none => none
  | some st =>
    some ({ pdesc with flags := flags, mach := flags &&& NASM_OPEN_ARCH_MASK }, st.1, st.2)

/-- The C string that starts at position `i` of a buffer. -/
def cstr (buf : List Char) (i : Nat) : List Char :=
  (buf.drop i).takeWhile (fun c => c ≠ Char.ofNat 0)

/-- What an encode call leaves behind. -/
structure assemble_result where
  pdesc : nds32_asm_desc
  pinsn : nds32_asm_insn
  tbl : List nds32_opcode

/-- The loop `for (; opc; opc = opc->next)` of `nds32_assemble` over the overload
chain, with the operand text `s`.  The first component is the value of `opc`
when the loop is left. -/
def nds32_assemble_chain (nds32_r54map : Nat → Int) (s : List Char) :
    Nat → Option Nat → List nds32_opcode → nds32_asm_desc → nds32_asm_insn →
      Option (Option Nat × assemble_result)
  | 0, _, _, _, _ => none
  | _ + 1, none, tbl, pdesc, pinsn => some (none, ⟨pdesc, pinsn, tbl⟩)
  | fuel + 1, some i, tbl, pdesc, pinsn =>
    match tbl[i]? with
    | none => none
    | some opc =>
      match build_opcode_syntax opc with
      | none => none
      | some opc1 =>
        let tbl1 := tbl.set i opc1
        let pinsn1 : nds32_asm_insn :=
          { pinsn with defuse := opc1.defuse, insn := 0, field := none, attr := opc1.attr }
        match parse_insn nds32_r54map pdesc pinsn1 s opc1 with
        | none => none
        | some (true, pdesc2, pinsn2) => some (some i, ⟨pdesc2, pinsn2, tbl1⟩)
        | some (false, pdesc2, pinsn2) =>
          nds32_assemble_chain nds32_r54map s fuel opc1.next tbl1 pdesc2 pinsn2

/-- The part of `nds32_assemble` after the mnemonic lookup succeeded with `opc`:
try every entry of the chain, then record the outcome. -/
def nds32_assemble_found (nds32_r54map : Nat → Int) (tbl : List nds32_opcode)
    (pdesc : nds32_asm_desc) (pinsn : nds32_asm_insn) (s : List Char) (opc : Nat) :
    Option assemble_result :=
  match nds32_assemble_chain nds32_r54map s (tbl.length + 1) (some opc) tbl pdesc pinsn with
  | none => none
  | some (none, r) =>
    some ⟨{ r.pdesc with result := .NASM_ERR_SYNTAX }, { r.pinsn with opcode := none }, r.tbl⟩
  | some (some i, r) =>
    some ⟨{ r.pdesc with result := .NASM_OK }, { r.pinsn with opcode := some i }, r.tbl⟩

/-- The position of the first character of `buf` satisfying `f`, or the length. -/
def scan_to (f : Char → Bool) (buf : List Char) : Nat := (buf.takeWhile (fun c => !f c)).length

/-- Assemble one line of text (`nds32_assemble`).  `tbl` and `htab` are the opcode
table and its hash table as left by `nds32_asm_init`. -/
def nds32_assemble (nds32_r54map : Nat → Int) (tbl : List nds32_opcode)
    (htab : List (List Char × Nat)) (pdesc : nds32_asm_desc) (pinsn : nds32_asm_insn)
    (str : List Char) : Option assemble_result :=
  -- s = strdup (str)
  let buf := cstr str 0
  -- while (*s != ' ' && *s != '\t' && *s != '\0') s++;  if (*s != '\0') *s++ = '\0';
  let s0 := scan_to (fun c => c == ' ' || c == '\t') buf
  let buf1 := if s0 < buf.length then buf.set s0 (Char.ofNat 0) else buf
  let s1 := if s0 < buf.length then s0 + 1 else s0
  -- dot = strchr (mnemoic, '.')
  let mnemoic := cstr buf1 0
  let dot : Option Nat :=
    if '.' ∈ mnemoic then some (scan_to (fun c => c == '.') mnemoic) else none
  match opcode_find htab mnemoic, dot with
  | some opc, _ => nds32_assemble_found nds32_r54map tbl pdesc pinsn (cstr buf1 s1) opc
  | none, none => some ⟨{ pdesc with result := .NASM_ERR_UNKNOWN_OP }, pinsn, tbl⟩
  | none, some d =>
    -- *dot = '\0';  s[-1] = ' ';  s = dot + 1;  dot = NULL;  goto retry_dot;
    let buf2 := (buf1.set d (Char.ofNat 0)).set (s1 - 1) ' '
    let s2 := d + 1
    match opcode_find htab (cstr buf2 0) with
    | some opc => nds32_assemble_found nds32_r54map tbl pdesc pinsn (cstr buf2 s2) opc
    | none => some ⟨{ pdesc with result := .NASM_ERR_UNKNOWN_OP }, pinsn, tbl⟩

/-! ## Fixtures and specification-side definitions -/


/-- A resolver that answers every text with the constant `v` and consumes the
whole text. -/
def resolve_const (v : Int) : List Char → resolved := fun _ => ⟨.NASM_R_CONST, [], v⟩

/-- A description with the given flags and resolver, as `nds32_asm_init` leaves it. -/
def pdesc_with (flags : Nat) (cb : List Char → resolved) : nds32_asm_desc :=
  ⟨flags, flags &&& NASM_OPEN_ARCH_MASK, .NASM_OK, cb⟩

/-- An in-progress instruction with every member zero. -/
def pinsn_zero : nds32_asm_insn := ⟨none, 0, 0, 0, none⟩

/-- The field of the spec's scenario C: `imm`, bits `[0, 5)`, scale 2, unsigned. -/
def field_imm : field_t := ⟨"imm".toList, 0, 5, 2, HW_UINT, none⟩

/-- The inverse of packing, following the spec's words: extract bits
`[bit_offset, bit_offset + width)` of the word, undo the sign extension for a
signed field, and undo the scale shift. -/
def unpack_field (fld : field_t) (insn : Nat) : Int :=
  let raw : Int := ((insn >>> fld.bitpos) % 2 ^ fld.bitsize : Nat)
  let x : Int :=
    if fld.hw_res = HW_INT ∧ 2 ^ (fld.bitsize - 1) ≤ raw then raw - 2 ^ fld.bitsize else raw
  x * 2 ^ fld.shift

/-- The name `rN` of general register number `n`. -/
def reg_name (n : Nat) : List Char := 'r' :: Nat.toDigits 10 n

/-- A character that `parse_to_delimiter` copies into the keyword. -/
def is_keyword_char (c : Char) : Bool := c.isAlphanum || c == '.' || c == '_'

/-- The text is empty or starts with a character that ends a keyword. -/
def keyword_ends (rest : List Char) : Bool := !is_keyword_char (peek rest) || rest.isEmpty

/-- The general registers valid in reduced-register mode (keyword attribute
`RDREG` in `keyword_gpr`). -/
def reduced_reg (n : Nat) : Bool := n ≤ 10 || n == 15 || (28 ≤ n && n ≤ 31)

/-- The text holds no NUL character, as every C string. -/
def nul_free (t : List Char) : Bool := t.all (fun c => c != Char.ofNat 0)

/-- A character that may stand in a mnemonic: no blank, no tab, no NUL. -/
def is_mnemonic_char (c : Char) : Bool := c != ' ' && c != '\t' && c != Char.ofNat 0

/-- A fresh entry of the opcode table, as the static initialiser writes it: not yet
compiled, not yet chained. -/
def opcode_entry (name pattern : String) (value isize attr defuse : Nat) : nds32_opcode :=
  ⟨name.toList, pattern.toList, value, isize, attr, defuse, none, 0, none⟩

/-- The entry once `build_opcode_syntax` has run on it (the entry itself when the
compilation does not return). -/
def compiled (opc : nds32_opcode) : nds32_opcode :=
  Option.getD ( build_opcode_syntax opc) opc

/-- The spec's scenario A: the opcode `add` with base value `B`. -/
def opcode_add (B : Nat) : nds32_opcode := opcode_entry "add" "=rt,%ra,%rb" B 4 0xf 0

/-- A lexical element that is neither the end mark nor a group mark: a literal
character or an operand. -/
def plain_lex (x : Nat) : Bool :=
  x != 0 && (IS_LEX_CHAR x || (x &&& SYN_LOPT == 0 && x &&& SYN_ROPT == 0))

/-- A compiled pattern whose optional groups follow one another: before each
group a run `a` of plain elements, the group body `g` between a group start and a
group end, and after the last group the run `rest`, closed by the `0` element. -/
def flat_template : List (List Nat × List Nat) → List Nat → List Nat
  | [], rest => rest ++ [0]
  | (a, g) :: segs, rest => a ++ SYN_LOPT :: (g ++ SYN_ROPT :: flat_template segs rest)

/-- The pattern of combination `variant`, following the comment of `parse_insn`
("if bit-N is set, optional-operand-N is not used"): group number `opt`, `opt + 1`,
... is left out when its bit is set in `variant`, and kept without its marks
otherwise. -/
def select_groups (variant : Nat) : Nat → List (List Nat × List Nat) → List Nat → List Nat
  | _, [], rest => rest ++ [0]
  | opt, (a, g) :: segs, rest =>
    a ++ ((if variant.testBit opt then [] else g) ++ select_groups variant (opt + 1) segs rest)

/-- Try a list of group-free patterns in order on the text `str`, each from the
base value `base`: the first that is accepted ends the search. -/
def try_templates (nds32_r54map : Nat → Int) (str : List Char) (base : Nat) :
    List (List Nat) → nds32_asm_desc → nds32_asm_insn →
      Option (Bool × nds32_asm_desc × nds32_asm_insn)
  | [], pdesc, pinsn => some (false, pdesc, pinsn)
  | t :: ts, pdesc, pinsn =>
    match parse_insn_walk nds32_r54map 0 t false 0 pdesc { pinsn with insn := base } str with
    | none => none
    | some w =>
      if w.finished && at_insn_end w.p then some (true, w.pdesc, w.pinsn)
      else try_templates nds32_r54map str base ts w.pdesc w.pinsn

/-- The indices, in table order, of the entries of `ops` named `m`. -/
def named_indices (ops : List nds32_opcode) (m : List Char) : List Nat :=
  (List.range ops.length).filter (fun i => (ops[i]?).map (fun e => e.opcode) == some m)

/-- The indices below `n`, in table order, of the entries of `ops` named `m`. -/
def named_below (ops : List nds32_opcode) (m : List Char) (n : Nat) : List Nat :=
  (List.range n).filter (fun i => (ops[i]?).map (fun e => e.opcode) == some m)

/-- The chain that starts at `start` and follows the `next` links of the table is
exactly the list `l` of entries, ended by a null link. -/
def linked (tbl : List nds32_opcode) : List Nat → Option Nat → Bool
  | [], start => start.isNone
  | i :: l, start =>
    start == some i &&
      match tbl[i]? with
      | none => false
      | some e => linked tbl l e.next

/-- Try the entries `l` of the table in order on the operand text `s`, each on an
instruction reset from the entry as in `nds32_assemble`: the first entry whose
pattern matches ends the search. -/
def first_match (nds32_r54map : Nat → Int) (s : List Char) (tbl : List nds32_opcode) :
    List Nat → nds32_asm_desc → nds32_asm_insn →
      Option (Option Nat × nds32_asm_desc × nds32_asm_insn)
  | [], pdesc, pinsn => some (none, pdesc, pinsn)
  | i :: l, pdesc, pinsn =>
    match tbl[i]? with
    | none => none
    | some opc =>
      match parse_insn nds32_r54map pdesc
          { pinsn with defuse := opc.defuse, insn := 0, field := none, attr := opc.attr }
          s opc with
      | none => none
      | some (true, pdesc1, pinsn1) => some (some i, pdesc1, pinsn1)
      | some (false, pdesc1, pinsn1) => first_match nds32_r54map s tbl l pdesc1 pinsn1

/-- The state of the table loop of `nds32_asm_init` once the entries below `n` of
the static table `ops` have been handled: they are compiled and chained by name,
the others are untouched. -/
structure init_inv (ops : List nds32_opcode) (n : Nat) (tbl : List nds32_opcode)
    (htab : List (List Char × Nat)) : Prop where
  len : tbl.length = ops.length
  handled : ∀ i e0, i < n → ops[i]? = some e0 →
    ∃ c e, build_opcode_syntax e0 = some c ∧ tbl[i]? = some e ∧ e = { c with next := e.next }
  untouched : ∀ i, n ≤ i → tbl[i]? = ops[i]?
  chain : ∀ m, linked tbl (named_below ops m n) (opcode_find htab m) = true

/-- A fresh table holding the two entries `ex9.it` of `nds32_opcodes`, in their
order, with one of the entries that stand between them. -/
def table_ex9 : List nds32_opcode :=
  [opcode_entry "ex9.it" "%i5u" 0xdd40 2 0 0,
   opcode_entry "ret5" "%ra5" 0xdd80 2 0 0,
   opcode_entry "ex9.it" "%i9u" 0xea00 2 0 0]

/-- Initialise the assembler on the opcode table `ops` with `flags` and the
resolver `cb`, then assemble the line `str` into a zero instruction: the result code
and the instruction left behind. -/
def assemble_line (nds32_r54map : Nat → Int) (cb : List Char → resolved) (flags : Nat)
    (ops : List nds32_opcode) (str : String) : Option (nasm_code × nds32_asm_insn) :=
  match nds32_asm_init (pdesc_with 0 cb) flags ops with
  | none => none
  | some (pdesc, tbl, htab) =>
    (nds32_assemble nds32_r54map tbl htab pdesc pinsn_zero str.toList).map
      (fun r => (r.pdesc.result, r.pinsn))

/-! ## Fixtures and specification-side definitions for the error paths -/

/-- A resolver that rejects every text as an illegal expression and leaves the
cursor and the value slot as it found them (the slot still holds its initial
value). -/
def resolve_illegal : List Char → resolved := fun p => ⟨.NASM_R_ILLEGAL, p, 0x100000000⟩

/-- A resolver that takes every text for a symbolic reference, consumes it, and
leaves `v` in the value slot. -/
def resolve_symbol (v : Int) : List Char → resolved := fun _ => ⟨.NASM_R_SYMBOL, [], v⟩

/-- A resolver that answers every text with the constant `v` and stops at the first
closing parenthesis of the text. -/
def resolve_to_paren (v : Int) : List Char → resolved :=
  fun p => ⟨.NASM_R_CONST, p.dropWhile (fun c => c != ')'), v⟩

/-- A fresh table holding the two entries `trap` of `nds32_opcodes`, in their order:
the pattern `%swid`, then the empty pattern.  Their base value `MISC (TRAP)` and
their attribute are defined outside this file; `B` stands for the base value. -/
def table_trap (B : Nat) : List nds32_opcode :=
  [opcode_entry "trap" "%swid" B 4 0 0, opcode_entry "trap" "" B 4 0 0]

/-- The text handed to the external resolver for an integer operand at the cursor
`p`: what follows an optional `#` and an optional modifier prefix. -/
def expression_text (p : List Char) : List Char :=
  let end0 := if peek p = '#' then p.drop 1 else p
  if modifier_at end0 ≠ 0 then end0.drop 5 else end0

/-- The general register an operand adds to the def/use mask, following the spec's
words: the register read at the cursor `p` through a hook-less general-register
field tagged input and/or output; nothing for any other element. -/
def operand_regs (x : Nat) (p : List Char) : List Nat :=
  match LEX_GET_FIELD x with
  | none => []
  | some fld =>
    if fld.parse = none ∧ fld.hw_res = HW_GPR
        ∧ (x &&& SYN_INPUT ≠ 0 ∨ x &&& SYN_OUTPUT ≠ 0) then
      match keyword_find keyword_gpr
          (parse_to_delimiter (if peek p = '$' then p.drop 1 else p)).2 with
      | none => []
      | some k => [k.value]
    else []

/-- The general registers read by the operands of a compiled pattern without
optional group on the text `p`, in the order of the pattern; the cursor moves as
`parse_insn` moves it. -/
def walk_regs (nds32_r54map : Nat → Int) :
    List Nat → nds32_asm_desc → nds32_asm_insn → List Char → List Nat
  | [], _, _, _ => []
  | x :: plex, pdesc, pinsn, p =>
    if x = 0 then []
    else if IS_LEX_CHAR x then walk_regs nds32_r54map plex pdesc pinsn (p.drop 1)
    else
      match parse_operand nds32_r54map pdesc pinsn p x with
      | none => []
      | some res => operand_regs x p ++ walk_regs nds32_r54map plex res.pdesc res.pinsn res.str

/-- The mask holding bit `2 ^ r` for every register `r` of the list. -/
def regs_mask (l : List Nat) : Nat := l.foldr (fun r m => 2 ^ r ||| m) 0

/-! ## Specification-side definitions for the lookup, the hooks and the compiler -/

/-- Strip a single leading sigil `$`, if present (the spec's words). -/
def strip_sigil (p : List Char) : List Char :=
  match p with
  | '$' :: q => q
  | _ => p

/-- The name looked up for a keyword operand at the cursor `p`, following the
spec's words: the lower-case form of the maximal run of alphanumeric, `.` and `_`
characters that follows at most one leading `$`. -/
def lookup_name (p : List Char) : List Char :=
  ((strip_sigil p).takeWhile is_keyword_char).map Char.toLower

/-- The text left after the keyword at the cursor `p`. -/
def after_keyword (p : List Char) : List Char :=
  (strip_sigil p).dropWhile is_keyword_char

/-- The entry `re2` of `operand_fields`: the register of push25/pop25, bits
`[5, 7)`, read by the hook `parse_re2`. -/
def field_re2 : field_t := ⟨"re2".toList, 5, 2, 0, HW_GPR, some .parse_re2⟩

/-- The entry `fe5` of `operand_fields`: the immediate of lwi45.fe, bits `[0, 5)`,
scale 2, read by the hook `parse_fe5`. -/
def field_fe5 : field_t := ⟨"fe5".toList, 0, 5, 2, HW_UINT, some .parse_fe5⟩

/-- A character that opens an operand in a pattern: `%`, `=` or `&`. -/
def is_marker (c : Char) : Bool := c == '%' || c == '=' || c == '&'

/-- A character of a field name in a pattern: alphanumeric or `_`. -/
def is_name_char (c : Char) : Bool := c.isAlphanum || c == '_'

/-- The direction bits a marker stands for: `%` input, `=` output, `&` both. -/
def marker_dir (c : Char) : Nat :=
  if c = '%' then SYN_INPUT else if c = '=' then SYN_OUTPUT else SYN_INPUT ||| SYN_OUTPUT

/-- The spec's description of the compiled form of a pattern, item by item and in
pattern order: a group start, a group end, a marker with the maximal run of name
characters behind it (which must be the name of entry `i` of the field table), or
any other character as a literal. -/
inductive compiles_to : List Char → List Nat → Prop where
  | done : compiles_to [] []
  | group_start (s : List Char) (l : List Nat) :
      compiles_to s l → compiles_to ('\x7b' :: s) (SYN_LOPT :: l)
  | group_end (s : List Char) (l : List Nat) :
      compiles_to s l → compiles_to ('\x7d' :: s) (SYN_ROPT :: l)
  | operand (c : Char) (name rest : List Char) (i : Nat) (l : List Nat) :
      is_marker c = true → (∀ x ∈ name, is_name_char x = true) →
      (∀ x ∈ rest.head?, is_name_char x = false) →
      field_find name = some i → compiles_to rest l →
      compiles_to (c :: (name ++ rest)) ((marker_dir c ||| SYN_FIELD ||| i) :: l)
  | literal (c : Char) (s : List Char) (l : List Nat) :
      c ≠ '\x7b' → c ≠ '\x7d' → is_marker c = false →
      compiles_to s l → compiles_to (c :: s) (c.toNat :: l)

/-- Whether the pattern holds a marker whose following name (the maximal run of
name characters, possibly empty) is not the name of an entry of the field table. -/
def unresolved_marker : List Char → Bool
  | [] => false
  | c :: s =>
    (is_marker c && (field_find (s.takeWhile is_name_char)).isNone) || unresolved_marker s

/-- The number of items of a pattern: every character counts for one, except the
characters of the name behind a marker, which belong to the marker.  `in_name` is
set while the scan is inside such a name. -/
def count_elements : Bool → List Char → Nat
  | _, [] => 0
  | in_name, c :: s =>
    if is_marker c then count_elements true s + 1
    else if in_name && is_name_char c then count_elements true s
    else count_elements false s + 1

/-! ## Relations between two runs of the matcher -/

/-- A relation between two descriptions that the matcher respects: related
descriptions show the same flags and the same resolver, and stay related when the
same result code is stored in both. -/
structure desc_tracks (D : nds32_asm_desc → nds32_asm_desc → Prop) : Prop where
  flags : ∀ a b, D a b → a.flags = b.flags
  resolver : ∀ a b, D a b → a.parse_operand = b.parse_operand
  result : ∀ a b r, D a b → D { a with result := r } { b with result := r }

/-- A relation between two in-progress instructions that the matcher respects: it
does not look at the instruction word, and it survives the updates `parse_operand`
makes to the def/use mask, the attribute set and the pending field. -/
structure insn_tracks (R : nds32_asm_insn → nds32_asm_insn → Prop) : Prop where
  insn : ∀ a b n m, R a b → R { a with insn := n } { b with insn := m }
  defuse : ∀ a b m, R a b →
    R { a with defuse := a.defuse ||| m } { b with defuse := b.defuse ||| m }
  attr : ∀ a b m, R a b → R { a with attr := a.attr ||| m } { b with attr := b.attr ||| m }
  field : ∀ a b f, R a b → R { a with field := some f } { b with field := some f }

/-- Two results of `parse_operand` that agree: same flag, same cursor, same
instruction word, related instructions and descriptions. -/
def operand_rel (D : nds32_asm_desc → nds32_asm_desc → Prop)
    (R : nds32_asm_insn → nds32_asm_insn → Prop) (a b : operand_result) : Prop :=
  a.ret = b.ret ∧ a.str = b.str ∧ a.pinsn.insn = b.pinsn.insn ∧ R a.pinsn b.pinsn
    ∧ D a.pdesc b.pdesc

/-- Two stages of `parse_operand` that agree. -/
def stage_rel (D : nds32_asm_desc → nds32_asm_desc → Prop)
    (R : nds32_asm_insn → nds32_asm_insn → Prop) : operand_stage → operand_stage → Prop
  | .aborted, .aborted => True
  | .failed a, .failed b => operand_rel D R a b
  | .parsed i1 e1 v1, .parsed i2 e2 v2 => i1.insn = i2.insn ∧ R i1 i2 ∧ e1 = e2 ∧ v1 = v2
  | _, _ => False

/-- Two walks over a pattern that agree: same verdict, same cursor, same
instruction word, related instructions and descriptions. -/
def walk_rel (D : nds32_asm_desc → nds32_asm_desc → Prop)
    (R : nds32_asm_insn → nds32_asm_insn → Prop) (a b : walk_result) : Prop :=
  a.finished = b.finished ∧ a.p = b.p ∧ a.pinsn.insn = b.pinsn.insn ∧ R a.pinsn b.pinsn
    ∧ D a.pdesc b.pdesc

/-- Two outcomes of a variant, or of `parse_insn`, that agree. -/
def outcome_rel (D : nds32_asm_desc → nds32_asm_desc → Prop)
    (R : nds32_asm_insn → nds32_asm_insn → Prop)
    (a b : Bool × nds32_asm_desc × nds32_asm_insn) : Prop :=
  a.1 = b.1 ∧ a.2.2.insn = b.2.2.insn ∧ R a.2.2 b.2.2 ∧ D a.2.1 b.2.1

/-- Both descriptions show the flags `flags` and the resolver `cb`. -/
def both_see (flags : Nat) (cb : List Char → resolved) (a b : nds32_asm_desc) : Prop :=
  (a.flags = flags ∧ a.parse_operand = cb) ∧ b.flags = flags ∧ b.parse_operand = cb

/-- The first description is the second one with `m` for the ISA variant. -/
def mach_rel (m : Nat) (a b : nds32_asm_desc) : Prop := a = { b with mach := m }

/-- Every bit of the def/use mask and of the attribute set of `a` is set in `b`. -/
def le_trace (a b : nds32_asm_insn) : Prop :=
  a.defuse ||| b.defuse = b.defuse ∧ a.attr ||| b.attr = b.attr

/-- What a run `a` of a variant on a fresh instruction has in common with the run
`b` of the same variant after abandoned ones: the bits of `a` are in `b`, and the
pending field of `a` is that of `b` unless `a` still holds the field `seed` it
started with. -/
def trace_rel (seed : Option field_t) (a b : nds32_asm_insn) : Prop :=
  le_trace a b ∧ (a.field = b.field ∨ a.field = seed)

/-- The two instructions agree on every member but the instruction word. -/
def same_rest (a b : nds32_asm_insn) : Prop :=
  a.opcode = b.opcode ∧ a.attr = b.attr ∧ a.defuse = b.defuse ∧ a.field = b.field

/-! ## Well-formed compiled patterns -/

/-- A made-up entry with two optional groups, a register and an immediate:
combination 0 reads `rt,ra,imm`, combination 1 reads `rt,imm`. -/
def opcode_two_groups : nds32_opcode := opcode_entry "x" "=rt\x7b,%ra\x7d\x7b,%i15s\x7d" 0 4 0 0

/-- The entry `cplwi` of `nds32_opcodes`, whose attribute set is 0.  Its base value
`OP6 (LWC)` is defined outside this file; `B` stands for it. -/
def opcode_cplwi (B : Nat) : nds32_opcode :=
  opcode_entry "cplwi" "%cp,=cprt,[%ra\x7b+%i12s2\x7d]" B 4 0 0

/-! ## Fixtures for the integer fields, the hooks and the prefetch entries -/

/-- The entry `i3u1` of `operand_fields`: unsigned, bits `[0, 3)`, scale 1. -/
def field_i3u1 : field_t := ⟨"i3u1".toList, 0, 3, 1, HW_UINT, none⟩

/-- The entry `pi5` of `operand_fields`: the immediate of movpi45, bits `[0, 5)`,
read by the hook `parse_pi5`. -/
def field_pi5 : field_t := ⟨"pi5".toList, 0, 5, 0, HW_UINT, some .parse_pi5⟩

/-- The entry `i20s` of `operand_fields`: signed, bits `[0, 20)`, the immediate of
movi. -/
def field_i20s : field_t := ⟨"i20s".toList, 0, 20, 0, HW_INT, none⟩

/-- The entry `i20u` of `operand_fields`: unsigned, bits `[0, 20)`, the immediate of
sethi. -/
def field_i20u : field_t := ⟨"i20u".toList, 0, 20, 0, HW_UINT, none⟩

/-- The entry `i15s2` of `operand_fields`: signed, bits `[0, 15)`, scale 2, the
offset of dprefi.w. -/
def field_i15s2 : field_t := ⟨"i15s2".toList, 0, 15, 2, HW_INT, none⟩

/-- The entry `i15s3` of `operand_fields`: of the unsigned class, bits `[0, 15)`,
scale 3, the offset of dprefi.d. -/
def field_i15s3 : field_t := ⟨"i15s3".toList, 0, 15, 3, HW_UINT, none⟩

/-- The compiled form of the pattern `%dpref_st,[%ra{+%F]}` of the prefetch
entries, `x` being the element of the offset field `F`. -/
def lex_dprefi (x : Nat) : List Nat :=
  [0x1121, 44, 91, 0x1101, SYN_LOPT, 43, x, 93, SYN_ROPT, 0]

/-- The entry `dprefi.w` of `nds32_opcodes`.  Its base value `OP6 (DPREFI)` and its
attribute set are defined outside this file; `B` and `A` stand for them. -/
def opcode_dprefi_w (B A : Nat) : nds32_opcode :=
  opcode_entry "dprefi.w" "%dpref_st,[%ra\x7b+%i15s2]\x7d" B 4 A 0

/-- The entry `dprefi.d` of `nds32_opcodes`, with `B` for its base value and `A`
for its attribute set. -/
def opcode_dprefi_d (B A : Nat) : nds32_opcode :=
  opcode_entry "dprefi.d" "%dpref_st,[%ra\x7b+%i15s3]\x7d" B 4 A 0

/-- The entry `push25` of `nds32_opcodes`, with `A` for its attribute set. -/
def opcode_push25 (A : Nat) : nds32_opcode :=
  opcode_entry "push25" "%re2,%i5u3" 0xfc00 2 A (USE_REG 31 ||| DEF_REG 31)

/-- The entry `movi` of `nds32_opcodes`, with `B` for its base value `OP6 (MOVI)`
and `A` for its attribute set. -/
def opcode_movi (B A : Nat) : nds32_opcode := opcode_entry "movi" "=rt,%i20s" B 4 A 0

/-- A resolver that answers every text with the constant `v` and stops at the first
closing bracket of the text. -/
def resolve_to_bracket (v : Int) : List Char → resolved :=
  fun p => ⟨.NASM_R_CONST, p.dropWhile (fun c => c != ']'), v⟩

/-- A resolver that reads one decimal digit: it answers the value of the character
under the cursor and stops right after it. -/
def resolve_digit : List Char → resolved :=
  fun p => ⟨.NASM_R_CONST, p.drop 1, (((peek p).toNat - 48 : Nat) : Int)⟩

/-- The entry `i15u` of `operand_fields`: unsigned, bits `[0, 15)`, the immediate of
ori. -/
def field_i15u : field_t := ⟨"i15u".toList, 0, 15, 0, HW_UINT, none⟩

/-- The entry `ori` of `nds32_opcodes`, with `B` for its base value `OP6 (ORI)` and
`A` for its attribute set. -/
def opcode_ori (B A : Nat) : nds32_opcode := opcode_entry "ori" "=rt,%ra,%i15u" B 4 A 0

/-! ## The patterns of the opcode table -/

/-- The patterns of the entries of `nds32_opcodes`, in the order of the table, each
pattern once. -/
def nds32_patterns : List String :=
  ["=rt,%ra,%rb", "=rt,%ra,%ib5u", "=rt,%ra", "=rt,=rd,%ra,%rb", "=rt,%ra,%rb,%sh",
   "=rt,%ra,%ib5s", "=rt,%ra,=rb", "=rt,%usr", "%rt,%usr", "=rt,%ridx", "%rt,%ridx",
   "=dt,%ra,%rb", "%stdby_st", "%ra,%cctl_st0", "%ra,%cctl_st1\x7b,%cctl_lv\x7d",
   "=rt,%ra,%cctl_st2", "%rt,%ra,%cctl_st3", "%cctl_st4", "%cctl_st5\x7b,%cctl_lv\x7d",
   "=rt,%ra,%cctl_stx,%cctl_lv", "=rt,%sr", "%rt,%sr", "", "%swid", "%rt,%swid", "%msync_st",
   "%msync_stx", "%rt", "%ra,%tlbop_st", "%ra,%tlbop_stx", "%rt,%ra,pb", "flua", "%i24s1",
   "%rt,%ra,%i14s1", "%rt,%i16s1", "%rt,%i11br3,%i8s1", "%rb", "%rt,%rb", "%dtiton %rt,%rb",
   "%dtiton %rb", "%dtitoff %rb", "=rt,[%ra+(%rb<<%sv)]", "=rt,[%ra+%rb\x7b<<%sv\x7d]",
   "%rt,[%ra+%rb\x7b<<%sv\x7d]", "=rt,[%ra],(%rb<<%sv)", "=rt,[%ra],%rb\x7b<<%sv\x7d",
   "%rt,[%ra],%rb\x7b<<%sv\x7d", "%rt,[%ra+(%rb<<%sv)]", "%dpref_st,[%ra+(%rb<<%sv)]",
   "%dpref_st,[%ra+%rb\x7b<<%sv\x7d]", "=rt,[+%i19s]", "%rt,[+%i19s]", "=rt,%i19s",
   "=rt,[+%i18s1]", "%rt,[+%i18s1]", "=rt,[+%i17s2]", "%rt,[+%i17s2]",
   "%abdim %rt,[%ra],%rb\x7b,%enb4\x7d", "%abm %rt,[%ra],%rb\x7b,%enb4\x7d", "%rt,%rb,%ra",
   "=fst,%fsa,%fsb", "=fdt,%fsa", "=fst,%fsa", "=fdt,%fda,%fdb", "=fdt,%fda,%fsb", "=fst,%fda",
   "=fdt,%fda", "=fst,%fda,%fdb", "=rt,%fsa", "=rt,%fda", "=rt", "%rt,=fsa", "%rt,=fda",
   "=fst,[%ra+(%rb<<%sv)]", "=fst,[%ra+%rb\x7b<<%sv\x7d]", "=fst,[%ra],(%rb<<%sv)",
   "=fst,[%ra],%rb\x7b<<%sv\x7d", "=fdt,[%ra+(%rb<<%sv)]", "=fdt,[%ra+%rb\x7b<<%sv\x7d]",
   "=fdt,[%ra],(%rb<<%sv)", "=fdt,[%ra],%rb\x7b<<%sv\x7d", "=fst,[%ra\x7b+%i12s2\x7d]",
   "=fst,[%ra],%i12s2", "=fdt,[%ra\x7b+%i12s2\x7d]", "=fdt,[%ra],%i12s2",
   "=rt,[%ra\x7b+%i15s\x7d]", "=rt,[%ra\x7b+%i15s1\x7d]", "=rt,[%ra\x7b+%i15s2\x7d]",
   "=rt,[%ra],%i15s", "=rt,[%ra],%i15s1", "=rt,[%ra],%i15s2", "%rt,[%ra\x7b+%i15s\x7d]",
   "%rt,[%ra\x7b+%i15s1\x7d]", "%rt,[%ra\x7b+%i15s2\x7d]", "%rt,[%ra],%i15s", "%rt,[%ra],%i15s1",
   "%rt,[%ra],%i15s2", "%cp,=cprt,[%ra\x7b+%i12s2\x7d]", "%cp,%cprt,[%ra\x7b+%i12s2\x7d]",
   "%cp,=cprt,[%ra],%i12s2", "%cp,%cprt,[%ra],%i12s2", "=rt,%i20s", "=rt,%i20u", "=rt,%ra,%i15s",
   "=rt,%ra,%i15u", "%dpref_st,[%ra\x7b+%i15s2]\x7d", "%dpref_st,[%ra\x7b+%i15s3]\x7d",
   "=rt5,%ra5", "=rt5,%i5s", "=rt4,%ra5", "=rt4,%i5u", "=rt3,%ra3,%i3u", "=rt3,%ra3",
   "=rt3,%ia3u", "=rt3,%ra3,%rb3", "=rt3,[%ra3\x7b+%i3u2\x7d]", "=rt3,[%ra3],%i3u2",
   "=rt3,[%ra3\x7b+%i3u1\x7d]", "=rt3,[%ra3\x7b+%i3u\x7d]", "%rt3,[%ra3\x7b+%i3u2\x7d]",
   "%rt3,[%ra3],%i3u2", "%rt3,[%ra3\x7b+%i3u1\x7d]", "%rt3,[%ra3\x7b+%i3u\x7d]", "%rt3,%i6u2",
   "=rt4,%fe5", "=rt4,[%ra5]", "%rt4,[%ra5]", "=rt38,[$fp\x7b+%i7u2\x7d]",
   "%rt38,[$fp\x7b+%i7u2\x7d]", "%rt38,%i8s1", "%i8s1", "%ra5", "%i5u", "%rt4,%ra5", "%rt4,%i5u",
   "%i9u", "%i10s", "=rt38,[+%i7u2]", "%rt38,[+%i7u2]", "%i9u1", "=rt4,%pi5", "%re2,%i5u3",
   "=rt5e,%ra5e"]

/-- The compiled pattern `lex` holds one optional group, and the group shuts out
the combination that leaves it out: `lex` is a run `a` of plain elements, a group
that opens with a literal `c`, a run of literals, and the `0` element; `c` is not a
character that ends an instruction, and is not the literal that follows the
group. -/
def one_group (lex : List Nat) : Bool :=
  let a := lex.takeWhile (fun x => x != SYN_LOPT)
  let r1 := (lex.dropWhile (fun x => x != SYN_LOPT)).drop 1
  let cg := r1.takeWhile (fun x => x != SYN_ROPT)
  let rest := ((r1.dropWhile (fun x => x != SYN_ROPT)).drop 1).dropLast
  lex == flat_template [(a, cg)] rest && a.all plain_lex && cg.all plain_lex
    && rest.all (fun x => x != 0 && IS_LEX_CHAR x)
    && (match cg with
      | [] => false
      | c :: _ =>
        IS_LEX_CHAR c && LEX_CHAR c != 0 && LEX_CHAR c != '!'.toNat && LEX_CHAR c != '#'.toNat
          && rest.head?.map LEX_CHAR != some (LEX_CHAR c))

/-- The compiled form of the pattern `pat` has no optional group, or one optional
group of the kind `one_group`. -/
def group_kind (pat : List Char) : Bool :=
  match build_lex_loop (pat.length + 1) pat with
  | none => false
  | some r =>
    decide (r.1.length + 1 ≤ MAX_LEX_NUM) && (r.2 == 0 || (r.2 == 1 && one_group (r.1 ++ [0])))

/-! ## The inner loop of the matcher, step by step -/

theorem mask_eq (n : Nat) : __MASK n = 2 ^ n - 1 := by
  simp [__MASK, __BIT, Nat.shiftLeft_eq]

theorem ldiff_mask (n m : Nat) : Nat.ldiff (2 ^ n - 1) m = 2 ^ n - 1 - m % 2 ^ n := by
  apply Nat.eq_of_testBit_eq
  intro i
  have hlt : m % 2 ^ n < 2 ^ n := Nat.mod_lt _ (by positivity)
  have hrw : 2 ^ n - 1 - m % 2 ^ n = 2 ^ n - (m % 2 ^ n + 1) := by omega
  rw [Nat.testBit_ldiff, Nat.testBit_two_pow_sub_one, hrw, Nat.testBit_two_pow_sub_succ hlt,
    Nat.testBit_mod_two_pow]
  cases decide (i < n) <;> simp

/-- The C expression `value & __MASK (n)` on a 64-bit two's-complement value is the remainder modulo `2 ^ n`. -/
theorem land_mask (v : Int) (n : Nat) : Int.land v ((__MASK n : Nat) : Int) = v % 2 ^ n := by
  rw [mask_eq]
  have hpos : (0 : Int) < 2 ^ n := by positivity
  have h1 : 1 ≤ 2 ^ n := Nat.one_le_two_pow
  cases v with
  | ofNat m =>
    show (((m &&& (2 ^ n - 1) : Nat)) : Int) = (m : Int) % 2 ^ n
    rw [Nat.and_pow_two_sub_one_eq_mod]
    push_cast
    rfl
  | negSucc m =>
    show ((Nat.ldiff (2 ^ n - 1) m : Nat) : Int) = Int.negSucc m % 2 ^ n
    rw [Int.negSucc_emod m hpos, ldiff_mask]
    have hlt : m % 2 ^ n < 2 ^ n := Nat.mod_lt _ (by positivity)
    have : m % 2 ^ n ≤ 2 ^ n - 1 := by omega
    rw [Nat.cast_sub this, Nat.cast_sub h1]
    push_cast
    rfl

theorem shr_eq_div (v : Int) (n : Nat) : v >>> n = v / 2 ^ n := by
  rw [Int.shiftRight_eq_div_pow]
  push_cast
  rfl

theorem div_pow_eq_zero_iff (v : Int) (n : Nat) : v / 2 ^ n = 0 ↔ 0 ≤ v ∧ v < 2 ^ n := by
  have hpos : (0 : Int) < 2 ^ n := by positivity
  constructor
  · intro h
    have h0 : (0 : Int) ≤ v / 2 ^ n := by omega
    have h1 : v / 2 ^ n < 1 := by omega
    rw [Int.le_ediv_iff_mul_le hpos] at h0
    rw [Int.ediv_lt_iff_lt_mul hpos] at h1
    omega
  · rintro ⟨h0, h1⟩
    exact Int.ediv_eq_zero_of_lt h0 h1

/-- The sign extension `value |= (int64_t) -1 << 31` of a 32-bit pattern. -/
theorem lor_sign (v : Int) (h0 : 2 ^ 31 ≤ v) (h1 : v < 2 ^ 32) :
    Int.lor v (-(2 ^ 31)) = v - 2 ^ 32 := by
  obtain ⟨m, rfl⟩ := Int.eq_ofNat_of_zero_le (by omega : 0 ≤ v)
  have hm0 : 2 ^ 31 ≤ m := by exact_mod_cast h0
  have hm1 : m < 2 ^ 32 := by exact_mod_cast h1
  have hneg : (-(2 ^ 31) : Int) = Int.negSucc (2 ^ 31 - 1) := by decide
  rw [hneg]
  show Int.negSucc (Nat.ldiff (2 ^ 31 - 1) m) = (m : Int) - 2 ^ 32
  rw [ldiff_mask, Int.negSucc_eq]
  have : m % 2 ^ 31 = m - 2 ^ 31 := by omega
  rw [this]
  omega

theorem wrap64_id (x : Int) (h0 : -2 ^ 63 ≤ x) (h1 : x < 2 ^ 63) : wrap64 x = x := by
  unfold wrap64
  omega

theorem wrap64_range (x : Int) : -2 ^ 63 ≤ wrap64 x ∧ wrap64 x < 2 ^ 63 := by
  unfold wrap64
  omega

/-- The unsigned branch of the label `done`, read arithmetically. -/
theorem done_unsigned (pdesc : nds32_asm_desc) (pinsn : nds32_asm_insn) (str endp : List Char)
    (fld : field_t) (v : Int) (hcls : fld.hw_res ≠ HW_INT) :
    parse_operand_done pdesc pinsn str endp fld v =
      if v % 2 ^ fld.shift = 0 ∧ 0 ≤ v ∧ v < 2 ^ (fld.bitsize + fld.shift) then
        ⟨true, pdesc,
          { pinsn with
            insn := (pinsn.insn |||
              ((v / 2 ^ fld.shift % 2 ^ fld.bitsize).toNat <<< fld.bitpos)) % 2 ^ 32 },
          endp⟩
      else ⟨false, { pdesc with result := .NASM_ERR_OUT_OF_RANGE }, pinsn, str⟩ := by
  unfold parse_operand_done
  simp only [land_mask, shr_eq_div, hcls, false_and, ite_false, if_false, ne_eq, not_false_eq_true,
    true_and, div_pow_eq_zero_iff]
  by_cases ha : v % 2 ^ fld.shift = 0
  · by_cases hr : 0 ≤ v ∧ v < 2 ^ (fld.bitsize + fld.shift)
    · simp [ha, hr]
    · simp [ha, hr]
  · simp [ha]

theorem land_bit31 (v : Int) (h0 : 0 ≤ v) (h1 : v < 2 ^ 32) :
    Int.land v 0x80000000 ≠ 0 ↔ 2 ^ 31 ≤ v := by
  obtain ⟨m, rfl⟩ := Int.eq_ofNat_of_zero_le h0
  have hm1 : m < 2 ^ 32 := by exact_mod_cast h1
  show (((m &&& 2147483648 : Nat)) : Int) ≠ 0 ↔ _
  have h := Nat.and_two_pow m 31
  norm_num at h
  rw [h, Nat.testBit_to_div_mod]
  norm_num
  by_cases hm : 2147483648 ≤ m
  · have : m / 2147483648 % 2 = 1 := by omega
    simp [this]
    omega
  · have : m / 2147483648 % 2 = 0 := by omega
    simp [this]
    omega

theorem sext32_eq (v : Int) :
    (if v / 2 ^ 32 = 0 ∧ Int.land v 0x80000000 ≠ 0 then Int.lor v (-(2 ^ 31)) else v)
      = sext32 v := by
  unfold sext32
  by_cases h : 0 ≤ v ∧ v < 2 ^ 32
  · have hb := land_bit31 v h.1 h.2
    have hd : v / 2 ^ 32 = 0 := (div_pow_eq_zero_iff v 32).2 h
    by_cases h31 : (2 : Int) ^ 31 ≤ v
    · rw [if_pos ⟨hd, hb.2 h31⟩, if_pos ⟨h31, h.2⟩, lor_sign v h31 h.2]
    · rw [if_neg (fun hc => h31 (hb.1 hc.2)), if_neg (fun hc => h31 hc.1)]
  · have hd : ¬ v / 2 ^ 32 = 0 := fun hc => h ((div_pow_eq_zero_iff v 32).1 hc)
    rw [if_neg (fun hc => hd hc.1), if_neg (fun hc => h ⟨by omega, hc.2⟩)]

theorem sext32_range (v : Int) (hv0 : -2 ^ 63 ≤ v) (hv1 : v < 2 ^ 63) :
    -2 ^ 63 ≤ sext32 v ∧ sext32 v < 2 ^ 63 := by
  unfold sext32
  split <;> omega

theorem pow_pred_facts (n : Nat) (hn1 : 1 ≤ n) (hn : n ≤ 31) :
    (1 : Int) ≤ 2 ^ (n - 1) ∧ (2 : Int) ^ (n - 1) ≤ 2 ^ 30 ∧ (2 : Int) ^ n = 2 * 2 ^ (n - 1) := by
  refine ⟨one_le_pow₀ (by norm_num), ?_, ?_⟩
  · exact pow_le_pow_right₀ (by norm_num) (by omega)
  · obtain ⟨k, rfl⟩ : ∃ k, n = k + 1 := ⟨n - 1, by omega⟩
    simp [pow_succ]
    ring

/-- The signed range test `(value + (1 << (n - 1))) >> n` of the label `done`. -/
theorem signed_test (x : Int) (n : Nat) (hn1 : 1 ≤ n) (hn : n ≤ 31)
    (hx0 : -2 ^ 63 ≤ x) (hx1 : x < 2 ^ 63) :
    wrap64 (x + ((1 <<< (n - 1) : Nat) : Int)) / 2 ^ n = 0
      ↔ -2 ^ (n - 1) ≤ x ∧ x < 2 ^ (n - 1) := by
  obtain ⟨hp1, hp2, hp3⟩ := pow_pred_facts n hn1 hn
  rw [div_pow_eq_zero_iff, hp3]
  have hc : ((1 <<< (n - 1) : Nat) : Int) = 2 ^ (n - 1) := by
    simp [Nat.shiftLeft_eq]
  rw [hc]
  generalize (2 : Int) ^ (n - 1) = P at *
  unfold wrap64
  omega

/-- The signed branch of the label `done`, read arithmetically. -/
theorem done_signed (pdesc : nds32_asm_desc) (pinsn : nds32_asm_insn) (str endp : List Char)
    (fld : field_t) (v : Int) (hcls : fld.hw_res = HW_INT)
    (hn1 : 1 ≤ fld.bitsize + fld.shift) (hn : fld.bitsize + fld.shift ≤ 31)
    (hv0 : -2 ^ 63 ≤ v) (hv1 : v < 2 ^ 63) :
    parse_operand_done pdesc pinsn str endp fld v =
      if v % 2 ^ fld.shift = 0 ∧ -2 ^ (fld.bitsize + fld.shift - 1) ≤ sext32 v
          ∧ sext32 v < 2 ^ (fld.bitsize + fld.shift - 1) then
        ⟨true, pdesc,
          { pinsn with
            insn := (pinsn.insn |||
              ((sext32 v / 2 ^ fld.shift % 2 ^ fld.bitsize).toNat <<< fld.bitpos)) % 2 ^ 32 },
          endp⟩
      else ⟨false, { pdesc with result := .NASM_ERR_OUT_OF_RANGE }, pinsn, str⟩ := by
  obtain ⟨hs0, hs1⟩ := sext32_range v hv0 hv1
  have ht := signed_test (sext32 v) _ hn1 hn hs0 hs1
  unfold parse_operand_done
  simp only [land_mask, shr_eq_div, hcls, ne_eq, not_true_eq_false, false_and, if_false, true_and,
    sext32_eq, ht]
  by_cases ha : v % 2 ^ fld.shift = 0
  · by_cases hr : -2 ^ (fld.bitsize + fld.shift - 1) ≤ sext32 v
        ∧ sext32 v < 2 ^ (fld.bitsize + fld.shift - 1)
    · simp [ha, hr]
    · simp [ha, hr]
  · simp [ha]

theorem record_defuse_insn (pinsn : nds32_asm_insn) (fld : field_t) (syn : Nat) (k : keyword_t) :
    (record_defuse pinsn fld syn k).insn = pinsn.insn := by
  unfold record_defuse
  dsimp only
  split <;> split <;> rfl

theorem record_modifier_insn (pinsn : nds32_asm_insn) (modifier : Nat) :
    (record_modifier pinsn modifier).insn = pinsn.insn := by
  unfold record_modifier
  split <;> rfl

/-- The first half of `parse_operand` never touches the instruction word. -/
theorem parsed_insn (r54 : Nat → Int) (pdesc : nds32_asm_desc) (pinsn : nds32_asm_insn)
    (str : List Char) (fld : field_t) (syn : Nat) (pinsn1 : nds32_asm_insn) (endp : List Char)
    (v : Int) (h : parse_operand_value r54 pdesc pinsn str fld syn = .parsed pinsn1 endp v) :
    pinsn1.insn = pinsn.insn := by
  unfold parse_operand_value at h
  split at h
  · injection h with h1 _ _
    subst h1
    rfl
  · split at h
    · unfold parse_operand_keyword at h
      dsimp only at h
      split at h
      · cases h
      · split at h
        · cases h
        · injection h with h1 _ _
          subst h1
          exact record_defuse_insn _ _ _ _
    · split at h
      · unfold parse_operand_int at h
        dsimp only at h
        split at h
        · cases h
        · injection h with h1 _ _
          subst h1
          exact record_modifier_insn _ _
        · injection h with h1 _ _
          subst h1
          exact record_modifier_insn _ _
        · cases h
      · cases h

theorem land_lit_range (v : Int) (n : Nat) :
    0 ≤ Int.land v ((__MASK n : Nat) : Int) ∧ Int.land v ((__MASK n : Nat) : Int) < 2 ^ n := by
  rw [land_mask]
  have hpos : (0 : Int) < 2 ^ n := by positivity
  exact ⟨Int.emod_nonneg _ (by omega), Int.emod_lt_of_pos _ hpos⟩

theorem modifier_value_range (modifier : Nat) (v : Int) (hv : -2 ^ 63 ≤ v ∧ v < 2 ^ 63) :
    -2 ^ 63 ≤ modifier_value modifier v ∧ modifier_value modifier v < 2 ^ 63 := by
  have h20 := land_lit_range (v >>> (12 : Nat)) 20
  have h12 := land_lit_range v 12
  have h20b := land_lit_range v 20
  have e20 : ((__MASK 20 : Nat) : Int) = 0xfffff := by decide
  have e12 : ((__MASK 12 : Nat) : Int) = 0xfff := by decide
  rw [e20] at h20 h20b
  rw [e12] at h12
  unfold modifier_value
  repeat' split
  all_goals omega

/-- For a signed field the value that reaches the label `done` is a 64-bit value. -/
theorem parsed_range (r54 : Nat → Int) (pdesc : nds32_asm_desc) (pinsn : nds32_asm_insn)
    (str : List Char) (fld : field_t) (syn : Nat) (pinsn1 : nds32_asm_insn) (endp : List Char)
    (v : Int) (hcls : fld.hw_res = HW_INT)
    (h : parse_operand_value r54 pdesc pinsn str fld syn = .parsed pinsn1 endp v) :
    -2 ^ 63 ≤ v ∧ v < 2 ^ 63 := by
  have hlast : ¬ fld.hw_res < _HW_LAST := by rw [hcls]; decide
  unfold parse_operand_value at h
  split at h
  · rename_i hk _
    injection h with _ _ h3
    subst h3
    cases hk <;> simp only [run_hook]
    · unfold parse_re2
      dsimp only
      split
      · norm_num
      · repeat' split
        all_goals norm_num
    · unfold parse_fe5
      dsimp only
      split <;> exact wrap64_range _
    · unfold parse_pi5
      dsimp only
      split <;> exact wrap64_range _
  · rw [if_neg hlast] at h
    split at h
    · unfold parse_operand_int at h
      dsimp only at h
      split at h
      · cases h
      · injection h with _ _ h3
        subst h3
        exact wrap64_range _
      · injection h with _ _ h3
        subst h3
        exact modifier_value_range _ _ (wrap64_range _)
      · cases h
    · cases h

theorem failed_ret (r54 : Nat → Int) (pdesc : nds32_asm_desc) (pinsn : nds32_asm_insn)
    (str : List Char) (fld : field_t) (syn : Nat) (res : operand_result)
    (h : parse_operand_value r54 pdesc pinsn str fld syn = .failed res) :
    res.ret = false := by
  unfold parse_operand_value at h
  split at h
  · cases h
  · split at h
    · unfold parse_operand_keyword at h
      dsimp only at h
      split at h
      · injection h with h1
        subst h1
        rfl
      · split at h
        · injection h with h1
          subst h1
          rfl
        · cases h
    · split at h
      · unfold parse_operand_int at h
        dsimp only at h
        split at h
        · injection h with h1
          subst h1
          rfl
        · cases h
        · cases h
        · cases h
      · cases h

/-- Bits `[shift, shift + bitsize)` of a 32-bit pattern do not depend on its
reading as a signed or an unsigned number. -/
theorem sext32_bits (v : Int) (s w : Nat) (h : s + w ≤ 32) :
    sext32 v / 2 ^ s % 2 ^ w = v / 2 ^ s % 2 ^ w := by
  unfold sext32
  split
  · have h1 : (2 : Int) ^ 32 = 2 ^ s * (2 ^ (32 - s - w) * 2 ^ w) := by
      rw [← pow_add, ← pow_add]
      congr 1
      omega
    have hpos : (0 : Int) < 2 ^ s := by positivity
    rw [h1, Int.sub_ediv_of_dvd _ (Dvd.intro _ rfl), Int.mul_ediv_cancel_left _ (by omega),
      sub_eq_add_neg, ← neg_mul, Int.add_mul_emod_self]
  · rfl

/-- OR-ing a value of `w` bits at position `bitpos` into a 32-bit word. -/
theorem pack_bits (old Y bitpos w : Nat) (hY : Y < 2 ^ w) (hold : old < 2 ^ 32)
    (hfit : bitpos + w ≤ 32) :
    (old ||| Y <<< bitpos) % 2 ^ 32 = old ||| Y <<< bitpos
      ∧ (∀ i, i < bitpos ∨ bitpos + w ≤ i →
          (old ||| Y <<< bitpos).testBit i = old.testBit i)
      ∧ (∀ i, old.testBit i = true → (old ||| Y <<< bitpos).testBit i = true) := by
  have hX : Y <<< bitpos < 2 ^ 32 := by
    rw [Nat.shiftLeft_eq]
    calc Y * 2 ^ bitpos < 2 ^ w * 2 ^ bitpos :=
          Nat.mul_lt_mul_of_pos_right hY (by positivity)
      _ = 2 ^ (w + bitpos) := by rw [pow_add]
      _ ≤ 2 ^ 32 := Nat.pow_le_pow_right (by norm_num) (by omega)
  refine ⟨Nat.mod_eq_of_lt (Nat.or_lt_two_pow hold hX), ?_, ?_⟩
  · intro i hi
    rw [Nat.testBit_or, Nat.testBit_shiftLeft]
    rcases hi with hi | hi
    · have : ¬ i ≥ bitpos := by omega
      simp [this]
    · have hlt : Y < 2 ^ (i - bitpos) :=
        lt_of_lt_of_le hY (Nat.pow_le_pow_right (by norm_num) (by omega))
      simp [Nat.testBit_lt_two_pow hlt]
  · intro i hi
    rw [Nat.testBit_or, hi]
    rfl

theorem emod_toNat_lt (x : Int) (w : Nat) : (x % 2 ^ w).toNat < 2 ^ w := by
  have hpos : (0 : Int) < 2 ^ w := by positivity
  have h0 := Int.emod_nonneg x (by omega : (2 : Int) ^ w ≠ 0)
  have h1 := Int.emod_lt_of_pos x hpos
  have : ((x % 2 ^ w).toNat : Int) < ((2 ^ w : Nat) : Int) := by
    rw [Int.toNat_of_nonneg h0]
    push_cast
    exact h1
  exact_mod_cast this

/-! ## Packing and range checks (label `done` of `parse_operand`) -/

/-- C2: when `parse_operand` succeeds on a field lying inside the 32-bit word, with
operand value `v` at the label `done`, the new instruction word is
`old | (((v >> shift) & mask (bitsize)) << bitpos)`; every bit outside
`[bitpos, bitpos + bitsize)` is unchanged and no bit that was set is cleared. -/
theorem parse_operand_packs_field (r54 : Nat → Int) (pdesc : nds32_asm_desc)
    (pinsn : nds32_asm_insn) (str : List Char) (fld : field_t) (syn : Nat)
    (out : operand_result)
    (hword : pinsn.insn < 2 ^ 32) (hfit : fld.bitpos + fld.bitsize ≤ 32)
    (hn1 : 1 ≤ fld.bitsize + fld.shift) (hn : fld.bitsize + fld.shift ≤ 31)
    (hrun : parse_operand_fld r54 pdesc pinsn str fld syn = some out)
    (hret : out.ret = true) :
    ∃ pinsn1 endp v,
      parse_operand_value r54 pdesc pinsn str fld syn = .parsed pinsn1 endp v
      ∧ out.pinsn.insn = pinsn.insn |||
          ((Int.land (v >>> fld.shift) ((__MASK fld.bitsize : Nat) : Int)).toNat <<< fld.bitpos)
      ∧ (∀ i, i < fld.bitpos ∨ fld.bitpos + fld.bitsize ≤ i →
          out.pinsn.insn.testBit i = pinsn.insn.testBit i)
      ∧ (∀ i, pinsn.insn.testBit i = true → out.pinsn.insn.testBit i = true) := by
  unfold parse_operand_fld at hrun
  split at hrun
  · cases hrun
  · rename_i res hst
    injection hrun with hrun
    subst hrun
    rw [failed_ret _ _ _ _ _ _ _ hst] at hret
    cases hret
  · rename_i pinsn1 endp v hst
    injection hrun with hrun
    have hi := parsed_insn _ _ _ _ _ _ _ _ _ hst
    have hpk := pack_bits pinsn.insn ((v / 2 ^ fld.shift % 2 ^ fld.bitsize).toNat) fld.bitpos
      fld.bitsize (emod_toNat_lt _ _) hword hfit
    refine ⟨pinsn1, endp, v, hst, ?_⟩
    rw [land_mask, shr_eq_div]
    have key : out.pinsn.insn = pinsn.insn |||
        ((v / 2 ^ fld.shift % 2 ^ fld.bitsize).toNat <<< fld.bitpos) := by
      by_cases hcls : fld.hw_res = HW_INT
      · obtain ⟨hv0, hv1⟩ := parsed_range _ _ _ _ _ _ _ _ _ hcls hst
        rw [done_signed _ _ _ _ _ _ hcls hn1 hn hv0 hv1] at hrun
        split at hrun
        · subst hrun
          show (pinsn1.insn ||| _) % 2 ^ 32 = _
          rw [hi, sext32_bits v _ _ (by omega), hpk.1]
        · subst hrun
          cases hret
      · rw [done_unsigned _ _ _ _ _ _ hcls] at hrun
        split at hrun
        · subst hrun
          show (pinsn1.insn ||| _) % 2 ^ 32 = _
          rw [hi, hpk.1]
        · subst hrun
          cases hret
    rw [key]
    exact ⟨rfl, hpk.2.1, hpk.2.2⟩

/-- C4: for a field that is not of the signed-integer class the label `done` accepts
`v` exactly when `v` is a multiple of `2 ^ shift` with `0 ≤ v < 2 ^ (bitsize + shift)`;
every other value, so every negative one, fails with `NASM_ERR_OUT_OF_RANGE`.  On
the field (offset 0, width 5, scale 2) the value 8 is accepted and stores 2. -/
theorem unsigned_range_check (pdesc : nds32_asm_desc) (pinsn : nds32_asm_insn)
    (str endp : List Char) (fld : field_t) (v : Int) (hcls : fld.hw_res ≠ HW_INT) :
    ((parse_operand_done pdesc pinsn str endp fld v).ret = true
        ↔ ((2 : Int) ^ fld.shift ∣ v ∧ 0 ≤ v ∧ v < 2 ^ (fld.bitsize + fld.shift)))
      ∧ ((parse_operand_done pdesc pinsn str endp fld v).ret = false →
          (parse_operand_done pdesc pinsn str endp fld v).pdesc.result
            = .NASM_ERR_OUT_OF_RANGE)
      ∧ (v < 0 → (parse_operand_done pdesc pinsn str endp fld v).ret = false)
      ∧ (parse_operand_done pdesc { pinsn with insn := 0 } str endp field_imm 8).ret = true
      ∧ (parse_operand_done pdesc { pinsn with insn := 0 } str endp field_imm 8).pinsn.insn
          = 2 := by
  rw [done_unsigned _ _ _ _ _ _ hcls]
  have himm : field_imm.hw_res ≠ HW_INT := by decide
  rw [done_unsigned _ _ _ _ _ _ himm]
  refine ⟨?_, ?_, ?_, ?_, ?_⟩
  · rw [Int.dvd_iff_emod_eq_zero]
    split <;> simp_all
  · split
    · intro h
      cases h
    · intro _
      rfl
  · intro hneg
    rw [if_neg (fun hc => by omega)]
  · rw [if_pos (by decide)]
  · rw [if_pos (by decide)]
    show (0 ||| ((8 : Int) / 2 ^ 2 % 2 ^ 5).toNat <<< 0) % 2 ^ 32 = 2
    decide

/-- C4 at the field `i5u3` of push25/pop25 and the value 8. -/
theorem unsigned_range_check_witness :
    (⟨"i5u3".toList, 0, 5, 3, HW_UINT, none⟩ : field_t).hw_res ≠ HW_INT
      ∧ (parse_operand_done (pdesc_with 0 (resolve_const 8)) pinsn_zero [] []
          ⟨"i5u3".toList, 0, 5, 3, HW_UINT, none⟩ 8).ret = true :=
  ⟨by decide,
    ((unsigned_range_check (pdesc_with 0 (resolve_const 8)) pinsn_zero [] []
      ⟨"i5u3".toList, 0, 5, 3, HW_UINT, none⟩ 8 (by decide)).1).2
        ⟨by decide, by decide, by decide⟩⟩

/-- C2 at the field `rt` and the operand `r1`. -/
theorem parse_operand_packs_field_witness :
    ∃ pinsn1 endp v,
      parse_operand_value (fun n => (n : Int)) (pdesc_with 0 (resolve_const 0)) pinsn_zero
          "r1".toList ⟨"rt".toList, 20, 5, 0, HW_GPR, none⟩ 0x2100
        = .parsed pinsn1 endp v
      ∧ (parse_operand_done (pdesc_with 0 (resolve_const 0)) { pinsn_zero with defuse := 2 }
            "r1".toList [] ⟨"rt".toList, 20, 5, 0, HW_GPR, none⟩ 1).pinsn.insn
          = pinsn_zero.insn |||
            ((Int.land (v >>> (0 : Nat)) ((__MASK 5 : Nat) : Int)).toNat <<< 20)
      ∧ (∀ i, i < 20 ∨ 20 + 5 ≤ i →
          (parse_operand_done (pdesc_with 0 (resolve_const 0)) { pinsn_zero with defuse := 2 }
            "r1".toList [] ⟨"rt".toList, 20, 5, 0, HW_GPR, none⟩ 1).pinsn.insn.testBit i
            = pinsn_zero.insn.testBit i)
      ∧ (∀ i, pinsn_zero.insn.testBit i = true →
          (parse_operand_done (pdesc_with 0 (resolve_const 0)) { pinsn_zero with defuse := 2 }
            "r1".toList [] ⟨"rt".toList, 20, 5, 0, HW_GPR, none⟩ 1).pinsn.insn.testBit i
            = true) :=
  parse_operand_packs_field (fun n => (n : Int)) (pdesc_with 0 (resolve_const 0)) pinsn_zero
    "r1".toList ⟨"rt".toList, 20, 5, 0, HW_GPR, none⟩ 0x2100
    (parse_operand_done (pdesc_with 0 (resolve_const 0)) { pinsn_zero with defuse := 2 }
      "r1".toList [] ⟨"rt".toList, 20, 5, 0, HW_GPR, none⟩ 1)
    (by decide) (by decide) (by decide) (by decide) rfl rfl

/-- C5: for a signed field with `n = bitsize + shift`, `1 ≤ n ≤ 31`, and a 64-bit
value `v`, read `v` as `v - 2 ^ 32` when `2 ^ 31 ≤ v < 2 ^ 32` (`sext32`): the label
`done` accepts `v` exactly when `v` is a multiple of `2 ^ shift` and
`-2 ^ (n - 1) ≤ sext32 v < 2 ^ (n - 1)`, and then packs `sext32 v >> shift` masked
to `bitsize` bits; otherwise it fails with `NASM_ERR_OUT_OF_RANGE`.  The value
`0xFFFFFFFF` is accepted by the 5-bit signed field `i5s` and packs as all ones. -/
theorem signed_range_check (pdesc : nds32_asm_desc) (pinsn : nds32_asm_insn)
    (str endp : List Char) (fld : field_t) (v : Int) (hcls : fld.hw_res = HW_INT)
    (hn1 : 1 ≤ fld.bitsize + fld.shift) (hn : fld.bitsize + fld.shift ≤ 31)
    (hv0 : -2 ^ 63 ≤ v) (hv1 : v < 2 ^ 63) :
    ((parse_operand_done pdesc pinsn str endp fld v).ret = true
        ↔ ((2 : Int) ^ fld.shift ∣ v ∧ -2 ^ (fld.bitsize + fld.shift - 1) ≤ sext32 v
            ∧ sext32 v < 2 ^ (fld.bitsize + fld.shift - 1)))
      ∧ ((parse_operand_done pdesc pinsn str endp fld v).ret = true →
          (parse_operand_done pdesc pinsn str endp fld v).pinsn.insn
            = (pinsn.insn |||
                ((Int.land (sext32 v >>> fld.shift) ((__MASK fld.bitsize : Nat) : Int)).toNat
                  <<< fld.bitpos)) % 2 ^ 32)
      ∧ ((parse_operand_done pdesc pinsn str endp fld v).ret = false →
          (parse_operand_done pdesc pinsn str endp fld v).pdesc.result
            = .NASM_ERR_OUT_OF_RANGE)
      ∧ (parse_operand_done pdesc { pinsn with insn := 0 } str endp
          ⟨"i5s".toList, 0, 5, 0, HW_INT, none⟩ 0xFFFFFFFF).ret = true
      ∧ (parse_operand_done pdesc { pinsn with insn := 0 } str endp
          ⟨"i5s".toList, 0, 5, 0, HW_INT, none⟩ 0xFFFFFFFF).pinsn.insn = 31 := by
  rw [done_signed _ _ _ _ _ _ hcls hn1 hn hv0 hv1]
  rw [done_signed _ _ _ _ ⟨"i5s".toList, 0, 5, 0, HW_INT, none⟩ 0xFFFFFFFF rfl (by decide)
    (by decide) (by decide) (by decide)]
  rw [land_mask, shr_eq_div]
  refine ⟨?_, ?_, ?_, ?_, ?_⟩
  · rw [Int.dvd_iff_emod_eq_zero]
    split <;> simp_all
  · split
    · intro _
      rfl
    · intro h
      cases h
  · split
    · intro h
      cases h
    · intro _
      rfl
  · rw [if_pos (by decide)]
  · rw [if_pos (by decide)]
    show (0 ||| (sext32 0xFFFFFFFF / 2 ^ 0 % 2 ^ 5).toNat <<< 0) % 2 ^ 32 = 31
    decide

/-- C5 at the field `i15s2` and the 32-bit pattern of -4. -/
theorem signed_range_check_witness :
    (parse_operand_done (pdesc_with 0 (resolve_const 0)) pinsn_zero [] []
        ⟨"i15s2".toList, 0, 15, 2, HW_INT, none⟩ 0xFFFFFFFC).ret = true :=
  ((signed_range_check (pdesc_with 0 (resolve_const 0)) pinsn_zero [] []
      ⟨"i15s2".toList, 0, 15, 2, HW_INT, none⟩ 0xFFFFFFFC rfl (by decide) (by decide)
      (by decide) (by decide)).1).2 ⟨by decide, by decide, by decide⟩

/-- C6: whenever the value `v` that reaches the label `done` is not a multiple of
`2 ^ shift` (it has a nonzero bit below position `shift`, so `shift > 0`),
`parse_operand` returns failure with `NASM_ERR_OUT_OF_RANGE` and leaves the
instruction word and the caller's cursor unchanged, for every resource class and
with or without a hook; e.g. the value 6 on a field of scale 2. -/
theorem misaligned_rejected (r54 : Nat → Int) (pdesc : nds32_asm_desc)
    (pinsn : nds32_asm_insn) (str : List Char) (fld : field_t) (syn : Nat)
    (pinsn1 : nds32_asm_insn) (endp : List Char) (v : Int)
    (hst : parse_operand_value r54 pdesc pinsn str fld syn = .parsed pinsn1 endp v)
    (hbit : v % 2 ^ fld.shift ≠ 0) :
    0 < fld.shift
      ∧ ∃ out, parse_operand_fld r54 pdesc pinsn str fld syn = some out
        ∧ out.ret = false
        ∧ out.pdesc.result = .NASM_ERR_OUT_OF_RANGE
        ∧ out.pinsn.insn = pinsn.insn
        ∧ out.str = str := by
  constructor
  · rcases Nat.eq_zero_or_pos fld.shift with h0 | h0
    · rw [h0] at hbit
      simp at hbit
    · exact h0
  · unfold parse_operand_fld
    rw [hst]
    refine ⟨_, rfl, ?_⟩
    unfold parse_operand_done
    rw [land_mask, if_pos hbit]
    exact ⟨rfl, rfl, parsed_insn _ _ _ _ _ _ _ _ _ hst, rfl⟩

/-- C6 at the field of scenario C (scale 2) and the value 6. -/
theorem misaligned_rejected_witness :
    0 < field_imm.shift
      ∧ ∃ out, parse_operand_fld (fun n => (n : Int)) (pdesc_with 0 (resolve_const 6))
            pinsn_zero "6".toList field_imm 0x1100 = some out
        ∧ out.ret = false
        ∧ out.pdesc.result = .NASM_ERR_OUT_OF_RANGE
        ∧ out.pinsn.insn = pinsn_zero.insn
        ∧ out.str = "6".toList :=
  misaligned_rejected (fun n => (n : Int)) (pdesc_with 0 (resolve_const 6)) pinsn_zero
    "6".toList field_imm 0x1100 pinsn_zero [] 6 rfl (by decide)

/-- C3 fails as stated: the built-in field `i3u1` (width 3, scale 1, unsigned) and
the value 1, which lies in `[0, 2 ^ 3 - 1]`: packing is refused as misaligned. -/
theorem roundtrip_refuses_unaligned :
    (⟨"i3u1".toList, 0, 3, 1, HW_UINT, none⟩ : field_t) ∈ operand_fields
      ∧ (0 : Int) ≤ 1 ∧ (1 : Int) ≤ 2 ^ 3 - 1
      ∧ (parse_operand_done (pdesc_with 0 (resolve_const 1)) pinsn_zero "1".toList []
          ⟨"i3u1".toList, 0, 3, 1, HW_UINT, none⟩ 1).ret = false
      ∧ (parse_operand_done (pdesc_with 0 (resolve_const 1)) pinsn_zero "1".toList []
          ⟨"i3u1".toList, 0, 3, 1, HW_UINT, none⟩ 1).pdesc.result
          = .NASM_ERR_OUT_OF_RANGE := by
  refine ⟨by decide, by decide, by decide, ?_, ?_⟩
  · rw [done_unsigned _ _ _ _ _ _ (by decide)]
    rw [if_neg (by decide)]
  · rw [done_unsigned _ _ _ _ _ _ (by decide)]
    rw [if_neg (by decide)]

theorem shl_shr_mod (Y bitpos w : Nat) (hY : Y < 2 ^ w) :
    (Y <<< bitpos >>> bitpos) % 2 ^ w = Y := by
  rw [Nat.shiftLeft_shiftRight, Nat.mod_eq_of_lt hY]

theorem pow_pred_double (w : Nat) (hw : 1 ≤ w) : (2 : Int) ^ w = 2 * 2 ^ (w - 1) := by
  obtain ⟨k, rfl⟩ : ∃ k, w = k + 1 := ⟨w - 1, by omega⟩
  simp [pow_succ]
  ring

/-- C3, amended: for every field inside the word (`bitsize ≥ 1`,
`bitsize + shift ≤ 31`, `bitpos + bitsize ≤ 32`) and every value `v` of the stated
range that is a multiple of `2 ^ shift`, packing `v` into a zero word succeeds, and
extracting the field, undoing the sign extension and the scale shift gives `v`. -/
theorem pack_unpack_roundtrip (pdesc : nds32_asm_desc) (pinsn : nds32_asm_insn)
    (str endp : List Char) (fld : field_t) (v : Int)
    (hw1 : 1 ≤ fld.bitsize) (hn : fld.bitsize + fld.shift ≤ 31)
    (hfit : fld.bitpos + fld.bitsize ≤ 32)
    (hal : (2 : Int) ^ fld.shift ∣ v)
    (hrange : (fld.hw_res ≠ HW_INT ∧ 0 ≤ v ∧ v ≤ 2 ^ fld.bitsize - 1)
      ∨ (fld.hw_res = HW_INT ∧ -2 ^ (fld.bitsize - 1) ≤ v ∧ v ≤ 2 ^ (fld.bitsize - 1) - 1)) :
    (parse_operand_done pdesc { pinsn with insn := 0 } str endp fld v).ret = true
      ∧ unpack_field fld
          (parse_operand_done pdesc { pinsn with insn := 0 } str endp fld v).pinsn.insn
        = v := by
  obtain ⟨u, rfl⟩ := hal
  have hS : (1 : Int) ≤ 2 ^ fld.shift := one_le_pow₀ (by norm_num)
  have hSpos : (0 : Int) < 2 ^ fld.shift := by omega
  have hdiv : 2 ^ fld.shift * u / 2 ^ fld.shift = u := Int.mul_ediv_cancel_left _ (by omega)
  have hmod : 2 ^ fld.shift * u % 2 ^ fld.shift = 0 := Int.mul_emod_right _ _
  have hA1 : (1 : Int) ≤ 2 ^ (fld.bitsize - 1) := one_le_pow₀ (by norm_num)
  have hA30 : (2 : Int) ^ (fld.bitsize - 1) ≤ 2 ^ 30 :=
    pow_le_pow_right₀ (by norm_num) (by omega)
  have hW : (2 : Int) ^ fld.bitsize = 2 * 2 ^ (fld.bitsize - 1) := pow_pred_double _ hw1
  have hWn : (2 : Int) ^ fld.bitsize ≤ 2 ^ (fld.bitsize + fld.shift) :=
    pow_le_pow_right₀ (by norm_num) (by omega)
  have hAn : (2 : Int) ^ (fld.bitsize - 1) ≤ 2 ^ (fld.bitsize + fld.shift - 1) :=
    pow_le_pow_right₀ (by norm_num) (by omega)
  have hword : (0 : Nat) < 2 ^ 32 := by norm_num
  rcases hrange with ⟨hcls, h0, h1⟩ | ⟨hcls, h0, h1⟩
  · -- unsigned class
    have hu0 : 0 ≤ u := by
      by_contra hc
      have : 2 ^ fld.shift * u < 0 := mul_neg_of_pos_of_neg hSpos (by omega)
      omega
    have hule : u ≤ 2 ^ fld.shift * u := by nlinarith
    have hu1 : u < 2 ^ fld.bitsize := by omega
    have hum : u % 2 ^ fld.bitsize = u := Int.emod_eq_of_lt hu0 hu1
    rw [done_unsigned _ _ _ _ _ _ hcls, if_pos ⟨hmod, h0, by omega⟩]
    refine ⟨rfl, ?_⟩
    show unpack_field fld ((0 ||| (2 ^ fld.shift * u / 2 ^ fld.shift % 2 ^ fld.bitsize).toNat
      <<< fld.bitpos) % 2 ^ 32) = _
    have hY := emod_toNat_lt (2 ^ fld.shift * u / 2 ^ fld.shift) fld.bitsize
    rw [(pack_bits 0 _ fld.bitpos fld.bitsize hY hword hfit).1, Nat.zero_or]
    unfold unpack_field
    dsimp only
    rw [shl_shr_mod _ _ _ hY, hdiv, hum, Int.toNat_of_nonneg hu0, if_neg (fun hc => hcls hc.1)]
    ring
  · -- signed class
    have hule : -2 ^ (fld.bitsize - 1) ≤ u ∧ u ≤ 2 ^ (fld.bitsize - 1) - 1 := by
      rcases le_or_lt 0 u with hu | hu
      · have : u ≤ 2 ^ fld.shift * u := by nlinarith
        omega
      · have : 2 ^ fld.shift * u ≤ u := by nlinarith
        omega
    have hsx : sext32 (2 ^ fld.shift * u) = 2 ^ fld.shift * u := by
      unfold sext32
      rw [if_neg (fun hc => by omega)]
    rw [done_signed _ _ _ _ _ _ hcls (by omega) hn (by omega) (by omega), hsx,
      if_pos ⟨hmod, by omega, by omega⟩]
    refine ⟨rfl, ?_⟩
    show unpack_field fld ((0 ||| (2 ^ fld.shift * u / 2 ^ fld.shift % 2 ^ fld.bitsize).toNat
      <<< fld.bitpos) % 2 ^ 32) = _
    have hY := emod_toNat_lt (2 ^ fld.shift * u / 2 ^ fld.shift) fld.bitsize
    rw [(pack_bits 0 _ fld.bitpos fld.bitsize hY hword hfit).1, Nat.zero_or]
    unfold unpack_field
    dsimp only
    have hWpos : (0 : Int) < 2 ^ fld.bitsize := by positivity
    have hm0 := Int.emod_nonneg u (by omega : (2 : Int) ^ fld.bitsize ≠ 0)
    rw [shl_shr_mod _ _ _ hY, hdiv, Int.toNat_of_nonneg hm0]
    rcases le_or_lt 0 u with hu | hu
    · have hum : u % 2 ^ fld.bitsize = u := Int.emod_eq_of_lt hu (by omega)
      rw [hum, if_neg (fun hc => by omega)]
      ring
    · have hum : u % 2 ^ fld.bitsize = u + 2 ^ fld.bitsize := by
        rw [← Int.add_mul_emod_self_left u (2 ^ fld.bitsize) 1, mul_one]
        exact Int.emod_eq_of_lt (by omega) (by omega)
      rw [hum, if_pos ⟨hcls, by omega⟩]
      ring

/-- C3 (amended) at the signed field `i15s2` and the value -8. -/
theorem pack_unpack_roundtrip_witness :
    (2 : Int) ^ 2 ∣ -8
      ∧ unpack_field ⟨"i15s2".toList, 0, 15, 2, HW_INT, none⟩
          (parse_operand_done (pdesc_with 0 (resolve_const 0)) { pinsn_zero with insn := 0 }
            [] [] ⟨"i15s2".toList, 0, 15, 2, HW_INT, none⟩ (-8)).pinsn.insn = -8 :=
  ⟨by decide,
    (pack_unpack_roundtrip (pdesc_with 0 (resolve_const 0)) pinsn_zero [] []
      ⟨"i15s2".toList, 0, 15, 2, HW_INT, none⟩ (-8) (by decide) (by decide) (by decide)
      (by decide) (Or.inr ⟨rfl, by decide, by decide⟩)).2⟩

/-! ## Keyword operands -/

theorem is_keyword_char_iff (c : Char) :
    (c.isAlphanum = true ∨ c = '.' ∨ c = '_') ↔ is_keyword_char c = true := by
  simp [is_keyword_char, or_assoc]

/-- On a keyword `w` followed by a text that ends it, `parse_to_delimiter` copies
`w` lower-cased and stops right after it. -/
theorem parse_to_delimiter_token (w rest : List Char) (hw : w.all is_keyword_char = true)
    (hrest : keyword_ends rest = true) :
    parse_to_delimiter (w ++ rest) = (rest, w.map Char.toLower) := by
  induction w with
  | nil =>
    cases rest with
    | nil => rfl
    | cons c q =>
      have hc : ¬ (c.isAlphanum = true ∨ c = '.' ∨ c = '_') := by
        rw [is_keyword_char_iff]
        simpa [keyword_ends, peek] using hrest
      simp only [List.nil_append, parse_to_delimiter, if_neg hc, List.map_nil]
  | cons c w ih =>
    rw [List.all_cons, Bool.and_eq_true] at hw
    have hc : (c.isAlphanum = true ∨ c = '.' ∨ c = '_') := (is_keyword_char_iff c).2 hw.1
    have ih' := ih hw.2
    simp only [List.cons_append, parse_to_delimiter, if_pos hc, List.map_cons]
    show ((parse_to_delimiter (w ++ rest)).1, c.toLower :: (parse_to_delimiter (w ++ rest)).2) = _
    rw [ih']

theorem hw_not_int (fld : field_t) (h : fld.hw_res < _HW_LAST) : fld.hw_res ≠ HW_INT := by
  intro hc
  rw [hc] at h
  exact absurd h (by decide)

/-- A keyword operand that is found, allowed and in range: `parse_operand` succeeds,
records the def/use bits, packs the value and leaves the cursor after the keyword.
`dollar` is the optional `$` in front of the keyword. -/
theorem keyword_operand_ok (r54 : Nat → Int) (pdesc : nds32_asm_desc) (pinsn : nds32_asm_insn)
    (fld : field_t) (syn : Nat) (dollar : Bool) (w rest : List Char) (k : keyword_t)
    (hhook : fld.parse = none) (hhw : fld.hw_res < _HW_LAST)
    (hw : w.all is_keyword_char = true) (hne : w ≠ []) (hrest : keyword_ends rest = true)
    (hk : keyword_find (hw_ktabs fld.hw_res) (w.map Char.toLower) = some k)
    (hred : ¬ (fld.hw_res = HW_GPR ∧ pdesc.flags &&& NASM_OPEN_REDUCED_REG ≠ 0
      ∧ k.attr &&& NASM_ATTR_RDREG = 0))
    (hal : keyword_value r54 fld k % 2 ^ fld.shift = 0)
    (h0 : 0 ≤ keyword_value r54 fld k)
    (h1 : keyword_value r54 fld k < 2 ^ (fld.bitsize + fld.shift)) :
    parse_operand_fld r54 pdesc pinsn ((if dollar then ['$'] else []) ++ (w ++ rest)) fld syn
      = some ⟨true, pdesc,
          { record_defuse pinsn fld syn k with
            insn := (pinsn.insn |||
              ((keyword_value r54 fld k / 2 ^ fld.shift % 2 ^ fld.bitsize).toNat
                <<< fld.bitpos)) % 2 ^ 32 },
          rest⟩ := by
  obtain ⟨c, w', rfl⟩ := List.exists_cons_of_ne_nil hne
  have hc : is_keyword_char c = true := by
    rw [List.all_cons, Bool.and_eq_true] at hw
    exact hw.1
  have hcd : c ≠ '$' := by
    intro h
    rw [h] at hc
    exact absurd hc (by decide)
  have hend : (if peek ((if dollar then ['$'] else []) ++ (c :: w' ++ rest)) = '$' then
      ((if dollar then ['$'] else []) ++ (c :: w' ++ rest)).drop 1
      else (if dollar then ['$'] else []) ++ (c :: w' ++ rest)) = c :: w' ++ rest := by
    cases dollar
    · simp [peek, hcd]
    · simp [peek]
  have hst : parse_operand_value r54 pdesc pinsn
      ((if dollar then ['$'] else []) ++ (c :: w' ++ rest)) fld syn
      = .parsed (record_defuse pinsn fld syn k) rest (keyword_value r54 fld k) := by
    unfold parse_operand_value
    rw [hhook]
    dsimp only
    rw [if_pos hhw]
    unfold parse_operand_keyword
    dsimp only
    rw [hend, parse_to_delimiter_token _ _ hw hrest]
    dsimp only
    rw [hk]
    dsimp only
    rw [if_neg hred]
  unfold parse_operand_fld
  rw [hst]
  dsimp only
  rw [done_unsigned _ _ _ _ _ _ (hw_not_int fld hhw), if_pos ⟨hal, h0, h1⟩,
    record_defuse_insn]

set_option maxRecDepth 100000 in
theorem reg_lookup : ∀ a, a < 32 →
    keyword_find keyword_gpr (reg_name a)
      = some ⟨reg_name a, a, if reduced_reg a then NASM_ATTR_RDREG else 0⟩ := by
  decide

set_option maxRecDepth 100000 in
theorem reg_chars : ∀ a, a < 32 →
    (reg_name a).all is_keyword_char = true ∧ (reg_name a).map Char.toLower = reg_name a := by
  decide

set_option maxRecDepth 100000 in
theorem reg_nul_free : ∀ a, a < 32 → nul_free (reg_name a) = true := by
  decide

/-! ## The mnemonic split of `nds32_assemble` -/

theorem takeWhile_all {α : Type} (f : α → Bool) (l : List α) (h : l.all f = true) :
    l.takeWhile f = l := by
  induction l with
  | nil => rfl
  | cons a l ih =>
    rw [List.all_cons, Bool.and_eq_true] at h
    rw [List.takeWhile_cons, h.1]
    simp [ih h.2]

theorem takeWhile_stop {α : Type} (f : α → Bool) (l : List α) (c : α) (t : List α)
    (h : l.all f = true) (hc : f c = false) : (l ++ c :: t).takeWhile f = l := by
  induction l with
  | nil => simp [List.takeWhile_cons, hc]
  | cons a l ih =>
    rw [List.all_cons, Bool.and_eq_true] at h
    rw [List.cons_append, List.takeWhile_cons, h.1]
    simp [ih h.2]

theorem set_at_length {α : Type} (l : List α) (c x : α) (t : List α) :
    (l ++ c :: t).set l.length x = l ++ x :: t := by
  induction l with
  | nil => rfl
  | cons a l ih => simp [ih]

theorem drop_past {α : Type} (l : List α) (c : α) (t : List α) :
    (l ++ c :: t).drop (l.length + 1) = t := by
  induction l with
  | nil => rfl
  | cons a l ih => simp [ih]

theorem cstr_zero (t : List Char) (h : nul_free t = true) : cstr t 0 = t := by
  unfold cstr
  rw [List.drop_zero]
  apply takeWhile_all
  simpa [nul_free] using h

theorem cstr_head (m t : List Char) (h : nul_free m = true) :
    cstr (m ++ Char.ofNat 0 :: t) 0 = m := by
  unfold cstr
  rw [List.drop_zero]
  apply takeWhile_stop
  · simpa [nul_free] using h
  · simp

theorem cstr_past (m : List Char) (c : Char) (t : List Char) (h : nul_free t = true) :
    cstr (m ++ c :: t) (m.length + 1) = t := by
  unfold cstr
  rw [drop_past]
  apply takeWhile_all
  simpa [nul_free] using h

theorem scan_to_stop (f : Char → Bool) (m : List Char) (c : Char) (t : List Char)
    (hm : m.all (fun x => !f x) = true) (hc : f c = true) :
    scan_to f (m ++ c :: t) = m.length := by
  unfold scan_to
  rw [takeWhile_stop _ _ _ _ hm (by simp [hc])]

theorem scan_to_all (f : Char → Bool) (m : List Char) (hm : m.all (fun x => !f x) = true) :
    scan_to f m = m.length := by
  unfold scan_to
  rw [takeWhile_all _ _ hm]

theorem mnemonic_nul_free (m : List Char) (h : m.all is_mnemonic_char = true) :
    nul_free m = true := by
  rw [nul_free, List.all_eq_true]
  intro c hc
  have := List.all_eq_true.1 h c hc
  simp [is_mnemonic_char] at this
  simp [this.2]

theorem mnemonic_no_sep (m : List Char) (h : m.all is_mnemonic_char = true) :
    m.all (fun x => !(x == ' ' || x == '\t')) = true := by
  rw [List.all_eq_true]
  intro c hc
  have := List.all_eq_true.1 h c hc
  simp [is_mnemonic_char] at this
  simp [this.1]

theorem nul_free_append (a b : List Char) (ha : nul_free a = true) (hb : nul_free b = true) :
    nul_free (a ++ b) = true := by
  simp only [nul_free, List.all_append, Bool.and_eq_true] at *
  exact ⟨ha, hb⟩

theorem nul_free_cons (c : Char) (t : List Char) (hc : c ≠ Char.ofNat 0)
    (ht : nul_free t = true) : nul_free (c :: t) = true := by
  simp only [nul_free, List.all_cons, Bool.and_eq_true] at *
  exact ⟨by simpa using hc, ht⟩

/-- A mnemonic that is in the hash table, followed by a blank or a tab and the
operand text `t`: the encode call goes on with the chain of the mnemonic and the
operand text `t`. -/
theorem assemble_found (r54 : Nat → Int) (tbl : List nds32_opcode)
    (htab : List (List Char × Nat)) (pdesc : nds32_asm_desc) (pinsn : nds32_asm_insn)
    (m : List Char) (sep : Char) (t : List Char) (i : Nat)
    (hm : m.all is_mnemonic_char = true) (hsep : sep = ' ' ∨ sep = '\t')
    (ht : nul_free t = true) (hfind : opcode_find htab m = some i) :
    nds32_assemble r54 tbl htab pdesc pinsn (m ++ sep :: t)
      = nds32_assemble_found r54 tbl pdesc pinsn t i := by
  have hsep0 : sep ≠ Char.ofNat 0 := by
    rcases hsep with h | h <;> rw [h] <;> decide
  have hsepb : (sep == ' ' || sep == '\t') = true := by
    rcases hsep with h | h <;> rw [h] <;> decide
  have hbuf : cstr (m ++ sep :: t) 0 = m ++ sep :: t :=
    cstr_zero _ (nul_free_append _ _ (mnemonic_nul_free m hm) (nul_free_cons _ _ hsep0 ht))
  have hscan : scan_to (fun c => c == ' ' || c == '\t') (m ++ sep :: t) = m.length :=
    scan_to_stop _ _ _ _ (mnemonic_no_sep m hm) hsepb
  have hlt : m.length < (m ++ sep :: t).length := by
    simp
  unfold nds32_assemble
  simp only [hbuf, hscan, if_pos hlt, set_at_length, cstr_head m t (mnemonic_nul_free m hm),
    hfind, cstr_past m _ t ht]

theorem set_after {α : Type} (l : List α) (c x : α) (r : List α) (j : Nat) :
    (l ++ c :: r).set (l.length + 1 + j) x = l ++ c :: r.set j x := by
  induction l with
  | nil =>
    have : ([] : List α).length + 1 + j = j + 1 := by simp [Nat.add_comm]
    rw [this]
    rfl
  | cons a l ih =>
    have : (a :: l).length + 1 + j = (l.length + 1 + j) + 1 := by simp; omega
    rw [this, List.cons_append, List.set_cons_succ, ih]
    rfl

/-- The dotted-suffix retry on a line that has operands: for a mnemonic `P.S` that
is not in the hash table, followed by a blank or a tab and the text `t`, the encode
call looks `P` up and, when it is found, goes on with the chain of `P` and the
operand text `S`, a blank, `t`. -/
theorem assemble_dot_retry (r54 : Nat → Int) (tbl : List nds32_opcode)
    (htab : List (List Char × Nat)) (pdesc : nds32_asm_desc) (pinsn : nds32_asm_insn)
    (P S : List Char) (sep : Char) (t : List Char)
    (hP : P.all (fun c => is_mnemonic_char c && c != '.') = true)
    (hS : S.all is_mnemonic_char = true) (hsep : sep = ' ' ∨ sep = '\t')
    (ht : nul_free t = true) (hfind : opcode_find htab (P ++ '.' :: S) = none) :
    nds32_assemble r54 tbl htab pdesc pinsn (P ++ '.' :: S ++ sep :: t)
      = match opcode_find htab P with
        | some i => nds32_assemble_found r54 tbl pdesc pinsn (S ++ ' ' :: t) i
        | none => some ⟨{ pdesc with result := .NASM_ERR_UNKNOWN_OP }, pinsn, tbl⟩ := by
  have hP1 : P.all is_mnemonic_char = true := by
    rw [List.all_eq_true] at hP ⊢
    intro c hc
    have := hP c hc
    rw [Bool.and_eq_true] at this
    exact this.1
  have hP2 : P.all (fun x => !(x == '.')) = true := by
    rw [List.all_eq_true] at hP ⊢
    intro c hc
    have := hP c hc
    rw [Bool.and_eq_true] at this
    simpa using this.2
  have hm : (P ++ '.' :: S).all is_mnemonic_char = true := by
    rw [List.all_append, List.all_cons, hP1, hS]
    rfl
  have hsep0 : sep ≠ Char.ofNat 0 := by
    rcases hsep with h | h <;> rw [h] <;> decide
  have hsepb : (sep == ' ' || sep == '\t') = true := by
    rcases hsep with h | h <;> rw [h] <;> decide
  have hbuf : cstr ((P ++ '.' :: S) ++ sep :: t) 0 = (P ++ '.' :: S) ++ sep :: t :=
    cstr_zero _ (nul_free_append _ _ (mnemonic_nul_free _ hm) (nul_free_cons _ _ hsep0 ht))
  have hscan : scan_to (fun c => c == ' ' || c == '\t') ((P ++ '.' :: S) ++ sep :: t)
      = (P ++ '.' :: S).length :=
    scan_to_stop _ _ _ _ (mnemonic_no_sep _ hm) hsepb
  have hlt : (P ++ '.' :: S).length < ((P ++ '.' :: S) ++ sep :: t).length := by
    simp
  have hdot : '.' ∈ P ++ '.' :: S := by simp
  have hdotpos : scan_to (fun c => c == '.') (P ++ '.' :: S) = P.length :=
    scan_to_stop _ _ _ _ hP2 (by decide)
  have hlen : (P ++ '.' :: S).length + 1 - 1 = P.length + 1 + S.length := by
    simp
    omega
  have hset1 : ((P ++ '.' :: S) ++ Char.ofNat 0 :: t).set P.length (Char.ofNat 0)
      = P ++ Char.ofNat 0 :: (S ++ Char.ofNat 0 :: t) := by
    rw [List.append_assoc, List.cons_append, set_at_length]
  have hset2 : (P ++ Char.ofNat 0 :: (S ++ Char.ofNat 0 :: t)).set (P.length + 1 + S.length) ' '
      = P ++ Char.ofNat 0 :: (S ++ ' ' :: t) := by
    rw [set_after, set_at_length]
  have hnf : nul_free (S ++ ' ' :: t) = true :=
    nul_free_append _ _ (mnemonic_nul_free _ hS) (nul_free_cons _ _ (by decide) ht)
  unfold nds32_assemble
  simp only [List.append_assoc, List.cons_append] at hbuf hscan hlt hset1 ⊢
  simp only [hbuf, hscan, if_pos hlt]
  have hset0 := set_at_length (P ++ '.' :: S) sep (Char.ofNat 0) t
  simp only [List.append_assoc, List.cons_append] at hset0
  have hhead := cstr_head (P ++ '.' :: S) t (mnemonic_nul_free _ hm)
  simp only [List.append_assoc, List.cons_append] at hhead
  simp only [hset0, hhead, hfind, if_pos hdot, hdotpos, hset1, hlen, hset2,
    cstr_head P _ (mnemonic_nul_free _ hP1), cstr_past P _ _ hnf]

/-! ## Steps of the walk over a compiled pattern -/

theorem walk_end (r54 : Nat → Int) (variant : Nat) (plex : List Nat) (opt : Nat)
    (pdesc : nds32_asm_desc) (pinsn : nds32_asm_insn) (p : List Char) :
    parse_insn_walk r54 variant (0 :: plex) false opt pdesc pinsn p
      = some ⟨true, pdesc, pinsn, p⟩ := by
  simp [parse_insn_walk]

theorem walk_char (r54 : Nat → Int) (variant : Nat) (x : Nat) (plex : List Nat) (opt : Nat)
    (pdesc : nds32_asm_desc) (pinsn : nds32_asm_insn) (p : List Char)
    (hx : x ≠ 0) (hchar : IS_LEX_CHAR x = true) :
    parse_insn_walk r54 variant (x :: plex) false opt pdesc pinsn p
      = if LEX_CHAR x ≠ (peek p).toNat then
          some ⟨false, { pdesc with result := .NASM_ERR_SYNTAX }, pinsn, p⟩
        else parse_insn_walk r54 variant plex false opt pdesc pinsn (p.drop 1) := by
  simp [parse_insn_walk, hx, hchar]

theorem walk_char_eq (r54 : Nat → Int) (variant : Nat) (x : Nat) (plex : List Nat) (opt : Nat)
    (pdesc : nds32_asm_desc) (pinsn : nds32_asm_insn) (c : Char) (q : List Char)
    (hx : x ≠ 0) (hchar : IS_LEX_CHAR x = true) (hc : LEX_CHAR x = c.toNat) :
    parse_insn_walk r54 variant (x :: plex) false opt pdesc pinsn (c :: q)
      = parse_insn_walk r54 variant plex false opt pdesc pinsn q := by
  rw [walk_char _ _ _ _ _ _ _ _ hx hchar]
  simp [peek, hc]

theorem walk_char_ne (r54 : Nat → Int) (variant : Nat) (x : Nat) (plex : List Nat) (opt : Nat)
    (pdesc : nds32_asm_desc) (pinsn : nds32_asm_insn) (p : List Char)
    (hx : x ≠ 0) (hchar : IS_LEX_CHAR x = true) (hc : LEX_CHAR x ≠ (peek p).toNat) :
    parse_insn_walk r54 variant (x :: plex) false opt pdesc pinsn p
      = some ⟨false, { pdesc with result := .NASM_ERR_SYNTAX }, pinsn, p⟩ := by
  rw [walk_char _ _ _ _ _ _ _ _ hx hchar, if_pos hc]

theorem walk_field (r54 : Nat → Int) (variant : Nat) (x : Nat) (plex : List Nat) (opt : Nat)
    (pdesc : nds32_asm_desc) (pinsn : nds32_asm_insn) (p : List Char)
    (hx : x ≠ 0) (hchar : IS_LEX_CHAR x = false) (hl : x &&& SYN_LOPT = 0)
    (hr : x &&& SYN_ROPT = 0) :
    parse_insn_walk r54 variant (x :: plex) false opt pdesc pinsn p
      = match parse_operand r54 pdesc pinsn p x with
        | none => none
        | some res =>
          if res.ret then
            parse_insn_walk r54 variant plex false opt res.pdesc res.pinsn res.str
          else some ⟨false, res.pdesc, res.pinsn, p⟩ := by
  simp [parse_insn_walk, hx, hchar, hl, hr]

/-- A register name `rN` under a 5-bit general-register field: the operand is
accepted when the register is allowed by the flags, and packs `N`. -/
theorem reg_operand (r54 : Nat → Int) (pdesc : nds32_asm_desc) (pinsn : nds32_asm_insn)
    (fld : field_t) (x a : Nat) (rest : List Char)
    (hfld : LEX_GET_FIELD x = some fld) (hhook : fld.parse = none) (hgpr : fld.hw_res = HW_GPR)
    (hsize : fld.bitsize = 5) (hshift : fld.shift = 0) (ha : a < 32)
    (hrest : keyword_ends rest = true)
    (hallow : pdesc.flags &&& NASM_OPEN_REDUCED_REG = 0 ∨ reduced_reg a = true) :
    parse_operand r54 pdesc pinsn (reg_name a ++ rest) x
      = some ⟨true, pdesc,
          { record_defuse pinsn fld x
              ⟨reg_name a, a, if reduced_reg a then NASM_ATTR_RDREG else 0⟩ with
            insn := (pinsn.insn ||| a <<< fld.bitpos) % 2 ^ 32 },
          rest⟩ := by
  obtain ⟨hch, hlow⟩ := reg_chars a ha
  have hk := reg_lookup a ha
  have hhw : fld.hw_res < _HW_LAST := by rw [hgpr]; decide
  have hkt : hw_ktabs fld.hw_res = keyword_gpr := by rw [hgpr]; rfl
  have hval : keyword_value r54 fld
      ⟨reg_name a, a, if reduced_reg a then NASM_ATTR_RDREG else 0⟩ = (a : Int) := by
    unfold keyword_value
    rw [if_neg (fun hc => by omega)]
  have hpack : ((a : Int) / 2 ^ fld.shift % 2 ^ fld.bitsize).toNat = a := by
    rw [hshift, hsize]
    omega
  have := keyword_operand_ok r54 pdesc pinsn fld x false (reg_name a) rest
    ⟨reg_name a, a, if reduced_reg a then NASM_ATTR_RDREG else 0⟩ hhook hhw hch
    (by simp [reg_name]) hrest (by rw [hkt, hlow]; exact hk)
    (by
      rintro ⟨_, hf, hat⟩
      rcases hallow with h | h
      · exact hf h
      · rw [h] at hat
        have hd : NASM_ATTR_RDREG &&& NASM_ATTR_RDREG ≠ 0 := by decide
        exact hd hat)
    (by rw [hval, hshift]; omega) (by rw [hval]; omega)
    (by rw [hval, hsize, hshift]; omega)
  unfold parse_operand
  rw [hfld]
  dsimp only
  rw [hval, hpack] at this
  simpa using this

theorem or_shift_mod (x a pos : Nat) (hx : x < 2 ^ 32) (ha : a < 32) (hpos : pos + 5 ≤ 32) :
    (x ||| a <<< pos) % 2 ^ 32 = x ||| a <<< pos ∧ x ||| a <<< pos < 2 ^ 32 := by
  have h := pack_bits x a pos 5 (by omega) hx hpos
  exact ⟨h.1, by rw [← h.1]; exact Nat.mod_lt _ (by norm_num)⟩

/-- The walk over the compiled pattern `=rt,%ra,%rb` on three register names. -/
theorem walk_add (r54 : Nat → Int) (variant opt : Nat) (pdesc : nds32_asm_desc)
    (pinsn : nds32_asm_insn) (a b c : Nat) (rest : List Char)
    (ha : a < 32) (hb : b < 32) (hc : c < 32) (hrest : keyword_ends rest = true)
    (hallow : pdesc.flags &&& NASM_OPEN_REDUCED_REG = 0
      ∨ (reduced_reg a = true ∧ reduced_reg b = true ∧ reduced_reg c = true))
    (hword : pinsn.insn < 2 ^ 32) :
    parse_insn_walk r54 variant [0x2100, 44, 0x1101, 44, 0x1102, 0] false opt pdesc pinsn
        (reg_name a ++ ',' :: (reg_name b ++ ',' :: (reg_name c ++ rest)))
      = some ⟨true, pdesc,
          { pinsn with
            insn := pinsn.insn ||| a <<< 20 ||| b <<< 15 ||| c <<< 10,
            defuse := pinsn.defuse ||| DEF_REG a ||| USE_REG b ||| USE_REG c },
          rest⟩ := by
  have hA : pdesc.flags &&& NASM_OPEN_REDUCED_REG = 0 ∨ reduced_reg a = true :=
    hallow.imp id (fun h => h.1)
  have hB : pdesc.flags &&& NASM_OPEN_REDUCED_REG = 0 ∨ reduced_reg b = true :=
    hallow.imp id (fun h => h.2.1)
  have hC : pdesc.flags &&& NASM_OPEN_REDUCED_REG = 0 ∨ reduced_reg c = true :=
    hallow.imp id (fun h => h.2.2)
  obtain ⟨e1, l1⟩ := or_shift_mod pinsn.insn a 20 hword ha (by norm_num)
  obtain ⟨e2, l2⟩ := or_shift_mod _ b 15 l1 hb (by norm_num)
  obtain ⟨e3, _⟩ := or_shift_mod _ c 10 l2 hc (by norm_num)
  rw [walk_field _ _ 0x2100 _ _ _ _ _ (by decide) (by decide) (by decide) (by decide),
    reg_operand r54 pdesc pinsn ⟨"rt".toList, 20, 5, 0, HW_GPR, none⟩ 0x2100 a _
      (by decide) rfl rfl rfl rfl ha (by rfl) hA]
  dsimp only
  rw [if_pos rfl, walk_char_eq _ _ 44 _ _ _ _ ',' _ (by decide) (by decide) (by decide),
    walk_field _ _ 0x1101 _ _ _ _ _ (by decide) (by decide) (by decide) (by decide),
    reg_operand r54 pdesc _ ⟨"ra".toList, 15, 5, 0, HW_GPR, none⟩ 0x1101 b _
      (by decide) rfl rfl rfl rfl hb (by rfl) hB]
  dsimp only
  rw [if_pos rfl, walk_char_eq _ _ 44 _ _ _ _ ',' _ (by decide) (by decide) (by decide),
    walk_field _ _ 0x1102 _ _ _ _ _ (by decide) (by decide) (by decide) (by decide),
    reg_operand r54 pdesc _ ⟨"rb".toList, 10, 5, 0, HW_GPR, none⟩ 0x1102 c _
      (by decide) rfl rfl rfl rfl hc hrest hC]
  dsimp only
  rw [if_pos rfl, walk_end]
  simp only [record_defuse, HW_GPR, SYN_INPUT, SYN_OUTPUT, e1, e2, e3]
  rfl

/-! ## The template matcher -/

theorem at_insn_end_iff (p : List Char) :
    at_insn_end p = true
      ↔ (p = [] ∨ ∃ c q, p = c :: q ∧ (c = Char.ofNat 0 ∨ c = '!' ∨ c = '#')) := by
  cases p with
  | nil => simp [at_insn_end, peek]
  | cons c q => simp [at_insn_end, peek, or_assoc]

/-- One variant of `parse_insn` for the compiled `add` on three register names
followed by `rest`. -/
theorem variant_add (r54 : Nat → Int) (variant : Nat) (pdesc : nds32_asm_desc)
    (pinsn : nds32_asm_insn) (B a b c : Nat) (rest : List Char) (hB : B < 2 ^ 32)
    (ha : a < 32) (hb : b < 32) (hc : c < 32) (hrest : keyword_ends rest = true)
    (hallow : pdesc.flags &&& NASM_OPEN_REDUCED_REG = 0
      ∨ (reduced_reg a = true ∧ reduced_reg b = true ∧ reduced_reg c = true)) :
    parse_insn_variant r54 pdesc pinsn
        (reg_name a ++ ',' :: (reg_name b ++ ',' :: (reg_name c ++ rest)))
        (compiled (opcode_add B)) variant
      = some (at_insn_end rest, pdesc,
          { pinsn with
            insn := B ||| a <<< 20 ||| b <<< 15 ||| c <<< 10,
            defuse := pinsn.defuse ||| DEF_REG a ||| USE_REG b ||| USE_REG c }) := by
  have hwalk := walk_add r54 variant 0 pdesc ({ pinsn with insn := B }) a b c rest
    ha hb hc hrest hallow hB
  have hl : (compiled (opcode_add B)).lexes = some [0x2100, 44, 0x1101, 44, 0x1102, 0] := rfl
  have hv : (compiled (opcode_add B)).value = B := rfl
  unfold parse_insn_variant
  rw [hl]
  dsimp only
  rw [hv, hwalk]
  rfl

/-- C8: a variant of `parse_insn` is accepted exactly when the walk reached the end
of the compiled pattern and the input that is left is empty or starts with the end
of text, `!` or `#`, whatever follows that character; any other character left
makes the variant fail.  On the pattern of `add`: `r1,r2,r3`, `r1,r2,r3!junk` and
`r1,r2,r3#junk` are accepted with the same word, a trailing space and a fourth
operand are refused. -/
theorem variant_accepted_iff (r54 : Nat → Int) (pdesc : nds32_asm_desc)
    (pinsn : nds32_asm_insn) (str : List Char) (opc : nds32_opcode) (variant : Nat)
    (lex : List Nat) (w : walk_result) (hlex : opc.lexes = some lex)
    (hw : parse_insn_walk r54 variant lex false 0 pdesc { pinsn with insn := opc.value } str
      = some w) :
    (parse_insn_variant r54 pdesc pinsn str opc variant = some (true, w.pdesc, w.pinsn)
        ↔ (w.finished = true
            ∧ (w.p = [] ∨ ∃ c q, w.p = c :: q ∧ (c = Char.ofNat 0 ∨ c = '!' ∨ c = '#'))))
      ∧ (parse_insn_variant r54 pdesc pinsn str opc variant = some (false, w.pdesc, w.pinsn)
        ↔ ¬ (w.finished = true
            ∧ (w.p = [] ∨ ∃ c q, w.p = c :: q ∧ (c = Char.ofNat 0 ∨ c = '!' ∨ c = '#'))))
      ∧ (parse_insn_variant r54 pdesc pinsn "r1,r2,r3".toList (compiled (opcode_add 0)) 0).map
            (fun r => (r.1, r.2.2.insn)) = some (true, 0x110c00)
      ∧ (parse_insn_variant r54 pdesc pinsn "r1,r2,r3!junk".toList (compiled (opcode_add 0))
            0).map (fun r => (r.1, r.2.2.insn)) = some (true, 0x110c00)
      ∧ (parse_insn_variant r54 pdesc pinsn "r1,r2,r3#junk".toList (compiled (opcode_add 0))
            0).map (fun r => (r.1, r.2.2.insn)) = some (true, 0x110c00)
      ∧ (parse_insn_variant r54 pdesc pinsn "r1,r2,r3 ".toList (compiled (opcode_add 0))
            0).map (fun r => r.1) = some false
      ∧ (parse_insn_variant r54 pdesc pinsn "r1,r2,r3,r4".toList (compiled (opcode_add 0))
            0).map (fun r => r.1) = some false := by
  have hv : parse_insn_variant r54 pdesc pinsn str opc variant
      = some (w.finished && at_insn_end w.p, w.pdesc, w.pinsn) := by
    unfold parse_insn_variant
    rw [hlex]
    dsimp only
    rw [hw]
  rw [hv, ← at_insn_end_iff]
  refine ⟨?_, ?_, ?_, ?_, ?_, ?_, ?_⟩
  · cases w.finished <;> cases at_insn_end w.p <;> simp
  · cases w.finished <;> cases at_insn_end w.p <;> simp
  · exact congrArg (Option.map (fun r => (r.1, r.2.2.insn)))
      (variant_add r54 0 pdesc pinsn 0 1 2 3 [] (by decide) (by decide) (by decide)
        (by decide) rfl (Or.inr ⟨rfl, rfl, rfl⟩))
  · exact congrArg (Option.map (fun r => (r.1, r.2.2.insn)))
      (variant_add r54 0 pdesc pinsn 0 1 2 3 "!junk".toList (by decide) (by decide)
        (by decide) (by decide) rfl (Or.inr ⟨rfl, rfl, rfl⟩))
  · exact congrArg (Option.map (fun r => (r.1, r.2.2.insn)))
      (variant_add r54 0 pdesc pinsn 0 1 2 3 "#junk".toList (by decide) (by decide)
        (by decide) (by decide) rfl (Or.inr ⟨rfl, rfl, rfl⟩))
  · exact congrArg (Option.map (fun r => r.1))
      (variant_add r54 0 pdesc pinsn 0 1 2 3 " ".toList (by decide) (by decide)
        (by decide) (by decide) rfl (Or.inr ⟨rfl, rfl, rfl⟩))
  · exact congrArg (Option.map (fun r => r.1))
      (variant_add r54 0 pdesc pinsn 0 1 2 3 ",r4".toList (by decide) (by decide)
        (by decide) (by decide) rfl (Or.inr ⟨rfl, rfl, rfl⟩))

/-- C8 at the compiled `add` and the text `r1,r2,r3!x`. -/
theorem variant_accepted_iff_witness :
    parse_insn_variant (fun n => (n : Int)) (pdesc_with 0 (resolve_const 0)) pinsn_zero
        "r1,r2,r3!x".toList (compiled (opcode_add 0)) 0
      = some (true, pdesc_with 0 (resolve_const 0),
          { pinsn_zero with insn := 0x110c00, defuse := 14 }) :=
  ((variant_accepted_iff (fun n => (n : Int)) (pdesc_with 0 (resolve_const 0)) pinsn_zero
      "r1,r2,r3!x".toList (compiled (opcode_add 0)) 0 [0x2100, 44, 0x1101, 44, 0x1102, 0]
      ⟨true, pdesc_with 0 (resolve_const 0), { pinsn_zero with insn := 0x110c00, defuse := 14 },
        "!x".toList⟩ rfl rfl).1).2
    ⟨rfl, Or.inr ⟨'!', "x".toList, rfl, Or.inr (Or.inl rfl)⟩⟩

/-! ## The encode call on the table of scenario A -/

/-- C1 fails as stated: with the reduced-register flag set, `add r11,r2,r3` is not
encoded; the call ends with `NASM_ERR_SYNTAX` and no opcode. -/
theorem add_refused_in_reduced_mode :
    11 < 32 ∧ 2 < 32 ∧ 3 < 32
      ∧ (assemble_line (fun n => (n : Int)) (resolve_const 0) NASM_OPEN_REDUCED_REG
          [opcode_add 0] "add r11,r2,r3").map (fun r => (r.1, r.2.opcode))
        = some (.NASM_ERR_SYNTAX, none) := by
  decide

/-- C1, amended: for all register numbers `a`, `b`, `c` in 0..31 that the flags
allow (the reduced-register flag is clear, or the three registers belong to the
reduced set), `nds32_assemble` on `add rA,rB,rC` against the single entry
(`add`, `=rt,%ra,%rb`, base `B`) ends with `NASM_OK`, the opcode set to that entry
and the word `B | a << 20 | b << 15 | c << 10`. -/
theorem add_encodes (r54 : Nat → Int) (pdesc0 : nds32_asm_desc) (pinsn : nds32_asm_insn)
    (flags B isize attr defuse a b c : Nat) (hB : B < 2 ^ 32)
    (ha : a < 32) (hb : b < 32) (hc : c < 32)
    (hallow : flags &&& NASM_OPEN_REDUCED_REG = 0
      ∨ (reduced_reg a = true ∧ reduced_reg b = true ∧ reduced_reg c = true)) :
    ∃ pdesc tbl htab r,
      nds32_asm_init pdesc0 flags [opcode_entry "add" "=rt,%ra,%rb" B isize attr defuse]
          = some (pdesc, tbl, htab)
        ∧ nds32_assemble r54 tbl htab pdesc pinsn
            ("add ".toList ++ (reg_name a ++ ',' :: (reg_name b ++ ',' :: reg_name c)))
          = some r
        ∧ r.pdesc.result = .NASM_OK
        ∧ r.pinsn.opcode = some 0
        ∧ (tbl[0]?).map (fun e => (e.opcode, e.instruction, e.value))
          = some ("add".toList, "=rt,%ra,%rb".toList, B)
        ∧ r.pinsn.insn = B ||| a <<< 20 ||| b <<< 15 ||| c <<< 10 := by
  have hnf : nul_free (reg_name a ++ ',' :: (reg_name b ++ ',' :: reg_name c)) = true :=
    nul_free_append _ _ (reg_nul_free a ha) (nul_free_cons _ _ (by decide)
      (nul_free_append _ _ (reg_nul_free b hb) (nul_free_cons _ _ (by decide)
        (reg_nul_free c hc))))
  have hwalk := walk_add r54 0 0
    ({ pdesc0 with flags := flags, mach := flags &&& NASM_OPEN_ARCH_MASK })
    ({ pinsn with defuse := defuse, insn := B, field := none, attr := attr }) a b c []
    ha hb hc rfl hallow hB
  rw [List.append_nil] at hwalk
  refine ⟨{ pdesc0 with flags := flags, mach := flags &&& NASM_OPEN_ARCH_MASK },
    [{ opcode_entry "add" "=rt,%ra,%rb" B isize attr defuse with
        lexes := some [0x2100, 44, 0x1101, 44, 0x1102, 0], variant := 0 }],
    [("add".toList, 0)],
    ⟨{ pdesc0 with flags := flags, mach := flags &&& NASM_OPEN_ARCH_MASK, result := .NASM_OK },
      ⟨some 0, B ||| a <<< 20 ||| b <<< 15 ||| c <<< 10, attr,
        defuse ||| DEF_REG a ||| USE_REG b ||| USE_REG c, none⟩,
      [{ opcode_entry "add" "=rt,%ra,%rb" B isize attr defuse with
        lexes := some [0x2100, 44, 0x1101, 44, 0x1102, 0], variant := 0 }]⟩,
    rfl, ?_, rfl, rfl, rfl, rfl⟩
  have key := assemble_found r54
    [{ opcode_entry "add" "=rt,%ra,%rb" B isize attr defuse with
        lexes := some [0x2100, 44, 0x1101, 44, 0x1102, 0], variant := 0 }]
    [("add".toList, 0)]
    ({ pdesc0 with flags := flags, mach := flags &&& NASM_OPEN_ARCH_MASK }) pinsn
    "add".toList ' ' _ 0 (by decide) (Or.inl rfl) hnf (by decide)
  refine key.trans ?_
  simp only [nds32_assemble_found, List.length_cons, List.length_nil, nds32_assemble_chain,
    List.getElem?_cons_zero, build_opcode_syntax, parse_insn, parse_insn_loop,
    parse_insn_variant]
  erw [hwalk]
  rfl

/-- C1 (amended) at `add r1,r2,r3` with base 0. -/
theorem add_encodes_witness :
    ∃ pdesc tbl htab r,
      nds32_asm_init (pdesc_with 0 (resolve_const 0)) 0
          [opcode_entry "add" "=rt,%ra,%rb" 0 4 0xf 0] = some (pdesc, tbl, htab)
        ∧ nds32_assemble (fun n => (n : Int)) tbl htab pdesc pinsn_zero
            ("add ".toList ++ (reg_name 1 ++ ',' :: (reg_name 2 ++ ',' :: reg_name 3)))
          = some r
        ∧ r.pdesc.result = .NASM_OK
        ∧ r.pinsn.opcode = some 0
        ∧ (tbl[0]?).map (fun e => (e.opcode, e.instruction, e.value))
          = some ("add".toList, "=rt,%ra,%rb".toList, 0)
        ∧ r.pinsn.insn = 0 ||| 1 <<< 20 ||| 2 <<< 15 ||| 3 <<< 10 :=
  add_encodes (fun n => (n : Int)) (pdesc_with 0 (resolve_const 0)) pinsn_zero 0 0 4 0xf 0
    1 2 3 (by decide) (by decide) (by decide) (by decide) (Or.inl (by decide))

/-! ## Optional groups -/

theorem lex_char_no_ropt (x : Nat) (h : IS_LEX_CHAR x = true) : x &&& SYN_ROPT = 0 := by
  have hx : x < 128 := by
    simp only [IS_LEX_CHAR, beq_iff_eq, Nat.shiftRight_eq_div_pow] at h
    omega
  have h2 := Nat.and_two_pow x 15
  have hle : x &&& 2 ^ 15 ≤ x := Nat.and_le_left
  have : SYN_ROPT = 2 ^ 15 := by decide
  rw [this]
  cases hb : x.testBit 15
  · rw [hb] at h2
    simpa using h2
  · rw [hb] at h2
    have h3 : x &&& 2 ^ 15 = 32768 := by simpa using h2
    omega

theorem plain_lex_cases (x : Nat) (h : plain_lex x = true) :
    x ≠ 0 ∧ x &&& SYN_ROPT = 0
      ∧ (IS_LEX_CHAR x = true
          ∨ (IS_LEX_CHAR x = false ∧ x &&& SYN_LOPT = 0)) := by
  simp only [plain_lex, Bool.and_eq_true, Bool.or_eq_true, bne_iff_ne, ne_eq, beq_iff_eq] at h
  obtain ⟨h0, h1⟩ := h
  refine ⟨h0, ?_, ?_⟩
  · rcases h1 with h1 | h1
    · exact lex_char_no_ropt x h1
    · exact h1.2
  · cases hc : IS_LEX_CHAR x
    · rcases h1 with h1 | h1
      · rw [hc] at h1
        cases h1
      · exact Or.inr ⟨rfl, h1.1⟩
    · exact Or.inl rfl

/-- The walk over a run of plain elements does not look at `variant` or `opt`: what
it does depends only on how the walk goes on after the run. -/
theorem walk_plain_congr (r54 : Nat → Int) (v1 v2 o1 o2 : Nat) (a l1 l2 : List Nat)
    (ha : a.all plain_lex = true)
    (h : ∀ pdesc pinsn p, parse_insn_walk r54 v1 l1 false o1 pdesc pinsn p
      = parse_insn_walk r54 v2 l2 false o2 pdesc pinsn p) :
    ∀ pdesc pinsn p, parse_insn_walk r54 v1 (a ++ l1) false o1 pdesc pinsn p
      = parse_insn_walk r54 v2 (a ++ l2) false o2 pdesc pinsn p := by
  induction a with
  | nil => exact h
  | cons x a ih =>
    rw [List.all_cons, Bool.and_eq_true] at ha
    obtain ⟨hx0, hxr, hx⟩ := plain_lex_cases x ha.1
    intro pdesc pinsn p
    rcases hx with hc | ⟨hc, hl⟩
    · rw [List.cons_append, List.cons_append, walk_char _ _ _ _ _ _ _ _ hx0 hc,
        walk_char _ _ _ _ _ _ _ _ hx0 hc, ih ha.2]
    · rw [List.cons_append, List.cons_append, walk_field _ _ _ _ _ _ _ _ hx0 hc hl hxr,
        walk_field _ _ _ _ _ _ _ _ hx0 hc hl hxr]
      cases parse_operand r54 pdesc pinsn p x with
      | none => rfl
      | some res =>
        dsimp only
        rw [ih ha.2]

/-- The loop `while ((*plex & SYN_ROPT) == 0) plex++` over a group body stops at
the group end, and the walk goes on after it. -/
theorem walk_skip (r54 : Nat → Int) (variant opt : Nat) (g l : List Nat)
    (hg : g.all plain_lex = true) (pdesc : nds32_asm_desc) (pinsn : nds32_asm_insn)
    (p : List Char) :
    parse_insn_walk r54 variant (g ++ SYN_ROPT :: l) true opt pdesc pinsn p
      = parse_insn_walk r54 variant l false opt pdesc pinsn p := by
  induction g with
  | nil => simp [parse_insn_walk, SYN_ROPT]
  | cons x g ih =>
    rw [List.all_cons, Bool.and_eq_true] at hg
    obtain ⟨_, hxr, _⟩ := plain_lex_cases x hg.1
    rw [List.cons_append]
    simp only [parse_insn_walk, hxr, ne_eq, not_true_eq_false, if_false]
    exact ih hg.2

theorem bit_test_iff (opt variant : Nat) :
    (1 <<< opt) &&& variant ≠ 0 ↔ variant.testBit opt = true := by
  rw [Nat.and_comm, Nat.shiftLeft_eq, Nat.one_mul, Nat.and_two_pow]
  cases variant.testBit opt <;> simp

/-- A group start: the group is left out when its bit is set in `variant`, and
walked otherwise. -/
theorem walk_lopt (r54 : Nat → Int) (variant opt : Nat) (g l : List Nat)
    (hg : g.all plain_lex = true) (pdesc : nds32_asm_desc) (pinsn : nds32_asm_insn)
    (p : List Char) :
    parse_insn_walk r54 variant (SYN_LOPT :: (g ++ SYN_ROPT :: l)) false opt pdesc pinsn p
      = if variant.testBit opt then
          parse_insn_walk r54 variant l false (opt + 1) pdesc pinsn p
        else parse_insn_walk r54 variant (g ++ SYN_ROPT :: l) false (opt + 1) pdesc pinsn p := by
  have h0 : SYN_LOPT ≠ 0 := by decide
  have h1 : IS_LEX_CHAR SYN_LOPT = false := by decide
  have h2 : SYN_LOPT &&& SYN_LOPT ≠ 0 := by decide
  have h3 : SYN_LOPT &&& SYN_ROPT = 0 := by decide
  by_cases hb : variant.testBit opt = true
  · have hb' := (bit_test_iff opt variant).2 hb
    simp only [parse_insn_walk, h0, h1, h2, h3, hb, hb', if_true, if_false, ne_eq,
      not_false_eq_true, not_true_eq_false, Bool.false_eq_true]
    exact walk_skip _ _ _ _ _ hg _ _ _
  · have hb' : ¬ (1 <<< opt) &&& variant ≠ 0 := fun hc => hb ((bit_test_iff opt variant).1 hc)
    simp only [parse_insn_walk, h0, h1, h2, hb, hb', if_true, if_false, ne_eq,
      not_false_eq_true, Bool.false_eq_true]

theorem walk_ropt (r54 : Nat → Int) (variant opt : Nat) (l : List Nat)
    (pdesc : nds32_asm_desc) (pinsn : nds32_asm_insn) (p : List Char) :
    parse_insn_walk r54 variant (SYN_ROPT :: l) false opt pdesc pinsn p
      = parse_insn_walk r54 variant l false opt pdesc pinsn p := by
  have h0 : SYN_ROPT ≠ 0 := by decide
  have h1 : IS_LEX_CHAR SYN_ROPT = false := by decide
  have h2 : SYN_ROPT &&& SYN_LOPT = 0 := by decide
  have h3 : SYN_ROPT &&& SYN_ROPT ≠ 0 := by decide
  simp only [parse_insn_walk, h0, h1, h2, h3, if_true, if_false, ne_eq, not_false_eq_true,
    not_true_eq_false, Bool.false_eq_true]

/-- The walk of combination `variant` over a pattern with groups is the walk over
the group-free pattern that the combination selects. -/
theorem walk_select (r54 : Nat → Int) (variant : Nat) (segs : List (List Nat × List Nat))
    (rest : List Nat)
    (hsegs : segs.all (fun s => s.1.all plain_lex && s.2.all plain_lex) = true)
    (hrest : rest.all plain_lex = true) :
    ∀ opt pdesc pinsn p,
      parse_insn_walk r54 variant (flat_template segs rest) false opt pdesc pinsn p
        = parse_insn_walk r54 0 (select_groups variant opt segs rest) false 0 pdesc pinsn p := by
  induction segs with
  | nil =>
    intro opt
    exact walk_plain_congr r54 variant 0 opt 0 rest [0] [0] hrest
      (fun pdesc pinsn p => by rw [walk_end, walk_end])
  | cons s segs ih =>
    obtain ⟨a, g⟩ := s
    rw [List.all_cons, Bool.and_eq_true, Bool.and_eq_true] at hsegs
    obtain ⟨⟨ha, hg⟩, hs⟩ := hsegs
    intro opt
    show ∀ pdesc pinsn p, parse_insn_walk r54 variant
      (a ++ SYN_LOPT :: (g ++ SYN_ROPT :: flat_template segs rest)) false opt pdesc pinsn p
      = parse_insn_walk r54 0 (a ++ ((if variant.testBit opt then [] else g)
          ++ select_groups variant (opt + 1) segs rest)) false 0 pdesc pinsn p
    apply walk_plain_congr r54 variant 0 opt 0 a _ _ ha
    intro pdesc pinsn p
    rw [walk_lopt _ _ _ _ _ hg]
    by_cases hb : variant.testBit opt = true
    · rw [if_pos hb, if_pos hb, List.nil_append]
      exact ih hs (opt + 1) pdesc pinsn p
    · rw [if_neg hb, if_neg hb]
      apply walk_plain_congr r54 variant 0 (opt + 1) 0 g _ _ hg
      intro pdesc pinsn p
      rw [walk_ropt]
      exact ih hs (opt + 1) pdesc pinsn p

theorem loop_try (r54 : Nat → Int) (str : List Char) (opc : nds32_opcode)
    (segs : List (List Nat × List Nat)) (rest : List Nat)
    (hsegs : segs.all (fun s => s.1.all plain_lex && s.2.all plain_lex) = true)
    (hrest : rest.all plain_lex = true)
    (hlex : opc.lexes = some (flat_template segs rest)) :
    ∀ n v pdesc pinsn, v + (n + 1) = 1 <<< opc.variant →
      parse_insn_loop r54 str opc (n + 1) v pdesc pinsn
        = try_templates r54 str opc.value
            ((List.range' v (n + 1)).map (fun v => select_groups v 0 segs rest)) pdesc pinsn := by
  intro n
  induction n with
  | zero =>
    intro v pdesc pinsn hv
    have hnot : ¬ v + 1 < 1 <<< opc.variant := by omega
    simp only [parse_insn_loop, parse_insn_variant, hlex, walk_select r54 _ segs rest hsegs hrest,
      List.range', List.map_cons, List.map_nil, try_templates, hnot, if_false]
    cases parse_insn_walk r54 0 (select_groups v 0 segs rest) false 0 pdesc
        { pinsn with insn := opc.value } str with
    | none => rfl
    | some w => cases hc : (w.finished && at_insn_end w.p) <;> simp [hc]
  | succ n ih =>
    intro v pdesc pinsn hv
    have hlt : v + 1 < 1 <<< opc.variant := by omega
    have hrange : List.range' v (n + 1 + 1) = v :: List.range' (v + 1) (n + 1) := rfl
    rw [hrange, List.map_cons]
    rw [parse_insn_loop]
    simp only [parse_insn_variant, hlex, walk_select r54 _ segs rest hsegs hrest, try_templates,
      hlt, if_true]
    cases parse_insn_walk r54 0 (select_groups v 0 segs rest) false 0 pdesc
        { pinsn with insn := opc.value } str with
    | none => rfl
    | some w =>
      cases hc : (w.finished && at_insn_end w.p)
      · simp only [hc, Bool.false_eq_true, if_false]
        exact ih (v + 1) w.pdesc w.pinsn (by omega)
      · simp [hc]

/-- C7: for a compiled pattern whose optional groups follow one another,
`parse_insn` tries the combinations `variant = 0, 1, 2, ...` in ascending order,
and combination `variant` is the pattern with group number `i` left out exactly
when bit `i` of `variant` is set (`select_groups`); the first accepted combination
ends the search.  With two groups the four patterns tried are, in this order: both
groups, the second only, the first only, none. -/
theorem optional_group_order (r54 : Nat → Int) (pdesc : nds32_asm_desc)
    (pinsn : nds32_asm_insn) (str : List Char) (opc : nds32_opcode)
    (segs : List (List Nat × List Nat)) (rest : List Nat)
    (hsegs : segs.all (fun s => s.1.all plain_lex && s.2.all plain_lex) = true)
    (hrest : rest.all plain_lex = true)
    (hlex : opc.lexes = some (flat_template segs rest))
    (hk : opc.variant = segs.length) :
    parse_insn r54 pdesc pinsn str opc
        = try_templates r54 str opc.value
            ((List.range (2 ^ segs.length)).map (fun v => select_groups v 0 segs rest))
            pdesc pinsn
      ∧ ∀ a g1 b g2, segs = [(a, g1), (b, g2)] →
          (List.range (2 ^ segs.length)).map (fun v => select_groups v 0 segs rest)
            = [a ++ (g1 ++ (b ++ (g2 ++ (rest ++ [0])))),
               a ++ (b ++ (g2 ++ (rest ++ [0]))),
               a ++ (g1 ++ (b ++ (rest ++ [0]))),
               a ++ (b ++ (rest ++ [0]))] := by
  constructor
  · have hK : 1 <<< opc.variant = 2 ^ segs.length := by
      rw [hk, Nat.shiftLeft_eq, Nat.one_mul]
    have hpos : 0 < 2 ^ segs.length := by positivity
    obtain ⟨n, hn⟩ : ∃ n, 2 ^ segs.length = n + 1 := ⟨2 ^ segs.length - 1, by omega⟩
    unfold parse_insn
    rw [hK, hn, List.range_eq_range']
    exact loop_try r54 str opc segs rest hsegs hrest hlex n 0 pdesc pinsn (by omega)
  · intro a g1 b g2 hs
    subst hs
    have h4 : List.range (2 ^ [(a, g1), (b, g2)].length) = [0, 1, 2, 3] := by
      show List.range (2 ^ 2) = [0, 1, 2, 3]
      decide
    have t00 : Nat.testBit 0 0 = false := by decide
    have t01 : Nat.testBit 0 1 = false := by decide
    have t10 : Nat.testBit 1 0 = true := by decide
    have t11 : Nat.testBit 1 1 = false := by decide
    have t20 : Nat.testBit 2 0 = false := by decide
    have t21 : Nat.testBit 2 1 = true := by decide
    have t30 : Nat.testBit 3 0 = true := by decide
    have t31 : Nat.testBit 3 1 = true := by decide
    rw [h4]
    simp only [List.map_cons, List.map_nil, select_groups, t00, t01, t10, t11, t20, t21, t30,
      t31, if_true, if_false, List.nil_append, Bool.false_eq_true, Nat.zero_add, Nat.reduceAdd]

/-- C7 at the pattern `=rt{,%ra}{,%rb}`. -/
theorem optional_group_order_witness :
    parse_insn (fun n => (n : Int)) (pdesc_with 0 (resolve_const 0)) pinsn_zero "r1,r3".toList
        (compiled (opcode_entry "op" "=rt\x7b,%ra\x7d\x7b,%rb\x7d" 0 4 0xf 0))
      = try_templates (fun n => (n : Int)) "r1,r3".toList 0
          [[0x2100, 44, 0x1101, 44, 0x1102, 0], [0x2100, 44, 0x1102, 0],
            [0x2100, 44, 0x1101, 0], [0x2100, 0]]
          (pdesc_with 0 (resolve_const 0)) pinsn_zero :=
  (optional_group_order (fun n => (n : Int)) (pdesc_with 0 (resolve_const 0)) pinsn_zero
    "r1,r3".toList (compiled (opcode_entry "op" "=rt\x7b,%ra\x7d\x7b,%rb\x7d" 0 4 0xf 0))
    [([0x2100], [44, 0x1101]), ([], [44, 0x1102])] [] (by decide) (by decide) rfl rfl).1

/-! ## The pattern of `lmw` -/

/-- The keyword `adm` under the field `abdim`. -/
theorem adm_operand (r54 : Nat → Int) (pdesc : nds32_asm_desc) (pinsn : nds32_asm_insn)
    (rest : List Char) (hrest : keyword_ends rest = true) (hword : pinsn.insn < 2 ^ 32) :
    parse_operand r54 pdesc pinsn ('a' :: 'd' :: 'm' :: rest) 0x112e
      = some ⟨true, pdesc, { pinsn with insn := pinsn.insn ||| 7 <<< 2 }, rest⟩ := by
  have hkv : keyword_value r54 ⟨"abdim".toList, 2, 3, 0, HW_ABDIM, none⟩
      ⟨"adm".toList, 7, 0⟩ = 7 := by
    unfold keyword_value
    rw [if_neg (fun hc => absurd hc.1 (by decide))]
    rfl
  have h := keyword_operand_ok r54 pdesc pinsn ⟨"abdim".toList, 2, 3, 0, HW_ABDIM, none⟩ 0x112e
    false "adm".toList rest ⟨"adm".toList, 7, 0⟩ rfl (by decide) (by decide) (by decide) hrest
    (by decide) (fun hc => absurd hc.1 (by decide)) (by rw [hkv]; decide) (by rw [hkv]; decide)
    (by rw [hkv]; decide)
  have hm := (pack_bits pinsn.insn 7 2 3 (by norm_num) hword (by norm_num)).1
  have hv : (keyword_value r54 ⟨"abdim".toList, 2, 3, 0, HW_ABDIM, none⟩
      ⟨"adm".toList, 7, 0⟩ / 2 ^ 0 % 2 ^ 3).toNat = 7 := by rw [hkv]; decide
  have hd : record_defuse pinsn ⟨"abdim".toList, 2, 3, 0, HW_ABDIM, none⟩ 0x112e
      ⟨"adm".toList, 7, 0⟩ = pinsn := by
    simp [record_defuse, HW_ABDIM, HW_GPR]
  unfold parse_operand
  rw [show LEX_GET_FIELD 0x112e = some ⟨"abdim".toList, 2, 3, 0, HW_ABDIM, none⟩ by decide]
  dsimp only at h ⊢
  rw [hv, hd, hm] at h
  exact h

/-- The walk over the elements of `%abdim %rt,[%ra],%rb` that stand before the
optional group, on the text `adm r4,[r5],r6`. -/
theorem walk_lmw_head (r54 : Nat → Int) (variant opt : Nat) (l : List Nat)
    (pdesc : nds32_asm_desc) (pinsn : nds32_asm_insn) (rest : List Char)
    (hrest : keyword_ends rest = true) (hword : pinsn.insn < 2 ^ 32) :
    parse_insn_walk r54 variant
        (0x112e :: 32 :: 0x1100 :: 44 :: 91 :: 0x1101 :: 93 :: 44 :: 0x1102 :: l) false opt
        pdesc pinsn
        ('a' :: 'd' :: 'm' :: ' ' :: (reg_name 4 ++ ',' :: '[' :: (reg_name 5
          ++ ']' :: ',' :: (reg_name 6 ++ rest))))
      = parse_insn_walk r54 variant l false opt pdesc
          { pinsn with
            insn := pinsn.insn ||| 7 <<< 2 ||| 4 <<< 20 ||| 5 <<< 15 ||| 6 <<< 10,
            defuse := pinsn.defuse ||| USE_REG 4 ||| USE_REG 5 ||| USE_REG 6 }
          rest := by
  have hall : ∀ a, pdesc.flags &&& NASM_OPEN_REDUCED_REG = 0 ∨ reduced_reg a = true →
      pdesc.flags &&& NASM_OPEN_REDUCED_REG = 0 ∨ reduced_reg a = true := fun _ h => h
  obtain ⟨e0, l0⟩ : (pinsn.insn ||| 7 <<< 2) % 2 ^ 32 = pinsn.insn ||| 7 <<< 2
      ∧ pinsn.insn ||| 7 <<< 2 < 2 ^ 32 := by
    have h := pack_bits pinsn.insn 7 2 3 (by norm_num) hword (by norm_num)
    exact ⟨h.1, by rw [← h.1]; exact Nat.mod_lt _ (by norm_num)⟩
  obtain ⟨e1, l1⟩ := or_shift_mod _ 4 20 l0 (by norm_num) (by norm_num)
  obtain ⟨e2, l2⟩ := or_shift_mod _ 5 15 l1 (by norm_num) (by norm_num)
  obtain ⟨e3, _⟩ := or_shift_mod _ 6 10 l2 (by norm_num) (by norm_num)
  rw [walk_field _ _ 0x112e _ _ _ _ _ (by decide) (by decide) (by decide) (by decide),
    adm_operand r54 pdesc pinsn _ (by rfl) hword]
  dsimp only
  rw [if_pos rfl, walk_char_eq _ _ 32 _ _ _ _ ' ' _ (by decide) (by decide) (by decide),
    walk_field _ _ 0x1100 _ _ _ _ _ (by decide) (by decide) (by decide) (by decide),
    reg_operand r54 pdesc _ ⟨"rt".toList, 20, 5, 0, HW_GPR, none⟩ 0x1100 4 _
      (by decide) rfl rfl rfl rfl (by norm_num) (by rfl) (Or.inr rfl)]
  dsimp only
  rw [if_pos rfl, walk_char_eq _ _ 44 _ _ _ _ ',' _ (by decide) (by decide) (by decide),
    walk_char_eq _ _ 91 _ _ _ _ '[' _ (by decide) (by decide) (by decide),
    walk_field _ _ 0x1101 _ _ _ _ _ (by decide) (by decide) (by decide) (by decide),
    reg_operand r54 pdesc _ ⟨"ra".toList, 15, 5, 0, HW_GPR, none⟩ 0x1101 5 _
      (by decide) rfl rfl rfl rfl (by norm_num) (by rfl) (Or.inr rfl)]
  dsimp only
  rw [if_pos rfl, walk_char_eq _ _ 93 _ _ _ _ ']' _ (by decide) (by decide) (by decide),
    walk_char_eq _ _ 44 _ _ _ _ ',' _ (by decide) (by decide) (by decide),
    walk_field _ _ 0x1102 _ _ _ _ _ (by decide) (by decide) (by decide) (by decide),
    reg_operand r54 pdesc _ ⟨"rb".toList, 10, 5, 0, HW_GPR, none⟩ 0x1102 6 _
      (by decide) rfl rfl rfl rfl (by norm_num) hrest (Or.inr rfl)]
  dsimp only
  rw [if_pos rfl]
  simp only [record_defuse, HW_GPR, SYN_INPUT, SYN_OUTPUT, e1, e2, e3]
  rfl

/-! ## The dotted-suffix retry -/

/-- The compiled `lmw` on the operand text `adm r4,[r5],r6`: the combination with
the optional group is refused, the one without it is accepted. -/
theorem parse_insn_lmw (r54 : Nat → Int) (pdesc : nds32_asm_desc) (pinsn : nds32_asm_insn)
    (B isize attr defuse : Nat) (hB : B < 2 ^ 32) :
    ∃ pdesc1 pinsn1,
      parse_insn r54 pdesc pinsn "adm r4,[r5],r6".toList
          { opcode_entry "lmw" "%abdim %rt,[%ra],%rb\x7b,%enb4\x7d" B isize attr defuse with
            lexes := some [0x112e, 32, 0x1100, 44, 91, 0x1101, 93, 44, 0x1102,
              0x4000, 44, 0x1112, 0x8000, 0],
            variant := 1 }
        = some (true, pdesc1, pinsn1)
      ∧ pinsn1.insn = B ||| 7 <<< 2 ||| 4 <<< 20 ||| 5 <<< 15 ||| 6 <<< 10 := by
  have hg : [44, 0x1112].all plain_lex = true := by decide
  have h0 := fun (v : Nat) (pd : nds32_asm_desc) (pi : nds32_asm_insn) (hw : pi.insn < 2 ^ 32) =>
    walk_lmw_head r54 v 0 (SYN_LOPT :: ([44, 0x1112] ++ SYN_ROPT :: [0])) pd pi [] rfl hw
  simp only [List.append_nil] at h0
  have hv0 : parse_insn_variant r54 pdesc pinsn "adm r4,[r5],r6".toList
      { opcode_entry "lmw" "%abdim %rt,[%ra],%rb\x7b,%enb4\x7d" B isize attr defuse with
        lexes := some [0x112e, 32, 0x1100, 44, 91, 0x1101, 93, 44, 0x1102,
          0x4000, 44, 0x1112, 0x8000, 0],
        variant := 1 } 0
      = some (false, { pdesc with result := .NASM_ERR_SYNTAX },
          { pinsn with
            insn := B ||| 7 <<< 2 ||| 4 <<< 20 ||| 5 <<< 15 ||| 6 <<< 10,
            defuse := pinsn.defuse ||| USE_REG 4 ||| USE_REG 5 ||| USE_REG 6 }) := by
    unfold parse_insn_variant
    dsimp only
    erw [h0 0 pdesc ({ pinsn with insn := B }) hB, walk_lopt _ _ _ _ _ hg,
      if_neg (by decide),
      walk_char_ne _ _ 44 _ _ _ _ [] (by decide) (by decide) (by decide)]
    rfl
  have hv1 : ∀ pd pi, parse_insn_variant r54 pd pi "adm r4,[r5],r6".toList
      { opcode_entry "lmw" "%abdim %rt,[%ra],%rb\x7b,%enb4\x7d" B isize attr defuse with
        lexes := some [0x112e, 32, 0x1100, 44, 91, 0x1101, 93, 44, 0x1102,
          0x4000, 44, 0x1112, 0x8000, 0],
        variant := 1 } 1
      = some (true, pd,
          { pi with
            insn := B ||| 7 <<< 2 ||| 4 <<< 20 ||| 5 <<< 15 ||| 6 <<< 10,
            defuse := pi.defuse ||| USE_REG 4 ||| USE_REG 5 ||| USE_REG 6 }) := by
    intro pd pi
    unfold parse_insn_variant
    dsimp only
    erw [h0 1 pd ({ pi with insn := B }) hB, walk_lopt _ _ _ _ _ hg, if_pos (by decide),
      walk_end]
    rfl
  refine ⟨{ pdesc with result := .NASM_ERR_SYNTAX },
    { pinsn with
      insn := B ||| 7 <<< 2 ||| 4 <<< 20 ||| 5 <<< 15 ||| 6 <<< 10,
      defuse := pinsn.defuse ||| USE_REG 4 ||| USE_REG 5 ||| USE_REG 6
        ||| USE_REG 4 ||| USE_REG 5 ||| USE_REG 6 }, ?_, rfl⟩
  unfold parse_insn
  show parse_insn_loop _ _ _ (1 + 1) 0 _ _ = _
  rw [parse_insn_loop, hv0]
  dsimp only
  rw [if_pos (by decide), parse_insn_loop, hv1]

/-- The example of C9: with (`lmw`, `%abdim %rt,[%ra],%rb{,%enb4}`, base `B`) in the
table and no entry `lmw.adm`, the line `lmw.adm r4,[r5],r6` is encoded through the
retry on `lmw`, with the word `B | 7 << 2 | 4 << 20 | 5 << 15 | 6 << 10`. -/
theorem lmw_adm_encodes (r54 : Nat → Int) (pdesc0 : nds32_asm_desc) (pinsn : nds32_asm_insn)
    (flags B isize attr defuse : Nat) (hB : B < 2 ^ 32) :
    ∃ pdesc tbl htab r,
      nds32_asm_init pdesc0 flags
          [opcode_entry "lmw" "%abdim %rt,[%ra],%rb\x7b,%enb4\x7d" B isize attr defuse]
        = some (pdesc, tbl, htab)
      ∧ opcode_find htab "lmw.adm".toList = none
      ∧ nds32_assemble r54 tbl htab pdesc pinsn "lmw.adm r4,[r5],r6".toList = some r
      ∧ r.pdesc.result = .NASM_OK
      ∧ r.pinsn.opcode = some 0
      ∧ r.pinsn.insn = B ||| 7 <<< 2 ||| 4 <<< 20 ||| 5 <<< 15 ||| 6 <<< 10 := by
  obtain ⟨pdesc1, pinsn1, hp, hi⟩ := parse_insn_lmw r54
    ({ pdesc0 with flags := flags, mach := flags &&& NASM_OPEN_ARCH_MASK })
    ({ pinsn with defuse := defuse, insn := 0, field := none, attr := attr })
    B isize attr defuse hB
  have key := assemble_dot_retry r54
    [{ opcode_entry "lmw" "%abdim %rt,[%ra],%rb\x7b,%enb4\x7d" B isize attr defuse with
        lexes := some [0x112e, 32, 0x1100, 44, 91, 0x1101, 93, 44, 0x1102,
          0x4000, 44, 0x1112, 0x8000, 0],
        variant := 1 }]
    [("lmw".toList, 0)]
    ({ pdesc0 with flags := flags, mach := flags &&& NASM_OPEN_ARCH_MASK }) pinsn
    "lmw".toList "adm".toList ' ' "r4,[r5],r6".toList (by decide) (by decide) (Or.inl rfl)
    (by decide) (by decide)
  refine ⟨{ pdesc0 with flags := flags, mach := flags &&& NASM_OPEN_ARCH_MASK },
    [{ opcode_entry "lmw" "%abdim %rt,[%ra],%rb\x7b,%enb4\x7d" B isize attr defuse with
        lexes := some [0x112e, 32, 0x1100, 44, 91, 0x1101, 93, 44, 0x1102,
          0x4000, 44, 0x1112, 0x8000, 0],
        variant := 1 }],
    [("lmw".toList, 0)],
    ⟨{ pdesc1 with result := .NASM_OK }, { pinsn1 with opcode := some 0 },
      [{ opcode_entry "lmw" "%abdim %rt,[%ra],%rb\x7b,%enb4\x7d" B isize attr defuse with
        lexes := some [0x112e, 32, 0x1100, 44, 91, 0x1101, 93, 44, 0x1102,
          0x4000, 44, 0x1112, 0x8000, 0],
        variant := 1 }]⟩,
    rfl, by decide, ?_, rfl, rfl, hi⟩
  refine key.trans ?_
  have hf : opcode_find [("lmw".toList, 0)] "lmw".toList = some 0 := by decide
  rw [hf]
  simp only [nds32_assemble_found, List.length_cons, List.length_nil, nds32_assemble_chain,
    List.getElem?_cons_zero, build_opcode_syntax]
  erw [hp]
  rfl

/-- C9 fails without operands: on the line `lmw.` (mnemonic `lmw.`, not in the
table, whose prefix `lmw` is in the table) the statement `s[-1] = ' '` overwrites
the NUL just stored over the dot, the retry looks up `lmw ` and the call ends with
`NASM_ERR_UNKNOWN_OP`, the instruction untouched; matching the overloads of `lmw`
against the operand text of one blank ends with `NASM_ERR_SYNTAX` instead.  On
`lmw.adm` the same statement overwrites the last letter of the suffix: the field
`abdim` is read from `ad ` (value 6), not from `adm` (value 7). -/
theorem dot_retry_loses_suffix :
    assemble_line (fun n => (n : Int)) (resolve_const 0) 0
        [opcode_entry "lmw" "%abdim %rt,[%ra],%rb\x7b,%enb4\x7d" 0 4 0xf 0] "lmw."
      = some (.NASM_ERR_UNKNOWN_OP, pinsn_zero)
    ∧ (assemble_line (fun n => (n : Int)) (resolve_const 0) 0
        [opcode_entry "lmw" "%abdim %rt,[%ra],%rb\x7b,%enb4\x7d" 0 4 0xf 0] "lmw  ").map
          (fun r => r.1) = some .NASM_ERR_SYNTAX
    ∧ (assemble_line (fun n => (n : Int)) (resolve_const 0) 0
        [opcode_entry "lmw" "%abdim %rt,[%ra],%rb\x7b,%enb4\x7d" 0 4 0xf 0] "lmw.adm").map
          (fun r => (r.1, r.2.insn)) = some (.NASM_ERR_SYNTAX, 6 <<< 2)
    ∧ (assemble_line (fun n => (n : Int)) (resolve_const 0) 0
        [opcode_entry "lmw" "%abdim %rt,[%ra],%rb\x7b,%enb4\x7d" 0 4 0xf 0] "lmw adm ").map
          (fun r => (r.1, r.2.insn)) = some (.NASM_ERR_SYNTAX, 7 <<< 2) := by
  decide

/-! ## The overload chains built by `nds32_asm_init` -/

theorem build_keeps (opc c : nds32_opcode) (h : build_opcode_syntax opc = some c) :
    c.opcode = opc.opcode ∧ c.instruction = opc.instruction ∧ c.value = opc.value
      ∧ c.isize = opc.isize ∧ c.attr = opc.attr ∧ c.defuse = opc.defuse ∧ c.next = opc.next
      ∧ c.lexes.isSome = true := by
  unfold build_opcode_syntax at h
  split at h
  · rename_i l hl
    injection h with h
    subst h
    simp [hl]
  · split at h
    · cases h
    · split at h
      · injection h with h
        subst h
        simp
      · cases h

theorem build_idem (c : nds32_opcode) (h : c.lexes.isSome = true) :
    build_opcode_syntax c = some c := by
  unfold build_opcode_syntax
  cases hl : c.lexes with
  | none => rw [hl] at h; cases h
  | some l => rfl

/-- The predicate `linked` only reads the `next` members. -/
theorem linked_congr (t1 t2 : List nds32_opcode) (l : List Nat)
    (h : ∀ i, i ∈ l → (t1[i]?).map (fun e => e.next) = (t2[i]?).map (fun e => e.next)) :
    ∀ start, linked t1 l start = linked t2 l start := by
  induction l with
  | nil => intro start; rfl
  | cons i l ih =>
    intro start
    have hi := h i (List.mem_cons_self _ _)
    have ih' := ih (fun j hj => h j (List.mem_cons_of_mem _ hj))
    unfold linked
    cases h1 : t1[i]? with
    | none =>
      rw [h1] at hi
      cases h2 : t2[i]? with
      | none => rfl
      | some e2 => rw [h2] at hi; cases hi
    | some e1 =>
      rw [h1] at hi
      cases h2 : t2[i]? with
      | none => rw [h2] at hi; cases hi
      | some e2 =>
        rw [h2] at hi
        simp only [Option.map_some', Option.some.injEq] at hi
        dsimp only
        rw [hi, ih']

theorem linked_nil_start (tbl : List nds32_opcode) (l : List Nat)
    (h : linked tbl l none = true) : l = [] := by
  cases l with
  | nil => rfl
  | cons i l => simp [linked] at h

theorem linked_cons_start (tbl : List nds32_opcode) (l : List Nat) (j : Nat)
    (h : linked tbl l (some j) = true) : ∃ l', l = j :: l' := by
  cases l with
  | nil => simp [linked] at h
  | cons i l =>
    simp only [linked, Bool.and_eq_true, beq_iff_eq, Option.some.injEq] at h
    exact ⟨l, by rw [h.1]⟩

/-- The loop `while (opc->next) opc = opc->next` ends on the last entry of the
chain. -/
theorem chain_last_linked (tbl : List nds32_opcode) :
    ∀ (l : List Nat) (i fuel : Nat), linked tbl (i :: l) (some i) = true → l.length < fuel →
      chain_last tbl fuel i = some ((i :: l).getLast (List.cons_ne_nil _ _)) := by
  intro l
  induction l with
  | nil =>
    intro i fuel h hf
    obtain ⟨f, rfl⟩ : ∃ f, fuel = f + 1 := ⟨fuel - 1, by omega⟩
    simp only [linked, beq_self_eq_true, Bool.true_and] at h
    unfold chain_last
    cases he : tbl[i]? with
    | none => rw [he] at h; cases h
    | some e =>
      rw [he] at h
      dsimp only at h ⊢
      cases hn : e.next with
      | none => rfl
      | some j => rw [hn] at h; cases h
  | cons k l ih =>
    intro i fuel h hf
    obtain ⟨f, rfl⟩ : ∃ f, fuel = f + 1 := ⟨fuel - 1, by omega⟩
    rw [linked] at h
    simp only [beq_self_eq_true, Bool.true_and] at h
    unfold chain_last
    cases he : tbl[i]? with
    | none => rw [he] at h; cases h
    | some e =>
      rw [he] at h
      dsimp only at h ⊢
      obtain ⟨l', hl'⟩ : ∃ l', k :: l = l' := ⟨_, rfl⟩
      cases hn : e.next with
      | none =>
        rw [hn] at h
        simp [linked] at h
      | some j =>
        rw [hn] at h
        have hj : j = k := by
          simp only [linked, Bool.and_eq_true, beq_iff_eq, Option.some.injEq] at h
          exact h.1
        subst hj
        dsimp only
        rw [ih j f h (by simpa using hf)]
        rfl

theorem linked_append (tbl : List nds32_opcode) (n l : Nat) (last : nds32_opcode)
    (hl : tbl[l]? = some last) (hn : ∃ e, tbl[n]? = some e ∧ e.next = none) :
    ∀ (L : List Nat) (s : Option Nat) (hne : L ≠ []), linked tbl L s = true → L.Nodup →
      n ∉ L → L.getLast hne = l →
      linked (tbl.set l { last with next := some n }) (L ++ [n]) s = true := by
  have hlt : l < tbl.length := by
    by_contra hc
    rw [List.getElem?_eq_none (by omega)] at hl
    cases hl
  intro L
  induction L with
  | nil => intro s hne; exact absurd rfl hne
  | cons i L ih =>
    intro s hne hlink hnd hnot hlast
    rw [List.nodup_cons] at hnd
    have hni : n ≠ i := fun hc => hnot (by rw [hc]; exact List.mem_cons_self _ _)
    have hnL : n ∉ L := fun hc => hnot (List.mem_cons_of_mem _ hc)
    simp only [linked, Bool.and_eq_true, beq_iff_eq] at hlink
    obtain ⟨hs, hrest⟩ := hlink
    cases L with
    | nil =>
      have hil : i = l := by simpa using hlast
      subst hil
      obtain ⟨e, hen, henext⟩ := hn
      have h2 : (tbl.set i { last with next := some n })[n]? = some e := by
        rw [List.getElem?_set_ne (Ne.symm hni), hen]
      simp only [List.nil_append, List.singleton_append, linked, hs, beq_self_eq_true,
        Bool.true_and, List.getElem?_set_self hlt, h2, henext, Option.isNone_none]
    | cons k L' =>
      have hlmem : l ∈ k :: L' := by
        rw [← hlast, List.getLast_cons (List.cons_ne_nil k L')]
        exact List.getLast_mem _
      have hil : l ≠ i := fun hc => hnd.1 (by rw [← hc]; exact hlmem)
      cases he : tbl[i]? with
      | none => rw [he] at hrest; cases hrest
      | some e =>
        rw [he] at hrest
        dsimp only at hrest
        have h2 : (tbl.set l { last with next := some n })[i]? = some e := by
          rw [List.getElem?_set_ne hil, he]
        have hlast' : (k :: L').getLast (List.cons_ne_nil k L') = l := by
          rw [← hlast, List.getLast_cons (List.cons_ne_nil k L')]
        have := ih e.next (List.cons_ne_nil k L') hrest hnd.2 hnL hlast'
        rw [List.cons_append, linked, hs, h2]
        simpa using this

theorem named_below_succ (ops : List nds32_opcode) (m : List Char) (n : Nat) :
    named_below ops m (n + 1)
      = named_below ops m n
        ++ (if (ops[n]?).map (fun e => e.opcode) == some m then [n] else []) := by
  unfold named_below
  rw [List.range_succ, List.filter_append]
  congr 1
  simp only [List.filter_cons, List.filter_nil]

theorem named_below_mem (ops : List nds32_opcode) (m : List Char) (n i : Nat)
    (h : i ∈ named_below ops m n) : i < n ∧ (ops[i]?).map (fun e => e.opcode) = some m := by
  unfold named_below at h
  rw [List.mem_filter, List.mem_range] at h
  exact ⟨h.1, by simpa using h.2⟩

theorem named_below_nodup (ops : List nds32_opcode) (m : List Char) (n : Nat) :
    (named_below ops m n).Nodup :=
  List.Nodup.filter _ (List.nodup_range n)

theorem named_below_length (ops : List nds32_opcode) (m : List Char) (n : Nat) :
    (named_below ops m n).length ≤ n := by
  unfold named_below
  exact (List.length_filter_le _ _).trans (by simp)

theorem opcode_find_append_ne (htab : List (List Char × Nat)) (m0 m : List Char) (n : Nat)
    (h : m0 ≠ m) : opcode_find (htab ++ [(m0, n)]) m = opcode_find htab m := by
  unfold opcode_find
  rw [List.find?_append]
  cases List.find? (fun e => decide (e.1 = m)) htab with
  | none => simp [List.find?, h]
  | some x => rfl

theorem opcode_find_append_new (htab : List (List Char × Nat)) (m0 : List Char) (n : Nat)
    (h : opcode_find htab m0 = none) : opcode_find (htab ++ [(m0, n)]) m0 = some n := by
  unfold opcode_find at h ⊢
  rw [List.find?_append]
  cases hf : List.find? (fun e => decide (e.1 = m0)) htab with
  | none => simp [List.find?]
  | some x => rw [hf] at h; cases h

theorem set_next_eq (c last : nds32_opcode) (x : Option Nat)
    (h : last = { c with next := last.next }) :
    ({ last with next := x } : nds32_opcode) = { c with next := x } := by
  rw [h]

theorem init_inv_zero (ops : List nds32_opcode) : init_inv ops 0 ops [] where
  len := rfl
  handled := fun i _ hi _ => absurd hi (Nat.not_lt_zero i)
  untouched := fun _ _ => rfl
  chain := fun _ => rfl

/-- One round of the table loop of `nds32_asm_init` keeps the invariant. -/
theorem init_step_inv (ops : List nds32_opcode) (hfresh : ∀ e ∈ ops, e.next = none)
    (n : Nat) (tbl : List nds32_opcode) (htab : List (List Char × Nat))
    (st : List nds32_opcode × List (List Char × Nat))
    (hinv : init_inv ops n tbl htab) (hn : n < ops.length)
    (hstep : nds32_asm_init_step (tbl, htab) n = some st) :
    init_inv ops (n + 1) st.1 st.2 := by
  obtain ⟨opc, hopc⟩ : ∃ opc, ops[n]? = some opc := ⟨ops[n], List.getElem?_eq_getElem hn⟩
  have htn : tbl[n]? = some opc := by rw [hinv.untouched n (le_refl n), hopc]
  have hnl : n < tbl.length := by rw [hinv.len]; exact hn
  have hfr : opc.next = none := hfresh opc (List.getElem?_mem hopc)
  have hname : (ops[n]?).map (fun e => e.opcode) = some opc.opcode := by rw [hopc]; rfl
  unfold nds32_asm_init_step at hstep
  dsimp only at hstep
  rw [htn] at hstep
  dsimp only at hstep
  cases hb : build_opcode_syntax opc with
  | none => rw [hb] at hstep; cases hstep
  | some opc1 =>
    rw [hb] at hstep
    dsimp only at hstep
    obtain ⟨_, _, _, _, _, _, hk7, _⟩ := build_keeps opc opc1 hb
    have h1n : (tbl.set n opc1)[n]? = some opc1 := List.getElem?_set_self hnl
    have h1next : opc1.next = none := by rw [hk7, hfr]
    have hB : ∀ L s, linked (tbl.set n opc1) L s = linked tbl L s := by
      intro L s
      apply linked_congr
      intro i _
      by_cases hi : n = i
      · subst hi
        rw [h1n, htn]
        simp [hk7]
      · rw [List.getElem?_set_ne hi]
    cases hfind : opcode_find htab opc.opcode with
    | none =>
      rw [hfind] at hstep
      dsimp only at hstep
      injection hstep with hstep
      subst hstep
      refine ⟨by rw [List.length_set]; exact hinv.len, ?_, ?_, ?_⟩
      · intro i e0 hi he0
        by_cases hin : i = n
        · subst hin
          rw [hopc] at he0
          injection he0 with he0
          subst he0
          exact ⟨opc1, opc1, hb, h1n, rfl⟩
        · obtain ⟨c, e, h1, h2, h3⟩ := hinv.handled i e0 (by omega) he0
          exact ⟨c, e, h1, by rw [List.getElem?_set_ne (Ne.symm hin)]; exact h2, h3⟩
      · intro i hi
        show (tbl.set n opc1)[i]? = _
        rw [List.getElem?_set_ne (by omega)]
        exact hinv.untouched i (by omega)
      · intro m
        show linked (tbl.set n opc1) _ (opcode_find (htab ++ [(opc.opcode, n)]) m) = true
        rw [named_below_succ, hname]
        by_cases hm : opc.opcode = m
        · subst hm
          have hnil := linked_nil_start tbl _ (by have := hinv.chain opc.opcode; rwa [hfind] at this)
          rw [hnil, opcode_find_append_new _ _ _ hfind]
          simp [linked, h1n, h1next]
        · have hne : (some opc.opcode == some m) = false := by simpa using hm
          rw [hne, opcode_find_append_ne _ _ _ _ hm, hB]
          simpa using hinv.chain m
    | some j =>
      rw [hfind] at hstep
      dsimp only at hstep
      have hch := hinv.chain opc.opcode
      rw [hfind] at hch
      obtain ⟨L', hL'⟩ := linked_cons_start tbl _ j hch
      have hlen := named_below_length ops opc.opcode n
      rw [hL'] at hlen hch
      have hlast := chain_last_linked (tbl.set n opc1) L' j (tbl.set n opc1).length
        (by rw [hB]; exact hch)
        (by rw [List.length_set]; simp only [List.length_cons] at hlen; omega)
      rw [hlast] at hstep
      dsimp only at hstep
      have hlmem : (j :: L').getLast (List.cons_ne_nil _ _) ∈ named_below ops opc.opcode n := by
        rw [hL']
        exact List.getLast_mem _
      generalize hl : (j :: L').getLast (List.cons_ne_nil _ _) = l at hstep hlmem
      obtain ⟨hln, hlname⟩ := named_below_mem _ _ _ _ hlmem
      cases hlastE : (tbl.set n opc1)[l]? with
      | none => rw [hlastE] at hstep; cases hstep
      | some last =>
        rw [hlastE] at hstep
        dsimp only at hstep
        injection hstep with hstep
        subst hstep
        have htl : tbl[l]? = some last := by
          rw [List.getElem?_set_ne (by omega)] at hlastE
          exact hlastE
        refine ⟨by rw [List.length_set, List.length_set]; exact hinv.len, ?_, ?_, ?_⟩
        · intro i e0 hi he0
          show ∃ c e, _ ∧ ((tbl.set n opc1).set l { last with next := some n })[i]? = some e ∧ _
          by_cases hil : i = l
          · subst hil
            obtain ⟨c, e, h1, h2, h3⟩ := hinv.handled i e0 hln he0
            rw [htl] at h2
            injection h2 with h2
            subst h2
            refine ⟨c, { c with next := some n }, h1, ?_, rfl⟩
            rw [List.getElem?_set_self (by rw [List.length_set]; omega),
              set_next_eq c last (some n) h3]
          · rw [List.getElem?_set_ne (Ne.symm hil)]
            by_cases hin : i = n
            · subst hin
              rw [hopc] at he0
              injection he0 with he0
              subst he0
              exact ⟨opc1, opc1, hb, h1n, rfl⟩
            · obtain ⟨c, e, h1, h2, h3⟩ := hinv.handled i e0 (by omega) he0
              exact ⟨c, e, h1, by rw [List.getElem?_set_ne (Ne.symm hin)]; exact h2, h3⟩
        · intro i hi
          show ((tbl.set n opc1).set l { last with next := some n })[i]? = _
          rw [List.getElem?_set_ne (by omega), List.getElem?_set_ne (by omega)]
          exact hinv.untouched i (by omega)
        · intro m
          show linked ((tbl.set n opc1).set l { last with next := some n }) _
            (opcode_find htab m) = true
          rw [named_below_succ, hname]
          by_cases hm : opc.opcode = m
          · subst hm
            have hnd := named_below_nodup ops opc.opcode n
            rw [hL'] at hnd
            have hnot : n ∉ j :: L' := by
              intro hc
              rw [← hL'] at hc
              exact absurd (named_below_mem _ _ _ _ hc).1 (lt_irrefl n)
            have := linked_append (tbl.set n opc1) n l last hlastE ⟨opc1, h1n, h1next⟩
              (j :: L') (some j) (List.cons_ne_nil _ _) (by rw [hB]; exact hch) hnd hnot hl
            rw [hfind, hL']
            simpa using this
          · have hne : (some opc.opcode == some m) = false := by simpa using hm
            rw [hne]
            simp only [Bool.false_eq_true, if_false, List.append_nil]
            rw [linked_congr _ (tbl.set n opc1) _ (fun i hi => by
              have hil : l ≠ i := by
                intro hc
                subst hc
                have := (named_below_mem _ _ _ _ hi).2
                rw [hlname] at this
                injection this with this
                exact hm this
              rw [List.getElem?_set_ne hil]), hB]
            exact hinv.chain m

theorem init_loop_inv (ops : List nds32_opcode) (hfresh : ∀ e ∈ ops, e.next = none) :
    ∀ (k n : Nat) (tbl : List nds32_opcode) (htab : List (List Char × Nat))
      (st : List nds32_opcode × List (List Char × Nat)),
      init_inv ops n tbl htab → n + k ≤ ops.length →
      nds32_asm_init_loop (List.range' n k) (tbl, htab) = some st →
      init_inv ops (n + k) st.1 st.2 := by
  intro k
  induction k with
  | zero =>
    intro n tbl htab st hinv _ hrun
    simp only [List.range', nds32_asm_init_loop, Option.some.injEq] at hrun
    subst hrun
    exact hinv
  | succ k ih =>
    intro n tbl htab st hinv hle hrun
    have hr : List.range' n (k + 1) = n :: List.range' (n + 1) k := rfl
    rw [hr, nds32_asm_init_loop] at hrun
    cases hs : nds32_asm_init_step (tbl, htab) n with
    | none => rw [hs] at hrun; cases hrun
    | some st1 =>
      rw [hs] at hrun
      dsimp only at hrun
      have h1 := init_step_inv ops hfresh n tbl htab st1 hinv (by omega) hs
      have := ih (n + 1) st1.1 st1.2 st h1 (by omega) hrun
      rw [show n + (k + 1) = n + 1 + k by omega]
      exact this

/-- After `nds32_asm_init` on a fresh table every entry is compiled and the entries
are chained by name in table order. -/
theorem init_inv_final (ops : List nds32_opcode) (hfresh : ∀ e ∈ ops, e.next = none)
    (pdesc0 pdesc : nds32_asm_desc) (flags : Nat) (tbl : List nds32_opcode)
    (htab : List (List Char × Nat))
    (hinit : nds32_asm_init pdesc0 flags ops = some (pdesc, tbl, htab)) :
    init_inv ops ops.length tbl htab
      ∧ pdesc = { pdesc0 with flags := flags, mach := flags &&& NASM_OPEN_ARCH_MASK } := by
  unfold nds32_asm_init at hinit
  cases hl : nds32_asm_init_loop (List.range ops.length) (ops, []) with
  | none => rw [hl] at hinit; cases hinit
  | some st =>
    rw [hl] at hinit
    dsimp only at hinit
    injection hinit with hinit
    injection hinit with h1 h2
    injection h2 with h2 h3
    subst h1 h2 h3
    rw [List.range_eq_range'] at hl
    have := init_loop_inv ops hfresh ops.length 0 ops [] st (init_inv_zero ops) (by omega) hl
    rw [Nat.zero_add] at this
    exact ⟨this, rfl⟩

theorem init_compiled (ops tbl : List nds32_opcode) (htab : List (List Char × Nat))
    (hinv : init_inv ops ops.length tbl htab) (i : Nat) (e : nds32_opcode)
    (he : tbl[i]? = some e) : e.lexes.isSome = true := by
  have hi : i < ops.length := by
    by_contra hc
    rw [List.getElem?_eq_none (by rw [hinv.len]; omega)] at he
    cases he
  obtain ⟨c, e', h1, h2, h3⟩ := hinv.handled i ops[i] hi (List.getElem?_eq_getElem hi)
  rw [he] at h2
  injection h2 with h2
  subst h2
  rw [h3]
  exact (build_keeps _ _ h1).2.2.2.2.2.2.2

theorem set_same {α : Type} (l : List α) (i : Nat) (a : α) (h : l[i]? = some a) :
    l.set i a = l := by
  apply List.ext_getElem?
  intro j
  rw [List.getElem?_set]
  by_cases hij : i = j
  · subst hij
    have hlt : i < l.length := by
      by_contra hc
      rw [List.getElem?_eq_none (by omega)] at h
      cases h
    rw [if_pos rfl, if_pos hlt, h]
  · rw [if_neg hij]

/-- The loop over the overload chain of `nds32_assemble` tries the entries of the
chain in order and stops at the first that matches. -/
theorem assemble_chain_first (r54 : Nat → Int) (s : List Char) (tbl : List nds32_opcode)
    (hcomp : ∀ (i : Nat) (e : nds32_opcode), tbl[i]? = some e → e.lexes.isSome = true) :
    ∀ (l : List Nat) (start : Option Nat) (fuel : Nat) (pdesc : nds32_asm_desc)
      (pinsn : nds32_asm_insn), linked tbl l start = true → l.length < fuel →
      nds32_assemble_chain r54 s fuel start tbl pdesc pinsn
        = (first_match r54 s tbl l pdesc pinsn).map
            (fun r => (r.1, (⟨r.2.1, r.2.2, tbl⟩ : assemble_result))) := by
  intro l
  induction l with
  | nil =>
    intro start fuel pdesc pinsn hl hf
    obtain ⟨f, rfl⟩ : ∃ f, fuel = f + 1 := ⟨fuel - 1, by omega⟩
    simp only [linked, Option.isNone_iff_eq_none] at hl
    subst hl
    rfl
  | cons i l ih =>
    intro start fuel pdesc pinsn hl hf
    obtain ⟨f, rfl⟩ : ∃ f, fuel = f + 1 := ⟨fuel - 1, by omega⟩
    simp only [linked, Bool.and_eq_true, beq_iff_eq] at hl
    obtain ⟨hs, hrest⟩ := hl
    subst hs
    cases he : tbl[i]? with
    | none => rw [he] at hrest; cases hrest
    | some e =>
      rw [he] at hrest
      dsimp only at hrest
      simp only [nds32_assemble_chain, first_match, he, build_idem e (hcomp i e he),
        set_same tbl i e he]
      cases hp : parse_insn r54 pdesc
          { pinsn with defuse := e.defuse, insn := 0, field := none, attr := e.attr } s e with
      | none => rfl
      | some r =>
        obtain ⟨b, pd, pi⟩ := r
        cases b
        · exact ih e.next f pd pi hrest (by simpa using hf)
        · rfl

/-! ## Integer operands and one-field patterns -/

/-- An integer operand without `#` and without modifier that the resolver answers
with a constant: the constant goes to the label `done`. -/
theorem int_operand_const (r54 : Nat → Int) (pdesc : nds32_asm_desc) (pinsn : nds32_asm_insn)
    (fld : field_t) (x : Nat) (str rest : List Char) (v : Int)
    (hfld : LEX_GET_FIELD x = some fld) (hhook : fld.parse = none)
    (hcls : fld.hw_res = HW_INT ∨ fld.hw_res = HW_UINT)
    (hsharp : peek str ≠ '#') (hmod : modifier_at str = 0)
    (hres : pdesc.parse_operand str = ⟨.NASM_R_CONST, rest, v⟩) :
    parse_operand r54 pdesc pinsn str x
      = some (parse_operand_done pdesc pinsn str rest fld (wrap64 v)) := by
  have hlast : ¬ fld.hw_res < _HW_LAST := by
    rcases hcls with h | h <;> rw [h] <;> decide
  unfold parse_operand
  rw [hfld]
  dsimp only
  unfold parse_operand_fld parse_operand_value
  rw [hhook]
  dsimp only
  rw [if_neg hlast, if_pos hcls]
  unfold parse_operand_int
  simp only [if_neg hsharp, hmod, ne_eq, not_true_eq_false, if_false, hres, record_modifier,
    modifier_value]
  rfl

/-- The matcher `parse_insn` on a compiled pattern made of one operand. -/
theorem parse_insn_single (r54 : Nat → Int) (pdesc : nds32_asm_desc) (pinsn : nds32_asm_insn)
    (s : List Char) (opc : nds32_opcode) (x : Nat) (hlex : opc.lexes = some [x, 0])
    (hvar : opc.variant = 0) (hx : x ≠ 0) (hchar : IS_LEX_CHAR x = false)
    (hl : x &&& SYN_LOPT = 0) (hr : x &&& SYN_ROPT = 0) :
    parse_insn r54 pdesc pinsn s opc
      = match parse_operand r54 pdesc { pinsn with insn := opc.value } s x with
        | none => none
        | some res => some (res.ret && at_insn_end res.str, res.pdesc, res.pinsn) := by
  unfold parse_insn
  rw [hvar]
  show parse_insn_loop r54 s opc (0 + 1) 0 pdesc pinsn = _
  rw [parse_insn_loop]
  unfold parse_insn_variant
  rw [hlex]
  dsimp only
  rw [walk_field _ _ _ _ _ _ _ _ hx hchar hl hr]
  cases parse_operand r54 pdesc { pinsn with insn := opc.value } s x with
  | none => rfl
  | some res =>
    dsimp only
    cases hret : res.ret
    · simp [hvar]
    · simp only [if_true, walk_end, Bool.true_and]
      cases at_insn_end res.str <;> simp [hvar]

theorem build_fresh (e : nds32_opcode) (pat : List Char) (lex : List Nat) (k : Nat)
    (hl : e.lexes = none) (hi : e.instruction = pat)
    (hb : build_lex_loop (pat.length + 1) pat = some (lex, k))
    (hfit : lex.length + 1 ≤ MAX_LEX_NUM) :
    build_opcode_syntax e = some { e with lexes := some (lex ++ [0]), variant := k } := by
  unfold build_opcode_syntax
  rw [hl]
  dsimp only
  rw [hi, hb]
  dsimp only
  rw [if_pos hfit]

/-- An unsigned field at bit 0 without scale, under a resolver that answers the
constant `v`: the label `done` accepts `v` below `2 ^ bitsize` and ORs it in. -/
theorem uint_operand (r54 : Nat → Int) (pdesc : nds32_asm_desc) (pinsn : nds32_asm_insn)
    (fld : field_t) (x v : Nat) (t : List Char)
    (hfld : LEX_GET_FIELD x = some fld) (hhook : fld.parse = none) (hcls : fld.hw_res = HW_UINT)
    (hpos : fld.bitpos = 0) (hshift : fld.shift = 0)
    (hcb : pdesc.parse_operand = resolve_const v)
    (hsharp : peek t ≠ '#') (hmod : modifier_at t = 0) (hv : v < 2 ^ 32)
    (hword : pinsn.insn < 2 ^ 32) :
    parse_operand r54 pdesc pinsn t x
      = some (if v < 2 ^ fld.bitsize then
          ⟨true, pdesc, { pinsn with insn := pinsn.insn ||| v }, []⟩
        else ⟨false, { pdesc with result := .NASM_ERR_OUT_OF_RANGE }, pinsn, t⟩) := by
  have hres : pdesc.parse_operand t = ⟨.NASM_R_CONST, [], (v : Int)⟩ := by rw [hcb]; rfl
  have hwrap : wrap64 (v : Int) = v := by
    apply wrap64_id <;> omega
  have hne : fld.hw_res ≠ HW_INT := by rw [hcls]; decide
  rw [int_operand_const r54 pdesc pinsn fld x t [] v hfld hhook (Or.inr hcls) hsharp hmod hres,
    hwrap, done_unsigned _ _ _ _ _ _ hne, hshift, hpos]
  have hcond : ((v : Int) % 2 ^ 0 = 0 ∧ (0 : Int) ≤ v ∧ (v : Int) < 2 ^ (fld.bitsize + 0))
      ↔ v < 2 ^ fld.bitsize := by
    constructor
    · rintro ⟨_, _, h⟩
      exact_mod_cast h
    · intro h
      refine ⟨by simp, by omega, ?_⟩
      exact_mod_cast h
  by_cases hlt : v < 2 ^ fld.bitsize
  · rw [if_pos (hcond.2 hlt), if_pos hlt]
    have hm : ((v : Int) / 2 ^ 0 % 2 ^ fld.bitsize).toNat = v := by
      have h1 : ((v : Int) / 2 ^ 0 % 2 ^ fld.bitsize) = ((v % 2 ^ fld.bitsize : Nat) : Int) := by
        push_cast
        simp
      rw [h1, Int.toNat_ofNat, Nat.mod_eq_of_lt hlt]
    rw [hm, Nat.shiftLeft_zero, Nat.mod_eq_of_lt (Nat.or_lt_two_pow hword hv)]
  · rw [if_neg (fun hc => hlt (hcond.1 hc)), if_neg hlt]

/-- The matcher `parse_insn` on an entry whose pattern is one unsigned field at bit 0, under a
resolver that answers the constant `v`. -/
theorem uint_entry (r54 : Nat → Int) (pdesc : nds32_asm_desc) (pinsn : nds32_asm_insn)
    (a : nds32_opcode) (fld : field_t) (x v B : Nat) (t : List Char)
    (hlex : a.lexes = some [x, 0]) (hvar : a.variant = 0) (hval : a.value = B)
    (hx : x ≠ 0) (hchar : IS_LEX_CHAR x = false) (hl : x &&& SYN_LOPT = 0)
    (hr : x &&& SYN_ROPT = 0)
    (hfld : LEX_GET_FIELD x = some fld) (hhook : fld.parse = none) (hcls : fld.hw_res = HW_UINT)
    (hpos : fld.bitpos = 0) (hshift : fld.shift = 0)
    (hcb : pdesc.parse_operand = resolve_const v)
    (hsharp : peek t ≠ '#') (hmod : modifier_at t = 0) (hv : v < 2 ^ 32) (hB : B < 2 ^ 32) :
    parse_insn r54 pdesc pinsn t a
      = some (if v < 2 ^ fld.bitsize then (true, pdesc, { pinsn with insn := B ||| v })
          else (false, { pdesc with result := .NASM_ERR_OUT_OF_RANGE },
            { pinsn with insn := B })) := by
  rw [parse_insn_single r54 pdesc pinsn t a x hlex hvar hx hchar hl hr, hval,
    uint_operand r54 pdesc ({ pinsn with insn := B }) fld x v t hfld hhook hcls hpos hshift hcb
      hsharp hmod hv hB]
  dsimp only
  split <;> rfl

/-- What `nds32_asm_init` leaves at index `i` for a fresh entry whose pattern
compiles to `lex`. -/
theorem init_entry (ops tbl : List nds32_opcode) (htab : List (List Char × Nat))
    (hinv : init_inv ops ops.length tbl htab) (i : Nat) (e0 : nds32_opcode) (pat : List Char)
    (lex : List Nat) (k : Nat) (he0 : ops[i]? = some e0) (hl : e0.lexes = none)
    (hi : e0.instruction = pat) (hb : build_lex_loop (pat.length + 1) pat = some (lex, k))
    (hfit : lex.length + 1 ≤ MAX_LEX_NUM) :
    ∃ a, tbl[i]? = some a ∧ a.lexes = some (lex ++ [0]) ∧ a.variant = k ∧ a.value = e0.value
      ∧ a.attr = e0.attr ∧ a.defuse = e0.defuse ∧ a.opcode = e0.opcode := by
  have hlt : i < ops.length := by
    by_contra hc
    rw [List.getElem?_eq_none (by omega)] at he0
    cases he0
  obtain ⟨c, a, h1, h2, h3⟩ := hinv.handled i e0 hlt he0
  rw [build_fresh e0 pat lex k hl hi hb hfit] at h1
  injection h1 with h1
  subst h1
  exact ⟨a, h2, by rw [h3], by rw [h3], by rw [h3], by rw [h3], by rw [h3], by rw [h3]⟩

/-! ## Overload order -/

/-- The encode call on a mnemonic that names entries of the table: the entries of
the chain are tried in table order, the first that matches is returned. -/
theorem assemble_first_match (r54 : Nat → Int) (ops tbl : List nds32_opcode)
    (htab : List (List Char × Nat)) (hinv : init_inv ops ops.length tbl htab)
    (pdesc : nds32_asm_desc) (pinsn : nds32_asm_insn) (m : List Char) (sep : Char)
    (t : List Char) (hm : m.all is_mnemonic_char = true) (hsep : sep = ' ' ∨ sep = '\t')
    (ht : nul_free t = true) (hne : named_indices ops m ≠ []) :
    nds32_assemble r54 tbl htab pdesc pinsn (m ++ sep :: t)
      = (first_match r54 t tbl (named_indices ops m) pdesc pinsn).map
          (fun r =>
            match r.1 with
            | none =>
              ⟨{ r.2.1 with result := .NASM_ERR_SYNTAX }, { r.2.2 with opcode := none }, tbl⟩
            | some i =>
              ⟨{ r.2.1 with result := .NASM_OK }, { r.2.2 with opcode := some i }, tbl⟩) := by
  have hch := hinv.chain m
  have hnm : named_below ops m ops.length = named_indices ops m := rfl
  rw [hnm] at hch
  cases hf : opcode_find htab m with
  | none =>
    rw [hf] at hch
    exact absurd (linked_nil_start _ _ hch) hne
  | some j =>
    rw [hf] at hch
    have hlen : (named_indices ops m).length < tbl.length + 1 := by
      have := named_below_length ops m ops.length
      rw [hnm] at this
      rw [hinv.len]
      omega
    rw [assemble_found r54 tbl htab pdesc pinsn m sep t j hm hsep ht hf]
    unfold nds32_assemble_found
    rw [assemble_chain_first r54 t tbl (init_compiled ops tbl htab hinv) _ _ _ pdesc pinsn hch
      hlen]
    cases first_match r54 t tbl (named_indices ops m) pdesc pinsn with
    | none => rfl
    | some r =>
      obtain ⟨o, pd, pi⟩ := r
      cases o <;> rfl

/-- C10: after one call of `nds32_asm_init` on the fresh table `ops`, the chain found
for a mnemonic `m` lists exactly the entries of `ops` named `m`, in table order;
`nds32_assemble` tries the entries of that chain in order and returns the first
that matches.  With the two entries `ex9.it` (`%i5u` base 0xdd40, then `%i9u` base
0xea00) and a resolver answering the constant `v`: `v < 32` is encoded by the first
as `0xdd40 | v`, `32 ≤ v < 512` by the second as `0xea00 | v`. -/
theorem overload_order (r54 : Nat → Int) (pdesc0 pdesc : nds32_asm_desc) (flags : Nat)
    (ops tbl : List nds32_opcode) (htab : List (List Char × Nat))
    (hfresh : ∀ e ∈ ops, e.next = none ∧ e.lexes = none)
    (hinit : nds32_asm_init pdesc0 flags ops = some (pdesc, tbl, htab)) :
    (∀ m, linked tbl (named_indices ops m) (opcode_find htab m) = true)
      ∧ (∀ (i : Nat) (e : nds32_opcode), tbl[i]? = some e →
          (ops[i]?).map (fun o => (o.opcode, o.instruction, o.value))
            = some (e.opcode, e.instruction, e.value))
      ∧ (∀ (pinsn : nds32_asm_insn) (m : List Char) (sep : Char) (t : List Char),
          m.all is_mnemonic_char = true → (sep = ' ' ∨ sep = '\t') → nul_free t = true →
          named_indices ops m ≠ [] →
          nds32_assemble r54 tbl htab pdesc pinsn (m ++ sep :: t)
            = (first_match r54 t tbl (named_indices ops m) pdesc pinsn).map
                (fun r =>
                  match r.1 with
                  | none =>
                    ⟨{ r.2.1 with result := .NASM_ERR_SYNTAX }, { r.2.2 with opcode := none },
                      tbl⟩
                  | some i =>
                    ⟨{ r.2.1 with result := .NASM_OK }, { r.2.2 with opcode := some i }, tbl⟩))
      ∧ (∀ (pinsn : nds32_asm_insn) (i1 i2 : Nat) (e1 e2 : nds32_opcode) (v : Nat)
          (t : List Char),
          named_indices ops "ex9.it".toList = [i1, i2] →
          ops[i1]? = some e1 → ops[i2]? = some e2 →
          e1.instruction = "%i5u".toList → e1.value = 0xdd40 →
          e2.instruction = "%i9u".toList → e2.value = 0xea00 →
          pdesc0.parse_operand = resolve_const v →
          nul_free t = true → peek t ≠ '#' → modifier_at t = 0 → v < 512 →
          ∃ r, nds32_assemble r54 tbl htab pdesc pinsn ("ex9.it ".toList ++ t) = some r
            ∧ r.pdesc.result = .NASM_OK
            ∧ (v < 32 → r.pinsn.opcode = some i1 ∧ r.pinsn.insn = 0xdd40 ||| v)
            ∧ (32 ≤ v → r.pinsn.opcode = some i2 ∧ r.pinsn.insn = 0xea00 ||| v)) := by
  obtain ⟨hinv, hpd⟩ := init_inv_final ops (fun e he => (hfresh e he).1) pdesc0 pdesc flags tbl
    htab hinit
  refine ⟨hinv.chain, ?_, ?_, ?_⟩
  · intro i e he
    have hi : i < ops.length := by
      by_contra hc
      rw [List.getElem?_eq_none (by rw [hinv.len]; omega)] at he
      cases he
    obtain ⟨c, e', h1, h2, h3⟩ := hinv.handled i ops[i] hi (List.getElem?_eq_getElem hi)
    rw [he] at h2
    injection h2 with h2
    subst h2
    obtain ⟨k1, k2, k3, _⟩ := build_keeps _ _ h1
    rw [List.getElem?_eq_getElem hi, h3]
    simp [k1, k2, k3]
  · intro pinsn m sep t hm hsep ht hne
    exact assemble_first_match r54 ops tbl htab hinv pdesc pinsn m sep t hm hsep ht hne
  · intro pinsn i1 i2 e1 e2 v t hidx h1 h2 hp1 hv1 hp2 hv2 hcb ht hsharp hmod hv
    have hcb' : pdesc.parse_operand = resolve_const v := by rw [hpd]; exact hcb
    obtain ⟨a1, ha1, hl1, hk1, hval1, hat1, hdf1, _⟩ := init_entry ops tbl htab hinv i1 e1
      "%i5u".toList [0x1144] 0 h1 (hfresh e1 (List.getElem?_mem h1)).2 hp1 (by decide)
      (by decide)
    obtain ⟨a2, ha2, hl2, hk2, hval2, hat2, hdf2, _⟩ := init_entry ops tbl htab hinv i2 e2
      "%i9u".toList [0x1147] 0 h2 (hfresh e2 (List.getElem?_mem h2)).2 hp2 (by decide)
      (by decide)
    have key := assemble_first_match r54 ops tbl htab hinv pdesc pinsn "ex9.it".toList ' ' t
      (by decide) (Or.inl rfl) ht (by rw [hidx]; exact List.cons_ne_nil _ _)
    have hlit : ("ex9.it ".toList ++ t) = "ex9.it".toList ++ ' ' :: t := rfl
    have hen1 := fun (pi : nds32_asm_insn) =>
      uint_entry r54 pdesc pi a1 ⟨"i5u".toList, 0, 5, 0, HW_UINT, none⟩ 0x1144 v 0xdd40 t hl1 hk1
        (by rw [hval1, hv1]) (by decide) (by decide) (by decide) (by decide) (by decide) rfl rfl
        rfl rfl hcb' hsharp hmod (by omega) (by norm_num)
    have hen2 := fun (pd : nds32_asm_desc) (pi : nds32_asm_insn)
        (hc : pd.parse_operand = resolve_const v) =>
      uint_entry r54 pd pi a2 ⟨"i9u".toList, 0, 9, 0, HW_UINT, none⟩ 0x1147 v 0xea00 t hl2 hk2
        (by rw [hval2, hv2]) (by decide) (by decide) (by decide) (by decide) (by decide) rfl rfl
        rfl rfl hc hsharp hmod (by omega) (by norm_num)
    rw [hlit, key, hidx]
    simp only [first_match, ha1, ha2, hen1]
    by_cases hlt : v < 32
    · rw [if_pos (by simpa using hlt)]
      exact ⟨_, rfl, rfl, fun _ => ⟨rfl, rfl⟩, fun hc => absurd hlt (by omega)⟩
    · rw [if_neg (by simpa using hlt)]
      dsimp only
      rw [hen2 ({ pdesc with result := .NASM_ERR_OUT_OF_RANGE }) _ hcb',
        if_pos (by simpa using hv)]
      exact ⟨_, rfl, rfl, fun hc => absurd hc hlt, fun _ => ⟨rfl, rfl⟩⟩

/-- C10 on the table `table_ex9` and the constant 40: the second `ex9.it` is
returned. -/
theorem overload_order_witness :
    ∃ pdesc tbl htab r,
      nds32_asm_init (pdesc_with 0 (resolve_const 40)) 0 table_ex9 = some (pdesc, tbl, htab)
        ∧ nds32_assemble (fun n => (n : Int)) tbl htab pdesc pinsn_zero "ex9.it 40".toList
          = some r
        ∧ r.pdesc.result = .NASM_OK
        ∧ r.pinsn.opcode = some 2
        ∧ r.pinsn.insn = 0xea00 ||| 40 := by
  have hsome : (nds32_asm_init (pdesc_with 0 (resolve_const 40)) 0 table_ex9).isSome = true := by
    decide
  have hinit : nds32_asm_init (pdesc_with 0 (resolve_const 40)) 0 table_ex9
      = some ((nds32_asm_init (pdesc_with 0 (resolve_const 40)) 0 table_ex9).get hsome) :=
    (Option.some_get hsome).symm
  obtain ⟨r, h1, h2, _, h4⟩ :=
    (overload_order (fun n => (n : Int)) (pdesc_with 0 (resolve_const 40)) _ 0 table_ex9 _ _
      (by decide) hinit).2.2.2 pinsn_zero 0 2
      (opcode_entry "ex9.it" "%i5u" 0xdd40 2 0 0) (opcode_entry "ex9.it" "%i9u" 0xea00 2 0 0)
      40 "40".toList (by decide) rfl rfl rfl rfl rfl rfl rfl (by decide) (by decide)
      (by decide) (by decide)
  exact ⟨_, _, _, r, hinit, h1, h2, (h4 (by decide)).1, (h4 (by decide)).2⟩

/-! ## The cursor after an operand -/

/-- When the second half of `parse_operand` accepts the value, the caller's cursor
is the one the first half reached and the description is untouched. -/
theorem done_ok (pdesc : nds32_asm_desc) (pinsn : nds32_asm_insn) (str endp : List Char)
    (fld : field_t) (v : Int) (h : (parse_operand_done pdesc pinsn str endp fld v).ret = true) :
    (parse_operand_done pdesc pinsn str endp fld v).str = endp
      ∧ (parse_operand_done pdesc pinsn str endp fld v).pdesc = pdesc
      ∧ (parse_operand_done pdesc pinsn str endp fld v).pinsn.defuse = pinsn.defuse
      ∧ (parse_operand_done pdesc pinsn str endp fld v).pinsn.attr = pinsn.attr
      ∧ (parse_operand_done pdesc pinsn str endp fld v).pinsn.field = pinsn.field := by
  unfold parse_operand_done at h ⊢
  dsimp only at h ⊢
  split_ifs at h ⊢ <;> exact ⟨rfl, rfl, rfl, rfl, rfl⟩

/-- When the second half of `parse_operand` refuses the value, the code is
`NASM_ERR_OUT_OF_RANGE` and the instruction and the cursor are untouched. -/
theorem done_fail (pdesc : nds32_asm_desc) (pinsn : nds32_asm_insn) (str endp : List Char)
    (fld : field_t) (v : Int) (h : (parse_operand_done pdesc pinsn str endp fld v).ret = false) :
    parse_operand_done pdesc pinsn str endp fld v
      = ⟨false, { pdesc with result := .NASM_ERR_OUT_OF_RANGE }, pinsn, str⟩ := by
  unfold parse_operand_done at h ⊢
  dsimp only at h ⊢
  split_ifs at h ⊢ <;> rfl

theorem keyword_char_ne_dollar (c : Char) (h : is_keyword_char c = true) : c ≠ '$' := by
  intro hc
  rw [hc] at h
  exact absurd h (by decide)

/-- The first half of `parse_operand` on a keyword field, at a keyword `w` followed
by a text that ends it. -/
theorem keyword_stage (r54 : Nat → Int) (pdesc : nds32_asm_desc) (pinsn : nds32_asm_insn)
    (fld : field_t) (syn : Nat) (dollar : Bool) (w rest : List Char)
    (hhook : fld.parse = none) (hhw : fld.hw_res < _HW_LAST)
    (hw : w.all is_keyword_char = true) (hne : w ≠ []) (hrest : keyword_ends rest = true) :
    parse_operand_value r54 pdesc pinsn ((if dollar then ['$'] else []) ++ (w ++ rest)) fld syn
      = match keyword_find (hw_ktabs fld.hw_res) (w.map Char.toLower) with
        | none =>
          .failed ⟨false, { pdesc with result := .NASM_ERR_OPERAND }, pinsn,
            (if dollar then ['$'] else []) ++ (w ++ rest)⟩
        | some k =>
          if fld.hw_res = HW_GPR ∧ pdesc.flags &&& NASM_OPEN_REDUCED_REG ≠ 0
              ∧ k.attr &&& NASM_ATTR_RDREG = 0 then
            .failed ⟨false, { pdesc with result := .NASM_ERR_REG_REDUCED }, pinsn,
              (if dollar then ['$'] else []) ++ (w ++ rest)⟩
          else .parsed (record_defuse pinsn fld syn k) rest (keyword_value r54 fld k) := by
  obtain ⟨c, w', rfl⟩ := List.exists_cons_of_ne_nil hne
  have hc : is_keyword_char c = true := by
    rw [List.all_cons, Bool.and_eq_true] at hw
    exact hw.1
  have hcd : c ≠ '$' := keyword_char_ne_dollar c hc
  have hend : (if peek ((if dollar then ['$'] else []) ++ (c :: w' ++ rest)) = '$' then
      ((if dollar then ['$'] else []) ++ (c :: w' ++ rest)).drop 1
      else (if dollar then ['$'] else []) ++ (c :: w' ++ rest)) = c :: w' ++ rest := by
    cases dollar
    · simp [peek, hcd]
    · simp [peek]
  unfold parse_operand_value
  rw [hhook]
  dsimp only
  rw [if_pos hhw]
  unfold parse_operand_keyword
  dsimp only
  simp only [hend, parse_to_delimiter_token _ _ hw hrest]

/-- A keyword operand always returns; when it is accepted the cursor stands right
after the keyword and the description is untouched. -/
theorem keyword_operand_cursor (r54 : Nat → Int) (pdesc : nds32_asm_desc)
    (pinsn : nds32_asm_insn) (fld : field_t) (syn : Nat) (w rest : List Char)
    (hhook : fld.parse = none) (hhw : fld.hw_res < _HW_LAST)
    (hw : w.all is_keyword_char = true) (hne : w ≠ []) (hrest : keyword_ends rest = true) :
    ∃ res, parse_operand_fld r54 pdesc pinsn (w ++ rest) fld syn = some res
      ∧ (res.ret = true → res.str = rest ∧ res.pdesc = pdesc) := by
  have hst := keyword_stage r54 pdesc pinsn fld syn false w rest hhook hhw hw hne hrest
  simp only [Bool.false_eq_true, if_false, List.nil_append] at hst
  unfold parse_operand_fld
  rw [hst]
  cases keyword_find (hw_ktabs fld.hw_res) (w.map Char.toLower) with
  | none => exact ⟨_, rfl, fun h => absurd h (by simp)⟩
  | some k =>
    dsimp only
    split_ifs with hred
    · exact ⟨_, rfl, fun h => absurd h (by simp)⟩
    · exact ⟨_, rfl, fun h => ⟨(done_ok _ _ _ _ _ _ h).1, (done_ok _ _ _ _ _ _ h).2.1⟩⟩

theorem keyword_chars_nul_free (w : List Char) (h : w.all is_keyword_char = true) :
    nul_free w = true := by
  unfold nul_free
  rw [List.all_eq_true] at h ⊢
  intro c hc
  have := h c hc
  have hne : c ≠ Char.ofNat 0 := by
    intro h0
    rw [h0] at this
    exact absurd this (by decide)
  simpa using hne

theorem gpr_names : ∀ k ∈ keyword_gpr,
    k.name.all is_keyword_char = true ∧ k.name ≠ [] := by
  decide

/-! ## The pattern of `add` on two operands only -/

theorem parse_operand_eq (r54 : Nat → Int) (pdesc : nds32_asm_desc) (pinsn : nds32_asm_insn)
    (p : List Char) (x : Nat) (fld : field_t) (hfld : LEX_GET_FIELD x = some fld) :
    parse_operand r54 pdesc pinsn p x = parse_operand_fld r54 pdesc pinsn p fld x := by
  unfold parse_operand
  rw [hfld]

/-- The walk over the compiled pattern `=rt,%ra,%rb` on a text of two keywords
separated by a comma never reaches the end of the pattern. -/
theorem walk_add_short (r54 : Nat → Int) (variant opt : Nat) (pdesc : nds32_asm_desc)
    (pinsn : nds32_asm_insn) (w1 w2 : List Char)
    (hw1 : w1.all is_keyword_char = true) (hne1 : w1 ≠ [])
    (hw2 : w2.all is_keyword_char = true) (hne2 : w2 ≠ []) :
    ∃ w, parse_insn_walk r54 variant [0x2100, 44, 0x1101, 44, 0x1102, 0] false opt pdesc pinsn
        (w1 ++ ',' :: w2) = some w ∧ w.finished = false := by
  rw [walk_field _ _ _ _ _ _ _ _ (by decide) (by decide) (by decide) (by decide),
    parse_operand_eq r54 pdesc pinsn _ 0x2100 ⟨"rt".toList, 20, 5, 0, HW_GPR, none⟩ (by decide)]
  obtain ⟨res1, h1, hs1⟩ := keyword_operand_cursor r54 pdesc pinsn
    ⟨"rt".toList, 20, 5, 0, HW_GPR, none⟩ 0x2100 w1 (',' :: w2) rfl (by decide) hw1 hne1 rfl
  rw [h1]
  dsimp only
  cases hr1 : res1.ret with
  | false => exact ⟨_, rfl, rfl⟩
  | true =>
    rw [if_pos rfl, (hs1 hr1).1,
      walk_char_eq _ _ _ _ _ _ _ _ _ (by decide) (by decide) (by decide),
      walk_field _ _ _ _ _ _ _ _ (by decide) (by decide) (by decide) (by decide),
      parse_operand_eq r54 _ _ _ 0x1101 ⟨"ra".toList, 15, 5, 0, HW_GPR, none⟩ (by decide)]
    obtain ⟨res2, h2, hs2⟩ := keyword_operand_cursor r54 res1.pdesc res1.pinsn
      ⟨"ra".toList, 15, 5, 0, HW_GPR, none⟩ 0x1101 w2 [] rfl (by decide) hw2 hne2 rfl
    rw [List.append_nil] at h2
    rw [h2]
    dsimp only
    cases hr2 : res2.ret with
    | false => exact ⟨_, rfl, rfl⟩
    | true =>
      rw [if_pos rfl, (hs2 hr2).1,
        walk_char_ne _ _ _ _ _ _ _ _ (by decide) (by decide) (by decide)]
      exact ⟨_, rfl, rfl⟩

/-! ## A missing operand -/

/-- C11: for all valid register names `rA`, `rB` (the names of `keyword_gpr`),
whatever the flags, `nds32_assemble` on `add rA,rB` against the single entry
(`add`, `=rt,%ra,%rb`) ends with `NASM_ERR_SYNTAX` and a null opcode. -/
theorem missing_operand_is_syntax_error (r54 : Nat → Int) (pdesc0 : nds32_asm_desc)
    (pinsn : nds32_asm_insn) (flags B isize attr defuse : Nat) (kA kB : keyword_t)
    (hA : kA ∈ keyword_gpr) (hB : kB ∈ keyword_gpr) :
    ∃ pdesc tbl htab r,
      nds32_asm_init pdesc0 flags [opcode_entry "add" "=rt,%ra,%rb" B isize attr defuse]
          = some (pdesc, tbl, htab)
        ∧ nds32_assemble r54 tbl htab pdesc pinsn ("add ".toList ++ (kA.name ++ ',' :: kB.name))
          = some r
        ∧ r.pdesc.result = .NASM_ERR_SYNTAX
        ∧ r.pinsn.opcode = none := by
  obtain ⟨hwA, hneA⟩ := gpr_names kA hA
  obtain ⟨hwB, hneB⟩ := gpr_names kB hB
  have hnf : nul_free (kA.name ++ ',' :: kB.name) = true :=
    nul_free_append _ _ (keyword_chars_nul_free _ hwA)
      (nul_free_cons _ _ (by decide) (keyword_chars_nul_free _ hwB))
  obtain ⟨w, hwalk, hfin⟩ := walk_add_short r54 0 0
    ({ pdesc0 with flags := flags, mach := flags &&& NASM_OPEN_ARCH_MASK })
    ({ pinsn with defuse := defuse, insn := B, field := none, attr := attr })
    kA.name kB.name hwA hneA hwB hneB
  have key := assemble_found r54
    [{ opcode_entry "add" "=rt,%ra,%rb" B isize attr defuse with
        lexes := some [0x2100, 44, 0x1101, 44, 0x1102, 0], variant := 0 }]
    [("add".toList, 0)]
    ({ pdesc0 with flags := flags, mach := flags &&& NASM_OPEN_ARCH_MASK }) pinsn
    "add".toList ' ' _ 0 (by decide) (Or.inl rfl) hnf (by decide)
  refine ⟨{ pdesc0 with flags := flags, mach := flags &&& NASM_OPEN_ARCH_MASK },
    [{ opcode_entry "add" "=rt,%ra,%rb" B isize attr defuse with
        lexes := some [0x2100, 44, 0x1101, 44, 0x1102, 0], variant := 0 }],
    [("add".toList, 0)],
    ⟨{ w.pdesc with result := .NASM_ERR_SYNTAX }, { w.pinsn with opcode := none },
      [{ opcode_entry "add" "=rt,%ra,%rb" B isize attr defuse with
        lexes := some [0x2100, 44, 0x1101, 44, 0x1102, 0], variant := 0 }]⟩,
    rfl, ?_, rfl, rfl⟩
  refine key.trans ?_
  simp only [nds32_assemble_found, List.length_cons, List.length_nil, nds32_assemble_chain,
    List.getElem?_cons_zero, build_opcode_syntax, parse_insn, parse_insn_loop,
    parse_insn_variant]
  erw [hwalk]
  simp only [hfin, Bool.false_and]
  rfl

/-- C11 at the spec's scenario B, `add r1,r2`. -/
theorem missing_operand_is_syntax_error_witness :
    ∃ pdesc tbl htab r,
      nds32_asm_init (pdesc_with 0 (resolve_const 0)) 0
          [opcode_entry "add" "=rt,%ra,%rb" 0 4 0xf 0] = some (pdesc, tbl, htab)
        ∧ nds32_assemble (fun n => (n : Int)) tbl htab pdesc pinsn_zero "add r1,r2".toList
          = some r
        ∧ r.pdesc.result = .NASM_ERR_SYNTAX
        ∧ r.pinsn.opcode = none :=
  missing_operand_is_syntax_error (fun n => (n : Int)) (pdesc_with 0 (resolve_const 0))
    pinsn_zero 0 0 4 0xf 0 ⟨"r1".toList, 1, NASM_ATTR_RDREG⟩ ⟨"r2".toList, 2, NASM_ATTR_RDREG⟩
    (by decide) (by decide)

/-! ## The outcome codes of the encode call -/

/-- Once the mnemonic is found, the call ends with `NASM_OK` and an opcode, or with
`NASM_ERR_SYNTAX` and a null opcode. -/
theorem found_codes (r54 : Nat → Int) (tbl : List nds32_opcode) (pdesc : nds32_asm_desc)
    (pinsn : nds32_asm_insn) (s : List Char) (i : Nat) (r : assemble_result)
    (h : nds32_assemble_found r54 tbl pdesc pinsn s i = some r) :
    (r.pdesc.result = .NASM_OK ∧ r.pinsn.opcode ≠ none)
      ∨ (r.pdesc.result = .NASM_ERR_SYNTAX ∧ r.pinsn.opcode = none) := by
  unfold nds32_assemble_found at h
  split at h
  · exact absurd h (by simp)
  · rw [Option.some.injEq] at h
    rw [← h]
    exact Or.inr ⟨rfl, rfl⟩
  · rw [Option.some.injEq] at h
    rw [← h]
    exact Or.inl ⟨rfl, by simp⟩

/-- A mnemonic without a dot that is not in the hash table: the call ends with
`NASM_ERR_UNKNOWN_OP` and leaves the instruction untouched. -/
theorem assemble_no_dot (r54 : Nat → Int) (tbl : List nds32_opcode)
    (htab : List (List Char × Nat)) (pdesc : nds32_asm_desc) (pinsn : nds32_asm_insn)
    (m : List Char) (sep : Char) (t : List Char)
    (hm : m.all is_mnemonic_char = true) (hsep : sep = ' ' ∨ sep = '\t')
    (ht : nul_free t = true) (hdot : '.' ∉ m) (hfind : opcode_find htab m = none) :
    nds32_assemble r54 tbl htab pdesc pinsn (m ++ sep :: t)
      = some ⟨{ pdesc with result := .NASM_ERR_UNKNOWN_OP }, pinsn, tbl⟩ := by
  have hsep0 : sep ≠ Char.ofNat 0 := by
    rcases hsep with h | h <;> rw [h] <;> decide
  have hsepb : (sep == ' ' || sep == '\t') = true := by
    rcases hsep with h | h <;> rw [h] <;> decide
  have hbuf : cstr (m ++ sep :: t) 0 = m ++ sep :: t :=
    cstr_zero _ (nul_free_append _ _ (mnemonic_nul_free m hm) (nul_free_cons _ _ hsep0 ht))
  have hscan : scan_to (fun c => c == ' ' || c == '\t') (m ++ sep :: t) = m.length :=
    scan_to_stop _ _ _ _ (mnemonic_no_sep m hm) hsepb
  have hlt : m.length < (m ++ sep :: t).length := by
    simp
  unfold nds32_assemble
  simp only [hbuf, hscan, if_pos hlt, set_at_length, cstr_head m t (mnemonic_nul_free m hm),
    hfind, if_neg hdot]

/-- A mnemonic that holds a dot splits at its first dot. -/
theorem split_at_dot (m : List Char) (hm : m.all is_mnemonic_char = true) (hdot : '.' ∈ m) :
    ∃ P S, m = P ++ '.' :: S
      ∧ P.all (fun c => is_mnemonic_char c && c != '.') = true
      ∧ S.all is_mnemonic_char = true
      ∧ m.takeWhile (fun c => c != '.') = P := by
  induction m with
  | nil => exact absurd hdot (by simp)
  | cons c m ih =>
    rw [List.all_cons, Bool.and_eq_true] at hm
    by_cases hc : c = '.'
    · refine ⟨[], m, by rw [hc]; rfl, rfl, hm.2, ?_⟩
      rw [hc]
      rfl
    · have hmem : '.' ∈ m := by
        rcases List.mem_cons.1 hdot with h | h
        · exact absurd h.symm hc
        · exact h
      obtain ⟨P, S, hPS, hP, hS, htw⟩ := ih hm.2 hmem
      refine ⟨c :: P, S, by rw [hPS]; rfl, ?_, hS, ?_⟩
      · rw [List.all_cons, hP, hm.1]
        simpa using hc
      · rw [List.takeWhile_cons, if_pos (by simpa using hc), htw]

/-! ## The unknown-mnemonic outcome -/

/-- The outcome `NASM_ERR_UNKNOWN_OP` on a line whose mnemonic `m` is followed by a
blank or a tab: the call ends with it when `m` is not in the table and either holds
no dot or has a prefix before its first dot that is not in the table; in every
other case a call that returns ends with another code. -/
theorem unknown_op_iff_with_operands (r54 : Nat → Int) (tbl : List nds32_opcode)
    (htab : List (List Char × Nat)) (pdesc : nds32_asm_desc) (pinsn : nds32_asm_insn)
    (m : List Char) (sep : Char) (t : List Char)
    (hm : m.all is_mnemonic_char = true) (hsep : sep = ' ' ∨ sep = '\t')
    (ht : nul_free t = true) :
    ((opcode_find htab m = none
          ∧ ('.' ∉ m ∨ opcode_find htab (m.takeWhile (fun c => c != '.')) = none)) →
        nds32_assemble r54 tbl htab pdesc pinsn (m ++ sep :: t)
          = some ⟨{ pdesc with result := .NASM_ERR_UNKNOWN_OP }, pinsn, tbl⟩)
      ∧ (¬ (opcode_find htab m = none
          ∧ ('.' ∉ m ∨ opcode_find htab (m.takeWhile (fun c => c != '.')) = none)) →
        ∀ r, nds32_assemble r54 tbl htab pdesc pinsn (m ++ sep :: t) = some r →
          r.pdesc.result ≠ .NASM_ERR_UNKNOWN_OP) := by
  have hcodes : ∀ s i r, nds32_assemble_found r54 tbl pdesc pinsn s i = some r →
      r.pdesc.result ≠ .NASM_ERR_UNKNOWN_OP := by
    intro s i r h
    rcases found_codes r54 tbl pdesc pinsn s i r h with h1 | h1 <;> rw [h1.1] <;> decide
  cases hf : opcode_find htab m with
  | some i =>
    refine ⟨fun h => absurd h.1 (by simp), fun _ r hr => ?_⟩
    rw [assemble_found r54 tbl htab pdesc pinsn m sep t i hm hsep ht hf] at hr
    exact hcodes _ _ _ hr
  | none =>
    by_cases hdot : '.' ∈ m
    · obtain ⟨P, S, hPS, hP, hS, htw⟩ := split_at_dot m hm hdot
      rw [htw]
      have key := assemble_dot_retry r54 tbl htab pdesc pinsn P S sep t hP hS hsep ht
        (by rw [← hPS]; exact hf)
      rw [← hPS] at key
      cases hp : opcode_find htab P with
      | none =>
        rw [hp] at key
        exact ⟨fun _ => key, fun h => absurd ⟨rfl, Or.inr rfl⟩ h⟩
      | some i =>
        rw [hp] at key
        refine ⟨fun h => ?_, fun _ r hr => ?_⟩
        · rcases h.2 with h2 | h2
          · exact absurd hdot h2
          · exact absurd h2 (by simp)
        · rw [key] at hr
          exact hcodes _ _ _ hr
    · exact ⟨fun _ => assemble_no_dot r54 tbl htab pdesc pinsn m sep t hm hsep ht hdot hf,
        fun h => absurd ⟨rfl, Or.inl hdot⟩ h⟩

/-- C12 fails on the code for a line that ends in the dot of its mnemonic: against
the single entry `add`, the line `add.` ends with `NASM_ERR_UNKNOWN_OP` and an
untouched instruction although the prefix `add` before the dot is in the table
(the retry writes its blank over the NUL that has just replaced the dot and looks
up the name `add` followed by a blank).  With a blank after the dot the prefix is
found and the call ends with `NASM_ERR_SYNTAX`. -/
theorem unknown_op_on_trailing_dot :
    (nds32_asm_init (pdesc_with 0 (resolve_const 0)) 0 [opcode_add 0]).map
        (fun st => (opcode_find st.2.2 "add.".toList, opcode_find st.2.2 "add".toList))
      = some (none, some 0)
    ∧ '.' ∈ "add.".toList
    ∧ assemble_line (fun n => (n : Int)) (resolve_const 0) 0 [opcode_add 0] "add."
      = some (.NASM_ERR_UNKNOWN_OP, pinsn_zero)
    ∧ (assemble_line (fun n => (n : Int)) (resolve_const 0) 0 [opcode_add 0] "add. ").map
        (fun r => (r.1, r.2.opcode)) = some (.NASM_ERR_SYNTAX, none) := by
  decide

/-! ## The encode call once the mnemonic is found -/

/-- On an initialised table, the call that found entry `j` for the mnemonic `m`
tries the entries named `m` in table order. -/
theorem found_first_match (r54 : Nat → Int) (ops tbl : List nds32_opcode)
    (htab : List (List Char × Nat)) (hinv : init_inv ops ops.length tbl htab)
    (pdesc : nds32_asm_desc) (pinsn : nds32_asm_insn) (m s : List Char) (j : Nat)
    (hfind : opcode_find htab m = some j) :
    nds32_assemble_found r54 tbl pdesc pinsn s j
      = (first_match r54 s tbl (named_indices ops m) pdesc pinsn).map
          (fun r =>
            match r.1 with
            | none =>
              ⟨{ r.2.1 with result := .NASM_ERR_SYNTAX }, { r.2.2 with opcode := none }, tbl⟩
            | some i =>
              ⟨{ r.2.1 with result := .NASM_OK }, { r.2.2 with opcode := some i }, tbl⟩) := by
  have hch := hinv.chain m
  have hnm : named_below ops m ops.length = named_indices ops m := rfl
  rw [hnm, hfind] at hch
  have hlen : (named_indices ops m).length < tbl.length + 1 := by
    have := named_below_length ops m ops.length
    rw [hnm] at this
    rw [hinv.len]
    omega
  unfold nds32_assemble_found
  rw [assemble_chain_first r54 s tbl (init_compiled ops tbl htab hinv) _ _ _ pdesc pinsn hch
    hlen]
  cases first_match r54 s tbl (named_indices ops m) pdesc pinsn with
  | none => rfl
  | some r =>
    obtain ⟨o, pd, pi⟩ := r
    cases o <;> rfl

/-- Every call of `nds32_assemble` either ends with `NASM_ERR_UNKNOWN_OP` on an
untouched instruction, or goes on as `nds32_assemble_found` does. -/
theorem assemble_cases (r54 : Nat → Int) (tbl : List nds32_opcode)
    (htab : List (List Char × Nat)) (pdesc : nds32_asm_desc) (pinsn : nds32_asm_insn)
    (str : List Char) :
    nds32_assemble r54 tbl htab pdesc pinsn str
        = some ⟨{ pdesc with result := .NASM_ERR_UNKNOWN_OP }, pinsn, tbl⟩
      ∨ ∃ s i, nds32_assemble r54 tbl htab pdesc pinsn str
        = nds32_assemble_found r54 tbl pdesc pinsn s i := by
  unfold nds32_assemble
  dsimp only
  split
  · exact Or.inr ⟨_, _, rfl⟩
  · exact Or.inl rfl
  · split
    · exact Or.inr ⟨_, _, rfl⟩
    · exact Or.inl rfl

/-! ## The code of a failed encode call -/

/-- C13: on a table initialised by `nds32_asm_init`, whenever the mnemonic `m`
resolves to an entry (`opcode_find` answers `j`) and the loop over the entries named
`m` finds no entry whose pattern matches the operand text `s` (`first_match` ends
with a null entry), the call ends with `NASM_ERR_SYNTAX` and a null opcode, whatever
code the failures met on the way have left in the description.  The second part is
the same for the line made of `m`, a blank or tab, and `s`. -/
theorem no_match_is_syntax_error (r54 : Nat → Int) (pdesc0 pdesc : nds32_asm_desc)
    (flags : Nat) (ops tbl : List nds32_opcode) (htab : List (List Char × Nat))
    (hfresh : ∀ e ∈ ops, e.next = none)
    (hinit : nds32_asm_init pdesc0 flags ops = some (pdesc, tbl, htab))
    (pdesc1 : nds32_asm_desc) (pinsn : nds32_asm_insn) (m s : List Char) (j : Nat)
    (hfind : opcode_find htab m = some j)
    (hfail : (first_match r54 s tbl (named_indices ops m) pdesc1 pinsn).map (fun r => r.1)
      = some none) :
    (∃ r, nds32_assemble_found r54 tbl pdesc1 pinsn s j = some r
        ∧ r.pdesc.result = .NASM_ERR_SYNTAX ∧ r.pinsn.opcode = none)
      ∧ (m.all is_mnemonic_char = true → nul_free s = true →
          ∀ sep, sep = ' ' ∨ sep = '\t' →
            ∃ r, nds32_assemble r54 tbl htab pdesc1 pinsn (m ++ sep :: s) = some r
              ∧ r.pdesc.result = .NASM_ERR_SYNTAX ∧ r.pinsn.opcode = none) := by
  obtain ⟨hinv, _⟩ := init_inv_final ops hfresh pdesc0 pdesc flags tbl htab hinit
  have key := found_first_match r54 ops tbl htab hinv pdesc1 pinsn m s j hfind
  have hfound : ∃ r, nds32_assemble_found r54 tbl pdesc1 pinsn s j = some r
      ∧ r.pdesc.result = .NASM_ERR_SYNTAX ∧ r.pinsn.opcode = none := by
    rw [key]
    cases hfm : first_match r54 s tbl (named_indices ops m) pdesc1 pinsn with
    | none =>
      rw [hfm] at hfail
      exact absurd hfail (by simp)
    | some r =>
      obtain ⟨o, pd, pi⟩ := r
      rw [hfm] at hfail
      cases o with
      | some i => exact absurd hfail (by simp)
      | none => exact ⟨_, rfl, rfl, rfl⟩
  refine ⟨hfound, fun hm hs sep hsep => ?_⟩
  rw [assemble_found r54 tbl htab pdesc1 pinsn m sep s j hm hsep hs hfind]
  exact hfound

/-- C13 on the two entries `ex9.it` and a constant that neither accepts: both are
refused with `NASM_ERR_OUT_OF_RANGE`, the call ends with `NASM_ERR_SYNTAX`. -/
theorem no_match_is_syntax_error_witness :
    ∃ r, nds32_assemble (fun n => (n : Int))
          ((nds32_asm_init (pdesc_with 0 (resolve_const 600)) 0 table_ex9).get (by decide)).2.1
          ((nds32_asm_init (pdesc_with 0 (resolve_const 600)) 0 table_ex9).get (by decide)).2.2
          (pdesc_with 0 (resolve_const 600)) pinsn_zero ("ex9.it".toList ++ ' ' :: "600".toList)
        = some r
      ∧ r.pdesc.result = .NASM_ERR_SYNTAX ∧ r.pinsn.opcode = none :=
  (no_match_is_syntax_error (fun n => (n : Int)) (pdesc_with 0 (resolve_const 600)) _ 0
    table_ex9 _ _ (by decide) (Option.some_get (by decide)).symm
    (pdesc_with 0 (resolve_const 600)) pinsn_zero "ex9.it".toList "600".toList 0
    (by decide) (by decide)).2 (by decide) (by decide) ' ' (Or.inl rfl)

/-! ## The last failure is not what the call reports -/

/-- C14 fails as stated: against the two entries `ex9.it` with the constant 600, the
last attempted variant of the last overload (`%i9u`) fails with
`NASM_ERR_OUT_OF_RANGE`, and the call reports `NASM_ERR_SYNTAX`. -/
theorem last_failure_code_lost :
    (parse_insn (fun n => (n : Int)) (pdesc_with 0 (resolve_const 600)) pinsn_zero
        "600".toList (compiled (opcode_entry "ex9.it" "%i9u" 0xea00 2 0 0))).map
        (fun r => (r.1, r.2.1.result)) = some (false, .NASM_ERR_OUT_OF_RANGE)
    ∧ (assemble_line (fun n => (n : Int)) (resolve_const 600) 0 table_ex9 "ex9.it 600").map
        (fun r => (r.1, r.2.opcode)) = some (.NASM_ERR_SYNTAX, none) := by
  decide

/-- C14, amended: when every variant of every overload fails (the loop of
`nds32_assemble` over the chain runs off its end), the single code surfaced in
`pdesc->result` is `NASM_ERR_SYNTAX`, whatever code the last failure has left there
(the description `r0.pdesc` at the end of the loop), and the opcode is null.  No
call of `nds32_assemble` that returns ends with a code other than `NASM_OK`,
`NASM_ERR_SYNTAX` and `NASM_ERR_UNKNOWN_OP`. -/
theorem all_fail_reports_syntax_error (r54 : Nat → Int) (tbl : List nds32_opcode)
    (pdesc : nds32_asm_desc) (pinsn : nds32_asm_insn) (s : List Char) (i : Nat)
    (hfail : (nds32_assemble_chain r54 s (tbl.length + 1) (some i) tbl pdesc pinsn).map
      (fun r => r.1) = some none) :
    (∃ r0, nds32_assemble_chain r54 s (tbl.length + 1) (some i) tbl pdesc pinsn
          = some (none, r0)
        ∧ nds32_assemble_found r54 tbl pdesc pinsn s i
          = some ⟨{ r0.pdesc with result := .NASM_ERR_SYNTAX },
              { r0.pinsn with opcode := none }, r0.tbl⟩)
      ∧ ∀ (htab : List (List Char × Nat)) (str : List Char) (r : assemble_result),
          nds32_assemble r54 tbl htab pdesc pinsn str = some r →
            r.pdesc.result = .NASM_OK ∨ r.pdesc.result = .NASM_ERR_SYNTAX
              ∨ r.pdesc.result = .NASM_ERR_UNKNOWN_OP := by
  constructor
  · cases hc : nds32_assemble_chain r54 s (tbl.length + 1) (some i) tbl pdesc pinsn with
    | none =>
      rw [hc] at hfail
      exact absurd hfail (by simp)
    | some c =>
      obtain ⟨o, r0⟩ := c
      rw [hc] at hfail
      cases o with
      | some k => exact absurd hfail (by simp)
      | none =>
        refine ⟨r0, rfl, ?_⟩
        unfold nds32_assemble_found
        rw [hc]
  · intro htab str r hr
    rcases assemble_cases r54 tbl htab pdesc pinsn str with h | ⟨s', i', h⟩
    · rw [h, Option.some.injEq] at hr
      rw [← hr]
      exact Or.inr (Or.inr rfl)
    · rw [h] at hr
      rcases found_codes r54 tbl pdesc pinsn s' i' r hr with h1 | h1
      · exact Or.inl h1.1
      · exact Or.inr (Or.inl h1.1)

/-- C14 (amended) on the initialised entries `ex9.it` and the constant 600: the
loop ends on `NASM_ERR_OUT_OF_RANGE`, the call ends on `NASM_ERR_SYNTAX`. -/
theorem all_fail_reports_syntax_error_witness :
    ∃ r0, nds32_assemble_chain (fun n => (n : Int)) "600".toList 4 (some 0)
          ((nds32_asm_init (pdesc_with 0 (resolve_const 600)) 0 table_ex9).get (by decide)).2.1
          (pdesc_with 0 (resolve_const 600)) pinsn_zero = some (none, r0)
      ∧ nds32_assemble_found (fun n => (n : Int))
          ((nds32_asm_init (pdesc_with 0 (resolve_const 600)) 0 table_ex9).get (by decide)).2.1
          (pdesc_with 0 (resolve_const 600)) pinsn_zero "600".toList 0
        = some ⟨{ r0.pdesc with result := .NASM_ERR_SYNTAX },
            { r0.pinsn with opcode := none }, r0.tbl⟩ :=
  (all_fail_reports_syntax_error (fun n => (n : Int))
    ((nds32_asm_init (pdesc_with 0 (resolve_const 600)) 0 table_ex9).get (by decide)).2.1
    (pdesc_with 0 (resolve_const 600)) pinsn_zero "600".toList 0 (by decide)).1

/-! ## Integer operands: what the resolver's answer leads to -/

theorem record_modifier_defuse (pinsn : nds32_asm_insn) (modifier : Nat) :
    (record_modifier pinsn modifier).defuse = pinsn.defuse := by
  unfold record_modifier
  split_ifs <;> rfl

theorem record_modifier_field (pinsn : nds32_asm_insn) (modifier : Nat) :
    (record_modifier pinsn modifier).field = pinsn.field := by
  unfold record_modifier
  split_ifs <;> rfl

/-- The first half of `parse_operand` on a hook-less integer field, by the answer
of the resolver on the expression text. -/
theorem int_stage (r54 : Nat → Int) (pdesc : nds32_asm_desc) (pinsn : nds32_asm_insn)
    (p : List Char) (fld : field_t) (syn : Nat)
    (hhook : fld.parse = none) (hcls : fld.hw_res = HW_INT ∨ fld.hw_res = HW_UINT) :
    parse_operand_value r54 pdesc pinsn p fld syn
      = match (pdesc.parse_operand (expression_text p)).r with
        | .NASM_R_ILLEGAL =>
          .failed ⟨false, { pdesc with result := .NASM_ERR_OPERAND },
            record_modifier pinsn (modifier_at (if peek p = '#' then p.drop 1 else p)), p⟩
        | .NASM_R_SYMBOL =>
          .parsed
            { record_modifier pinsn (modifier_at (if peek p = '#' then p.drop 1 else p)) with
              field := some fld }
            (if modifier_at (if peek p = '#' then p.drop 1 else p) ≠ 0 then
              (pdesc.parse_operand (expression_text p)).pstr.drop 1
              else (pdesc.parse_operand (expression_text p)).pstr)
            (wrap64 (pdesc.parse_operand (expression_text p)).value)
        | .NASM_R_CONST =>
          .parsed (record_modifier pinsn (modifier_at (if peek p = '#' then p.drop 1 else p)))
            (if modifier_at (if peek p = '#' then p.drop 1 else p) ≠ 0 then
              (pdesc.parse_operand (expression_text p)).pstr.drop 1
              else (pdesc.parse_operand (expression_text p)).pstr)
            (modifier_value (modifier_at (if peek p = '#' then p.drop 1 else p))
              (wrap64 (pdesc.parse_operand (expression_text p)).value))
        | _ => .aborted := by
  have hnk : ¬ fld.hw_res < _HW_LAST := by
    rcases hcls with h | h <;> rw [h] <;> decide
  unfold parse_operand_value
  rw [hhook]
  dsimp only
  rw [if_neg hnk, if_pos hcls]
  rfl

/-! ## An expression the resolver rejects -/

/-- C15 fails as stated: against the two entries `trap` (`%swid`, then the empty
pattern) with a resolver that rejects every text, the line `trap` ends with
`NASM_OK` on the second entry: the first entry is refused (`parse_insn` returns 0
with `NASM_ERR_OPERAND`) and the next overload is tried and matches. -/
theorem illegal_expression_then_match :
    (compiled (opcode_entry "trap" "%swid" 0 4 0 0)).lexes = some [0x1113, 0]
    ∧ (parse_insn (fun n => (n : Int)) (pdesc_with 0 resolve_illegal) pinsn_zero []
        (compiled (opcode_entry "trap" "%swid" 0 4 0 0))).map (fun r => (r.1, r.2.1.result))
      = some (false, .NASM_ERR_OPERAND)
    ∧ assemble_line (fun n => (n : Int)) resolve_illegal 0 (table_trap 0) "trap"
      = some (.NASM_OK, ⟨some 1, 0, 0, 0, none⟩) := by
  decide

/-- C15, amended: when the external resolver rejects the expression of a hook-less
integer operand as illegal, only the current variant is abandoned.  `parse_operand`
sets `NASM_ERR_OPERAND` and returns 0 with the instruction word and the cursor
untouched; the walk of the variant stops there as for any failed operand; a
variant that fails is followed by the next variant while one is left; an entry
whose variants all fail is followed by the next entry of the chain; and the call
ends with `NASM_OK` when one of them matches and with `NASM_ERR_SYNTAX`
otherwise. -/
theorem illegal_expression_abandons_variant (r54 : Nat → Int) (pdesc : nds32_asm_desc)
    (pinsn : nds32_asm_insn) (p : List Char) (x : Nat) (fld : field_t)
    (hfld : LEX_GET_FIELD x = some fld) (hhook : fld.parse = none)
    (hcls : fld.hw_res = HW_INT ∨ fld.hw_res = HW_UINT)
    (hill : (pdesc.parse_operand (expression_text p)).r = .NASM_R_ILLEGAL) :
    (∃ pinsn1, pinsn1.insn = pinsn.insn ∧ pinsn1.defuse = pinsn.defuse
        ∧ pinsn1.field = pinsn.field
        ∧ parse_operand r54 pdesc pinsn p x
          = some ⟨false, { pdesc with result := .NASM_ERR_OPERAND }, pinsn1, p⟩
        ∧ ∀ variant plex opt, x ≠ 0 → IS_LEX_CHAR x = false → x &&& SYN_LOPT = 0 →
            x &&& SYN_ROPT = 0 →
            parse_insn_walk r54 variant (x :: plex) false opt pdesc pinsn p
              = some ⟨false, { pdesc with result := .NASM_ERR_OPERAND }, pinsn1, p⟩)
      ∧ (∀ (str : List Char) (opc : nds32_opcode) (fuel v : Nat) (pd pd1 : nds32_asm_desc)
          (pi pi1 : nds32_asm_insn),
          parse_insn_variant r54 pd pi str opc v = some (false, pd1, pi1) →
          parse_insn_loop r54 str opc (fuel + 1) v pd pi
            = if v + 1 < 1 <<< opc.variant then parse_insn_loop r54 str opc fuel (v + 1) pd1 pi1
              else some (false, pd1, pi1))
      ∧ (∀ (s : List Char) (fuel i : Nat) (tbl : List nds32_opcode) (opc opc1 : nds32_opcode)
          (pd pd1 : nds32_asm_desc) (pi pi1 : nds32_asm_insn),
          tbl[i]? = some opc → build_opcode_syntax opc = some opc1 →
          parse_insn r54 pd
              { pi with defuse := opc1.defuse, insn := 0, field := none, attr := opc1.attr }
              s opc1 = some (false, pd1, pi1) →
          nds32_assemble_chain r54 s (fuel + 1) (some i) tbl pd pi
            = nds32_assemble_chain r54 s fuel opc1.next (tbl.set i opc1) pd1 pi1)
      ∧ (∀ (tbl : List nds32_opcode) (pd : nds32_asm_desc) (pi : nds32_asm_insn)
          (s : List Char) (i : Nat) (r : assemble_result),
          nds32_assemble_found r54 tbl pd pi s i = some r →
            (r.pdesc.result = .NASM_OK ∧ r.pinsn.opcode ≠ none)
              ∨ (r.pdesc.result = .NASM_ERR_SYNTAX ∧ r.pinsn.opcode = none)) := by
  have hst := int_stage r54 pdesc pinsn p fld x hhook hcls
  rw [hill] at hst
  dsimp only at hst
  have hop : parse_operand r54 pdesc pinsn p x
      = some ⟨false, { pdesc with result := .NASM_ERR_OPERAND },
          record_modifier pinsn (modifier_at (if peek p = '#' then p.drop 1 else p)), p⟩ := by
    rw [parse_operand_eq r54 pdesc pinsn p x fld hfld]
    unfold parse_operand_fld
    rw [hst]
  refine ⟨⟨_, record_modifier_insn _ _, record_modifier_defuse _ _, record_modifier_field _ _,
    hop, ?_⟩, ?_, ?_, ?_⟩
  · intro variant plex opt hx hchar hl hr
    rw [walk_field _ _ _ _ _ _ _ _ hx hchar hl hr, hop]
    rfl
  · intro str opc fuel v pd pd1 pi pi1 h
    rw [parse_insn_loop, h]
  · intro s fuel i tbl opc opc1 pd pd1 pi pi1 hi hb h
    rw [nds32_assemble_chain, hi]
    dsimp only
    rw [hb]
    dsimp only
    rw [h]
  · intro tbl pd pi s i r h
    exact found_codes r54 tbl pd pi s i r h

/-- C15 (amended) on the field `swid` of `trap`, an empty operand text and a resolver
that rejects it. -/
theorem illegal_expression_abandons_variant_witness :
    ∃ pinsn1, pinsn1.insn = pinsn_zero.insn ∧ pinsn1.defuse = pinsn_zero.defuse
      ∧ pinsn1.field = pinsn_zero.field
      ∧ parse_operand (fun n => (n : Int)) (pdesc_with 0 resolve_illegal) pinsn_zero [] 0x1113
        = some ⟨false, { pdesc_with 0 resolve_illegal with result := .NASM_ERR_OPERAND },
            pinsn1, []⟩
      ∧ ∀ variant plex opt, 0x1113 ≠ 0 → IS_LEX_CHAR 0x1113 = false →
          0x1113 &&& SYN_LOPT = 0 → 0x1113 &&& SYN_ROPT = 0 →
          parse_insn_walk (fun n => (n : Int)) variant (0x1113 :: plex) false opt
              (pdesc_with 0 resolve_illegal) pinsn_zero []
            = some ⟨false, { pdesc_with 0 resolve_illegal with result := .NASM_ERR_OPERAND },
                pinsn1, []⟩ :=
  (illegal_expression_abandons_variant (fun n => (n : Int)) (pdesc_with 0 resolve_illegal)
    pinsn_zero [] 0x1113 ⟨"swid".toList, 5, 15, 0, HW_UINT, none⟩ (by decide) rfl
    (Or.inr rfl) (by decide)).1

/-! ## Reduced-register gating -/

/-- C16: for a hook-less general-register field and a register keyword `k` that
resolves (the text is an optional `$`, the name `w` in any case, then `rest`) but
lacks the attribute `RDREG`: with the flag `NASM_OPEN_REDUCED_REG` set,
`parse_operand` returns 0 with `NASM_ERR_REG_REDUCED` and leaves the instruction
(word, def/use mask and all) and the cursor untouched; with the flag clear the call
is not refused for that reason: it records the def/use bits and submits the value
of `k` for this field (`k->value`, sent through `nds32_r54map` when
`bitsize + shift` is 4) to the alignment and range check, it succeeds exactly when
the value passes that check, and a refusal carries `NASM_ERR_OUT_OF_RANGE`. -/
theorem reduced_register_gating (r54 : Nat → Int) (pdesc : nds32_asm_desc)
    (pinsn : nds32_asm_insn) (fld : field_t) (syn : Nat) (dollar : Bool)
    (w rest : List Char) (k : keyword_t)
    (hhook : fld.parse = none) (hgpr : fld.hw_res = HW_GPR)
    (hw : w.all is_keyword_char = true) (hne : w ≠ []) (hrest : keyword_ends rest = true)
    (hk : keyword_find keyword_gpr (w.map Char.toLower) = some k)
    (hattr : k.attr &&& NASM_ATTR_RDREG = 0) :
    (pdesc.flags &&& NASM_OPEN_REDUCED_REG ≠ 0 →
        parse_operand_fld r54 pdesc pinsn ((if dollar then ['$'] else []) ++ (w ++ rest)) fld syn
          = some ⟨false, { pdesc with result := .NASM_ERR_REG_REDUCED }, pinsn,
              (if dollar then ['$'] else []) ++ (w ++ rest)⟩)
      ∧ (pdesc.flags &&& NASM_OPEN_REDUCED_REG = 0 →
        ∃ out,
          parse_operand_fld r54 pdesc pinsn ((if dollar then ['$'] else []) ++ (w ++ rest))
              fld syn = some out
          ∧ (out.ret = true ↔
              (keyword_value r54 fld k % 2 ^ fld.shift = 0 ∧ 0 ≤ keyword_value r54 fld k
                ∧ keyword_value r54 fld k < 2 ^ (fld.bitsize + fld.shift)))
          ∧ (out.ret = true →
              out.pdesc = pdesc ∧ out.str = rest
                ∧ out.pinsn
                  = { record_defuse pinsn fld syn k with
                      insn := (pinsn.insn |||
                        ((keyword_value r54 fld k / 2 ^ fld.shift % 2 ^ fld.bitsize).toNat
                          <<< fld.bitpos)) % 2 ^ 32 })
          ∧ (out.ret = false →
              out.pdesc = { pdesc with result := .NASM_ERR_OUT_OF_RANGE }
                ∧ out.pinsn.insn = pinsn.insn))
      ∧ (fld.bitsize + fld.shift ≠ 4 → keyword_value r54 fld k = (k.value : Int)) := by
  have hhw : fld.hw_res < _HW_LAST := by rw [hgpr]; decide
  have hkt : hw_ktabs fld.hw_res = keyword_gpr := by rw [hgpr]; rfl
  have hst := keyword_stage r54 pdesc pinsn fld syn dollar w rest hhook hhw hw hne hrest
  rw [hkt, hk] at hst
  dsimp only at hst
  refine ⟨fun hflag => ?_, fun hflag => ?_, fun h4 => ?_⟩
  · have hc : fld.hw_res = HW_GPR ∧ pdesc.flags &&& NASM_OPEN_REDUCED_REG ≠ 0
        ∧ k.attr &&& NASM_ATTR_RDREG = 0 := ⟨hgpr, hflag, hattr⟩
    rw [if_pos hc] at hst
    unfold parse_operand_fld
    rw [hst]
  · have hc : ¬ (fld.hw_res = HW_GPR ∧ pdesc.flags &&& NASM_OPEN_REDUCED_REG ≠ 0
        ∧ k.attr &&& NASM_ATTR_RDREG = 0) := fun hc => hc.2.1 hflag
    rw [if_neg hc] at hst
    refine ⟨_, by unfold parse_operand_fld; rw [hst], ?_⟩
    rw [done_unsigned _ _ _ _ _ _ (hw_not_int fld hhw)]
    by_cases hc : keyword_value r54 fld k % 2 ^ fld.shift = 0 ∧ 0 ≤ keyword_value r54 fld k
        ∧ keyword_value r54 fld k < 2 ^ (fld.bitsize + fld.shift)
    · rw [if_pos hc]
      refine ⟨⟨fun _ => hc, fun _ => rfl⟩, fun _ => ⟨rfl, rfl, ?_⟩, fun h => absurd h (by simp)⟩
      rw [record_defuse_insn]
    · rw [if_neg hc]
      refine ⟨⟨fun h => absurd h (by simp), fun h => absurd h hc⟩,
        fun h => absurd h (by simp), fun _ => ⟨rfl, record_defuse_insn _ _ _ _⟩⟩
  · unfold keyword_value
    rw [if_neg (fun hc => h4 hc.2)]

/-- C16 at register `r11` (not in the reduced set) under the field `rt`, with the
flag set. -/
theorem reduced_register_gating_witness :
    parse_operand_fld (fun n => (n : Int)) (pdesc_with NASM_OPEN_REDUCED_REG (resolve_const 0))
        pinsn_zero "r11,r2".toList ⟨"rt".toList, 20, 5, 0, HW_GPR, none⟩ 0x2100
      = some ⟨false,
          { pdesc_with NASM_OPEN_REDUCED_REG (resolve_const 0) with
            result := .NASM_ERR_REG_REDUCED },
          pinsn_zero, "r11,r2".toList⟩ :=
  (reduced_register_gating (fun n => (n : Int))
    (pdesc_with NASM_OPEN_REDUCED_REG (resolve_const 0)) pinsn_zero
    ⟨"rt".toList, 20, 5, 0, HW_GPR, none⟩ 0x2100 false "r11".toList ",r2".toList
    ⟨"r11".toList, 11, 0⟩ rfl rfl (by decide) (by decide) (by decide) (by decide)
    (by decide)).1 (by decide)

/-! ## The def/use mask -/

theorem regs_mask_append (a b : List Nat) :
    regs_mask (a ++ b) = regs_mask a ||| regs_mask b := by
  induction a with
  | nil => simp [regs_mask]
  | cons r a ih =>
    show 2 ^ r ||| regs_mask (a ++ b) = (2 ^ r ||| regs_mask a) ||| regs_mask b
    rw [ih, Nat.lor_assoc]

theorem bit_eq_pow (r : Nat) : __BIT r = 2 ^ r := by
  unfold __BIT
  rw [Nat.shiftLeft_eq, Nat.one_mul]

/-- What `record_defuse` leaves in the def/use mask. -/
theorem record_defuse_mask (pinsn : nds32_asm_insn) (fld : field_t) (syn : Nat) (k : keyword_t) :
    (record_defuse pinsn fld syn k).defuse
      = if fld.hw_res = HW_GPR ∧ (syn &&& SYN_INPUT ≠ 0 ∨ syn &&& SYN_OUTPUT ≠ 0) then
          pinsn.defuse ||| 2 ^ k.value
        else pinsn.defuse := by
  unfold record_defuse USE_REG DEF_REG
  rw [bit_eq_pow]
  by_cases hg : fld.hw_res = HW_GPR
  · by_cases hi : syn &&& SYN_INPUT ≠ 0
    · by_cases ho : syn &&& SYN_OUTPUT ≠ 0
      · simp only [hg, hi, ho, true_and, or_self, if_true, ne_eq, not_false_eq_true,
          Nat.lor_assoc, Nat.or_self]
      · simp only [hg, hi, ho, true_and, and_false, or_false, if_true, if_false, ne_eq,
          not_false_eq_true]
    · by_cases ho : syn &&& SYN_OUTPUT ≠ 0
      · simp only [hg, hi, ho, true_and, and_false, false_or, if_true, if_false, ne_eq,
          not_false_eq_true]
      · simp only [hg, hi, ho, and_false, or_self, if_false]
  · simp only [hg, false_and, if_false]

/-- One accepted operand adds to the def/use mask exactly the bit of the general
register it read, if it is a general-register operand. -/
theorem operand_defuse (r54 : Nat → Int) (pdesc : nds32_asm_desc) (pinsn : nds32_asm_insn)
    (p : List Char) (x : Nat) (res : operand_result)
    (h : parse_operand r54 pdesc pinsn p x = some res) (hret : res.ret = true) :
    res.pinsn.defuse = pinsn.defuse ||| regs_mask (operand_regs x p) := by
  unfold parse_operand at h
  unfold operand_regs
  cases hf : LEX_GET_FIELD x with
  | none =>
    rw [hf] at h
    exact absurd h (by simp)
  | some fld =>
    rw [hf] at h
    dsimp only at h ⊢
    unfold parse_operand_fld at h
    cases hp : fld.parse with
    | some hook =>
      unfold parse_operand_value at h
      rw [hp] at h
      dsimp only at h
      rw [Option.some.injEq] at h
      rw [← h] at hret ⊢
      rw [(done_ok _ _ _ _ _ _ hret).2.2.1, if_neg (fun hc => absurd hc.1 (by simp))]
      exact (Nat.or_zero _).symm
    | none =>
      by_cases hk : fld.hw_res < _HW_LAST
      · unfold parse_operand_value at h
        rw [hp] at h
        dsimp only at h
        rw [if_pos hk] at h
        unfold parse_operand_keyword at h
        dsimp only at h
        by_cases hg : fld.hw_res = HW_GPR
        · have hkt : hw_ktabs fld.hw_res = keyword_gpr := by rw [hg]; rfl
          rw [hkt] at h
          cases hkf : keyword_find keyword_gpr
              (parse_to_delimiter (if peek p = '$' then p.drop 1 else p)).2 with
          | none =>
            rw [hkf] at h
            dsimp only at h
            rw [Option.some.injEq] at h
            rw [← h] at hret
            exact absurd hret (by simp)
          | some k =>
            rw [hkf] at h
            dsimp only at h
            by_cases hred : fld.hw_res = HW_GPR ∧ pdesc.flags &&& NASM_OPEN_REDUCED_REG ≠ 0
                ∧ k.attr &&& NASM_ATTR_RDREG = 0
            · rw [if_pos hred, Option.some.injEq] at h
              rw [← h] at hret
              exact absurd hret (by simp)
            · rw [if_neg hred, Option.some.injEq] at h
              rw [← h] at hret ⊢
              rw [(done_ok _ _ _ _ _ _ hret).2.2.1, record_defuse_mask]
              by_cases hio : x &&& SYN_INPUT ≠ 0 ∨ x &&& SYN_OUTPUT ≠ 0
              · rw [if_pos ⟨hg, hio⟩, if_pos ⟨rfl, hg, hio⟩]
                simp [regs_mask]
              · rw [if_neg (fun hc => hio hc.2), if_neg (fun hc => hio hc.2.2)]
                exact (Nat.or_zero _).symm
        · rw [if_neg (fun hc => hg hc.2.1)]
          cases hkf : keyword_find (hw_ktabs fld.hw_res)
              (parse_to_delimiter (if peek p = '$' then p.drop 1 else p)).2 with
          | none =>
            rw [hkf] at h
            dsimp only at h
            rw [Option.some.injEq] at h
            rw [← h] at hret
            exact absurd hret (by simp)
          | some k =>
            rw [hkf] at h
            dsimp only at h
            rw [if_neg (fun hc => hg hc.1), Option.some.injEq] at h
            rw [← h] at hret ⊢
            rw [(done_ok _ _ _ _ _ _ hret).2.2.1, record_defuse_mask,
              if_neg (fun hc => hg hc.1)]
            exact (Nat.or_zero _).symm
      · have hg : fld.hw_res ≠ HW_GPR := by
          intro hc
          rw [hc] at hk
          exact hk (by decide)
        rw [if_neg (fun hc => hg hc.2.1)]
        show res.pinsn.defuse = pinsn.defuse ||| 0
        rw [Nat.or_zero]
        by_cases hcls : fld.hw_res = HW_INT ∨ fld.hw_res = HW_UINT
        · rw [int_stage r54 pdesc pinsn p fld x hp hcls] at h
          cases hr : (pdesc.parse_operand (expression_text p)).r <;> rw [hr] at h <;>
            dsimp only at h <;>
            first
            | (simp at h; done)
            | (rw [Option.some.injEq] at h
               rw [← h] at hret
               simp at hret
               done)
            | (rw [Option.some.injEq] at h
               rw [← h] at hret ⊢
               rw [(done_ok _ _ _ _ _ _ hret).2.2.1]
               exact (record_modifier_defuse _ _))
        · unfold parse_operand_value at h
          rw [hp] at h
          dsimp only at h
          rw [if_neg hk, if_neg hcls] at h
          exact absurd h (by simp)

/-! ## The def/use mask along a pattern without optional group -/

/-- Along a pattern without optional group, a walk that reaches the end of the
pattern has added to the def/use mask the bits of the registers its operands
read. -/
theorem walk_defuse (r54 : Nat → Int) (variant opt : Nat) :
    ∀ (lex : List Nat),
      (∀ x ∈ lex, IS_LEX_CHAR x = true ∨ (x &&& SYN_LOPT = 0 ∧ x &&& SYN_ROPT = 0)) →
      ∀ (pdesc : nds32_asm_desc) (pinsn : nds32_asm_insn) (p : List Char) (w : walk_result),
        parse_insn_walk r54 variant lex false opt pdesc pinsn p = some w →
        w.finished = true →
        w.pinsn.defuse = pinsn.defuse ||| regs_mask (walk_regs r54 lex pdesc pinsn p) := by
  intro lex
  induction lex with
  | nil =>
    intro _ pdesc pinsn p w h
    simp [parse_insn_walk] at h
  | cons x plex ih =>
    intro hno pdesc pinsn p w h hfin
    have hno' : ∀ y ∈ plex,
        IS_LEX_CHAR y = true ∨ (y &&& SYN_LOPT = 0 ∧ y &&& SYN_ROPT = 0) :=
      fun y hy => hno y (List.mem_cons_of_mem _ hy)
    by_cases hx : x = 0
    · subst hx
      rw [walk_end, Option.some.injEq] at h
      rw [← h]
      simp [walk_regs, regs_mask]
    · by_cases hchar : IS_LEX_CHAR x = true
      · rw [walk_char _ _ _ _ _ _ _ _ hx hchar] at h
        by_cases hc : LEX_CHAR x ≠ (peek p).toNat
        · rw [if_pos hc, Option.some.injEq] at h
          rw [← h] at hfin
          exact absurd hfin (by simp)
        · rw [if_neg hc] at h
          rw [ih hno' pdesc pinsn (p.drop 1) w h hfin]
          simp [walk_regs, hx, hchar]
      · have hchar' : IS_LEX_CHAR x = false := by simpa using hchar
        obtain ⟨hl, hr⟩ := (hno x (List.mem_cons_self _ _)).resolve_left hchar
        rw [walk_field _ _ _ _ _ _ _ _ hx hchar' hl hr] at h
        cases hop : parse_operand r54 pdesc pinsn p x with
        | none =>
          rw [hop] at h
          exact absurd h (by simp)
        | some res =>
          rw [hop] at h
          dsimp only at h
          cases hret : res.ret with
          | false =>
            rw [hret] at h
            simp only [Bool.false_eq_true, if_false, Option.some.injEq] at h
            rw [← h] at hfin
            exact absurd hfin (by simp)
          | true =>
            rw [hret, if_pos rfl] at h
            rw [ih hno' res.pdesc res.pinsn res.str w h hfin,
              operand_defuse r54 pdesc pinsn p x res hop hret]
            simp only [walk_regs, hx, hchar', if_false, hop, regs_mask_append, Nat.lor_assoc,
              Bool.false_eq_true]

/-- The matcher on an entry without optional group: when it accepts, the walk of
its single variant reached the end of the pattern. -/
theorem parse_insn_no_group (r54 : Nat → Int) (pdesc : nds32_asm_desc) (pinsn : nds32_asm_insn)
    (s : List Char) (opc : nds32_opcode) (lex : List Nat) (hlex : opc.lexes = some lex)
    (hvar : opc.variant = 0)
    (hok : (parse_insn r54 pdesc pinsn s opc).map (fun r => r.1) = some true) :
    ∃ w, parse_insn_walk r54 0 lex false 0 pdesc { pinsn with insn := opc.value } s = some w
      ∧ w.finished = true
      ∧ parse_insn r54 pdesc pinsn s opc = some (true, w.pdesc, w.pinsn) := by
  unfold parse_insn at hok ⊢
  rw [hvar] at hok ⊢
  simp only [Nat.shiftLeft_zero, parse_insn_loop, parse_insn_variant, hlex] at hok ⊢
  cases hw : parse_insn_walk r54 0 lex false 0 pdesc { pinsn with insn := opc.value } s with
  | none =>
    rw [hw] at hok
    simp at hok
  | some w =>
    rw [hw] at hok
    dsimp only at hok ⊢
    cases hb : (w.finished && at_insn_end w.p) with
    | false =>
      rw [hb] at hok
      simp at hok
    | true =>
      rw [Bool.and_eq_true] at hb
      exact ⟨w, rfl, hb.1, rfl⟩

/-- The whole call on the single entry `add`, with the complete instruction it
leaves behind. -/
theorem assemble_add_full (r54 : Nat → Int) (pdesc0 : nds32_asm_desc) (pinsn : nds32_asm_insn)
    (flags B isize attr defuse a b c : Nat) (hB : B < 2 ^ 32)
    (ha : a < 32) (hb : b < 32) (hc : c < 32)
    (hallow : flags &&& NASM_OPEN_REDUCED_REG = 0
      ∨ (reduced_reg a = true ∧ reduced_reg b = true ∧ reduced_reg c = true)) :
    nds32_asm_init pdesc0 flags [opcode_entry "add" "=rt,%ra,%rb" B isize attr defuse]
        = some ({ pdesc0 with flags := flags, mach := flags &&& NASM_OPEN_ARCH_MASK },
            [{ opcode_entry "add" "=rt,%ra,%rb" B isize attr defuse with
                lexes := some [0x2100, 44, 0x1101, 44, 0x1102, 0], variant := 0 }],
            [("add".toList, 0)])
      ∧ nds32_assemble r54
          [{ opcode_entry "add" "=rt,%ra,%rb" B isize attr defuse with
              lexes := some [0x2100, 44, 0x1101, 44, 0x1102, 0], variant := 0 }]
          [("add".toList, 0)]
          { pdesc0 with flags := flags, mach := flags &&& NASM_OPEN_ARCH_MASK } pinsn
          ("add ".toList ++ (reg_name a ++ ',' :: (reg_name b ++ ',' :: reg_name c)))
        = some ⟨{ pdesc0 with
              flags := flags, mach := flags &&& NASM_OPEN_ARCH_MASK, result := .NASM_OK },
            ⟨some 0, B ||| a <<< 20 ||| b <<< 15 ||| c <<< 10, attr,
              defuse ||| DEF_REG a ||| USE_REG b ||| USE_REG c, none⟩,
            [{ opcode_entry "add" "=rt,%ra,%rb" B isize attr defuse with
              lexes := some [0x2100, 44, 0x1101, 44, 0x1102, 0], variant := 0 }]⟩ := by
  have hnf : nul_free (reg_name a ++ ',' :: (reg_name b ++ ',' :: reg_name c)) = true :=
    nul_free_append _ _ (reg_nul_free a ha) (nul_free_cons _ _ (by decide)
      (nul_free_append _ _ (reg_nul_free b hb) (nul_free_cons _ _ (by decide)
        (reg_nul_free c hc))))
  have hwalk := walk_add r54 0 0
    ({ pdesc0 with flags := flags, mach := flags &&& NASM_OPEN_ARCH_MASK })
    ({ pinsn with defuse := defuse, insn := B, field := none, attr := attr }) a b c []
    ha hb hc rfl hallow hB
  rw [List.append_nil] at hwalk
  refine ⟨rfl, ?_⟩
  have key := assemble_found r54
    [{ opcode_entry "add" "=rt,%ra,%rb" B isize attr defuse with
        lexes := some [0x2100, 44, 0x1101, 44, 0x1102, 0], variant := 0 }]
    [("add".toList, 0)]
    ({ pdesc0 with flags := flags, mach := flags &&& NASM_OPEN_ARCH_MASK }) pinsn
    "add".toList ' ' _ 0 (by decide) (Or.inl rfl) hnf (by decide)
  refine key.trans ?_
  simp only [nds32_assemble_found, List.length_cons, List.length_nil, nds32_assemble_chain,
    List.getElem?_cons_zero, build_opcode_syntax, parse_insn, parse_insn_loop,
    parse_insn_variant]
  erw [hwalk]
  rfl

/-! ## Def/use accumulation -/

/-- C17: for an opcode entry whose compiled pattern `lex` has no optional group, once
its pattern is accepted for the operand text `s` the loop of `nds32_assemble` ends
on it, the call ends with `NASM_OK`, and `pinsn->defuse` is the static mask of the
entry OR-ed with bit `2 ^ r` for every general register `r` read through a hook-less
general-register field tagged input and/or output (`walk_regs`).  For
`add rA,rB,rC` on the single entry `add` with static mask `defuse`, the mask is
`defuse | 2^a | 2^b | 2^c`: with static mask 0 and `add r1,r2,r3`, exactly the
bits of registers 1, 2 and 3. -/
theorem defuse_accumulates (r54 : Nat → Int) (tbl : List nds32_opcode)
    (pdesc : nds32_asm_desc) (pinsn : nds32_asm_insn) (s : List Char) (i : Nat)
    (opc : nds32_opcode) (lex : List Nat)
    (hi : tbl[i]? = some opc) (hlex : opc.lexes = some lex) (hvar : opc.variant = 0)
    (hno : ∀ x ∈ lex, IS_LEX_CHAR x = true ∨ (x &&& SYN_LOPT = 0 ∧ x &&& SYN_ROPT = 0))
    (hok : (parse_insn r54 pdesc
        { pinsn with defuse := opc.defuse, insn := 0, field := none, attr := opc.attr }
        s opc).map (fun r => r.1) = some true) :
    (∀ fuel, ∃ r,
        nds32_assemble_chain r54 s (fuel + 1) (some i) tbl pdesc pinsn = some (some i, r)
        ∧ r.pinsn.defuse = opc.defuse ||| regs_mask (walk_regs r54 lex pdesc
            { pinsn with defuse := opc.defuse, insn := opc.value, field := none,
                         attr := opc.attr } s))
      ∧ (∃ r, nds32_assemble_found r54 tbl pdesc pinsn s i = some r
        ∧ r.pdesc.result = .NASM_OK ∧ r.pinsn.opcode = some i
        ∧ r.pinsn.defuse = opc.defuse ||| regs_mask (walk_regs r54 lex pdesc
            { pinsn with defuse := opc.defuse, insn := opc.value, field := none,
                         attr := opc.attr } s))
      ∧ (∀ (pdesc0 : nds32_asm_desc) (pinsn0 : nds32_asm_insn)
          (flags B isize attr defuse a b c : Nat), B < 2 ^ 32 → a < 32 → b < 32 → c < 32 →
          (flags &&& NASM_OPEN_REDUCED_REG = 0
            ∨ (reduced_reg a = true ∧ reduced_reg b = true ∧ reduced_reg c = true)) →
          ∃ pdesc1 tbl1 htab1 r,
            nds32_asm_init pdesc0 flags [opcode_entry "add" "=rt,%ra,%rb" B isize attr defuse]
                = some (pdesc1, tbl1, htab1)
              ∧ nds32_assemble r54 tbl1 htab1 pdesc1 pinsn0
                  ("add ".toList ++ (reg_name a ++ ',' :: (reg_name b ++ ',' :: reg_name c)))
                = some r
              ∧ r.pdesc.result = .NASM_OK
              ∧ r.pinsn.defuse = defuse ||| 2 ^ a ||| 2 ^ b ||| 2 ^ c) := by
  obtain ⟨w, hw, hfin, hpi⟩ := parse_insn_no_group r54 pdesc
    { pinsn with defuse := opc.defuse, insn := 0, field := none, attr := opc.attr } s opc lex
    hlex hvar hok
  have hmask := walk_defuse r54 0 0 lex hno pdesc _ s w hw hfin
  have hb : build_opcode_syntax opc = some opc := build_idem opc (by rw [hlex]; rfl)
  have hchain : ∀ fuel, nds32_assemble_chain r54 s (fuel + 1) (some i) tbl pdesc pinsn
      = some (some i, ⟨w.pdesc, w.pinsn, tbl⟩) := by
    intro fuel
    rw [nds32_assemble_chain, hi]
    dsimp only
    rw [hb]
    dsimp only
    rw [hpi, set_same tbl i opc hi]
  refine ⟨fun fuel => ⟨_, hchain fuel, hmask⟩, ?_, ?_⟩
  · refine ⟨⟨{ w.pdesc with result := .NASM_OK }, { w.pinsn with opcode := some i }, tbl⟩,
      ?_, rfl, rfl, hmask⟩
    unfold nds32_assemble_found
    rw [hchain]
  · intro pdesc0 pinsn0 flags B isize attr defuse a b c hB ha hb hc hallow
    obtain ⟨h1, h2⟩ := assemble_add_full r54 pdesc0 pinsn0 flags B isize attr defuse a b c hB
      ha hb hc hallow
    refine ⟨_, _, _, _, h1, h2, rfl, ?_⟩
    show defuse ||| DEF_REG a ||| USE_REG b ||| USE_REG c = _
    unfold DEF_REG USE_REG
    rw [bit_eq_pow, bit_eq_pow, bit_eq_pow]

/-- C17 at the spec's scenario A: `r1,r2,r3` against the compiled `add` with static
mask 0 leaves the bits of registers 1, 2 and 3. -/
theorem defuse_accumulates_witness :
    ∃ r, nds32_assemble_found (fun n => (n : Int)) [compiled (opcode_add 0)]
          (pdesc_with 0 (resolve_const 0)) pinsn_zero "r1,r2,r3".toList 0 = some r
      ∧ r.pdesc.result = .NASM_OK ∧ r.pinsn.opcode = some 0
      ∧ r.pinsn.defuse = 2 ^ 1 ||| 2 ^ 2 ||| 2 ^ 3 := by
  obtain ⟨r, h1, h2, h3, h4⟩ :=
    (defuse_accumulates (fun n => (n : Int)) [compiled (opcode_add 0)]
      (pdesc_with 0 (resolve_const 0)) pinsn_zero "r1,r2,r3".toList 0 (compiled (opcode_add 0))
      [0x2100, 44, 0x1101, 44, 0x1102, 0] rfl (by decide) (by decide) (by decide)
      (by decide)).2.1
  refine ⟨r, h1, h2, h3, h4.trans ?_⟩
  decide

/-! ## Modifiers of an integer operand -/

/-- The cursor after the optional `#` of an integer operand. -/
theorem skip_sharp (sharp : Bool) (q : List Char) (hq : sharp = false → peek q ≠ '#') :
    (if peek ((if sharp then ['#'] else []) ++ q) = '#' then
        ((if sharp then ['#'] else []) ++ q).drop 1
      else (if sharp then ['#'] else []) ++ q) = q := by
  cases sharp
  · simp [hq rfl]
  · simp [peek]

theorem modifier_head_not_sharp (pre rest lit : List Char) (h : pre.map Char.toLower = lit)
    (hlit : lit.head? ≠ some '#') (hne : lit ≠ []) : peek (pre ++ rest) ≠ '#' := by
  cases pre with
  | nil =>
    rw [List.map_nil] at h
    exact absurd h.symm hne
  | cons a pre =>
    intro hc
    have ha : a = '#' := hc
    rw [ha, List.map_cons] at h
    rw [← h] at hlit
    exact hlit rfl

theorem strncasecmp5_hit (pre rest lit : List Char) (h : pre.map Char.toLower = lit)
    (hlen : lit.length = 5) : strncasecmp5 (pre ++ rest) lit = true := by
  have hl : pre.length = 5 := by rw [← hlen, ← h, List.length_map]
  unfold strncasecmp5
  rw [List.take_left' hl, h]
  simp

theorem modifier_at_hi20 (pre rest : List Char) (h : pre.map Char.toLower = "hi20(".toList) :
    modifier_at (pre ++ rest) = NASM_ATTR_HI20 := by
  unfold modifier_at
  rw [strncasecmp5_hit pre rest _ h rfl, if_pos rfl]

theorem strncasecmp5_miss (pre rest lit lit' : List Char) (h : pre.map Char.toLower = lit)
    (hlen : lit.length = 5) (hne : lit ≠ lit') : strncasecmp5 (pre ++ rest) lit' = false := by
  have hl : pre.length = 5 := by rw [← hlen, ← h, List.length_map]
  unfold strncasecmp5
  rw [List.take_left' hl, h]
  simpa using hne

theorem modifier_at_lo12 (pre rest : List Char) (h : pre.map Char.toLower = "lo12(".toList) :
    modifier_at (pre ++ rest) = NASM_ATTR_LO12 := by
  unfold modifier_at
  rw [strncasecmp5_miss pre rest _ "hi20(".toList h rfl (by decide),
    strncasecmp5_hit pre rest _ h rfl]
  rfl

theorem modifier_at_lo20 (pre rest : List Char) (h : pre.map Char.toLower = "lo20(".toList) :
    modifier_at (pre ++ rest) = NASM_ATTR_LO20 := by
  unfold modifier_at
  rw [strncasecmp5_miss pre rest _ "hi20(".toList h rfl (by decide),
    strncasecmp5_miss pre rest _ "lo12(".toList h rfl (by decide),
    strncasecmp5_hit pre rest _ h rfl]
  rfl

/-- An integer operand under a modifier prefix `pre` of five characters, resolved
to the constant `c`: the attribute bit is recorded, the `)` is skipped, and the
part of `c` the modifier selects goes to the second half of `parse_operand`. -/
theorem modifier_operand (r54 : Nat → Int) (pdesc : nds32_asm_desc) (pinsn : nds32_asm_insn)
    (fld : field_t) (syn : Nat) (sharp : Bool) (pre rest endp : List Char) (c : Int)
    (mbit : Nat) (hhook : fld.parse = none)
    (hcls : fld.hw_res = HW_INT ∨ fld.hw_res = HW_UINT)
    (hmod : modifier_at (pre ++ rest) = mbit) (hm0 : mbit ≠ 0) (hlen : pre.length = 5)
    (hsharp : peek (pre ++ rest) ≠ '#')
    (hres : pdesc.parse_operand rest = ⟨.NASM_R_CONST, endp, c⟩) :
    parse_operand_fld r54 pdesc pinsn ((if sharp then ['#'] else []) ++ (pre ++ rest)) fld syn
      = some (parse_operand_done pdesc { pinsn with attr := pinsn.attr ||| mbit }
          ((if sharp then ['#'] else []) ++ (pre ++ rest)) (endp.drop 1) fld
          (modifier_value mbit (wrap64 c))) := by
  have hend := skip_sharp sharp (pre ++ rest) (fun _ => hsharp)
  have hexp : expression_text ((if sharp then ['#'] else []) ++ (pre ++ rest)) = rest := by
    unfold expression_text
    dsimp only
    rw [hend, hmod, if_pos hm0, List.drop_left' hlen]
  have hst := int_stage r54 pdesc pinsn ((if sharp then ['#'] else []) ++ (pre ++ rest)) fld
    syn hhook hcls
  rw [hexp, hres, hend, hmod] at hst
  dsimp only at hst
  rw [if_pos hm0] at hst
  unfold parse_operand_fld
  rw [hst]
  unfold record_modifier
  rw [if_pos hm0]

/-- An integer operand without modifier prefix, resolved to the constant `c`. -/
theorem plain_int_operand (r54 : Nat → Int) (pdesc : nds32_asm_desc) (pinsn : nds32_asm_insn)
    (fld : field_t) (syn : Nat) (sharp : Bool) (rest endp : List Char) (c : Int)
    (hhook : fld.parse = none) (hcls : fld.hw_res = HW_INT ∨ fld.hw_res = HW_UINT)
    (hmod : modifier_at rest = 0) (hsharp : sharp = false → peek rest ≠ '#')
    (hres : pdesc.parse_operand rest = ⟨.NASM_R_CONST, endp, c⟩) :
    parse_operand_fld r54 pdesc pinsn ((if sharp then ['#'] else []) ++ rest) fld syn
      = some (parse_operand_done pdesc pinsn ((if sharp then ['#'] else []) ++ rest) endp fld
          (wrap64 c)) := by
  have h00 : ¬ ((0 : Nat) ≠ 0) := fun h => h rfl
  have hend := skip_sharp sharp rest hsharp
  have hexp : expression_text ((if sharp then ['#'] else []) ++ rest) = rest := by
    unfold expression_text
    dsimp only
    rw [hend, hmod, if_neg h00]
  have hst := int_stage r54 pdesc pinsn ((if sharp then ['#'] else []) ++ rest) fld
    syn hhook hcls
  rw [hexp, hres, hend, hmod] at hst
  dsimp only at hst
  rw [if_neg h00] at hst
  unfold parse_operand_fld
  rw [hst]
  unfold record_modifier modifier_value
  rw [if_neg h00]
  rfl

/-! ## Relocation modifiers -/

/-- C18: for a hook-less signed or unsigned integer field, when the operand text
after an optional `#` starts, whatever the case of its letters, with `hi20(`,
`lo12(` or `lo20(` and the resolver answers the text after the prefix with the
constant `c`, the value submitted to the alignment and range check and to the
packing is `(c >> 12) & 0xFFFFF`, `c & 0xFFF` or `c & 0xFFFFF`, and the attribute
bit `NASM_ATTR_HI20`, `NASM_ATTR_LO12` or `NASM_ATTR_LO20` is OR-ed into
`pinsn->attr`; without such a prefix the value is `c` and the instruction is
submitted as it was. -/
theorem relocation_modifier (r54 : Nat → Int) (pdesc : nds32_asm_desc)
    (pinsn : nds32_asm_insn) (fld : field_t) (syn : Nat) (sharp : Bool)
    (pre rest endp : List Char) (c : Int)
    (hhook : fld.parse = none) (hcls : fld.hw_res = HW_INT ∨ fld.hw_res = HW_UINT)
    (hc0 : -2 ^ 63 ≤ c) (hc1 : c < 2 ^ 63)
    (hres : pdesc.parse_operand rest = ⟨.NASM_R_CONST, endp, c⟩) :
    (pre.map Char.toLower = "hi20(".toList →
        parse_operand_fld r54 pdesc pinsn ((if sharp then ['#'] else []) ++ (pre ++ rest))
            fld syn
          = some (parse_operand_done pdesc { pinsn with attr := pinsn.attr ||| NASM_ATTR_HI20 }
              ((if sharp then ['#'] else []) ++ (pre ++ rest)) (endp.drop 1) fld
              (Int.land (c >>> (12 : Nat)) 0xfffff)))
      ∧ (pre.map Char.toLower = "lo12(".toList →
        parse_operand_fld r54 pdesc pinsn ((if sharp then ['#'] else []) ++ (pre ++ rest))
            fld syn
          = some (parse_operand_done pdesc { pinsn with attr := pinsn.attr ||| NASM_ATTR_LO12 }
              ((if sharp then ['#'] else []) ++ (pre ++ rest)) (endp.drop 1) fld
              (Int.land c 0xfff)))
      ∧ (pre.map Char.toLower = "lo20(".toList →
        parse_operand_fld r54 pdesc pinsn ((if sharp then ['#'] else []) ++ (pre ++ rest))
            fld syn
          = some (parse_operand_done pdesc { pinsn with attr := pinsn.attr ||| NASM_ATTR_LO20 }
              ((if sharp then ['#'] else []) ++ (pre ++ rest)) (endp.drop 1) fld
              (Int.land c 0xfffff)))
      ∧ (modifier_at rest = 0 → (sharp = false → peek rest ≠ '#') →
        parse_operand_fld r54 pdesc pinsn ((if sharp then ['#'] else []) ++ rest) fld syn
          = some (parse_operand_done pdesc pinsn ((if sharp then ['#'] else []) ++ rest) endp
              fld c)) := by
  have hw : wrap64 c = c := wrap64_id c hc0 hc1
  refine ⟨fun h => ?_, fun h => ?_, fun h => ?_, fun hmod hsharp => ?_⟩
  · have hl : pre.length = 5 := by
      have := congrArg List.length h
      rwa [List.length_map] at this
    rw [modifier_operand r54 pdesc pinsn fld syn sharp pre rest endp c NASM_ATTR_HI20 hhook hcls
      (modifier_at_hi20 pre rest h) (by decide) hl
      (modifier_head_not_sharp pre rest _ h (by decide) (by decide)) hres, hw]
    rfl
  · have hl : pre.length = 5 := by
      have := congrArg List.length h
      rwa [List.length_map] at this
    rw [modifier_operand r54 pdesc pinsn fld syn sharp pre rest endp c NASM_ATTR_LO12 hhook hcls
      (modifier_at_lo12 pre rest h) (by decide) hl
      (modifier_head_not_sharp pre rest _ h (by decide) (by decide)) hres, hw]
    rfl
  · have hl : pre.length = 5 := by
      have := congrArg List.length h
      rwa [List.length_map] at this
    rw [modifier_operand r54 pdesc pinsn fld syn sharp pre rest endp c NASM_ATTR_LO20 hhook hcls
      (modifier_at_lo20 pre rest h) (by decide) hl
      (modifier_head_not_sharp pre rest _ h (by decide) (by decide)) hres, hw]
    rfl
  · rw [plain_int_operand r54 pdesc pinsn fld syn sharp rest endp c hhook hcls hmod hsharp hres,
      hw]

/-- C18 on `#HI20(x)` under the field `i20u` with the constant `0x12345678`: the
value submitted is `(0x12345678 >> 12) & 0xFFFFF`. -/
theorem relocation_modifier_witness :
    parse_operand_fld (fun n => (n : Int)) (pdesc_with 0 (resolve_to_paren 0x12345678))
        pinsn_zero "#HI20(x)".toList ⟨"i20u".toList, 0, 20, 0, HW_UINT, none⟩ 0x1100
      = some (parse_operand_done (pdesc_with 0 (resolve_to_paren 0x12345678))
          { pinsn_zero with attr := pinsn_zero.attr ||| NASM_ATTR_HI20 }
          "#HI20(x)".toList [] ⟨"i20u".toList, 0, 20, 0, HW_UINT, none⟩
          (Int.land ((0x12345678 : Int) >>> (12 : Nat)) 0xfffff)) :=
  (relocation_modifier (fun n => (n : Int)) (pdesc_with 0 (resolve_to_paren 0x12345678))
    pinsn_zero ⟨"i20u".toList, 0, 20, 0, HW_UINT, none⟩ 0x1100 true "HI20(".toList "x)".toList
    ")".toList 0x12345678 rfl (Or.inr rfl) (by decide) (by decide) (by decide)).1 (by decide)

/-! ## Symbolic operands -/

/-- C19 fails as stated: under the built-in fields `i20u` and `i20s`, a symbolic
reference whose resolver leaves the value slot at its initial `0x100000000` is
refused with `NASM_ERR_OUT_OF_RANGE`, and one whose resolver leaves 4 in the slot
is packed: the instruction word becomes 4. -/
theorem symbol_value_is_checked_and_packed :
    (⟨"i20u".toList, 0, 20, 0, HW_UINT, none⟩ : field_t) ∈ operand_fields
    ∧ (⟨"i20s".toList, 0, 20, 0, HW_INT, none⟩ : field_t) ∈ operand_fields
    ∧ (parse_operand_fld (fun n => (n : Int)) (pdesc_with 0 (resolve_symbol 0x100000000))
        pinsn_zero "sym".toList ⟨"i20u".toList, 0, 20, 0, HW_UINT, none⟩ 0x1100).map
        (fun o => (o.ret, o.pdesc.result)) = some (false, .NASM_ERR_OUT_OF_RANGE)
    ∧ (parse_operand_fld (fun n => (n : Int)) (pdesc_with 0 (resolve_symbol 0x100000000))
        pinsn_zero "sym".toList ⟨"i20s".toList, 0, 20, 0, HW_INT, none⟩ 0x1100).map
        (fun o => (o.ret, o.pdesc.result)) = some (false, .NASM_ERR_OUT_OF_RANGE)
    ∧ (parse_operand_fld (fun n => (n : Int)) (pdesc_with 0 (resolve_symbol 4))
        pinsn_zero "sym".toList ⟨"i20u".toList, 0, 20, 0, HW_UINT, none⟩ 0x1100).map
        (fun o => (o.ret, o.pinsn.insn, o.pinsn.field))
      = some (true, 4, some ⟨"i20u".toList, 0, 20, 0, HW_UINT, none⟩) := by
  decide

/-- C19, amended: when the resolver reports a symbolic reference for a hook-less
integer field, `parse_operand` records the field descriptor in `pinsn->field` and
then submits what the resolver left in the value slot (`v`) to the same alignment
and range check and the same packing as a constant.  With 0 in the slot the call
succeeds and the instruction word is unchanged; with the initial `0x100000000`
still in the slot it fails with `NASM_ERR_OUT_OF_RANGE`. -/
theorem symbol_operand (r54 : Nat → Int) (pdesc : nds32_asm_desc) (pinsn : nds32_asm_insn)
    (p : List Char) (fld : field_t) (syn : Nat) (endp : List Char) (v : Int)
    (hhook : fld.parse = none) (hcls : fld.hw_res = HW_INT ∨ fld.hw_res = HW_UINT)
    (hres : pdesc.parse_operand (expression_text p) = ⟨.NASM_R_SYMBOL, endp, v⟩)
    (hv0 : -2 ^ 63 ≤ v) (hv1 : v < 2 ^ 63)
    (hn1 : 1 ≤ fld.bitsize + fld.shift) (hn : fld.bitsize + fld.shift ≤ 31)
    (hword : pinsn.insn < 2 ^ 32) :
    ∃ pinsn1 end2,
      pinsn1.field = some fld ∧ pinsn1.insn = pinsn.insn ∧ pinsn1.defuse = pinsn.defuse
      ∧ parse_operand_fld r54 pdesc pinsn p fld syn
        = some (parse_operand_done pdesc pinsn1 p end2 fld v)
      ∧ (v = 0 → parse_operand_fld r54 pdesc pinsn p fld syn
          = some ⟨true, pdesc, pinsn1, end2⟩)
      ∧ (v = 0x100000000 → parse_operand_fld r54 pdesc pinsn p fld syn
          = some ⟨false, { pdesc with result := .NASM_ERR_OUT_OF_RANGE }, pinsn1, p⟩) := by
  have hst := int_stage r54 pdesc pinsn p fld syn hhook hcls
  rw [hres] at hst
  dsimp only at hst
  rw [wrap64_id v hv0 hv1] at hst
  have hfld : parse_operand_fld r54 pdesc pinsn p fld syn
      = some (parse_operand_done pdesc
          { record_modifier pinsn (modifier_at (if peek p = '#' then p.drop 1 else p)) with
            field := some fld } p
          (if modifier_at (if peek p = '#' then p.drop 1 else p) ≠ 0 then endp.drop 1 else endp)
          fld v) := by
    unfold parse_operand_fld
    rw [hst]
  obtain ⟨P1, hP1⟩ : ∃ P1 : nds32_asm_insn, P1 =
      { record_modifier pinsn (modifier_at (if peek p = '#' then p.drop 1 else p)) with
        field := some fld } := ⟨_, rfl⟩
  rw [← hP1] at hfld
  have hinsn : P1.insn = pinsn.insn := by
    rw [hP1]
    exact record_modifier_insn _ _
  have hdefuse : P1.defuse = pinsn.defuse := by
    rw [hP1]
    exact record_modifier_defuse _ _
  have hfield : P1.field = some fld := by rw [hP1]
  have hp1 : (1 : Int) ≤ 2 ^ (fld.bitsize + fld.shift - 1) := (pow_pred_facts _ hn1 hn).1
  have hp2 : (2 : Int) ^ (fld.bitsize + fld.shift - 1) ≤ 2 ^ 30 := (pow_pred_facts _ hn1 hn).2.1
  have hp3 : (2 : Int) ^ (fld.bitsize + fld.shift) = 2 * 2 ^ (fld.bitsize + fld.shift - 1) :=
    (pow_pred_facts _ hn1 hn).2.2
  have hz : (P1.insn ||| (((0 : Int) / 2 ^ fld.shift % 2 ^ fld.bitsize).toNat <<< fld.bitpos))
      % 2 ^ 32 = P1.insn := by
    rw [hinsn]
    simp only [Int.zero_ediv, Int.zero_emod, Int.toNat_zero, Nat.zero_shiftLeft, Nat.or_zero]
    exact Nat.mod_eq_of_lt hword
  refine ⟨P1, _, hfield, hinsn, hdefuse, hfld, fun h0 => ?_, fun h32 => ?_⟩
  · rw [hfld, h0]
    by_cases hs : fld.hw_res = HW_INT
    · rw [done_signed _ _ _ _ _ _ hs hn1 hn (by norm_num) (by norm_num)]
      have hsx : sext32 0 = 0 := by decide
      rw [hsx, if_pos ⟨by simp, by omega, by omega⟩, hz]
    · rw [done_unsigned _ _ _ _ _ _ hs, if_pos ⟨by simp, le_refl _, by positivity⟩, hz]
  · rw [hfld, h32]
    by_cases hs : fld.hw_res = HW_INT
    · rw [done_signed _ _ _ _ _ _ hs hn1 hn (by norm_num) (by norm_num)]
      have hsx : sext32 0x100000000 = 0x100000000 := by decide
      rw [hsx, if_neg (fun hc => by omega)]
    · rw [done_unsigned _ _ _ _ _ _ hs, if_neg (fun hc => by omega)]

/-- C19 (amended) under the field `i20u`, with a resolver that leaves 0 in the
value slot of a symbolic reference. -/
theorem symbol_operand_witness :
    ∃ pinsn1 end2,
      pinsn1.field = some ⟨"i20u".toList, 0, 20, 0, HW_UINT, none⟩
      ∧ pinsn1.insn = pinsn_zero.insn
      ∧ parse_operand_fld (fun n => (n : Int)) (pdesc_with 0 (resolve_symbol 0)) pinsn_zero
          "sym".toList ⟨"i20u".toList, 0, 20, 0, HW_UINT, none⟩ 0x1100
        = some ⟨true, pdesc_with 0 (resolve_symbol 0), pinsn1, end2⟩ := by
  obtain ⟨pinsn1, end2, h1, h2, _, _, h5, _⟩ :=
    symbol_operand (fun n => (n : Int)) (pdesc_with 0 (resolve_symbol 0)) pinsn_zero
      "sym".toList ⟨"i20u".toList, 0, 20, 0, HW_UINT, none⟩ 0x1100 [] 0 rfl (Or.inr rfl) rfl
      (by norm_num) (by norm_num) (by decide) (by decide) (by decide)
  exact ⟨pinsn1, end2, h1, h2, h5 rfl⟩

/-! ## The compressed-register map -/

/-- C20 fails as stated: under the built-in field `rt5e` (width 4, scale 1) the
register number is not sent through `nds32_r54map`.  With a map that sends every
register to 5, `r16` under `rt5e` packs `16 >> 1` at bit 4, derived from the
register number itself, while `r16` under `rt4` packs the mapped 5 at bit 5. -/
theorem rt5e_is_not_remapped :
    (⟨"rt5e".toList, 4, 4, 1, HW_GPR, none⟩ : field_t) ∈ operand_fields
    ∧ (⟨"ra5e".toList, 0, 4, 1, HW_GPR, none⟩ : field_t) ∈ operand_fields
    ∧ (parse_operand_fld (fun _ => 5) (pdesc_with 0 (resolve_const 0)) pinsn_zero "r16".toList
        ⟨"rt5e".toList, 4, 4, 1, HW_GPR, none⟩ 0x2100).map (fun o => (o.ret, o.pinsn.insn))
      = some (true, (16 >>> 1) <<< 4)
    ∧ (parse_operand_fld (fun _ => 5) (pdesc_with 0 (resolve_const 0)) pinsn_zero "r16".toList
        ⟨"ra5e".toList, 0, 4, 1, HW_GPR, none⟩ 0x1100).map (fun o => (o.ret, o.pinsn.insn))
      = some (true, 16 >>> 1)
    ∧ (parse_operand_fld (fun _ => 5) (pdesc_with 0 (resolve_const 0)) pinsn_zero "r16".toList
        ⟨"rt4".toList, 5, 4, 0, HW_GPR, none⟩ 0x2100).map (fun o => (o.ret, o.pinsn.insn))
      = some (true, 5 <<< 5) := by
  decide

/-- C20, amended: for every hook-less general-register field whose width plus scale
(`bitsize + shift`) is exactly 4, the resolved register number is sent through
`nds32_r54map` before the range check and the packing, so that the packed bits come
from `nds32_r54map[r]`; for every other hook-less general-register field the
register number itself is checked and packed.  Among the built-in fields only `rt4`
(width 4, scale 0) is remapped; `rt5e` and `ra5e` (width 4, scale 1) are not. -/
theorem r54map_when_width_plus_scale_is_4 (r54 : Nat → Int) (pdesc : nds32_asm_desc)
    (pinsn : nds32_asm_insn) (fld : field_t) (syn : Nat) (dollar : Bool)
    (w rest : List Char) (k : keyword_t)
    (hhook : fld.parse = none) (hgpr : fld.hw_res = HW_GPR)
    (hw : w.all is_keyword_char = true) (hne : w ≠ []) (hrest : keyword_ends rest = true)
    (hk : keyword_find keyword_gpr (w.map Char.toLower) = some k)
    (hallow : pdesc.flags &&& NASM_OPEN_REDUCED_REG = 0 ∨ k.attr &&& NASM_ATTR_RDREG ≠ 0) :
    (fld.bitsize + fld.shift = 4 →
        parse_operand_fld r54 pdesc pinsn ((if dollar then ['$'] else []) ++ (w ++ rest)) fld syn
          = some (parse_operand_done pdesc (record_defuse pinsn fld syn k)
              ((if dollar then ['$'] else []) ++ (w ++ rest)) rest fld (r54 k.value)))
      ∧ (fld.bitsize + fld.shift ≠ 4 →
        parse_operand_fld r54 pdesc pinsn ((if dollar then ['$'] else []) ++ (w ++ rest)) fld syn
          = some (parse_operand_done pdesc (record_defuse pinsn fld syn k)
              ((if dollar then ['$'] else []) ++ (w ++ rest)) rest fld (k.value : Int)))
      ∧ (∀ f ∈ operand_fields, f.hw_res = HW_GPR → f.parse = none →
          (f.bitsize + f.shift = 4 ↔ f.name = "rt4".toList)) := by
  have hhw : fld.hw_res < _HW_LAST := by rw [hgpr]; decide
  have hkt : hw_ktabs fld.hw_res = keyword_gpr := by rw [hgpr]; rfl
  have hst := keyword_stage r54 pdesc pinsn fld syn dollar w rest hhook hhw hw hne hrest
  rw [hkt, hk] at hst
  dsimp only at hst
  have hc : ¬ (fld.hw_res = HW_GPR ∧ pdesc.flags &&& NASM_OPEN_REDUCED_REG ≠ 0
      ∧ k.attr &&& NASM_ATTR_RDREG = 0) := by
    rintro ⟨_, h1, h2⟩
    rcases hallow with h | h
    · exact h1 h
    · exact h h2
  rw [if_neg hc] at hst
  have hfld : parse_operand_fld r54 pdesc pinsn ((if dollar then ['$'] else []) ++ (w ++ rest))
      fld syn = some (parse_operand_done pdesc (record_defuse pinsn fld syn k)
        ((if dollar then ['$'] else []) ++ (w ++ rest)) rest fld (keyword_value r54 fld k)) := by
    unfold parse_operand_fld
    rw [hst]
  refine ⟨fun h4 => ?_, fun h4 => ?_, by decide⟩
  · have hv : keyword_value r54 fld k = r54 k.value := by
      unfold keyword_value
      exact if_pos ⟨hgpr, h4⟩
    rw [hfld, hv]
  · have hv : keyword_value r54 fld k = (k.value : Int) := by
      unfold keyword_value
      exact if_neg (fun h => h4 h.2)
    rw [hfld, hv]

/-- C20 (amended) at `r16` under the field `rt4`: the value checked and packed is
the mapped one. -/
theorem r54map_when_width_plus_scale_is_4_witness :
    parse_operand_fld (fun _ => 5) (pdesc_with 0 (resolve_const 0)) pinsn_zero "r16".toList
        ⟨"rt4".toList, 5, 4, 0, HW_GPR, none⟩ 0x2100
      = some (parse_operand_done (pdesc_with 0 (resolve_const 0))
          (record_defuse pinsn_zero ⟨"rt4".toList, 5, 4, 0, HW_GPR, none⟩ 0x2100
            ⟨"r16".toList, 16, 0⟩)
          "r16".toList [] ⟨"rt4".toList, 5, 4, 0, HW_GPR, none⟩ 5) :=
  (r54map_when_width_plus_scale_is_4 (fun _ => 5) (pdesc_with 0 (resolve_const 0)) pinsn_zero
    ⟨"rt4".toList, 5, 4, 0, HW_GPR, none⟩ 0x2100 false "r16".toList [] ⟨"r16".toList, 16, 0⟩
    rfl rfl (by decide) (by decide) (by decide) (by decide) (Or.inl (by decide))).1 (by decide)

/-! ## The keyword under the cursor -/

theorem strip_sigil_eq (p : List Char) :
    (if peek p = '$' then p.drop 1 else p) = strip_sigil p := by
  cases p with
  | nil => rfl
  | cons c q =>
    by_cases hc : c = '$'
    · subst hc
      rfl
    · have h1 : peek (c :: q) ≠ '$' := hc
      rw [if_neg h1]
      unfold strip_sigil
      split
      · rename_i heq
        injection heq with h _
        exact absurd h hc
      · rfl

/-- The function `parse_to_delimiter` returns the text after the maximal run of
keyword characters and copies that run lower-cased. -/
theorem parse_to_delimiter_eq (q : List Char) :
    parse_to_delimiter q
      = (q.dropWhile is_keyword_char, (q.takeWhile is_keyword_char).map Char.toLower) := by
  induction q with
  | nil => rfl
  | cons c q ih =>
    by_cases hc : is_keyword_char c = true
    · have hc' : c.isAlphanum = true ∨ c = '.' ∨ c = '_' := (is_keyword_char_iff c).2 hc
      rw [parse_to_delimiter, if_pos hc', ih, List.dropWhile_cons_of_pos hc,
        List.takeWhile_cons_of_pos hc, List.map_cons]
    · have hc' : ¬ (c.isAlphanum = true ∨ c = '.' ∨ c = '_') :=
        fun h => hc ((is_keyword_char_iff c).1 h)
      rw [parse_to_delimiter, if_neg hc', List.dropWhile_cons_of_neg hc,
        List.takeWhile_cons_of_neg hc, List.map_nil]

/-- The first half of `parse_operand` on a hook-less keyword field, for any text. -/
theorem keyword_stage_any (r54 : Nat → Int) (pdesc : nds32_asm_desc) (pinsn : nds32_asm_insn)
    (fld : field_t) (syn : Nat) (p : List Char)
    (hhook : fld.parse = none) (hhw : fld.hw_res < _HW_LAST) :
    parse_operand_value r54 pdesc pinsn p fld syn
      = match keyword_find (hw_ktabs fld.hw_res) (lookup_name p) with
        | none => .failed ⟨false, { pdesc with result := .NASM_ERR_OPERAND }, pinsn, p⟩
        | some k =>
          if fld.hw_res = HW_GPR ∧ pdesc.flags &&& NASM_OPEN_REDUCED_REG ≠ 0
              ∧ k.attr &&& NASM_ATTR_RDREG = 0 then
            .failed ⟨false, { pdesc with result := .NASM_ERR_REG_REDUCED }, pinsn, p⟩
          else .parsed (record_defuse pinsn fld syn k) (after_keyword p)
            (keyword_value r54 fld k) := by
  unfold parse_operand_value
  rw [hhook]
  dsimp only
  rw [if_pos hhw]
  unfold parse_operand_keyword
  dsimp only
  rw [strip_sigil_eq, parse_to_delimiter_eq]
  rfl


theorem keyword_ends_run (rest : List Char) (h : keyword_ends rest = true) :
    rest.takeWhile is_keyword_char = [] ∧ rest.dropWhile is_keyword_char = rest := by
  cases rest with
  | nil => exact ⟨rfl, rfl⟩
  | cons c q =>
    have hc : is_keyword_char c = false := by
      simpa [keyword_ends, peek] using h
    have hc' : ¬ is_keyword_char c = true := by simp [hc]
    exact ⟨List.takeWhile_cons_of_neg hc', List.dropWhile_cons_of_neg hc'⟩

/-- The keyword under the cursor when the text is an optional `$`, a run `w` of
keyword characters and a text that ends the run. -/
theorem lookup_name_token (dollar : Bool) (w rest : List Char)
    (hw : w.all is_keyword_char = true) (hne : w ≠ []) (hrest : keyword_ends rest = true) :
    lookup_name ((if dollar then ['$'] else []) ++ (w ++ rest)) = w.map Char.toLower
      ∧ after_keyword ((if dollar then ['$'] else []) ++ (w ++ rest)) = rest := by
  obtain ⟨c, w', rfl⟩ := List.exists_cons_of_ne_nil hne
  have hc : is_keyword_char c = true := by
    rw [List.all_cons, Bool.and_eq_true] at hw
    exact hw.1
  have hcd : c ≠ '$' := keyword_char_ne_dollar c hc
  have hs : strip_sigil ((if dollar then ['$'] else []) ++ (c :: w' ++ rest)) = c :: w' ++ rest := by
    rw [← strip_sigil_eq]
    cases dollar
    · simp [peek, hcd]
    · simp [peek]
  have hp := parse_to_delimiter_token (c :: w') rest hw hrest
  rw [parse_to_delimiter_eq] at hp
  unfold lookup_name after_keyword
  rw [hs]
  exact ⟨(Prod.mk.inj hp).2, (Prod.mk.inj hp).1⟩

set_option maxRecDepth 100000 in
theorem no_such_keyword : ∀ hw, hw < 23 →
    keyword_find (hw_ktabs hw) [] = none ∧ keyword_find (hw_ktabs hw) "r5x".toList = none := by
  decide

theorem keyword_find_none (tab : List keyword_t) (name : List Char) :
    keyword_find tab name = none ↔ ∀ k ∈ tab, k.name ≠ name := by
  unfold keyword_find
  rw [List.find?_eq_none]
  simp

theorem keyword_find_some (tab : List keyword_t) (name : List Char) (k : keyword_t)
    (h : keyword_find tab name = some k) : k ∈ tab ∧ k.name = name := by
  unfold keyword_find at h
  exact ⟨List.mem_of_find?_eq_some h, by simpa using List.find?_some h⟩


/-- Whether the second half of `parse_operand` accepts a value depends on the field
and the value only. -/
theorem done_ret (pdesc1 pdesc2 : nds32_asm_desc) (pinsn1 pinsn2 : nds32_asm_insn)
    (str1 str2 endp1 endp2 : List Char) (fld : field_t) (v : Int) :
    (parse_operand_done pdesc1 pinsn1 str1 endp1 fld v).ret
      = (parse_operand_done pdesc2 pinsn2 str2 endp2 fld v).ret := by
  unfold parse_operand_done
  dsimp only
  split_ifs <;> rfl

/-- The instruction word left by the second half of `parse_operand` depends on the
word it is given, the field and the value only. -/
theorem done_insn (pdesc1 pdesc2 : nds32_asm_desc) (pinsn1 pinsn2 : nds32_asm_insn)
    (str1 str2 endp1 endp2 : List Char) (fld : field_t) (v : Int)
    (h : pinsn1.insn = pinsn2.insn) :
    (parse_operand_done pdesc1 pinsn1 str1 endp1 fld v).pinsn.insn
      = (parse_operand_done pdesc2 pinsn2 str2 endp2 fld v).pinsn.insn := by
  unfold parse_operand_done
  dsimp only
  split_ifs <;> simp only [h]

/-- What the second half of `parse_operand` returns depends on the caller's cursor
only through the cursor it hands back on failure. -/
theorem done_key (pdesc : nds32_asm_desc) (pinsn : nds32_asm_insn) (str1 str2 endp : List Char)
    (fld : field_t) (v : Int) :
    ((parse_operand_done pdesc pinsn str1 endp fld v).ret,
        (parse_operand_done pdesc pinsn str1 endp fld v).pdesc.result,
        (parse_operand_done pdesc pinsn str1 endp fld v).pinsn,
        if (parse_operand_done pdesc pinsn str1 endp fld v).ret then
          (parse_operand_done pdesc pinsn str1 endp fld v).str else [])
      = ((parse_operand_done pdesc pinsn str2 endp fld v).ret,
        (parse_operand_done pdesc pinsn str2 endp fld v).pdesc.result,
        (parse_operand_done pdesc pinsn str2 endp fld v).pinsn,
        if (parse_operand_done pdesc pinsn str2 endp fld v).ret then
          (parse_operand_done pdesc pinsn str2 endp fld v).str else []) := by
  have hr := done_ret pdesc pdesc pinsn pinsn str1 str2 endp endp fld v
  cases h1 : (parse_operand_done pdesc pinsn str1 endp fld v).ret with
  | false =>
    have h2 : (parse_operand_done pdesc pinsn str2 endp fld v).ret = false := by
      rw [← hr]
      exact h1
    rw [done_fail _ _ _ _ _ _ h1, done_fail _ _ _ _ _ _ h2]
    rfl
  | true =>
    have h2 : (parse_operand_done pdesc pinsn str2 endp fld v).ret = true := by
      rw [← hr]
      exact h1
    have e1 : parse_operand_done pdesc pinsn str1 endp fld v
        = parse_operand_done pdesc pinsn str2 endp fld v := by
      unfold parse_operand_done at h1 h2 ⊢
      dsimp only at h1 h2 ⊢
      split_ifs at h1 h2 ⊢ <;> rfl
    rw [e1]
    simp only [h2]

/-! ## The keyword and its buffer -/

/-- The keyword fits the buffer `odstr` when the name looked up is shorter than
`MAX_KEYWORD_LEN`. -/
theorem odstr_fits_iff (p : List Char) :
    odstr_fits p = true ↔ (lookup_name p).length < MAX_KEYWORD_LEN := by
  unfold odstr_fits lookup_name
  rw [strip_sigil_eq, parse_to_delimiter_eq, decide_eq_true_iff]

/-- What `parse_to_delimiter` copies from the cursor, after an optional `$`, is the
name looked up; when it fits the buffer, it occupies at most `MAX_KEYWORD_LEN`
bytes with its terminating NUL. -/
theorem odstr_content (p : List Char) (h : odstr_fits p = true) :
    (parse_to_delimiter (if peek p = '$' then p.drop 1 else p)).2 = lookup_name p
      ∧ (lookup_name p).length + 1 ≤ MAX_KEYWORD_LEN := by
  have hlen := (odstr_fits_iff p).1 h
  refine ⟨?_, hlen⟩
  unfold lookup_name
  rw [strip_sigil_eq, parse_to_delimiter_eq]

set_option maxRecDepth 100000 in
/-- A name of a keyword table is shorter than `MAX_KEYWORD_LEN`. -/
theorem table_names_fit :
    ∀ hw, hw < 23 → (hw_ktabs hw).all (fun k => decide (k.name.length < MAX_KEYWORD_LEN)) = true := by
  decide

/-! ## Keyword lookup -/

/-- C21: for every hook-less register or enumeration field and every cursor whose
keyword fits the buffer `odstr` (a run shorter than `MAX_KEYWORD_LEN`; a longer run
is written past the end of the buffer), the name looked up by `parse_operand` is
the lower-case form of the maximal run of alphanumeric, `.` and `_` characters that
follows at most one leading `$` (`lookup_name`); the lookup is an exact match of
the name in the table of the field's class, and when it fails the call returns 0
with `NASM_ERR_OPERAND`.  Consequently `r5`, `$r5`, `R5` and `$R5` are looked up
under the same name and leave the same cursor, hence give the same result, while
`$$r5` and `r5x` fail with `NASM_ERR_OPERAND`. -/
theorem keyword_lookup_normalised (r54 : Nat → Int) (pdesc : nds32_asm_desc)
    (pinsn : nds32_asm_insn) (fld : field_t) (syn : Nat)
    (hhook : fld.parse = none) (hhw : fld.hw_res < _HW_LAST) :
    (∀ p, odstr_fits p = true →
        (parse_to_delimiter (if peek p = '$' then p.drop 1 else p)).2 = lookup_name p
          ∧ (lookup_name p).length + 1 ≤ MAX_KEYWORD_LEN
          ∧ parse_operand_fld r54 pdesc pinsn p fld syn
            = match keyword_find (hw_ktabs fld.hw_res) (lookup_name p) with
              | none => some ⟨false, { pdesc with result := .NASM_ERR_OPERAND }, pinsn, p⟩
              | some k =>
                if fld.hw_res = HW_GPR ∧ pdesc.flags &&& NASM_OPEN_REDUCED_REG ≠ 0
                    ∧ k.attr &&& NASM_ATTR_RDREG = 0 then
                  some ⟨false, { pdesc with result := .NASM_ERR_REG_REDUCED }, pinsn, p⟩
                else
                  some (parse_operand_done pdesc (record_defuse pinsn fld syn k) p
                    (after_keyword p) fld (keyword_value r54 fld k)))
      ∧ (∀ t ∈ ["r5".toList, "$r5".toList, "R5".toList, "$R5".toList, "$$r5".toList,
            "r5x".toList], odstr_fits t = true)
      ∧ (∀ (tab : List keyword_t) (name : List Char),
          (keyword_find tab name = none ↔ ∀ k ∈ tab, k.name ≠ name)
            ∧ ∀ k, keyword_find tab name = some k → k ∈ tab ∧ k.name = name)
      ∧ (∀ rest, keyword_ends rest = true →
          ∀ t ∈ ["r5".toList, "$r5".toList, "R5".toList, "$R5".toList],
            lookup_name (t ++ rest) = "r5".toList ∧ after_keyword (t ++ rest) = rest)
      ∧ (∀ t ∈ ["$r5".toList, "R5".toList, "$R5".toList],
          (parse_operand_fld r54 pdesc pinsn t fld syn).map
              (fun o => (o.ret, o.pdesc.result, o.pinsn, if o.ret then o.str else []))
            = (parse_operand_fld r54 pdesc pinsn "r5".toList fld syn).map
              (fun o => (o.ret, o.pdesc.result, o.pinsn, if o.ret then o.str else [])))
      ∧ parse_operand_fld r54 pdesc pinsn "$$r5".toList fld syn
        = some ⟨false, { pdesc with result := .NASM_ERR_OPERAND }, pinsn, "$$r5".toList⟩
      ∧ parse_operand_fld r54 pdesc pinsn "r5x".toList fld syn
        = some ⟨false, { pdesc with result := .NASM_ERR_OPERAND }, pinsn, "r5x".toList⟩ := by
  have hgen : ∀ p, parse_operand_fld r54 pdesc pinsn p fld syn
      = match keyword_find (hw_ktabs fld.hw_res) (lookup_name p) with
        | none => some ⟨false, { pdesc with result := .NASM_ERR_OPERAND }, pinsn, p⟩
        | some k =>
          if fld.hw_res = HW_GPR ∧ pdesc.flags &&& NASM_OPEN_REDUCED_REG ≠ 0
              ∧ k.attr &&& NASM_ATTR_RDREG = 0 then
            some ⟨false, { pdesc with result := .NASM_ERR_REG_REDUCED }, pinsn, p⟩
          else
            some (parse_operand_done pdesc (record_defuse pinsn fld syn k) p
              (after_keyword p) fld (keyword_value r54 fld k)) := by
    intro p
    unfold parse_operand_fld
    rw [keyword_stage_any r54 pdesc pinsn fld syn p hhook hhw]
    cases keyword_find (hw_ktabs fld.hw_res) (lookup_name p) with
    | none => rfl
    | some k =>
      dsimp only
      split_ifs <;> rfl
  have hfour : ∀ t ∈ ["r5".toList, "$r5".toList, "R5".toList, "$R5".toList],
      ∀ rest, keyword_ends rest = true →
        lookup_name (t ++ rest) = "r5".toList ∧ after_keyword (t ++ rest) = rest := by
    intro t ht rest hrest
    simp only [List.mem_cons, List.mem_singleton, List.not_mem_nil, or_false] at ht
    rcases ht with h | h | h | h <;> rw [h]
    · exact lookup_name_token false "r5".toList rest (by decide) (by decide) hrest
    · exact lookup_name_token true "r5".toList rest (by decide) (by decide) hrest
    · exact lookup_name_token false "R5".toList rest (by decide) (by decide) hrest
    · exact lookup_name_token true "R5".toList rest (by decide) (by decide) hrest
  refine ⟨fun p hp => ⟨(odstr_content p hp).1, (odstr_content p hp).2, hgen p⟩, by decide,
    fun tab name => ⟨keyword_find_none tab name, keyword_find_some tab name⟩,
    fun rest hrest t ht => hfour t ht rest hrest, ?_, ?_, ?_⟩
  · intro t ht
    have h := hfour t (List.mem_cons_of_mem _ ht) [] rfl
    have h0 := hfour "r5".toList (List.mem_cons_self _ _) [] rfl
    rw [List.append_nil] at h h0
    rw [hgen t, hgen "r5".toList, h.1, h.2, h0.1, h0.2]
    cases keyword_find (hw_ktabs fld.hw_res) "r5".toList with
    | none => rfl
    | some k =>
      dsimp only
      split_ifs
      · rfl
      · exact congrArg some (done_key pdesc _ t "r5".toList [] fld _)
  · have hn : lookup_name "$$r5".toList = [] := by decide
    rw [hgen, hn, (no_such_keyword fld.hw_res hhw).1]
  · have hn : lookup_name "r5x".toList = "r5x".toList := by decide
    rw [hgen, hn, (no_such_keyword fld.hw_res hhw).2]

/-- C21 on the field `rt`: `$R5` is looked up as `r5` and gives the result of
`r5`. -/
theorem keyword_lookup_normalised_witness :
    (parse_operand_fld (fun n => (n : Int)) (pdesc_with 0 (resolve_const 0)) pinsn_zero
        "$R5".toList ⟨"rt".toList, 20, 5, 0, HW_GPR, none⟩ 0x2100).map
        (fun o => (o.ret, o.pdesc.result, o.pinsn, if o.ret then o.str else []))
      = (parse_operand_fld (fun n => (n : Int)) (pdesc_with 0 (resolve_const 0)) pinsn_zero
        "r5".toList ⟨"rt".toList, 20, 5, 0, HW_GPR, none⟩ 0x2100).map
        (fun o => (o.ret, o.pdesc.result, o.pinsn, if o.ret then o.str else [])) :=
  (keyword_lookup_normalised (fun n => (n : Int)) (pdesc_with 0 (resolve_const 0)) pinsn_zero
    ⟨"rt".toList, 20, 5, 0, HW_GPR, none⟩ 0x2100 rfl (by decide)).2.2.2.2.1 "$R5".toList
    (by decide)

/-! ## Idempotent compilation -/

/-- C23: `build_opcode_syntax` on an entry that is already compiled is a no-op (the
entry, hence its element sequence and its variant count, is returned unchanged), so
a second call after a first one changes nothing; and compiling the same pattern on
two fresh entries either fails on both or yields the same element sequence and the
same variant count. -/
theorem compile_idempotent (e1 e2 : nds32_opcode) (h1 : e1.lexes = none) (h2 : e2.lexes = none)
    (hpat : e1.instruction = e2.instruction) :
    (∀ c : nds32_opcode, c.lexes.isSome = true → build_opcode_syntax c = some c)
      ∧ (∀ c, build_opcode_syntax e1 = some c → build_opcode_syntax c = some c)
      ∧ ( build_opcode_syntax e1).map (fun c => (c.lexes, c.variant))
        = ( build_opcode_syntax e2).map (fun c => (c.lexes, c.variant)) := by
  refine ⟨build_idem, fun c hc => build_idem c (build_keeps e1 c hc).2.2.2.2.2.2.2, ?_⟩
  unfold build_opcode_syntax
  rw [h1, h2, hpat]
  dsimp only
  cases build_lex_loop (e2.instruction.length + 1) e2.instruction with
  | none => rfl
  | some r =>
    dsimp only
    split_ifs <;> rfl

/-- C23 on the pattern of `add`, compiled on two fresh entries of different name
and base value. -/
theorem compile_idempotent_witness :
    ( build_opcode_syntax (opcode_add 0)).map (fun c => (c.lexes, c.variant))
      = ( build_opcode_syntax (opcode_entry "sub" "=rt,%ra,%rb" 1 4 0xf 0)).map
          (fun c => (c.lexes, c.variant)) :=
  (compile_idempotent (opcode_add 0) (opcode_entry "sub" "=rt,%ra,%rb" 1 4 0xf 0) rfl rfl
    rfl).2.2

/-! ## The hooks `parse_re2` and `parse_fe5` -/

/-- A code below 4 under the field `re2` is accepted and packed at bit 5. -/
theorem re2_done (pdesc : nds32_asm_desc) (pinsn : nds32_asm_insn) (p endp : List Char)
    (c : Nat) (hc : c < 4) (hword : pinsn.insn < 2 ^ 32) :
    parse_operand_done pdesc pinsn p endp field_re2 (c : Int)
      = ⟨true, pdesc, { pinsn with insn := pinsn.insn ||| c <<< 5 }, endp⟩ := by
  have hcls : field_re2.hw_res ≠ HW_INT := by decide
  have hY : ((c : Int) / 2 ^ field_re2.shift % 2 ^ field_re2.bitsize).toNat = c := by
    show ((c : Int) / 2 ^ 0 % 2 ^ 2).toNat = c
    omega
  have hcond : (c : Int) % 2 ^ field_re2.shift = 0 ∧ (0 : Int) ≤ c
      ∧ (c : Int) < 2 ^ (field_re2.bitsize + field_re2.shift) := by
    show (c : Int) % 2 ^ 0 = 0 ∧ (0 : Int) ≤ c ∧ (c : Int) < 2 ^ (2 + 0)
    omega
  rw [done_unsigned _ _ _ _ _ _ hcls, if_pos hcond, hY]
  have := (pack_bits pinsn.insn c 5 2 (by omega) hword (by norm_num)).1
  show (⟨true, pdesc, { pinsn with insn := (pinsn.insn ||| c <<< 5) % 2 ^ 32 }, endp⟩ :
    operand_result) = _
  rw [this]

/-- The value slot left at its initial value is refused under the field `re2`. -/
theorem re2_done_fail (pdesc : nds32_asm_desc) (pinsn : nds32_asm_insn) (p endp : List Char) :
    parse_operand_done pdesc pinsn p endp field_re2 0x100000000
      = ⟨false, { pdesc with result := .NASM_ERR_OUT_OF_RANGE }, pinsn, p⟩ := by
  have hcls : field_re2.hw_res ≠ HW_INT := by decide
  have hcond : ¬ ((0x100000000 : Int) % 2 ^ field_re2.shift = 0 ∧ (0 : Int) ≤ 0x100000000
      ∧ (0x100000000 : Int) < 2 ^ (field_re2.bitsize + field_re2.shift)) := by
    show ¬ ((0x100000000 : Int) % 2 ^ 0 = 0 ∧ (0 : Int) ≤ 0x100000000
      ∧ (0x100000000 : Int) < 2 ^ (2 + 0))
    omega
  rw [done_unsigned _ _ _ _ _ _ hcls, if_neg hcond]

/-- The hook `parse_re2` in terms of the keyword under the cursor. -/
theorem parse_re2_eq (p : List Char) (v : Int) :
    parse_re2 p v
      = match keyword_find keyword_gpr (lookup_name p) with
        | none => ⟨.NASM_ERR_OPERAND, p, v⟩
        | some k =>
          if k.value = 6 then ⟨.NASM_R_CONST, after_keyword p, 0⟩
          else if k.value = 8 then ⟨.NASM_R_CONST, after_keyword p, 1⟩
          else if k.value = 10 then ⟨.NASM_R_CONST, after_keyword p, 2⟩
          else if k.value = 14 then ⟨.NASM_R_CONST, after_keyword p, 3⟩
          else ⟨.NASM_ERR_OPERAND, p, v⟩ := by
  have hk : hw_ktabs HW_GPR = keyword_gpr := rfl
  unfold parse_re2
  dsimp only
  rw [strip_sigil_eq, parse_to_delimiter_eq, hk]
  all_goals rfl

/-- The first half of `parse_operand` on the field `re2`. -/
theorem re2_stage (r54 : Nat → Int) (pdesc : nds32_asm_desc) (pinsn : nds32_asm_insn)
    (p : List Char) (syn : Nat) :
    parse_operand_value r54 pdesc pinsn p field_re2 syn
      = match keyword_find keyword_gpr (lookup_name p) with
        | none => .parsed pinsn p 0x100000000
        | some k =>
          if k.value = 6 then .parsed pinsn (after_keyword p) 0
          else if k.value = 8 then .parsed pinsn (after_keyword p) 1
          else if k.value = 10 then .parsed pinsn (after_keyword p) 2
          else if k.value = 14 then .parsed pinsn (after_keyword p) 3
          else .parsed pinsn p 0x100000000 := by
  unfold parse_operand_value
  show operand_stage.parsed pinsn (parse_re2 p 0x100000000).pstr
    (parse_re2 p 0x100000000).value = _
  rw [parse_re2_eq]
  cases keyword_find keyword_gpr (lookup_name p) with
  | none => rfl
  | some k =>
    dsimp only
    split_ifs <;> rfl

/-! ## The register of push25/pop25 -/

/-- C25: on the field `re2` (hook `parse_re2`, bits `[5, 7)`), at a cursor whose
keyword fits the buffer `odstr` of the hook (a run shorter than `MAX_KEYWORD_LEN`; a
longer run is written past the end of the buffer), `parse_operand` succeeds if and
only if the keyword names a general register whose number is 6, 8, 10 or 14, and
then packs the code 0, 1, 2 or 3 at bit 5 and moves the cursor past the keyword;
every other register name and every unknown name is refused (the value slot keeps
its initial value and fails the range check).  The names accepted are `r6`, `r8`,
`r10` and `r14`. -/
theorem re2_register_pair (r54 : Nat → Int) (pdesc : nds32_asm_desc) (pinsn : nds32_asm_insn)
    (p : List Char) (syn : Nat) (hword : pinsn.insn < 2 ^ 32) (hfit : odstr_fits p = true) :
    field_re2 ∈ operand_fields
      ∧ ((parse_to_delimiter (if peek p = '$' then p.drop 1 else p)).2 = lookup_name p
        ∧ (lookup_name p).length + 1 ≤ MAX_KEYWORD_LEN)
      ∧ parse_operand_fld r54 pdesc pinsn p field_re2 syn
        = (match keyword_find keyword_gpr (lookup_name p) with
          | none => some ⟨false, { pdesc with result := .NASM_ERR_OUT_OF_RANGE }, pinsn, p⟩
          | some k =>
            if k.value = 6 then
              some ⟨true, pdesc, { pinsn with insn := pinsn.insn ||| 0 <<< 5 }, after_keyword p⟩
            else if k.value = 8 then
              some ⟨true, pdesc, { pinsn with insn := pinsn.insn ||| 1 <<< 5 }, after_keyword p⟩
            else if k.value = 10 then
              some ⟨true, pdesc, { pinsn with insn := pinsn.insn ||| 2 <<< 5 }, after_keyword p⟩
            else if k.value = 14 then
              some ⟨true, pdesc, { pinsn with insn := pinsn.insn ||| 3 <<< 5 }, after_keyword p⟩
            else some ⟨false, { pdesc with result := .NASM_ERR_OUT_OF_RANGE }, pinsn, p⟩)
      ∧ ((∃ out, parse_operand_fld r54 pdesc pinsn p field_re2 syn = some out ∧ out.ret = true)
          ↔ ∃ k, keyword_find keyword_gpr (lookup_name p) = some k
              ∧ (k.value = 6 ∨ k.value = 8 ∨ k.value = 10 ∨ k.value = 14))
      ∧ (keyword_gpr.filter
            (fun k => k.value = 6 ∨ k.value = 8 ∨ k.value = 10 ∨ k.value = 14)).map
          (fun k => k.name) = ["r6".toList, "r8".toList, "r10".toList, "r14".toList] := by
  have hmain : parse_operand_fld r54 pdesc pinsn p field_re2 syn
      = (match keyword_find keyword_gpr (lookup_name p) with
        | none => some ⟨false, { pdesc with result := .NASM_ERR_OUT_OF_RANGE }, pinsn, p⟩
        | some k =>
          if k.value = 6 then
            some ⟨true, pdesc, { pinsn with insn := pinsn.insn ||| 0 <<< 5 }, after_keyword p⟩
          else if k.value = 8 then
            some ⟨true, pdesc, { pinsn with insn := pinsn.insn ||| 1 <<< 5 }, after_keyword p⟩
          else if k.value = 10 then
            some ⟨true, pdesc, { pinsn with insn := pinsn.insn ||| 2 <<< 5 }, after_keyword p⟩
          else if k.value = 14 then
            some ⟨true, pdesc, { pinsn with insn := pinsn.insn ||| 3 <<< 5 }, after_keyword p⟩
          else some ⟨false, { pdesc with result := .NASM_ERR_OUT_OF_RANGE }, pinsn, p⟩) := by
    unfold parse_operand_fld
    rw [re2_stage]
    cases keyword_find keyword_gpr (lookup_name p) with
    | none =>
      dsimp only
      rw [re2_done_fail]
    | some k =>
      dsimp only
      by_cases h6 : k.value = 6
      · rw [if_pos h6, if_pos h6]
        exact congrArg some (re2_done pdesc pinsn p _ 0 (by decide) hword)
      · rw [if_neg h6, if_neg h6]
        by_cases h8 : k.value = 8
        · rw [if_pos h8, if_pos h8]
          exact congrArg some (re2_done pdesc pinsn p _ 1 (by decide) hword)
        · rw [if_neg h8, if_neg h8]
          by_cases h10 : k.value = 10
          · rw [if_pos h10, if_pos h10]
            exact congrArg some (re2_done pdesc pinsn p _ 2 (by decide) hword)
          · rw [if_neg h10, if_neg h10]
            by_cases h14 : k.value = 14
            · rw [if_pos h14, if_pos h14]
              exact congrArg some (re2_done pdesc pinsn p _ 3 (by decide) hword)
            · rw [if_neg h14, if_neg h14]
              dsimp only
              rw [re2_done_fail]
  refine ⟨by decide, odstr_content p hfit, hmain, ?_, by decide⟩
  rw [hmain]
  cases keyword_find keyword_gpr (lookup_name p) with
  | none =>
    constructor
    · rintro ⟨out, h, hr⟩
      rw [Option.some.injEq] at h
      rw [← h] at hr
      exact absurd hr (by simp)
    · rintro ⟨k, h, _⟩
      exact absurd h (by simp)
  | some k =>
    dsimp only
    constructor
    · rintro ⟨out, h, hr⟩
      refine ⟨k, rfl, ?_⟩
      by_contra hc
      rw [not_or, not_or, not_or] at hc
      rw [if_neg hc.1, if_neg hc.2.1, if_neg hc.2.2.1, if_neg hc.2.2.2,
        Option.some.injEq] at h
      rw [← h] at hr
      exact absurd hr (by simp)
    · rintro ⟨k', h, hv⟩
      rw [Option.some.injEq] at h
      subst h
      by_cases h6 : k.value = 6
      · exact ⟨_, by rw [if_pos h6], rfl⟩
      · by_cases h8 : k.value = 8
        · exact ⟨_, by rw [if_neg h6, if_pos h8], rfl⟩
        · by_cases h10 : k.value = 10
          · exact ⟨_, by rw [if_neg h6, if_neg h8, if_pos h10], rfl⟩
          · have h14 : k.value = 14 := by
              rcases hv with h | h | h | h
              · exact absurd h h6
              · exact absurd h h8
              · exact absurd h h10
              · exact h
            exact ⟨_, by rw [if_neg h6, if_neg h8, if_neg h10, if_pos h14], rfl⟩

/-- C25 at the operand `$r10`: the code 2 is packed at bit 5. -/
theorem re2_register_pair_witness :
    parse_operand_fld (fun n => (n : Int)) (pdesc_with 0 (resolve_const 0)) pinsn_zero
        "$r10".toList field_re2 0x1100
      = some ⟨true, pdesc_with 0 (resolve_const 0), { pinsn_zero with insn := 2 <<< 5 }, []⟩ :=
  ((re2_register_pair (fun n => (n : Int)) (pdesc_with 0 (resolve_const 0)) pinsn_zero
    "$r10".toList 0x1100 (by decide) (by decide)).2.2.1).trans rfl

theorem wrap64_over (x : Int) (h0 : 2 ^ 63 ≤ x) (h1 : x < 2 ^ 63 + 2 ^ 64) :
    wrap64 x = x - 2 ^ 64 := by
  unfold wrap64
  omega

/-- The first half of `parse_operand` on the field `fe5`, when the resolver answers
with a constant. -/
theorem fe5_stage (r54 : Nat → Int) (pdesc : nds32_asm_desc) (pinsn : nds32_asm_insn)
    (p : List Char) (syn : Nat) (endp : List Char) (c : Int)
    (hres : pdesc.parse_operand p = ⟨.NASM_R_CONST, endp, c⟩) :
    parse_operand_value r54 pdesc pinsn p field_fe5 syn
      = .parsed pinsn endp (wrap64 (128 + wrap64 c)) := by
  unfold parse_operand_value
  show operand_stage.parsed pinsn (parse_fe5 pdesc p).pstr (parse_fe5 pdesc p).value = _
  unfold parse_fe5
  rw [hres]
  rfl

/-- The second half of `parse_operand` on the field `fe5`, on the biased value. -/
theorem fe5_done (pdesc : nds32_asm_desc) (pinsn : nds32_asm_insn) (p endp : List Char)
    (c : Int) (hc0 : -2 ^ 63 ≤ c) (hc1 : c < 2 ^ 63) (hword : pinsn.insn < 2 ^ 32) :
    parse_operand_done pdesc pinsn p endp field_fe5 (wrap64 (128 + wrap64 c))
      = if 4 ∣ c ∧ -128 ≤ c ∧ c ≤ -4 then
          ⟨true, pdesc, { pinsn with insn := pinsn.insn ||| ((c + 128) / 4).toNat }, endp⟩
        else ⟨false, { pdesc with result := .NASM_ERR_OUT_OF_RANGE }, pinsn, p⟩ := by
  have hcls : field_fe5.hw_res ≠ HW_INT := by decide
  rw [wrap64_id c hc0 hc1, done_unsigned _ _ _ _ _ _ hcls]
  have hs : field_fe5.shift = 2 := rfl
  have hb : field_fe5.bitsize = 5 := rfl
  have hp : field_fe5.bitpos = 0 := rfl
  rw [hs, hb, hp]
  by_cases hbig : 128 + c < 2 ^ 63
  · rw [wrap64_id (128 + c) (by omega) hbig]
    by_cases hok : 4 ∣ c ∧ -128 ≤ c ∧ c ≤ -4
    · have hY : ((128 + c) / 2 ^ 2 % 2 ^ 5).toNat = ((c + 128) / 4).toNat := by omega
      have hlt : ((c + 128) / 4).toNat < 2 ^ 5 := by omega
      rw [if_pos (by omega), if_pos hok, hY,
        (pack_bits pinsn.insn _ 0 5 hlt hword (by norm_num)).1, Nat.shiftLeft_zero]
    · rw [if_neg (by omega), if_neg hok]
  · rw [wrap64_over (128 + c) (by omega) (by omega), if_neg (by omega), if_neg (by omega)]

/-! ## The immediate of lwi45.fe -/

/-- C26: on the field `fe5` (hook `parse_fe5`: offset 0, width 5, scale 2, unsigned)
the constant `c` the resolver answers is biased by +128 before the alignment and
range check, so `parse_operand` accepts `c` if and only if `c` is a multiple of 4
with `-128 ≤ c ≤ -4`, and then packs `(c + 128) / 4 = 32 + c / 4` into bits
`[0, 5)` and hands back the cursor of the resolver; any other constant is refused
with `NASM_ERR_OUT_OF_RANGE`. -/
theorem fe5_biased_immediate (r54 : Nat → Int) (pdesc : nds32_asm_desc)
    (pinsn : nds32_asm_insn) (p : List Char) (syn : Nat) (endp : List Char) (c : Int)
    (hres : pdesc.parse_operand p = ⟨.NASM_R_CONST, endp, c⟩)
    (hc0 : -2 ^ 63 ≤ c) (hc1 : c < 2 ^ 63) (hword : pinsn.insn < 2 ^ 32) :
    field_fe5 ∈ operand_fields
      ∧ parse_operand_value r54 pdesc pinsn p field_fe5 syn
        = .parsed pinsn endp (wrap64 (128 + c))
      ∧ parse_operand_fld r54 pdesc pinsn p field_fe5 syn
        = some (if 4 ∣ c ∧ -128 ≤ c ∧ c ≤ -4 then
            ⟨true, pdesc, { pinsn with insn := pinsn.insn ||| ((c + 128) / 4).toNat }, endp⟩
          else ⟨false, { pdesc with result := .NASM_ERR_OUT_OF_RANGE }, pinsn, p⟩)
      ∧ ((∃ out, parse_operand_fld r54 pdesc pinsn p field_fe5 syn = some out ∧ out.ret = true)
          ↔ (4 ∣ c ∧ -128 ≤ c ∧ c ≤ -4))
      ∧ (4 ∣ c → -128 ≤ c → c ≤ -4 →
          (c + 128) / 4 = 32 + c / 4 ∧ 0 ≤ (c + 128) / 4 ∧ (c + 128) / 4 < 2 ^ 5) := by
  have hst := fe5_stage r54 pdesc pinsn p syn endp c hres
  have hfld : parse_operand_fld r54 pdesc pinsn p field_fe5 syn
      = some (if 4 ∣ c ∧ -128 ≤ c ∧ c ≤ -4 then
          ⟨true, pdesc, { pinsn with insn := pinsn.insn ||| ((c + 128) / 4).toNat }, endp⟩
        else ⟨false, { pdesc with result := .NASM_ERR_OUT_OF_RANGE }, pinsn, p⟩) := by
    unfold parse_operand_fld
    rw [hst]
    dsimp only
    rw [fe5_done pdesc pinsn p endp c hc0 hc1 hword]
  refine ⟨by decide, ?_, hfld, ?_, fun h4 hlo hhi => by omega⟩
  · rw [hst, wrap64_id c hc0 hc1]
  · rw [hfld]
    by_cases hok : 4 ∣ c ∧ -128 ≤ c ∧ c ≤ -4
    · rw [if_pos hok]
      exact ⟨fun _ => hok, fun _ => ⟨_, rfl, rfl⟩⟩
    · rw [if_neg hok]
      refine ⟨?_, fun h => absurd h hok⟩
      rintro ⟨out, h, hr⟩
      rw [Option.some.injEq] at h
      rw [← h] at hr
      exact absurd hr (by simp)

/-- C26 at the constant -8: the field receives `(-8 + 128) / 4 = 30`. -/
theorem fe5_biased_immediate_witness :
    parse_operand_fld (fun n => (n : Int)) (pdesc_with 0 (resolve_const (-8))) pinsn_zero
        "-8".toList field_fe5 0x1100
      = some ⟨true, pdesc_with 0 (resolve_const (-8)), { pinsn_zero with insn := 30 }, []⟩ :=
  ((fe5_biased_immediate (fun n => (n : Int)) (pdesc_with 0 (resolve_const (-8))) pinsn_zero
    "-8".toList 0x1100 [] (-8) rfl (by norm_num) (by norm_num) (by decide)).2.2.1).trans rfl

/-! ## The scanning loop of the pattern compiler -/

theorem name_char_not_marker (c : Char) (h : is_name_char c = true) : is_marker c = false := by
  by_contra hm
  have hm1 : is_marker c = true := by simpa using hm
  unfold is_marker at hm1
  simp only [Bool.or_eq_true, beq_iff_eq] at hm1
  rcases hm1 with (rfl | rfl) | rfl <;> exact absurd h (by decide)

theorem name_char_not_brace (c : Char) (h : is_name_char c = true) :
    c ≠ '\x7b' ∧ c ≠ '\x7d' := by
  constructor <;> (rintro rfl; exact absurd h (by decide))

theorem marker_not_brace (c : Char) (h : is_marker c = true) :
    c ≠ '\x7b' ∧ c ≠ '\x7d' := by
  constructor <;> (rintro rfl; exact absurd h (by decide))

theorem marker_cases (c : Char) :
    (c = '%' ∨ c = '=' ∨ c = '&') ↔ is_marker c = true := by
  unfold is_marker
  simp only [Bool.or_eq_true, beq_iff_eq, or_assoc]

theorem marker_dir_eq (c : Char) :
    (if c = '%' then SYN_INPUT else if c = '=' then SYN_OUTPUT else SYN_INPUT ||| SYN_OUTPUT)
      = marker_dir c := rfl

theorem name_run_eq : (fun x : Char => x.isAlphanum || x == '_') = is_name_char := rfl

theorem drop_name_run (s : List Char) :
    s.drop (s.takeWhile is_name_char).length = s.dropWhile is_name_char := by
  induction s with
  | nil => rfl
  | cons c s ih =>
    by_cases h : is_name_char c = true
    · simp only [List.takeWhile_cons, h, if_true, List.length_cons, List.drop_succ_cons,
        List.dropWhile_cons, ih]
    · simp only [List.takeWhile_cons, h, List.length_nil, List.drop_zero, List.dropWhile_cons]
      rfl

theorem dropWhile_length_le (s : List Char) :
    (s.dropWhile is_name_char).length ≤ s.length := by
  induction s with
  | nil => simp
  | cons c s ih =>
    by_cases h : is_name_char c = true
    · simp only [List.dropWhile_cons, h, if_true, List.length_cons]; omega
    · simp only [List.dropWhile_cons, h]; simp

theorem count_brace_dropWhile (s : List Char) :
    (s.dropWhile is_name_char).count '\x7b' = s.count '\x7b' := by
  induction s with
  | nil => rfl
  | cons c s ih =>
    by_cases h : is_name_char c = true
    · have hne := (name_char_not_brace c h).1
      simp only [List.dropWhile_cons, h, if_true, ih]
      rw [List.count_cons_of_ne (Ne.symm hne)]
    · simp only [List.dropWhile_cons, h]; rfl

theorem unresolved_dropWhile (s : List Char) :
    unresolved_marker (s.dropWhile is_name_char) = unresolved_marker s := by
  induction s with
  | nil => rfl
  | cons c s ih =>
    by_cases h : is_name_char c = true
    · simp only [List.dropWhile_cons, h, if_true, ih]
      have hm := name_char_not_marker c h
      simp [unresolved_marker, hm]
    · simp only [List.dropWhile_cons, h]; rfl

theorem takeWhile_run (name rest : List Char) (hn : ∀ x ∈ name, is_name_char x = true)
    (hr : ∀ x ∈ rest.head?, is_name_char x = false) :
    (name ++ rest).takeWhile is_name_char = name
      ∧ (name ++ rest).dropWhile is_name_char = rest := by
  induction name with
  | nil =>
    cases rest with
    | nil => exact ⟨rfl, rfl⟩
    | cons r rest =>
      have h : is_name_char r = false := hr r (by simp)
      simp [List.takeWhile_cons, List.dropWhile_cons, h]
  | cons c name ih =>
    have hc : is_name_char c = true := hn c (by simp)
    have ih1 := ih (fun x hx => hn x (by simp [hx]))
    simp only [List.cons_append, List.takeWhile_cons, List.dropWhile_cons, hc, if_true, ih1.1,
      ih1.2, and_self]

/-- The loop step on a marker. -/
theorem build_lex_loop_marker (fuel : Nat) (c : Char) (str : List Char)
    (hm : is_marker c = true) :
    build_lex_loop (fuel + 1) (c :: str)
      = match field_find (str.takeWhile is_name_char) with
        | none => none
        | some fidx =>
          (build_lex_loop fuel (str.dropWhile is_name_char)).map
            (fun r => ((marker_dir c ||| LEX_SET_FIELD fidx) :: r.1, r.2)) := by
  have hb := marker_not_brace c hm
  have hc := (marker_cases c).2 hm
  rw [← drop_name_run str, build_lex_loop, if_neg hb.1, if_neg hb.2, if_pos hc]
  all_goals rfl

/-- The loop step on a literal. -/
theorem build_lex_loop_literal (fuel : Nat) (c : Char) (str : List Char)
    (h1 : c ≠ '\x7b') (h2 : c ≠ '\x7d') (hm : is_marker c = false) :
    build_lex_loop (fuel + 1) (c :: str)
      = (build_lex_loop fuel str).map (fun r => (c.toNat :: r.1, r.2)) := by
  have hc : ¬ (c = '%' ∨ c = '=' ∨ c = '&') := by
    rw [marker_cases]; simp [hm]
  rw [build_lex_loop, if_neg h1, if_neg h2, if_neg hc]

/-- Every result of the loop is the compiled form the spec describes, and the
group count is the number of group starts of the pattern. -/
theorem build_lex_loop_sound : ∀ (fuel : Nat) (s : List Char) (r : List Nat × Nat),
    build_lex_loop fuel s = some r → compiles_to s r.1 ∧ r.2 = s.count '\x7b' := by
  intro fuel
  induction fuel with
  | zero => intro s r h; simp [build_lex_loop] at h
  | succ fuel ih =>
    intro s r h
    cases s with
    | nil =>
      simp only [build_lex_loop, Option.some.injEq] at h
      subst h
      exact ⟨.done, rfl⟩
    | cons c str =>
      by_cases h1 : c = '\x7b'
      · subst h1
        rw [build_lex_loop, if_pos rfl] at h
        cases hr : build_lex_loop fuel str with
        | none => rw [hr] at h; simp at h
        | some r0 =>
          rw [hr] at h
          simp only [Option.map_some', Option.some.injEq] at h
          subst h
          have := ih str r0 hr
          exact ⟨.group_start _ _ this.1, by simp [this.2]⟩
      · by_cases h2 : c = '\x7d'
        · subst h2
          rw [build_lex_loop, if_neg (by decide), if_pos rfl] at h
          cases hr : build_lex_loop fuel str with
          | none => rw [hr] at h; simp at h
          | some r0 =>
            rw [hr] at h
            simp only [Option.map_some', Option.some.injEq] at h
            subst h
            have := ih str r0 hr
            refine ⟨.group_end _ _ this.1, ?_⟩
            rw [List.count_cons_of_ne (by decide)]
            exact this.2
        · by_cases hm : is_marker c = true
          · rw [build_lex_loop_marker fuel c str hm] at h
            cases hf : field_find (str.takeWhile is_name_char) with
            | none => rw [hf] at h; simp at h
            | some fidx =>
              rw [hf] at h
              dsimp only at h
              cases hr : build_lex_loop fuel (str.dropWhile is_name_char) with
              | none => rw [hr] at h; simp at h
              | some r0 =>
                rw [hr] at h
                simp only [Option.map_some', Option.some.injEq] at h
                subst h
                have := ih _ r0 hr
                refine ⟨?_, ?_⟩
                · have hsplit : str = str.takeWhile is_name_char ++ str.dropWhile is_name_char :=
                    (List.takeWhile_append_dropWhile _ _).symm
                  have hcomp := compiles_to.operand c (str.takeWhile is_name_char)
                    (str.dropWhile is_name_char) fidx r0.1 hm
                    (fun x hx => List.mem_takeWhile_imp hx)
                    (by
                      intro x hx
                      have := List.head?_dropWhile_not is_name_char str
                      rw [Option.mem_def] at hx
                      rw [hx] at this
                      simpa using this)
                    hf this.1
                  rw [← hsplit] at hcomp
                  have he : marker_dir c ||| LEX_SET_FIELD fidx
                      = marker_dir c ||| SYN_FIELD ||| fidx := by
                    unfold LEX_SET_FIELD
                    rw [Nat.lor_assoc, Nat.lor_comm fidx SYN_FIELD]
                  rw [he]
                  exact hcomp
                · rw [List.count_cons_of_ne (Ne.symm h1)]
                  rw [this.2, count_brace_dropWhile]
          · have hm0 : is_marker c = false := by simpa using hm
            rw [build_lex_loop_literal fuel c str h1 h2 hm0] at h
            cases hr : build_lex_loop fuel str with
            | none => rw [hr] at h; simp at h
            | some r0 =>
              rw [hr] at h
              simp only [Option.map_some', Option.some.injEq] at h
              subst h
              have := ih str r0 hr
              refine ⟨.literal _ _ _ h1 h2 hm0 this.1, ?_⟩
              rw [List.count_cons_of_ne (Ne.symm h1)]
              exact this.2

/-- The loop produces the compiled form the spec describes, on any fuel above the
length of the pattern. -/
theorem build_lex_loop_complete (s : List Char) (l : List Nat) (h : compiles_to s l) :
    ∀ fuel, s.length < fuel → build_lex_loop fuel s = some (l, s.count '\x7b') := by
  induction h with
  | done =>
    intro fuel hf
    cases fuel with
    | zero => omega
    | succ fuel => rfl
  | group_start s l _ ih =>
    intro fuel hf
    cases fuel with
    | zero => omega
    | succ fuel =>
      rw [build_lex_loop, if_pos rfl, ih fuel (by simpa using hf)]
      simp
  | group_end s l _ ih =>
    intro fuel hf
    cases fuel with
    | zero => omega
    | succ fuel =>
      rw [build_lex_loop, if_neg (by decide), if_pos rfl, ih fuel (by simpa using hf)]
      simp only [Option.map_some']
      rw [List.count_cons_of_ne (by decide)]
  | operand c name rest i l hm hn hr hf _ ih =>
    intro fuel hfu
    cases fuel with
    | zero => omega
    | succ fuel =>
      have hrun := takeWhile_run name rest hn hr
      rw [build_lex_loop_marker fuel c _ hm, hrun.1, hf]
      dsimp only
      rw [hrun.2, ih fuel (by simp at hfu; omega)]
      simp only [Option.map_some']
      have hb := marker_not_brace c hm
      rw [List.count_cons_of_ne (Ne.symm hb.1)]
      have hcnt := count_brace_dropWhile (name ++ rest)
      rw [hrun.2] at hcnt
      rw [← hcnt]
      unfold LEX_SET_FIELD
      rw [Nat.lor_assoc, Nat.lor_comm i SYN_FIELD]
  | literal c s l h1 h2 hm _ ih =>
    intro fuel hf
    cases fuel with
    | zero => omega
    | succ fuel =>
      rw [build_lex_loop_literal fuel c s h1 h2 hm, ih fuel (by simpa using hf)]
      simp only [Option.map_some']
      rw [List.count_cons_of_ne (Ne.symm h1)]

/-- The loop fails exactly on a pattern with an unresolved marker. -/
theorem build_lex_loop_none : ∀ (fuel : Nat) (s : List Char), s.length < fuel →
    (build_lex_loop fuel s = none ↔ unresolved_marker s = true) := by
  intro fuel
  induction fuel with
  | zero => intro s h; omega
  | succ fuel ih =>
    intro s hf
    cases s with
    | nil => simp [build_lex_loop, unresolved_marker]
    | cons c str =>
      have hlen : str.length < fuel := by simpa using hf
      by_cases hm : is_marker c = true
      · rw [build_lex_loop_marker fuel c str hm]
        cases hfd : field_find (str.takeWhile is_name_char) with
        | none => simp [unresolved_marker, hm, hfd]
        | some fidx =>
          dsimp only
          have hl2 : (str.dropWhile is_name_char).length < fuel :=
            lt_of_le_of_lt (dropWhile_length_le str) hlen
          rw [Option.map_eq_none', ih _ hl2, unresolved_dropWhile]
          simp [unresolved_marker, hm, hfd]
      · have hm0 : is_marker c = false := by simpa using hm
        have hstep : build_lex_loop (fuel + 1) (c :: str) = none
            ↔ build_lex_loop fuel str = none := by
          by_cases h1 : c = '\x7b'
          · subst h1; rw [build_lex_loop, if_pos rfl, Option.map_eq_none']
          · by_cases h2 : c = '\x7d'
            · subst h2
              rw [build_lex_loop, if_neg (by decide), if_pos rfl, Option.map_eq_none']
            · rw [build_lex_loop_literal fuel c str h1 h2 hm0, Option.map_eq_none']
        rw [hstep, ih str hlen]
        simp [unresolved_marker, hm0]

/-- An unresolved marker, spelled out: the pattern splits around a marker whose
maximal run of name characters is not in the field table. -/
theorem unresolved_marker_iff (s : List Char) :
    unresolved_marker s = true
      ↔ ∃ a c b, s = a ++ c :: b ∧ is_marker c = true
          ∧ field_find (b.takeWhile is_name_char) = none := by
  induction s with
  | nil => simp [unresolved_marker]
  | cons x s ih =>
    constructor
    · intro h
      simp only [unresolved_marker, Bool.or_eq_true, Bool.and_eq_true,
        Option.isNone_iff_eq_none] at h
      rcases h with ⟨hm, hf⟩ | h
      · exact ⟨[], x, s, rfl, hm, hf⟩
      · obtain ⟨a, c, b, hs, hm, hf⟩ := ih.1 h
        exact ⟨x :: a, c, b, by rw [hs]; rfl, hm, hf⟩
    · rintro ⟨a, c, b, hs, hm, hf⟩
      simp only [unresolved_marker, Bool.or_eq_true, Bool.and_eq_true,
        Option.isNone_iff_eq_none]
      cases a with
      | nil =>
        simp only [List.nil_append, List.cons.injEq] at hs
        obtain ⟨rfl, rfl⟩ := hs
        exact Or.inl ⟨hm, hf⟩
      | cons y a =>
        simp only [List.cons_append, List.cons.injEq] at hs
        obtain ⟨rfl, rfl⟩ := hs
        exact Or.inr (ih.2 ⟨a, c, b, rfl, hm, hf⟩)

theorem count_elements_start (b : Bool) (s : List Char)
    (h : ∀ x ∈ s.head?, is_name_char x = false) :
    count_elements b s = count_elements false s := by
  cases s with
  | nil => rfl
  | cons c s =>
    have hc : is_name_char c = false := h c (by simp)
    simp [count_elements, hc]

theorem count_elements_run (name rest : List Char)
    (hn : ∀ x ∈ name, is_name_char x = true) :
    count_elements true (name ++ rest) = count_elements true rest := by
  induction name with
  | nil => rfl
  | cons c name ih =>
    have hc : is_name_char c = true := hn c (by simp)
    have hm := name_char_not_marker c hc
    simp only [List.cons_append, count_elements, hm, hc, Bool.and_self, if_true,
      Bool.false_eq_true, if_false]
    exact ih (fun x hx => hn x (by simp [hx]))

/-- The compiled form has one element per item of the pattern. -/
theorem compiles_to_length (s : List Char) (l : List Nat) (h : compiles_to s l) :
    l.length = count_elements false s := by
  induction h with
  | done => rfl
  | group_start s l _ ih =>
    simp only [List.length_cons, ih, count_elements]
    rw [if_neg (by decide)]
    simp
  | group_end s l _ ih =>
    simp only [List.length_cons, ih, count_elements]
    rw [if_neg (by decide)]
    simp
  | operand c name rest i l hm hn hr hf _ ih =>
    simp only [List.length_cons, ih, count_elements, hm, if_true]
    rw [count_elements_run name rest hn, count_elements_start true rest hr]
  | literal c s l h1 h2 hm _ ih =>
    simp only [List.length_cons, ih, count_elements, hm]
    simp

/-- A pattern without an unresolved marker has a compiled form. -/
theorem compiles_to_exists (s : List Char) (h : unresolved_marker s = false) :
    ∃ l, compiles_to s l := by
  have hl : s.length < s.length + 1 := Nat.lt_succ_self _
  cases hr : build_lex_loop (s.length + 1) s with
  | none =>
    have := (build_lex_loop_none _ s hl).1 hr
    rw [h] at this
    exact absurd this (by simp)
  | some r => exact ⟨r.1, (build_lex_loop_sound _ s r hr).1⟩

/-- The compiler on a fresh entry whose pattern has the compiled form `l`. -/
theorem build_opcode_syntax_eq (e : nds32_opcode) (l : List Nat) (hfresh : e.lexes = none)
    (h : compiles_to e.instruction l) :
    build_opcode_syntax e
      = if l.length + 1 ≤ MAX_LEX_NUM then
          some { e with lexes := some (l ++ [0]), variant := e.instruction.count '\x7b' }
        else none := by
  unfold build_opcode_syntax
  rw [hfresh]
  dsimp only
  rw [build_lex_loop_complete _ l h _ (Nat.lt_succ_self _)]

/-! ## The output of the pattern compiler -/

/-- C28: on a fresh entry whose pattern has no unresolved field name and has at
most 31 items, `build_opcode_syntax` returns the entry with the compiled form `l`
of the pattern followed by a `0` element, and with the number of `{` of the
pattern as variant count.  `l` is the one sequence the item-by-item description
`compiles_to` allows: in pattern order `{` gives `SYN_LOPT`, `}` gives `SYN_ROPT`,
a marker `%`/`=`/`&` with the maximal run of alphanumerics and `_` behind it gives
direction bits `| SYN_FIELD |` index of the field of that name, and any other
character gives itself; it has one element per item. -/
theorem compiled_pattern_elements (e : nds32_opcode) (hfresh : e.lexes = none)
    (hres : unresolved_marker e.instruction = false)
    (hfit : count_elements false e.instruction ≤ 31) :
    ∃ l, compiles_to e.instruction l
      ∧ (∀ l2, compiles_to e.instruction l2 → l2 = l)
      ∧ l.length = count_elements false e.instruction
      ∧ build_opcode_syntax e
        = some { e with lexes := some (l ++ [0]), variant := e.instruction.count '\x7b' } := by
  obtain ⟨l, hl⟩ := compiles_to_exists e.instruction hres
  have hlen := compiles_to_length _ _ hl
  have hb : build_opcode_syntax e
      = some { e with lexes := some (l ++ [0]), variant := e.instruction.count '\x7b' } := by
    rw [build_opcode_syntax_eq e l hfresh hl, if_pos (by unfold MAX_LEX_NUM; omega)]
  refine ⟨l, hl, ?_, hlen, hb⟩
  intro l2 hl2
  have hlen2 := compiles_to_length _ _ hl2
  have hb2 := build_opcode_syntax_eq e l2 hfresh hl2
  rw [if_pos (by unfold MAX_LEX_NUM; omega), hb] at hb2
  have h3 := congrArg (fun o => o.bind (fun c => c.lexes)) hb2
  simp only [Option.some_bind, Option.some.injEq] at h3
  exact (List.append_cancel_right h3).symm

/-- C28 on the pattern of `cplwi`, which has one optional group: eleven items (four
operands, a group start, a group end and five literals) give eleven elements in
pattern order, closed by `0`; the fields `cp`, `cprt`, `ra` and `i12s2` have the
indices 11, 10, 1 and 63. -/
theorem compiled_pattern_elements_witness :
    (∃ l, compiles_to "%cp,=cprt,[%ra\x7b+%i12s2\x7d]".toList l
      ∧ (∀ l2, compiles_to "%cp,=cprt,[%ra\x7b+%i12s2\x7d]".toList l2 → l2 = l)
      ∧ l.length = 11
      ∧ build_opcode_syntax (opcode_entry "cplwi" "%cp,=cprt,[%ra\x7b+%i12s2\x7d]" 0 4 0 0)
        = some { opcode_entry "cplwi" "%cp,=cprt,[%ra\x7b+%i12s2\x7d]" 0 4 0 0 with
            lexes := some (l ++ [0]), variant := 1 })
      ∧ ( build_opcode_syntax (opcode_entry "cplwi" "%cp,=cprt,[%ra\x7b+%i12s2\x7d]" 0 4 0 0)).map
          (fun c => (c.lexes, c.variant))
        = some (some [0x1100 ||| 11, 44, 0x2100 ||| 10, 44, 91, 0x1100 ||| 1, 0x4000, 43,
            0x1100 ||| 63, 0x8000, 93, 0], 1) :=
  ⟨compiled_pattern_elements (opcode_entry "cplwi" "%cp,=cprt,[%ra\x7b+%i12s2\x7d]" 0 4 0 0)
    rfl rfl (by decide), rfl⟩

/-! ## The one failure of the pattern compiler -/

/-- C30: on a fresh entry whose pattern has at most 31 items, `build_opcode_syntax`
does not return (the `assert` fails) if and only if the pattern holds a marker
`%`, `=` or `&` whose following name, the maximal run of alphanumerics and `_`,
possibly empty, is not the name of an entry of the field table.  An unresolved
marker makes it fail whatever the length of the pattern, and on an entry that is
already compiled it never fails. -/
theorem unresolved_field_is_fatal (e : nds32_opcode) (hfresh : e.lexes = none)
    (hfit : count_elements false e.instruction ≤ 31) :
    ( build_opcode_syntax e = none ↔ unresolved_marker e.instruction = true)
      ∧ ( build_opcode_syntax e = none
          ↔ ∃ a c b, e.instruction = a ++ c :: b ∧ (c = '%' ∨ c = '=' ∨ c = '&')
              ∧ field_find (b.takeWhile (fun x => x.isAlphanum || x == '_')) = none)
      ∧ (∀ e2 : nds32_opcode, e2.lexes = none → unresolved_marker e2.instruction = true →
          build_opcode_syntax e2 = none)
      ∧ (∀ e2 : nds32_opcode, e2.lexes.isSome = true → build_opcode_syntax e2 ≠ none) := by
  have hall : ∀ e2 : nds32_opcode, e2.lexes = none → unresolved_marker e2.instruction = true →
      build_opcode_syntax e2 = none := by
    intro e2 h2 hu
    unfold build_opcode_syntax
    rw [h2]
    dsimp only
    rw [(build_lex_loop_none _ _ (Nat.lt_succ_self _)).2 hu]
  have hiff : build_opcode_syntax e = none ↔ unresolved_marker e.instruction = true := by
    constructor
    · intro hnone
      by_contra hu
      have hu0 : unresolved_marker e.instruction = false := by simpa using hu
      obtain ⟨l, hl⟩ := compiles_to_exists e.instruction hu0
      have hlen := compiles_to_length _ _ hl
      rw [build_opcode_syntax_eq e l hfresh hl, if_pos (by unfold MAX_LEX_NUM; omega)] at hnone
      exact absurd hnone (by simp)
    · exact hall e hfresh
  refine ⟨hiff, ?_, hall, ?_⟩
  · rw [hiff, unresolved_marker_iff]
    constructor
    · rintro ⟨a, c, b, h1, h2, h3⟩
      exact ⟨a, c, b, h1, (marker_cases c).2 h2, h3⟩
    · rintro ⟨a, c, b, h1, h2, h3⟩
      exact ⟨a, c, b, h1, (marker_cases c).1 h2, h3⟩
  · intro e2 h2
    rw [build_idem e2 h2]
    simp

/-- C30 on two patterns of three items: `=rt,%zz` names no field behind its second
marker and is refused, `=rt,%ra` is compiled. -/
theorem unresolved_field_is_fatal_witness :
    build_opcode_syntax (opcode_entry "x" "=rt,%zz" 0 4 0 0) = none
      ∧ build_opcode_syntax (opcode_entry "x" "=rt,%ra" 0 4 0 0) ≠ none :=
  ⟨(unresolved_field_is_fatal (opcode_entry "x" "=rt,%zz" 0 4 0 0) rfl (by decide)).1.2 rfl,
   fun h => absurd ((unresolved_field_is_fatal (opcode_entry "x" "=rt,%ra" 0 4 0 0) rfl
     (by decide)).1.1 h) (by decide)⟩

/-! ## Two runs of the matcher side by side -/

theorem record_defuse_rel (R : nds32_asm_insn → nds32_asm_insn → Prop) (hR : insn_tracks R)
    (a b : nds32_asm_insn) (fld : field_t) (syn : Nat) (k : keyword_t) (h : R a b) :
    R (record_defuse a fld syn k) (record_defuse b fld syn k) := by
  unfold record_defuse
  dsimp only
  split_ifs
  · exact hR.defuse _ _ _ (hR.defuse _ _ _ h)
  · exact hR.defuse _ _ _ h
  · exact hR.defuse _ _ _ h
  · exact h

theorem record_modifier_rel (R : nds32_asm_insn → nds32_asm_insn → Prop) (hR : insn_tracks R)
    (a b : nds32_asm_insn) (modifier : Nat) (h : R a b) :
    R (record_modifier a modifier) (record_modifier b modifier) := by
  unfold record_modifier
  split_ifs
  · exact hR.attr _ _ _ h
  · exact h

theorem run_hook_rel (D : nds32_asm_desc → nds32_asm_desc → Prop) (hD : desc_tracks D)
    (h : parse_hook) (pd1 pd2 : nds32_asm_desc) (p : List Char) (v : Int) (hd : D pd1 pd2) :
    run_hook h pd1 p v = run_hook h pd2 p v := by
  cases h
  · rfl
  · show parse_fe5 pd1 p = parse_fe5 pd2 p
    unfold parse_fe5
    rw [hD.resolver pd1 pd2 hd]
  · show parse_pi5 pd1 p = parse_pi5 pd2 p
    unfold parse_pi5
    rw [hD.resolver pd1 pd2 hd]

theorem keyword_rel (D : nds32_asm_desc → nds32_asm_desc → Prop)
    (R : nds32_asm_insn → nds32_asm_insn → Prop) (hD : desc_tracks D) (hR : insn_tracks R)
    (r54 : Nat → Int) (pd1 pd2 : nds32_asm_desc) (pi1 pi2 : nds32_asm_insn) (p : List Char)
    (fld : field_t) (syn : Nat) (hd : D pd1 pd2) (hi : pi1.insn = pi2.insn) (hr : R pi1 pi2) :
    stage_rel D R (parse_operand_keyword r54 pd1 pi1 p fld syn)
      (parse_operand_keyword r54 pd2 pi2 p fld syn) := by
  obtain ⟨f1, m1, r1, cb1⟩ := pd1
  obtain ⟨f2, m2, r2, cb2⟩ := pd2
  have hf : f1 = f2 := hD.flags _ _ hd
  subst hf
  unfold parse_operand_keyword
  dsimp only
  cases keyword_find (hw_ktabs fld.hw_res)
      (parse_to_delimiter (if peek p = '$' then List.drop 1 p else p)).2 with
  | none => exact ⟨rfl, rfl, hi, hr, hD.result _ _ _ hd⟩
  | some k =>
    dsimp only
    by_cases hc : fld.hw_res = HW_GPR ∧ f1 &&& NASM_OPEN_REDUCED_REG ≠ 0
        ∧ k.attr &&& NASM_ATTR_RDREG = 0
    · rw [if_pos hc, if_pos hc]
      exact ⟨rfl, rfl, hi, hr, hD.result _ _ _ hd⟩
    · rw [if_neg hc, if_neg hc]
      refine ⟨?_, record_defuse_rel R hR _ _ _ _ _ hr, rfl, rfl⟩
      rw [record_defuse_insn, record_defuse_insn]
      exact hi

theorem int_rel (D : nds32_asm_desc → nds32_asm_desc → Prop)
    (R : nds32_asm_insn → nds32_asm_insn → Prop) (hD : desc_tracks D) (hR : insn_tracks R)
    (pd1 pd2 : nds32_asm_desc) (pi1 pi2 : nds32_asm_insn) (p : List Char)
    (fld : field_t) (hd : D pd1 pd2) (hi : pi1.insn = pi2.insn) (hr : R pi1 pi2) :
    stage_rel D R (parse_operand_int pd1 pi1 p fld) (parse_operand_int pd2 pi2 p fld) := by
  have hm := record_modifier_rel R hR pi1 pi2
    (modifier_at (if peek p = '#' then List.drop 1 p else p)) hr
  have hmi : (record_modifier pi1 (modifier_at (if peek p = '#' then List.drop 1 p else p))).insn
      = (record_modifier pi2 (modifier_at (if peek p = '#' then List.drop 1 p else p))).insn := by
    rw [record_modifier_insn, record_modifier_insn]
    exact hi
  obtain ⟨f1, m1, r1, cb1⟩ := pd1
  obtain ⟨f2, m2, r2, cb2⟩ := pd2
  have hcb : cb1 = cb2 := hD.resolver _ _ hd
  subst hcb
  unfold parse_operand_int
  dsimp only
  cases (cb1
      (if modifier_at (if peek p = '#' then List.drop 1 p else p) ≠ 0 then
        List.drop 5 (if peek p = '#' then List.drop 1 p else p)
      else if peek p = '#' then List.drop 1 p else p)).r
  case NASM_R_ILLEGAL => exact ⟨rfl, rfl, hmi, hm, hD.result _ _ _ hd⟩
  case NASM_R_SYMBOL => exact ⟨hmi, hR.field _ _ _ hm, rfl, rfl⟩
  case NASM_R_CONST => exact ⟨hmi, hm, rfl, rfl⟩
  all_goals exact True.intro

theorem value_rel (D : nds32_asm_desc → nds32_asm_desc → Prop)
    (R : nds32_asm_insn → nds32_asm_insn → Prop) (hD : desc_tracks D) (hR : insn_tracks R)
    (r54 : Nat → Int) (pd1 pd2 : nds32_asm_desc) (pi1 pi2 : nds32_asm_insn) (p : List Char)
    (fld : field_t) (syn : Nat) (hd : D pd1 pd2) (hi : pi1.insn = pi2.insn) (hr : R pi1 pi2) :
    stage_rel D R (parse_operand_value r54 pd1 pi1 p fld syn)
      (parse_operand_value r54 pd2 pi2 p fld syn) := by
  unfold parse_operand_value
  cases fld.parse with
  | some h =>
    dsimp only
    rw [run_hook_rel D hD h pd1 pd2 p _ hd]
    exact ⟨hi, hr, rfl, rfl⟩
  | none =>
    dsimp only
    split_ifs
    · exact keyword_rel D R hD hR r54 pd1 pd2 pi1 pi2 p fld syn hd hi hr
    · exact int_rel D R hD hR pd1 pd2 pi1 pi2 p fld hd hi hr
    · exact True.intro

theorem done_rel (D : nds32_asm_desc → nds32_asm_desc → Prop)
    (R : nds32_asm_insn → nds32_asm_insn → Prop) (hD : desc_tracks D) (hR : insn_tracks R)
    (pd1 pd2 : nds32_asm_desc) (pi1 pi2 : nds32_asm_insn) (p endp : List Char)
    (fld : field_t) (v : Int) (hd : D pd1 pd2) (hi : pi1.insn = pi2.insn) (hr : R pi1 pi2) :
    operand_rel D R (parse_operand_done pd1 pi1 p endp fld v)
      (parse_operand_done pd2 pi2 p endp fld v) := by
  unfold parse_operand_done
  dsimp only
  rw [hi]
  split_ifs
  all_goals first
    | exact ⟨rfl, rfl, hi, hr, hD.result _ _ _ hd⟩
    | exact ⟨rfl, rfl, rfl, hR.insn _ _ _ _ hr, hd⟩

theorem operand_fld_rel (D : nds32_asm_desc → nds32_asm_desc → Prop)
    (R : nds32_asm_insn → nds32_asm_insn → Prop) (hD : desc_tracks D) (hR : insn_tracks R)
    (r54 : Nat → Int) (pd1 pd2 : nds32_asm_desc) (pi1 pi2 : nds32_asm_insn) (p : List Char)
    (fld : field_t) (syn : Nat) (hd : D pd1 pd2) (hi : pi1.insn = pi2.insn) (hr : R pi1 pi2) :
    Option.Rel (operand_rel D R) (parse_operand_fld r54 pd1 pi1 p fld syn)
      (parse_operand_fld r54 pd2 pi2 p fld syn) := by
  have hs := value_rel D R hD hR r54 pd1 pd2 pi1 pi2 p fld syn hd hi hr
  unfold parse_operand_fld
  cases h1 : parse_operand_value r54 pd1 pi1 p fld syn <;>
    cases h2 : parse_operand_value r54 pd2 pi2 p fld syn <;>
    rw [h1, h2] at hs
  all_goals first
    | exact hs.elim
    | exact Option.Rel.none
    | exact Option.Rel.some hs
    | skip
  rename_i i1 e1 v1 i2 e2 v2
  obtain ⟨hi2, hr2, he, hv⟩ := hs
  subst he
  subst hv
  exact Option.Rel.some (done_rel D R hD hR pd1 pd2 i1 i2 p e1 fld v1 hd hi2 hr2)

theorem operand_rel_of (D : nds32_asm_desc → nds32_asm_desc → Prop)
    (R : nds32_asm_insn → nds32_asm_insn → Prop) (hD : desc_tracks D) (hR : insn_tracks R)
    (r54 : Nat → Int) (pd1 pd2 : nds32_asm_desc) (pi1 pi2 : nds32_asm_insn) (p : List Char)
    (x : Nat) (hd : D pd1 pd2) (hi : pi1.insn = pi2.insn) (hr : R pi1 pi2) :
    Option.Rel (operand_rel D R) (parse_operand r54 pd1 pi1 p x)
      (parse_operand r54 pd2 pi2 p x) := by
  unfold parse_operand
  cases LEX_GET_FIELD x with
  | none => exact Option.Rel.none
  | some fld => exact operand_fld_rel D R hD hR r54 pd1 pd2 pi1 pi2 p fld x hd hi hr

/-- Two walks over the same pattern on the same text, from related states with the
same instruction word, agree. -/
theorem walk_rel_of (D : nds32_asm_desc → nds32_asm_desc → Prop)
    (R : nds32_asm_insn → nds32_asm_insn → Prop) (hD : desc_tracks D) (hR : insn_tracks R)
    (r54 : Nat → Int) (variant : Nat) :
    ∀ (lex : List Nat) (skipping : Bool) (opt : Nat) (pd1 pd2 : nds32_asm_desc)
      (pi1 pi2 : nds32_asm_insn) (p : List Char),
      D pd1 pd2 → pi1.insn = pi2.insn → R pi1 pi2 →
      Option.Rel (walk_rel D R) (parse_insn_walk r54 variant lex skipping opt pd1 pi1 p)
        (parse_insn_walk r54 variant lex skipping opt pd2 pi2 p) := by
  intro lex
  induction lex with
  | nil =>
    intro skipping opt pd1 pd2 pi1 pi2 p _ _ _
    simp only [parse_insn_walk]
    exact Option.Rel.none
  | cons x lex ih =>
    intro skipping opt pd1 pd2 pi1 pi2 p hd hi hr
    cases skipping with
    | true =>
      simp only [parse_insn_walk]
      split_ifs
      · exact ih false opt pd1 pd2 pi1 pi2 p hd hi hr
      · exact ih true opt pd1 pd2 pi1 pi2 p hd hi hr
    | false =>
      simp only [parse_insn_walk]
      split_ifs
      · exact Option.Rel.some ⟨rfl, rfl, hi, hr, hd⟩
      · exact Option.Rel.some ⟨rfl, rfl, hi, hr, hD.result _ _ _ hd⟩
      · exact ih false opt pd1 pd2 pi1 pi2 _ hd hi hr
      · exact ih false (opt + 1) pd1 pd2 pi1 pi2 p hd hi hr
      · exact ih true (opt + 1) pd1 pd2 pi1 pi2 p hd hi hr
      · exact ih false (opt + 1) pd1 pd2 pi1 pi2 p hd hi hr
      · exact ih false opt pd1 pd2 pi1 pi2 p hd hi hr
      · have ho := operand_rel_of D R hD hR r54 pd1 pd2 pi1 pi2 p x hd hi hr
        cases h1 : parse_operand r54 pd1 pi1 p x <;>
          cases h2 : parse_operand r54 pd2 pi2 p x <;>
          rw [h1, h2] at ho
        · exact Option.Rel.none
        · cases ho
        · cases ho
        · rename_i a b
          cases ho with
          | some hab =>
            obtain ⟨h1r, h1s, h1i, h1R, h1D⟩ := hab
            dsimp only
            rw [h1r]
            cases hb : b.ret with
            | true =>
              simp only [if_true]
              rw [h1s]
              exact ih false opt a.pdesc b.pdesc a.pinsn b.pinsn b.str h1D h1i h1R
            | false =>
              simp only [Bool.false_eq_true, if_false]
              exact Option.Rel.some ⟨rfl, rfl, h1i, h1R, h1D⟩

/-- Two runs of one variant from related states agree; the instruction words they
start from play no part, as both are reset to the base value. -/
theorem variant_rel_of (D : nds32_asm_desc → nds32_asm_desc → Prop)
    (R : nds32_asm_insn → nds32_asm_insn → Prop) (hD : desc_tracks D) (hR : insn_tracks R)
    (r54 : Nat → Int) (pd1 pd2 : nds32_asm_desc) (pi1 pi2 : nds32_asm_insn)
    (str : List Char) (opc : nds32_opcode) (variant : Nat) (hd : D pd1 pd2) (hr : R pi1 pi2) :
    Option.Rel (outcome_rel D R) (parse_insn_variant r54 pd1 pi1 str opc variant)
      (parse_insn_variant r54 pd2 pi2 str opc variant) := by
  unfold parse_insn_variant
  cases opc.lexes with
  | none => exact Option.Rel.none
  | some lex =>
    dsimp only
    have hw := walk_rel_of D R hD hR r54 variant lex false 0 pd1 pd2
      { pi1 with insn := opc.value } { pi2 with insn := opc.value } str hd rfl
      (hR.insn _ _ _ _ hr)
    cases h1 : parse_insn_walk r54 variant lex false 0 pd1 { pi1 with insn := opc.value } str <;>
      cases h2 : parse_insn_walk r54 variant lex false 0 pd2 { pi2 with insn := opc.value } str <;>
      rw [h1, h2] at hw
    · exact Option.Rel.none
    · cases hw
    · cases hw
    · cases hw with
      | some hab =>
        obtain ⟨hf, hp, hi, hR2, hD2⟩ := hab
        dsimp only
        refine Option.Rel.some ⟨?_, hi, hR2, hD2⟩
        show (_ && _) = (_ && _)
        rw [hf, hp]

/-- Two runs of the variant loop from related states agree. -/
theorem loop_rel_of (D : nds32_asm_desc → nds32_asm_desc → Prop)
    (R : nds32_asm_insn → nds32_asm_insn → Prop) (hD : desc_tracks D) (hR : insn_tracks R)
    (r54 : Nat → Int) (str : List Char) (opc : nds32_opcode) :
    ∀ (fuel variant : Nat) (pd1 pd2 : nds32_asm_desc) (pi1 pi2 : nds32_asm_insn),
      D pd1 pd2 → R pi1 pi2 →
      Option.Rel (outcome_rel D R) (parse_insn_loop r54 str opc fuel variant pd1 pi1)
        (parse_insn_loop r54 str opc fuel variant pd2 pi2) := by
  intro fuel
  induction fuel with
  | zero =>
    intro variant pd1 pd2 pi1 pi2 _ _
    simp only [parse_insn_loop]
    exact Option.Rel.none
  | succ fuel ih =>
    intro variant pd1 pd2 pi1 pi2 hd hr
    have hv := variant_rel_of D R hD hR r54 pd1 pd2 pi1 pi2 str opc variant hd hr
    rw [parse_insn_loop, parse_insn_loop]
    cases h1 : parse_insn_variant r54 pd1 pi1 str opc variant <;>
      cases h2 : parse_insn_variant r54 pd2 pi2 str opc variant <;>
      rw [h1, h2] at hv
    · exact Option.Rel.none
    · cases hv
    · cases hv
    · rename_i a b
      cases hv with
      | some hab =>
        obtain ⟨b1, d1, i1⟩ := a
        obtain ⟨b2, d2, i2⟩ := b
        obtain ⟨hb, hi, hR2, hD2⟩ := hab
        dsimp only at hb hi hR2 hD2
        subst hb
        cases b1 with
        | true => exact Option.Rel.some ⟨rfl, hi, hR2, hD2⟩
        | false =>
          dsimp only
          split_ifs
          · exact ih (variant + 1) d1 d2 i1 i2 hD2 hR2
          · exact Option.Rel.some ⟨rfl, hi, hR2, hD2⟩

/-- Two runs of `parse_insn` from related states agree. -/
theorem parse_insn_rel_of (D : nds32_asm_desc → nds32_asm_desc → Prop)
    (R : nds32_asm_insn → nds32_asm_insn → Prop) (hD : desc_tracks D) (hR : insn_tracks R)
    (r54 : Nat → Int) (pd1 pd2 : nds32_asm_desc) (pi1 pi2 : nds32_asm_insn)
    (str : List Char) (opc : nds32_opcode) (hd : D pd1 pd2) (hr : R pi1 pi2) :
    Option.Rel (outcome_rel D R) (parse_insn r54 pd1 pi1 str opc)
      (parse_insn r54 pd2 pi2 str opc) :=
  loop_rel_of D R hD hR r54 str opc _ 0 pd1 pd2 pi1 pi2 hd hr

/-! ## What a variant leaves behind, and what it depends on -/

theorem both_see_tracks (flags : Nat) (cb : List Char → resolved) :
    desc_tracks (both_see flags cb) where
  flags := fun _ _ h => h.1.1.trans h.2.1.symm
  resolver := fun _ _ h => h.1.2.trans h.2.2.symm
  result := fun _ _ _ h => ⟨⟨h.1.1, h.1.2⟩, h.2.1, h.2.2⟩

theorem both_see_self (pd : nds32_asm_desc) : both_see pd.flags pd.parse_operand pd pd :=
  ⟨⟨rfl, rfl⟩, rfl, rfl⟩

theorem mach_rel_tracks (m : Nat) : desc_tracks (mach_rel m) where
  flags := fun a b h => by rw [show a = { b with mach := m } from h]
  resolver := fun a b h => by rw [show a = { b with mach := m } from h]
  result := fun a b r h => by
    rw [show a = { b with mach := m } from h]
    rfl

theorem lor_absorb (s b m : Nat) (h : s ||| b = b) : s ||| (b ||| m) = b ||| m := by
  rw [← Nat.lor_assoc, h]

theorem lor_both (a b m : Nat) (h : a ||| b = b) : (a ||| m) ||| (b ||| m) = b ||| m := by
  apply Nat.eq_of_testBit_eq
  intro i
  have hi := congrArg (fun x => Nat.testBit x i) h
  simp only [Nat.testBit_or] at hi ⊢
  cases ha : a.testBit i <;> cases hb : b.testBit i <;> cases hm : m.testBit i <;>
    simp_all

theorem le_trace_refl (a : nds32_asm_insn) : le_trace a a :=
  ⟨Nat.or_self _, Nat.or_self _⟩

theorem le_trace_trans (a b c : nds32_asm_insn) (h1 : le_trace a b) (h2 : le_trace b c) :
    le_trace a c := by
  obtain ⟨h1d, h1a⟩ := h1
  obtain ⟨h2d, h2a⟩ := h2
  constructor
  · rw [← h2d, ← Nat.lor_assoc, h1d]
  · rw [← h2a, ← Nat.lor_assoc, h1a]

/-- The relation "the bits of `s` are in the second instruction" survives every
update the matcher makes. -/
theorem above_tracks (s : nds32_asm_insn) : insn_tracks (fun _ b => le_trace s b) where
  insn := fun _ _ _ _ h => h
  defuse := fun _ _ _ h => ⟨lor_absorb _ _ _ h.1, h.2⟩
  attr := fun _ _ _ h => ⟨h.1, lor_absorb _ _ _ h.2⟩
  field := fun _ _ _ h => h

theorem trace_rel_tracks (seed : Option field_t) : insn_tracks (trace_rel seed) where
  insn := fun _ _ _ _ h => h
  defuse := fun _ _ _ h => ⟨⟨lor_both _ _ _ h.1.1, h.1.2⟩, h.2⟩
  attr := fun _ _ _ h => ⟨⟨h.1.1, lor_both _ _ _ h.1.2⟩, h.2⟩
  field := fun _ _ _ h => ⟨h.1, Or.inl rfl⟩

theorem same_rest_tracks : insn_tracks same_rest where
  insn := fun _ _ _ _ h => h
  defuse := fun a b m h => ⟨h.1, h.2.1, by show a.defuse ||| m = b.defuse ||| m; rw [h.2.2.1],
    h.2.2.2⟩
  attr := fun a b m h => ⟨h.1, by show a.attr ||| m = b.attr ||| m; rw [h.2.1], h.2.2.1,
    h.2.2.2⟩
  field := fun _ _ _ h => ⟨h.1, h.2.1, h.2.2.1, rfl⟩

theorem true_tracks : insn_tracks (fun _ _ => True) where
  insn := fun _ _ _ _ _ => True.intro
  defuse := fun _ _ _ _ => True.intro
  attr := fun _ _ _ _ => True.intro
  field := fun _ _ _ _ => True.intro

/-- A variant never clears a bit of the def/use mask or of the attribute set, and
leaves the flags and the resolver of the description alone. -/
theorem variant_grows (r54 : Nat → Int) (pd : nds32_asm_desc) (pi : nds32_asm_insn)
    (str : List Char) (opc : nds32_opcode) (v : Nat) (b : Bool) (pd2 : nds32_asm_desc)
    (pi2 : nds32_asm_insn) (h : parse_insn_variant r54 pd pi str opc v = some (b, pd2, pi2)) :
    le_trace pi pi2 ∧ pd2.flags = pd.flags ∧ pd2.parse_operand = pd.parse_operand := by
  have hrel := variant_rel_of (both_see pd.flags pd.parse_operand) (fun _ x => le_trace pi x)
    (both_see_tracks _ _) (above_tracks pi) r54 pd pd pi pi str opc v (both_see_self pd)
    (le_trace_refl pi)
  rw [h] at hrel
  cases hrel with
  | some hab => exact ⟨hab.2.2.1, hab.2.2.2.2.1, hab.2.2.2.2.2⟩

/-- A variant run after abandoned ones against the same variant run on the
instruction the call started with: same verdict, same instruction word. -/
theorem variant_fresh (r54 : Nat → Int) (pdesc pd1 : nds32_asm_desc) (pinsn pi1 : nds32_asm_insn)
    (str : List Char) (opc : nds32_opcode) (v : Nat)
    (hf : pd1.flags = pdesc.flags) (hcb : pd1.parse_operand = pdesc.parse_operand)
    (hle : le_trace pinsn pi1) (b : Bool) (pdf : nds32_asm_desc) (pif : nds32_asm_insn)
    (h : parse_insn_variant r54 pdesc pinsn str opc v = some (b, pdf, pif)) :
    ∃ pd2 pi2, parse_insn_variant r54 pd1 pi1 str opc v = some (b, pd2, pi2)
      ∧ pi2.insn = pif.insn ∧ trace_rel pinsn.field pif pi2
      ∧ pd2.flags = pdesc.flags ∧ pd2.parse_operand = pdesc.parse_operand
      ∧ le_trace pinsn pi2 := by
  have hrel := variant_rel_of (both_see pdesc.flags pdesc.parse_operand)
    (trace_rel pinsn.field) (both_see_tracks _ _) (trace_rel_tracks _) r54 pdesc pd1 pinsn pi1
    str opc v ⟨⟨rfl, rfl⟩, hf, hcb⟩ ⟨hle, Or.inr rfl⟩
  rw [h] at hrel
  cases h2 : parse_insn_variant r54 pd1 pi1 str opc v with
  | none => rw [h2] at hrel; cases hrel
  | some o =>
    rw [h2] at hrel
    obtain ⟨b2, pd2, pi2⟩ := o
    cases hrel with
    | some hab =>
      obtain ⟨hb, hi, hR, hD⟩ := hab
      dsimp only at hb hi hR hD
      subst hb
      have hg := variant_grows r54 pd1 pi1 str opc v _ pd2 pi2 h2
      exact ⟨pd2, pi2, rfl, hi.symm, hR, hD.2.1, hD.2.2, le_trace_trans _ _ _ hle hg.1⟩

/-- The variant loop reaches the least accepted variant: when the variants from
`v` up to `w` are refused on the instruction the call started with and `w` is
accepted there, the loop entered at `v` ends with success on the word of `w`. -/
theorem loop_reaches (r54 : Nat → Int) (pdesc : nds32_asm_desc) (pinsn : nds32_asm_insn)
    (str : List Char) (opc : nds32_opcode) (w : Nat) (pdf : nds32_asm_desc)
    (pif : nds32_asm_insn) (hw : w < 1 <<< opc.variant)
    (hacc : parse_insn_variant r54 pdesc pinsn str opc w = some (true, pdf, pif)) :
    ∀ (fuel v : Nat) (pd1 : nds32_asm_desc) (pi1 : nds32_asm_insn),
      v ≤ w → w - v < fuel →
      pd1.flags = pdesc.flags → pd1.parse_operand = pdesc.parse_operand → le_trace pinsn pi1 →
      (∀ u, v ≤ u → u < w →
        ∃ pd pi, parse_insn_variant r54 pdesc pinsn str opc u = some (false, pd, pi)) →
      ∃ pd2 pi2, parse_insn_loop r54 str opc fuel v pd1 pi1 = some (true, pd2, pi2)
        ∧ pi2.insn = pif.insn ∧ trace_rel pinsn.field pif pi2 := by
  intro fuel
  induction fuel with
  | zero => intro v pd1 pi1 _ h; omega
  | succ fuel ih =>
    intro v pd1 pi1 hvw hfuel hf hcb hle hrej
    rw [parse_insn_loop]
    by_cases hv : v = w
    · subst hv
      obtain ⟨pd2, pi2, h2, hi, hR, _⟩ :=
        variant_fresh r54 pdesc pd1 pinsn pi1 str opc v hf hcb hle true pdf pif hacc
      rw [h2]
      exact ⟨pd2, pi2, rfl, hi, hR⟩
    · have hlt : v < w := lt_of_le_of_ne hvw hv
      obtain ⟨pd, pi, hfresh⟩ := hrej v (le_refl v) hlt
      obtain ⟨pd2, pi2, h2, _, _, hf2, hcb2, hle2⟩ :=
        variant_fresh r54 pdesc pd1 pinsn pi1 str opc v hf hcb hle false pd pi hfresh
      rw [h2]
      dsimp only
      rw [if_pos (by omega)]
      exact ih (v + 1) pd2 pi2 (by omega) (by omega) hf2 hcb2 hle2
        (fun u hu huw => hrej u (by omega) huw)

/-- The variant loop runs out of variants: when every variant from `v` on is
refused on the instruction the call started with, the loop entered at `v` ends with
failure. -/
theorem loop_all_fail (r54 : Nat → Int) (pdesc : nds32_asm_desc) (pinsn : nds32_asm_insn)
    (str : List Char) (opc : nds32_opcode) :
    ∀ (fuel v : Nat) (pd1 : nds32_asm_desc) (pi1 : nds32_asm_insn),
      0 < fuel → 1 <<< opc.variant ≤ v + fuel →
      pd1.flags = pdesc.flags → pd1.parse_operand = pdesc.parse_operand → le_trace pinsn pi1 →
      (∀ u, v ≤ u → (u < 1 <<< opc.variant ∨ u = v) →
        ∃ pd pi, parse_insn_variant r54 pdesc pinsn str opc u = some (false, pd, pi)) →
      ∃ pd2 pi2, parse_insn_loop r54 str opc fuel v pd1 pi1 = some (false, pd2, pi2) := by
  intro fuel
  induction fuel with
  | zero => intro v pd1 pi1 h; omega
  | succ fuel ih =>
    intro v pd1 pi1 _ hfuel hf hcb hle hrej
    rw [parse_insn_loop]
    obtain ⟨pd, pi, hfresh⟩ := hrej v (le_refl v) (Or.inr rfl)
    obtain ⟨pd2, pi2, h2, _, _, hf2, hcb2, hle2⟩ :=
      variant_fresh r54 pdesc pd1 pinsn pi1 str opc v hf hcb hle false pd pi hfresh
    rw [h2]
    dsimp only
    by_cases hnext : v + 1 < 1 <<< opc.variant
    · rw [if_pos hnext]
      exact ih (v + 1) pd2 pi2 (by omega) (by omega) hf2 hcb2 hle2
        (fun u hu hor => hrej u (by omega) (Or.inl (by omega)))
    · rw [if_neg hnext]
      exact ⟨pd2, pi2, rfl⟩

/-! ## The instruction word of a variant -/

theorem or_mod_word (a b : Nat) (h : a < 2 ^ 32) : (a ||| b) % 2 ^ 32 = a ||| (b % 2 ^ 32) := by
  apply Nat.eq_of_testBit_eq
  intro i
  simp only [Nat.testBit_mod_two_pow, Nat.testBit_or]
  by_cases hi : i < 32
  · simp [hi]
  · have ha : a.testBit i = false :=
      Nat.testBit_lt_two_pow (lt_of_lt_of_le h (Nat.pow_le_pow_right (by norm_num) (by omega)))
    simp [hi, ha]

theorem failed_insn (r54 : Nat → Int) (pdesc : nds32_asm_desc) (pinsn : nds32_asm_insn)
    (str : List Char) (fld : field_t) (syn : Nat) (res : operand_result)
    (h : parse_operand_value r54 pdesc pinsn str fld syn = .failed res) :
    res.pinsn.insn = pinsn.insn := by
  unfold parse_operand_value at h
  split at h
  · cases h
  · split at h
    · unfold parse_operand_keyword at h
      dsimp only at h
      split at h
      · injection h with h1
        subst h1
        rfl
      · split at h
        · injection h with h1
          subst h1
          rfl
        · cases h
    · split at h
      · unfold parse_operand_int at h
        dsimp only at h
        split at h
        · injection h with h1
          subst h1
          exact record_modifier_insn _ _
        · cases h
        · cases h
        · cases h
      · cases h

theorem done_word (pd : nds32_asm_desc) (pi : nds32_asm_insn) (p endp : List Char)
    (fld : field_t) (v : Int) (h : pi.insn < 2 ^ 32) :
    (parse_operand_done pd pi p endp fld v).pinsn.insn < 2 ^ 32
      ∧ ∃ X, (parse_operand_done pd pi p endp fld v).pinsn.insn = pi.insn ||| X := by
  unfold parse_operand_done
  dsimp only
  split_ifs
  all_goals first
    | exact ⟨h, 0, (Nat.or_zero _).symm⟩
    | exact ⟨Nat.mod_lt _ (by norm_num), _, or_mod_word _ _ h⟩

theorem operand_word (r54 : Nat → Int) (pd : nds32_asm_desc) (pi : nds32_asm_insn)
    (p : List Char) (x : Nat) (res : operand_result)
    (hres : parse_operand r54 pd pi p x = some res) (h : pi.insn < 2 ^ 32) :
    res.pinsn.insn < 2 ^ 32 ∧ ∃ X, res.pinsn.insn = pi.insn ||| X := by
  unfold parse_operand at hres
  cases hf : LEX_GET_FIELD x with
  | none => rw [hf] at hres; cases hres
  | some fld =>
    rw [hf] at hres
    dsimp only at hres
    unfold parse_operand_fld at hres
    cases hs : parse_operand_value r54 pd pi p fld x with
    | aborted => rw [hs] at hres; cases hres
    | failed r =>
      rw [hs] at hres
      injection hres with hres
      subst hres
      have := failed_insn r54 pd pi p fld x r hs
      rw [this]
      exact ⟨h, 0, (Nat.or_zero _).symm⟩
    | parsed pi1 endp v =>
      rw [hs] at hres
      injection hres with hres
      subst hres
      have h1 := parsed_insn r54 pd pi p fld x pi1 endp v hs
      have := done_word pd pi1 p endp fld v (by rw [h1]; exact h)
      rw [h1] at this
      exact this

/-- The word a walk leaves is the word it started from with bits added. -/
theorem walk_word (r54 : Nat → Int) (variant : Nat) :
    ∀ (lex : List Nat) (skipping : Bool) (opt : Nat) (pd : nds32_asm_desc)
      (pi : nds32_asm_insn) (p : List Char) (w : walk_result),
      parse_insn_walk r54 variant lex skipping opt pd pi p = some w → pi.insn < 2 ^ 32 →
      w.pinsn.insn < 2 ^ 32 ∧ ∃ X, w.pinsn.insn = pi.insn ||| X := by
  intro lex
  induction lex with
  | nil =>
    intro skipping opt pd pi p w h
    simp only [parse_insn_walk] at h
    cases h
  | cons x lex ih =>
    intro skipping opt pd pi p w h hlt
    cases skipping with
    | true =>
      simp only [parse_insn_walk] at h
      split_ifs at h
      · exact ih _ _ _ _ _ _ h hlt
      · exact ih _ _ _ _ _ _ h hlt
    | false =>
      simp only [parse_insn_walk] at h
      split_ifs at h
      · injection h with h; subst h; exact ⟨hlt, 0, (Nat.or_zero _).symm⟩
      · injection h with h; subst h; exact ⟨hlt, 0, (Nat.or_zero _).symm⟩
      · exact ih _ _ _ _ _ _ h hlt
      · exact ih _ _ _ _ _ _ h hlt
      · exact ih _ _ _ _ _ _ h hlt
      · exact ih _ _ _ _ _ _ h hlt
      · exact ih _ _ _ _ _ _ h hlt
      · cases ho : parse_operand r54 pd pi p x with
        | none => rw [ho] at h; cases h
        | some res =>
          rw [ho] at h
          dsimp only at h
          obtain ⟨hr1, X1, hX1⟩ := operand_word r54 pd pi p x res ho hlt
          split_ifs at h
          · obtain ⟨hr2, X2, hX2⟩ := ih _ _ _ _ _ _ h hr1
            refine ⟨hr2, X1 ||| X2, ?_⟩
            rw [hX2, hX1, Nat.lor_assoc]
          · injection h with h
            subst h
            exact ⟨hr1, X1, hX1⟩

/-- The word a variant leaves is the base value of the entry with bits added. -/
theorem variant_word (r54 : Nat → Int) (pd : nds32_asm_desc) (pi : nds32_asm_insn)
    (str : List Char) (opc : nds32_opcode) (v : Nat) (b : Bool) (pd2 : nds32_asm_desc)
    (pi2 : nds32_asm_insn) (hbase : opc.value < 2 ^ 32)
    (h : parse_insn_variant r54 pd pi str opc v = some (b, pd2, pi2)) :
    pi2.insn < 2 ^ 32 ∧ ∃ X, pi2.insn = opc.value ||| X := by
  unfold parse_insn_variant at h
  cases hl : opc.lexes with
  | none => rw [hl] at h; cases h
  | some lex =>
    rw [hl] at h
    dsimp only at h
    cases hw : parse_insn_walk r54 v lex false 0 pd { pi with insn := opc.value } str with
    | none => rw [hw] at h; cases h
    | some w =>
      rw [hw] at h
      simp only [Option.some.injEq, Prod.mk.injEq] at h
      obtain ⟨_, _, h3⟩ := h
      subst h3
      exact walk_word r54 v lex false 0 pd _ str w hw hbase

/-! ## The variant that wins -/

/-- C27: the resolver being a function of the text, a variant run by `parse_insn`
gives the same verdict and the same instruction word from whatever state the
earlier variants left as on the instruction the call started with.  So, when every
variant `v < 2 ^ k` returns (`k` the variant count of the entry), `parse_insn`
returns success if and only if some variant `v < 2 ^ k` is accepted; it then
returns the word of the least accepted variant run alone, which is the base value
of the entry with the packed fields of that variant OR-ed in; and when no variant
is accepted it returns failure. -/
theorem least_variant_wins (r54 : Nat → Int) (pdesc : nds32_asm_desc) (pinsn : nds32_asm_insn)
    (str : List Char) (opc : nds32_opcode)
    (hret : ∀ v, v < 2 ^ opc.variant → parse_insn_variant r54 pdesc pinsn str opc v ≠ none) :
    ((∃ pd pi, parse_insn r54 pdesc pinsn str opc = some (true, pd, pi))
        ↔ ∃ v pd pi, v < 2 ^ opc.variant
            ∧ parse_insn_variant r54 pdesc pinsn str opc v = some (true, pd, pi))
      ∧ (∀ v pdf pif, v < 2 ^ opc.variant →
          parse_insn_variant r54 pdesc pinsn str opc v = some (true, pdf, pif) →
          (∀ u, u < v → ∀ pd pi,
            parse_insn_variant r54 pdesc pinsn str opc u ≠ some (true, pd, pi)) →
          ∃ pd pi, parse_insn r54 pdesc pinsn str opc = some (true, pd, pi)
            ∧ pi.insn = pif.insn)
      ∧ ((∀ v pd pi, v < 2 ^ opc.variant →
            parse_insn_variant r54 pdesc pinsn str opc v ≠ some (true, pd, pi)) →
          ∃ pd pi, parse_insn r54 pdesc pinsn str opc = some (false, pd, pi))
      ∧ (∀ v pd1 pi1, pd1.flags = pdesc.flags → pd1.parse_operand = pdesc.parse_operand →
          (parse_insn_variant r54 pd1 pi1 str opc v).map (fun o => (o.1, o.2.2.insn))
            = (parse_insn_variant r54 pdesc pinsn str opc v).map (fun o => (o.1, o.2.2.insn)))
      ∧ (opc.value < 2 ^ 32 → ∀ v b pd pi,
          parse_insn_variant r54 pdesc pinsn str opc v = some (b, pd, pi) →
          ∃ fields, pi.insn = opc.value ||| fields) := by
  have hK : 1 <<< opc.variant = 2 ^ opc.variant := by rw [Nat.shiftLeft_eq, Nat.one_mul]
  have hpos : 0 < 2 ^ opc.variant := by positivity
  -- a variant that returns and is not accepted is refused
  have hrefused : ∀ u, u < 2 ^ opc.variant →
      (∀ pd pi, parse_insn_variant r54 pdesc pinsn str opc u ≠ some (true, pd, pi)) →
      ∃ pd pi, parse_insn_variant r54 pdesc pinsn str opc u = some (false, pd, pi) := by
    intro u hu hnot
    cases hv : parse_insn_variant r54 pdesc pinsn str opc u with
    | none => exact absurd hv (hret u hu)
    | some o =>
      obtain ⟨b, pd, pi⟩ := o
      cases b with
      | true => exact absurd hv (hnot pd pi)
      | false => exact ⟨pd, pi, rfl⟩
  have hleast : ∀ v pdf pif, v < 2 ^ opc.variant →
      parse_insn_variant r54 pdesc pinsn str opc v = some (true, pdf, pif) →
      (∀ u, u < v → ∀ pd pi,
        parse_insn_variant r54 pdesc pinsn str opc u ≠ some (true, pd, pi)) →
      ∃ pd pi, parse_insn r54 pdesc pinsn str opc = some (true, pd, pi)
        ∧ pi.insn = pif.insn := by
    intro v pdf pif hv hacc hmin
    obtain ⟨pd2, pi2, h, hi, _⟩ := loop_reaches r54 pdesc pinsn str opc v pdf pif
      (by rw [hK]; exact hv) hacc (1 <<< opc.variant) 0 pdesc pinsn (Nat.zero_le _)
      (by rw [hK]; omega) rfl rfl (le_trace_refl _)
      (fun u _ hu => hrefused u (by omega) (hmin u hu))
    exact ⟨pd2, pi2, h, hi⟩
  have hnone : (∀ v pd pi, v < 2 ^ opc.variant →
        parse_insn_variant r54 pdesc pinsn str opc v ≠ some (true, pd, pi)) →
      ∃ pd pi, parse_insn r54 pdesc pinsn str opc = some (false, pd, pi) := by
    intro hall
    exact loop_all_fail r54 pdesc pinsn str opc (1 <<< opc.variant) 0 pdesc pinsn
      (by rw [hK]; exact hpos) (by omega) rfl rfl (le_trace_refl _)
      (fun u _ hu => hrefused u (by rcases hu with h | h <;> omega)
        (fun pd pi => hall u pd pi (by rcases hu with h | h <;> omega)))
  refine ⟨⟨?_, ?_⟩, hleast, hnone, ?_, ?_⟩
  · rintro ⟨pd, pi, h⟩
    by_contra hno
    obtain ⟨pd2, pi2, h2⟩ := hnone (fun v pd pi hv hacc => hno ⟨v, pd, pi, hv, hacc⟩)
    rw [h2] at h
    cases h
  · rintro ⟨v, pdf, pif, hv, hacc⟩
    induction v using Nat.strong_induction_on generalizing pdf pif with
    | _ v ih =>
      by_cases hex : ∃ u, u < v ∧ ∃ pd pi,
          parse_insn_variant r54 pdesc pinsn str opc u = some (true, pd, pi)
      · obtain ⟨u, hu, pd, pi, hacc2⟩ := hex
        exact ih u hu pd pi (by omega) hacc2
      · obtain ⟨pd, pi, h, _⟩ := hleast v pdf pif hv hacc
          (fun u hu pd pi hacc2 => hex ⟨u, hu, pd, pi, hacc2⟩)
        exact ⟨pd, pi, h⟩
  · intro v pd1 pi1 hf hcb
    have hrel := variant_rel_of (both_see pdesc.flags pdesc.parse_operand) (fun _ _ => True)
      (both_see_tracks _ _) true_tracks r54 pd1 pdesc pi1 pinsn str opc v
      ⟨⟨hf, hcb⟩, rfl, rfl⟩ True.intro
    cases h1 : parse_insn_variant r54 pd1 pi1 str opc v <;>
      cases h2 : parse_insn_variant r54 pdesc pinsn str opc v <;>
      rw [h1, h2] at hrel
    all_goals first
      | rfl
      | (cases hrel; done)
      | (cases hrel with
        | some hab =>
          simp only [Option.map_some', Option.some.injEq, Prod.mk.injEq]
          exact ⟨hab.1, hab.2.1⟩)
  · intro hbase v b pd pi h
    exact (variant_word r54 pdesc pinsn str opc v b pd pi hbase h).2

/-- C27 on a made-up entry with the pattern `=rt{,%ra}{,%i15s}` and the text
`r1,r2`, every text being a symbol for the resolver: combination 0 (`rt,ra,imm`)
is refused, combination 1 (`rt,imm`) is accepted, and `parse_insn` returns its
word, register 1 at bit 20. -/
theorem least_variant_wins_witness :
    ∃ pd pi, parse_insn (fun n => (n : Int)) (pdesc_with 0 (resolve_symbol 0)) pinsn_zero
        "r1,r2".toList (compiled opcode_two_groups) = some (true, pd, pi)
      ∧ pi.insn = 0x100000 := by
  have hret : ∀ v, v < 2 ^ (compiled opcode_two_groups).variant →
      parse_insn_variant (fun n => (n : Int)) (pdesc_with 0 (resolve_symbol 0)) pinsn_zero
        "r1,r2".toList (compiled opcode_two_groups) v ≠ none := by
    intro v hv
    have hv4 : v < 4 := hv
    interval_cases v <;> exact Option.ne_none_iff_isSome.2 rfl
  exact (least_variant_wins (fun n => (n : Int)) (pdesc_with 0 (resolve_symbol 0)) pinsn_zero
    "r1,r2".toList (compiled opcode_two_groups) hret).2.1
    1 (pdesc_with 0 (resolve_symbol 0))
    ⟨none, 0x100000, 0, 2, some ⟨"i15s".toList, 0, 15, 0, HW_INT, none⟩⟩
    (by decide) rfl
    (fun u hu pd pi h => by
      have hu0 : u = 0 := by omega
      subst hu0
      exact Bool.noConfusion (congrArg (fun o => o.1) (Option.some.inj h)))

/-! ## The ISA variant stored in the description -/

/-- The matcher never reads `pdesc->mach`: `parse_insn` on a description with
another ISA variant returns the same verdict and instruction, and hands the
variant back unchanged. -/
theorem parse_insn_mach (r54 : Nat → Int) (pd : nds32_asm_desc) (pi : nds32_asm_insn)
    (s : List Char) (opc : nds32_opcode) (m : Nat) :
    parse_insn r54 { pd with mach := m } pi s opc
      = (parse_insn r54 pd pi s opc).map (fun o => (o.1, { o.2.1 with mach := m }, o.2.2)) := by
  have hrel := parse_insn_rel_of (mach_rel m) same_rest (mach_rel_tracks m) same_rest_tracks
    r54 { pd with mach := m } pd pi pi s opc rfl ⟨rfl, rfl, rfl, rfl⟩
  cases h1 : parse_insn r54 { pd with mach := m } pi s opc <;>
    cases h2 : parse_insn r54 pd pi s opc <;>
    rw [h1, h2] at hrel
  all_goals first
    | rfl
    | (cases hrel; done)
    | skip
  rename_i a b
  cases hrel with
  | some hab =>
    obtain ⟨b1, d1, i1⟩ := a
    obtain ⟨b2, d2, i2⟩ := b
    obtain ⟨hb, hi, hR, hD⟩ := hab
    dsimp only at hb hi hR hD
    obtain ⟨o1, n1, a1, u1, f1⟩ := i1
    obtain ⟨o2, n2, a2, u2, f2⟩ := i2
    obtain ⟨ho, ha, hu, hf⟩ := hR
    dsimp only at hi ho ha hu hf
    have hD2 : d1 = { d2 with mach := m } := hD
    subst hb hi ho ha hu hf hD2
    rfl

theorem chain_mach (r54 : Nat → Int) (s : List Char) (m : Nat) :
    ∀ (fuel : Nat) (start : Option Nat) (tbl : List nds32_opcode) (pd : nds32_asm_desc)
      (pi : nds32_asm_insn),
      nds32_assemble_chain r54 s fuel start tbl { pd with mach := m } pi
        = (nds32_assemble_chain r54 s fuel start tbl pd pi).map
            (fun o => (o.1, ⟨{ o.2.pdesc with mach := m }, o.2.pinsn, o.2.tbl⟩)) := by
  intro fuel
  induction fuel with
  | zero => intro start tbl pd pi; rfl
  | succ fuel ih =>
    intro start tbl pd pi
    cases start with
    | none => rfl
    | some i =>
      rw [nds32_assemble_chain, nds32_assemble_chain]
      cases tbl[i]? with
      | none => rfl
      | some opc =>
        dsimp only
        cases build_opcode_syntax opc with
        | none => rfl
        | some opc1 =>
          dsimp only
          rw [parse_insn_mach]
          cases parse_insn r54 pd
              { pi with defuse := opc1.defuse, insn := 0, field := none, attr := opc1.attr }
              s opc1 with
          | none => rfl
          | some o =>
            obtain ⟨b, d, i2⟩ := o
            cases b with
            | true => rfl
            | false => exact ih opc1.next _ d i2

theorem found_mach (r54 : Nat → Int) (tbl : List nds32_opcode) (pd : nds32_asm_desc)
    (pi : nds32_asm_insn) (s : List Char) (i : Nat) (m : Nat) :
    nds32_assemble_found r54 tbl { pd with mach := m } pi s i
      = (nds32_assemble_found r54 tbl pd pi s i).map
          (fun r => ⟨{ r.pdesc with mach := m }, r.pinsn, r.tbl⟩) := by
  unfold nds32_assemble_found
  rw [chain_mach]
  cases nds32_assemble_chain r54 s (tbl.length + 1) (some i) tbl pd pi with
  | none => rfl
  | some o =>
    obtain ⟨j, r⟩ := o
    cases j <;> rfl

/-- The encode call never reads `pdesc->mach`: with another ISA variant in the
description it returns the same instruction, result code and table, and hands the
variant back unchanged. -/
theorem assemble_mach (r54 : Nat → Int) (tbl : List nds32_opcode)
    (htab : List (List Char × Nat)) (pd : nds32_asm_desc) (pi : nds32_asm_insn)
    (str : List Char) (m : Nat) :
    nds32_assemble r54 tbl htab { pd with mach := m } pi str
      = (nds32_assemble r54 tbl htab pd pi str).map
          (fun r => ⟨{ r.pdesc with mach := m }, r.pinsn, r.tbl⟩) := by
  unfold nds32_assemble
  dsimp only
  split
  · rw [found_mach]
  · rfl
  · split
    · rw [found_mach]
    · rfl

/-! ## The ISA variant and the attributes of an entry -/

/-- C22 fails as stated: the entry `cplwi` of the opcode table has the attribute set
0, which intersects no ISA variant, and `nds32_assemble` returns it as the matched
opcode with `NASM_OK` whatever variant the flags given to `nds32_asm_init` select
(here the flags 0, 1, 2 and 3, stored as such in `pdesc->mach`).  The base value of
the entry plays no part in the matching and is taken as 0. -/
theorem cplwi_is_matched :
    (opcode_cplwi 0).attr = 0
      ∧ ∀ flags, flags < 4 →
        (nds32_asm_init (pdesc_with 0 (resolve_const 0)) flags [opcode_cplwi 0]).map
            (fun r => r.1.mach) = some flags
        ∧ (assemble_line (fun n => (n : Int)) (resolve_const 0) flags [opcode_cplwi 0]
            "cplwi cp1,cpr2,[r3]").map (fun r => (r.1, r.2.opcode))
          = some (.NASM_OK, some 0) := by
  refine ⟨rfl, ?_⟩
  intro flags hf
  interval_cases flags <;> exact ⟨rfl, rfl⟩

theorem loop_attr (r54 : Nat → Int) (str : List Char) (opc : nds32_opcode) (a : Nat) :
    ∀ (fuel v : Nat) (pd : nds32_asm_desc) (pi : nds32_asm_insn),
      parse_insn_loop r54 str { opc with attr := a } fuel v pd pi
        = parse_insn_loop r54 str opc fuel v pd pi := by
  intro fuel
  induction fuel with
  | zero => intro v pd pi; rfl
  | succ fuel ih =>
    intro v pd pi
    rw [parse_insn_loop, parse_insn_loop]
    have hv : parse_insn_variant r54 pd pi str { opc with attr := a } v
        = parse_insn_variant r54 pd pi str opc v := rfl
    rw [hv]
    cases parse_insn_variant r54 pd pi str opc v with
    | none => rfl
    | some o =>
      obtain ⟨b, d, i⟩ := o
      cases b with
      | true => rfl
      | false =>
        dsimp only
        rw [ih]

/-- C22, amended: `nds32_asm_init` stores the ISA variant selected by the flags in
`pdesc->mach`, and nothing consults it: with any other value `m` in its place
`nds32_assemble` returns the same matched opcode, instruction, result code and
table, and leaves `m` where it was.  Nor does the matcher consult the attribute
set of an entry: `parse_insn` returns the same for an entry with any other
attribute set (the caller only copies the set into `pinsn->attr`).  An entry whose
attributes do not intersect the selected variant is matched like any other. -/
theorem isa_variant_is_not_consulted (r54 : Nat → Int) (pdesc0 : nds32_asm_desc) (flags : Nat)
    (ops : List nds32_opcode) (pdesc : nds32_asm_desc) (tbl : List nds32_opcode)
    (htab : List (List Char × Nat))
    (hinit : nds32_asm_init pdesc0 flags ops = some (pdesc, tbl, htab)) :
    pdesc.flags = flags ∧ pdesc.mach = flags &&& NASM_OPEN_ARCH_MASK
      ∧ (∀ m pinsn str,
          nds32_assemble r54 tbl htab { pdesc with mach := m } pinsn str
            = (nds32_assemble r54 tbl htab pdesc pinsn str).map
                (fun r => ⟨{ r.pdesc with mach := m }, r.pinsn, r.tbl⟩))
      ∧ (∀ pd pi s opc a,
          parse_insn r54 pd pi s { opc with attr := a } = parse_insn r54 pd pi s opc) := by
  have hpd : pdesc = { pdesc0 with flags := flags, mach := flags &&& NASM_OPEN_ARCH_MASK } := by
    unfold nds32_asm_init at hinit
    cases hl : nds32_asm_init_loop (List.range ops.length) (ops, []) with
    | none => rw [hl] at hinit; cases hinit
    | some st =>
      rw [hl] at hinit
      simp only [Option.some.injEq, Prod.mk.injEq] at hinit
      exact hinit.1.symm
  refine ⟨by rw [hpd], by rw [hpd], fun m pinsn str => assemble_mach r54 tbl htab pdesc pinsn str m,
    fun pd pi s opc a => loop_attr r54 s opc a _ 0 pd pi⟩

/-- C22, amended, on the table holding `cplwi` alone, initialised with the flags 2:
the line `cplwi cp1,cpr2,[r3]` is encoded alike with the ISA variant 2 or 0 in the
description. -/
theorem isa_variant_is_not_consulted_witness :
    (nds32_assemble (fun n => (n : Int)) [compiled (opcode_cplwi 0)] [("cplwi".toList, 0)]
        { (⟨2, 2, .NASM_OK, resolve_const 0⟩ : nds32_asm_desc) with mach := 0 } pinsn_zero
        "cplwi cp1,cpr2,[r3]".toList)
      = (nds32_assemble (fun n => (n : Int)) [compiled (opcode_cplwi 0)] [("cplwi".toList, 0)]
          ⟨2, 2, .NASM_OK, resolve_const 0⟩ pinsn_zero "cplwi cp1,cpr2,[r3]".toList).map
            (fun r => ⟨{ r.pdesc with mach := 0 }, r.pinsn, r.tbl⟩) :=
  (isa_variant_is_not_consulted (fun n => (n : Int)) (pdesc_with 0 (resolve_const 0)) 2
    [opcode_cplwi 0] ⟨2, 2, .NASM_OK, resolve_const 0⟩ [compiled (opcode_cplwi 0)]
    [("cplwi".toList, 0)] rfl).2.2.1 0 pinsn_zero "cplwi cp1,cpr2,[r3]".toList

/-! ## The matcher returns -/

theorem lopt_ne_zero (x : Nat) (h : x &&& SYN_LOPT ≠ 0) : x ≠ 0 := by
  rintro rfl
  exact h (Nat.zero_and _)

/-- A variant is the walk over the compiled pattern followed by the end test. -/
theorem variant_of_walk (r54 : Nat → Int) (pd : nds32_asm_desc) (pi : nds32_asm_insn)
    (str : List Char) (opc : nds32_opcode) (lex : List Nat) (v : Nat)
    (hlex : opc.lexes = some lex) :
    parse_insn_variant r54 pd pi str opc v
      = (parse_insn_walk r54 v lex false 0 pd { pi with insn := opc.value } str).map
          (fun w => (w.finished && at_insn_end w.p, w.pdesc, w.pinsn)) := by
  unfold parse_insn_variant
  rw [hlex]
  dsimp only
  cases parse_insn_walk r54 v lex false 0 pd { pi with insn := opc.value } str <;> rfl

/-- The parts of a compiled pattern with one optional group of the kind
`one_group`. -/
theorem one_group_parts (lex : List Nat) (h : one_group lex = true) :
    ∃ a c g rest, lex = a ++ SYN_LOPT :: ((c :: g) ++ SYN_ROPT :: (rest ++ [0]))
      ∧ a.all plain_lex = true ∧ g.all plain_lex = true
      ∧ c ≠ 0 ∧ IS_LEX_CHAR c = true
      ∧ rest.all (fun x => x != 0 && IS_LEX_CHAR x) = true
      ∧ LEX_CHAR c ≠ 0 ∧ LEX_CHAR c ≠ '!'.toNat ∧ LEX_CHAR c ≠ '#'.toNat
      ∧ (∀ d, rest.head? = some d → LEX_CHAR d ≠ LEX_CHAR c) := by
  unfold one_group at h
  dsimp only at h
  generalize lex.takeWhile (fun x => x != SYN_LOPT) = a at h
  generalize ((lex.dropWhile (fun x => x != SYN_LOPT)).drop 1).takeWhile
    (fun x => x != SYN_ROPT) = cg at h
  generalize ((((lex.dropWhile (fun x => x != SYN_LOPT)).drop 1).dropWhile
    (fun x => x != SYN_ROPT)).drop 1).dropLast = rest at h
  cases cg with
  | nil =>
    simp only [Bool.and_false] at h
    cases h
  | cons c g =>
    simp only [Bool.and_eq_true, beq_iff_eq, bne_iff_ne, ne_eq, List.all_cons] at h
    obtain ⟨⟨⟨⟨hl, ha⟩, hc, hg⟩, hrest⟩, ⟨⟨⟨hch, h0⟩, h1⟩, h2⟩, hnext⟩ := h
    refine ⟨a, c, g, rest, hl, ha, hg, (plain_lex_cases c hc).1, hch, ?_, h0, h1, h2, ?_⟩
    · exact hrest
    · intro d hd hcd
      rw [hd] at hnext
      exact hnext (by rw [Option.map_some', hcd])

/-- The walk over a run of plain elements either gets through, to a state that
does not depend on what follows the run, or stops inside the run without reaching
the end of the pattern. -/
theorem walk_head_cases (r54 : Nat → Int) (a : List Nat) (ha : a.all plain_lex = true) :
    ∀ (pd : nds32_asm_desc) (pi : nds32_asm_insn) (p : List Char),
      (∃ pd1 pi1 p1, ∀ v l o, parse_insn_walk r54 v (a ++ l) false o pd pi p
          = parse_insn_walk r54 v l false o pd1 pi1 p1)
        ∨ (∃ r : Option walk_result, (∀ w, r = some w → w.finished = false)
            ∧ ∀ v l o, parse_insn_walk r54 v (a ++ l) false o pd pi p = r) := by
  induction a with
  | nil =>
    intro pd pi p
    exact Or.inl ⟨pd, pi, p, fun _ _ _ => rfl⟩
  | cons x a ih =>
    rw [List.all_cons, Bool.and_eq_true] at ha
    obtain ⟨hx0, hxr, hx⟩ := plain_lex_cases x ha.1
    intro pd pi p
    rcases hx with hc | ⟨hc, hl⟩
    · by_cases hne : LEX_CHAR x ≠ (peek p).toNat
      · refine Or.inr ⟨some ⟨false, { pd with result := .NASM_ERR_SYNTAX }, pi, p⟩, ?_, ?_⟩
        · intro w hw
          rw [← Option.some.inj hw]
        · intro v l o
          rw [List.cons_append, walk_char _ _ _ _ _ _ _ _ hx0 hc, if_pos hne]
      · rcases ih ha.2 pd pi (p.drop 1) with ⟨pd1, pi1, p1, h⟩ | ⟨r, hr, h⟩
        · refine Or.inl ⟨pd1, pi1, p1, fun v l o => ?_⟩
          rw [List.cons_append, walk_char _ _ _ _ _ _ _ _ hx0 hc, if_neg hne, h]
        · refine Or.inr ⟨r, hr, fun v l o => ?_⟩
          rw [List.cons_append, walk_char _ _ _ _ _ _ _ _ hx0 hc, if_neg hne, h]
    · cases hop : parse_operand r54 pd pi p x with
      | none =>
        refine Or.inr ⟨none, fun w hw => (by cases hw), fun v l o => ?_⟩
        rw [List.cons_append, walk_field _ _ _ _ _ _ _ _ hx0 hc hl hxr, hop]
      | some res =>
        by_cases hret : res.ret = true
        · rcases ih ha.2 res.pdesc res.pinsn res.str with ⟨pd1, pi1, p1, h⟩ | ⟨r, hr, h⟩
          · refine Or.inl ⟨pd1, pi1, p1, fun v l o => ?_⟩
            rw [List.cons_append, walk_field _ _ _ _ _ _ _ _ hx0 hc hl hxr, hop]
            dsimp only
            rw [if_pos hret, h]
          · refine Or.inr ⟨r, hr, fun v l o => ?_⟩
            rw [List.cons_append, walk_field _ _ _ _ _ _ _ _ hx0 hc hl hxr, hop]
            dsimp only
            rw [if_pos hret, h]
        · refine Or.inr ⟨some ⟨false, res.pdesc, res.pinsn, p⟩, ?_, fun v l o => ?_⟩
          · intro w hw
            rw [← Option.some.inj hw]
          · rw [List.cons_append, walk_field _ _ _ _ _ _ _ _ hx0 hc hl hxr, hop]
            dsimp only
            rw [if_neg hret]

/-- The walk over a run of literals that closes a pattern: when it reaches the end
of the pattern it has changed neither the description nor the instruction, and the
first literal of the run is the character under the cursor. -/
theorem walk_literals (r54 : Nat → Int) (v o : Nat) (rest : List Nat)
    (hrest : rest.all (fun x => x != 0 && IS_LEX_CHAR x) = true) :
    ∀ (pd : nds32_asm_desc) (pi : nds32_asm_insn) (p : List Char) (w : walk_result),
      parse_insn_walk r54 v (rest ++ [0]) false o pd pi p = some w → w.finished = true →
      w.pdesc = pd ∧ w.pinsn = pi ∧ (rest = [] → w.p = p)
        ∧ (∀ d, rest.head? = some d → LEX_CHAR d = (peek p).toNat) := by
  induction rest with
  | nil =>
    intro pd pi p w h _
    rw [List.nil_append, walk_end] at h
    rw [← Option.some.inj h]
    exact ⟨rfl, rfl, fun _ => rfl, fun d hd => (by cases hd)⟩
  | cons d rest ih =>
    rw [List.all_cons, Bool.and_eq_true, Bool.and_eq_true] at hrest
    obtain ⟨⟨hd0, hdc⟩, hr⟩ := hrest
    have hd0' : d ≠ 0 := by simpa using hd0
    intro pd pi p w h hfin
    rw [List.cons_append, walk_char _ _ _ _ _ _ _ _ hd0' hdc] at h
    by_cases hne : LEX_CHAR d ≠ (peek p).toNat
    · rw [if_pos hne] at h
      rw [← Option.some.inj h] at hfin
      cases hfin
    · rw [if_neg hne] at h
      obtain ⟨h1, h2, _, _⟩ := ih hr pd pi (p.drop 1) w h hfin
      refine ⟨h1, h2, fun hc => (by cases hc), fun d' hd' => ?_⟩
      have : d' = d := by
        simp only [List.head?_cons, Option.some.injEq] at hd'
        exact hd'.symm
      rw [this]
      exact not_not.1 hne

/-- The relation "the first instruction is the second one with the bits and the
pending field of `t` added" survives every update the matcher makes. -/
theorem plus_tracks (t : nds32_asm_insn) :
    insn_tracks (fun a b => a.defuse = b.defuse ||| t.defuse ∧ a.attr = b.attr ||| t.attr
      ∧ (a.field = b.field ∨ a.field = t.field) ∧ a.opcode = b.opcode) where
  insn := fun _ _ _ _ h => h
  defuse := fun a b m h => ⟨by
      show a.defuse ||| m = b.defuse ||| m ||| t.defuse
      rw [h.1, Nat.lor_assoc, Nat.lor_comm t.defuse m, ← Nat.lor_assoc], h.2⟩
  attr := fun a b m h => ⟨h.1, by
      show a.attr ||| m = b.attr ||| m ||| t.attr
      rw [h.2.1, Nat.lor_assoc, Nat.lor_comm t.attr m, ← Nat.lor_assoc], h.2.2⟩
  field := fun _ _ _ h => ⟨h.1, h.2.1, Or.inl rfl, h.2.2.2⟩

/-- The relation "the first instruction names the entry `k`" survives every update
the matcher makes. -/
theorem opcode_tracks (k : Option Nat) :
    insn_tracks (fun a (_ : nds32_asm_insn) => a.opcode = k) where
  insn := fun _ _ _ _ h => h
  defuse := fun _ _ _ h => h
  attr := fun _ _ _ h => h
  field := fun _ _ _ h => h

/-- A variant leaves the member `opcode` of the instruction alone. -/
theorem variant_opcode (r54 : Nat → Int) (pd : nds32_asm_desc) (pi : nds32_asm_insn)
    (str : List Char) (opc : nds32_opcode) (v : Nat) (b : Bool) (pd2 : nds32_asm_desc)
    (pi2 : nds32_asm_insn) (h : parse_insn_variant r54 pd pi str opc v = some (b, pd2, pi2)) :
    pi2.opcode = pi.opcode := by
  have hrel := variant_rel_of (both_see pd.flags pd.parse_operand)
    (fun a (_ : nds32_asm_insn) => a.opcode = pi.opcode)
    (both_see_tracks _ _) (opcode_tracks pi.opcode) r54 pd pd pi pi str opc v (both_see_self pd)
    rfl
  rw [h] at hrel
  cases hrel with
  | some hab => exact hab.2.2.1

set_option maxRecDepth 1000000 in
/-- Every pattern of the opcode table compiles, into a pattern without optional
group or with one optional group of the kind `one_group`. -/
theorem table_group_kind : nds32_patterns.all (fun s => group_kind s.toList) = true := by
  decide

/-- What `group_kind` says of an entry with the pattern `pat`. -/
theorem group_kind_entry (pat : List Char) (hk : group_kind pat = true) (e c : nds32_opcode)
    (hfresh : e.lexes = none) (hpat : e.instruction = pat)
    (hc : build_opcode_syntax e = some c) :
    ∃ l, c.lexes = some l ∧ (c.variant = 0 ∨ (c.variant = 1 ∧ one_group l = true)) := by
  unfold group_kind at hk
  cases hb : build_lex_loop (pat.length + 1) pat with
  | none =>
    rw [hb] at hk
    cases hk
  | some r =>
    obtain ⟨lex, k⟩ := r
    rw [hb] at hk
    simp only [Bool.and_eq_true, decide_eq_true_eq, Bool.or_eq_true, beq_iff_eq] at hk
    obtain ⟨hfit, hshape⟩ := hk
    rw [build_fresh e pat lex k hfresh hpat hb hfit] at hc
    have hce := Option.some.inj hc
    rw [← hce]
    refine ⟨lex ++ [0], rfl, ?_⟩
    rcases hshape with h0 | ⟨h1, hg⟩
    · exact Or.inl h0
    · exact Or.inr ⟨h1, hg⟩

/-- On a pattern with one optional group of the kind `one_group`, when the
combination that keeps the group is refused and the one that leaves it out is
accepted, the first has stopped at the literal that opens the group: it leaves the
instruction that the second one returns. -/
theorem one_group_refused (r54 : Nat → Int) (pdesc : nds32_asm_desc) (pinsn : nds32_asm_insn)
    (str : List Char) (opc : nds32_opcode) (lex : List Nat)
    (hlex : opc.lexes = some lex) (hshape : one_group lex = true)
    (pdf pd0 : nds32_asm_desc) (pif pi0 : nds32_asm_insn)
    (hacc : parse_insn_variant r54 pdesc pinsn str opc 1 = some (true, pdf, pif))
    (hrej : parse_insn_variant r54 pdesc pinsn str opc 0 = some (false, pd0, pi0)) :
    pi0 = pif ∧ pd0 = { pdf with result := .NASM_ERR_SYNTAX } := by
  obtain ⟨a, c, g, rest, hl, ha, hg, hc0, hcc, hrest, he0, he1, he2, hnext⟩ :=
    one_group_parts lex hshape
  have hcg : (c :: g).all plain_lex = true := by
    rw [List.all_cons, hg, Bool.and_true]
    simp only [plain_lex, hcc, Bool.true_or, Bool.and_true, bne_iff_ne, ne_eq]
    exact hc0
  rw [variant_of_walk r54 pdesc pinsn str opc lex 1 hlex, hl] at hacc
  rw [variant_of_walk r54 pdesc pinsn str opc lex 0 hlex, hl] at hrej
  rcases walk_head_cases r54 a ha pdesc { pinsn with insn := opc.value } str with
    ⟨pdH, piH, q, hhead⟩ | ⟨r, hr, hhead⟩
  · rw [hhead, walk_lopt r54 1 0 (c :: g) (rest ++ [0]) hcg, if_pos (by decide)] at hacc
    rw [hhead, walk_lopt r54 0 0 (c :: g) (rest ++ [0]) hcg, if_neg (by decide)] at hrej
    cases hw1 : parse_insn_walk r54 1 (rest ++ [0]) false (0 + 1) pdH piH q with
    | none =>
      rw [hw1] at hacc
      cases hacc
    | some w1 =>
      rw [hw1, Option.map_some'] at hacc
      have hacc2 := Option.some.inj hacc
      simp only [Prod.mk.injEq, Bool.and_eq_true] at hacc2
      obtain ⟨⟨hfin, hend⟩, hpd, hpi⟩ := hacc2
      obtain ⟨h1, h2, h3, h4⟩ := walk_literals r54 1 (0 + 1) rest hrest pdH piH q w1 hw1 hfin
      have hne : LEX_CHAR c ≠ (peek q).toNat := by
        cases hrs : rest with
        | nil =>
          have hp : w1.p = q := h3 hrs
          rw [hp] at hend
          intro hcq
          rcases (at_insn_end_iff q).1 hend with hq | ⟨ch, t, hq, hch⟩
          · rw [hq] at hcq
            exact he0 hcq
          · rw [hq] at hcq
            rcases hch with h | h | h
            · rw [h] at hcq
              exact he0 hcq
            · rw [h] at hcq
              exact he1 hcq
            · rw [h] at hcq
              exact he2 hcq
        | cons d rest2 =>
          intro hcq
          have hd := h4 d (by rw [hrs]; rfl)
          exact hnext d (by rw [hrs]; rfl) (hd.trans hcq.symm)
      have hrej1 : parse_insn_walk r54 0 ((c :: g) ++ SYN_ROPT :: (rest ++ [0])) false (0 + 1)
          pdH piH q = some ⟨false, { pdH with result := .NASM_ERR_SYNTAX }, piH, q⟩ :=
        walk_char_ne r54 0 c _ _ pdH piH q hc0 hcc hne
      rw [hrej1, Option.map_some'] at hrej
      have hrej2 := Option.some.inj hrej
      simp only [Prod.mk.injEq] at hrej2
      obtain ⟨_, hpd0, hpi0⟩ := hrej2
      rw [h1] at hpd
      rw [h2] at hpi
      exact ⟨by rw [← hpi0, ← hpi], by rw [← hpd0, ← hpd]⟩
  · rw [hhead] at hacc
    cases r with
    | none => cases hacc
    | some w1 =>
      rw [Option.map_some'] at hacc
      have hacc2 := Option.some.inj hacc
      simp only [Prod.mk.injEq, Bool.and_eq_true] at hacc2
      have hf := hr w1 rfl
      rw [hf] at hacc2
      exact absurd hacc2.1.1 (by simp)

/-! ## Cursors stay inside the text -/

theorem keyword_value_plain (r54 : Nat → Int) (fld : field_t) (k : keyword_t)
    (h : ¬ (fld.hw_res = HW_GPR ∧ fld.bitsize + fld.shift = 4)) :
    keyword_value r54 fld k = (k.value : Int) := by
  unfold keyword_value
  rw [if_neg h]

theorem keyword_value_mapped (r54 : Nat → Int) (fld : field_t) (k : keyword_t)
    (hgpr : fld.hw_res = HW_GPR) (h4 : fld.bitsize + fld.shift = 4) :
    keyword_value r54 fld k = r54 k.value := by
  unfold keyword_value
  rw [if_pos ⟨hgpr, h4⟩]

/-- The first half of `parse_operand` looks at `nds32_r54map` only for a hook-less
general-register field whose width plus scale is 4. -/
theorem value_without_map (r54 r54' : Nat → Int) (pdesc : nds32_asm_desc)
    (pinsn : nds32_asm_insn) (p : List Char) (fld : field_t) (syn : Nat)
    (h : ¬ (fld.parse = none ∧ fld.hw_res = HW_GPR ∧ fld.bitsize + fld.shift = 4)) :
    parse_operand_value r54 pdesc pinsn p fld syn
      = parse_operand_value r54' pdesc pinsn p fld syn := by
  unfold parse_operand_value
  cases hp : fld.parse with
  | some hk => rfl
  | none =>
    have h2 : ¬ (fld.hw_res = HW_GPR ∧ fld.bitsize + fld.shift = 4) :=
      fun hc => h ⟨hp, hc.1, hc.2⟩
    dsimp only
    unfold parse_operand_keyword
    dsimp only
    have hv : ∀ k, keyword_value r54 fld k = keyword_value r54' fld k := fun k => by
      rw [keyword_value_plain r54 fld k h2, keyword_value_plain r54' fld k h2]
    simp only [hv]

/-- A tagged element of a general-register field adds bit `2 ^ r` to the def/use
mask, whatever the tag. -/
theorem record_defuse_tagged (pinsn : nds32_asm_insn) (fld : field_t) (syn : Nat)
    (k : keyword_t) (hgpr : fld.hw_res = HW_GPR)
    (htag : syn &&& SYN_INPUT ≠ 0 ∨ syn &&& SYN_OUTPUT ≠ 0) :
    record_defuse pinsn fld syn k = { pinsn with defuse := pinsn.defuse ||| 2 ^ k.value } := by
  unfold record_defuse
  dsimp only
  rw [show USE_REG k.value = 2 ^ k.value from bit_eq_pow _,
    show DEF_REG k.value = 2 ^ k.value from bit_eq_pow _]
  by_cases hi : syn &&& SYN_INPUT ≠ 0
  · have hI : fld.hw_res = HW_GPR ∧ syn &&& SYN_INPUT ≠ 0 := ⟨hgpr, hi⟩
    by_cases ho : syn &&& SYN_OUTPUT ≠ 0
    · have hO : fld.hw_res = HW_GPR ∧ syn &&& SYN_OUTPUT ≠ 0 := ⟨hgpr, ho⟩
      rw [if_pos hO, if_pos hI]
      show ({ pinsn with defuse := pinsn.defuse ||| 2 ^ k.value ||| 2 ^ k.value }
        : nds32_asm_insn) = _
      rw [Nat.lor_assoc, Nat.or_self]
    · have hO : ¬ (fld.hw_res = HW_GPR ∧ syn &&& SYN_OUTPUT ≠ 0) := fun hc => ho hc.2
      rw [if_neg hO, if_pos hI]
  · have hI : ¬ (fld.hw_res = HW_GPR ∧ syn &&& SYN_INPUT ≠ 0) := fun hc => hi hc.2
    have hO : fld.hw_res = HW_GPR ∧ syn &&& SYN_OUTPUT ≠ 0 := ⟨hgpr, htag.resolve_left hi⟩
    rw [if_pos hO, if_neg hI]

/-- The first half of `parse_operand` on a general-register field does not tell an
input element from an output element. -/
theorem value_without_direction (r54 : Nat → Int) (pdesc : nds32_asm_desc)
    (pinsn : nds32_asm_insn) (p : List Char) (fld : field_t) (x1 x2 : Nat)
    (hgpr : fld.hw_res = HW_GPR)
    (h1 : x1 &&& SYN_INPUT ≠ 0 ∨ x1 &&& SYN_OUTPUT ≠ 0)
    (h2 : x2 &&& SYN_INPUT ≠ 0 ∨ x2 &&& SYN_OUTPUT ≠ 0) :
    parse_operand_value r54 pdesc pinsn p fld x1
      = parse_operand_value r54 pdesc pinsn p fld x2 := by
  unfold parse_operand_value
  cases hp : fld.parse with
  | some hk => rfl
  | none =>
    have hhw : fld.hw_res < _HW_LAST := by rw [hgpr]; decide
    dsimp only
    rw [if_pos hhw, if_pos hhw]
    unfold parse_operand_keyword
    dsimp only
    have hv : ∀ k, record_defuse pinsn fld x1 k = record_defuse pinsn fld x2 k := fun k => by
      rw [record_defuse_tagged pinsn fld x1 k hgpr h1,
        record_defuse_tagged pinsn fld x2 k hgpr h2]
    simp only [hv]

/-! ## The register map and the integer fields -/

/-- C31 fails as stated: the built-in field `i3u1` (width 3, scale 1, so width plus
scale is 4) is of the unsigned-integer class, and its value is not sent through
`nds32_r54map`.  With a map that sends every number to 5 and with the identity map
alike, the constant 4 under `i3u1` packs `4 >> 1 = 2`, derived from the constant
itself, while the register `r4` under `rt4` packs the mapped 5 at bit 5. -/
theorem i3u1_is_not_remapped :
    field_i3u1 ∈ operand_fields
      ∧ field_i3u1.bitsize + field_i3u1.shift = 4
      ∧ (parse_operand_fld (fun _ => 5) (pdesc_with 0 (resolve_const 4)) pinsn_zero "4".toList
          field_i3u1 0x114c).map (fun o => (o.ret, o.pinsn.insn)) = some (true, 2)
      ∧ (parse_operand_fld (fun n => (n : Int)) (pdesc_with 0 (resolve_const 4)) pinsn_zero
          "4".toList field_i3u1 0x114c).map (fun o => (o.ret, o.pinsn.insn)) = some (true, 2)
      ∧ (parse_operand_fld (fun _ => 5) (pdesc_with 0 (resolve_const 4)) pinsn_zero "r4".toList
          ⟨"rt4".toList, 5, 4, 0, HW_GPR, none⟩ 0x2100).map (fun o => (o.ret, o.pinsn.insn))
        = some (true, 5 <<< 5) := by
  decide

/-- C31, amended: the compressed-register map `nds32_r54map` is applied only to a
hook-less field of the general-register class whose width plus scale is 4.  For
every other field (a field of another resource class, whatever its width and
scale, or a field with a hook) `parse_operand` returns the same whatever the map
holds.  Of the two built-in fields whose width plus scale is 4, `rt4` is remapped
and the unsigned-integer field `i3u1` is not: a constant `c` under `i3u1` is
accepted when it is even with `0 <= c < 16`, and `c / 2` is packed. -/
theorem remap_only_for_general_registers (r54 r54' : Nat → Int) (pdesc : nds32_asm_desc)
    (pinsn : nds32_asm_insn) (p : List Char) (fld : field_t) (syn : Nat)
    (h : fld.parse ≠ none ∨ fld.hw_res ≠ HW_GPR ∨ fld.bitsize + fld.shift ≠ 4) :
    parse_operand_fld r54 pdesc pinsn p fld syn = parse_operand_fld r54' pdesc pinsn p fld syn
      ∧ (∀ x, LEX_GET_FIELD x = some fld →
          parse_operand r54 pdesc pinsn p x = parse_operand r54' pdesc pinsn p x)
      ∧ (∀ (f : field_t) (k : keyword_t), f.hw_res = HW_GPR → f.bitsize + f.shift = 4 →
          keyword_value r54 f k = r54 k.value)
      ∧ (∀ f ∈ operand_fields, f.bitsize + f.shift = 4 →
          f = ⟨"rt4".toList, 5, 4, 0, HW_GPR, none⟩ ∨ f = field_i3u1)
      ∧ (∀ (rest endp : List Char) (c : Int), modifier_at rest = 0 → peek rest ≠ '#' →
          pdesc.parse_operand rest = ⟨.NASM_R_CONST, endp, c⟩ → -2 ^ 63 ≤ c → c < 2 ^ 63 →
          parse_operand_fld r54 pdesc pinsn rest field_i3u1 syn
            = some (if c % 2 = 0 ∧ 0 ≤ c ∧ c < 16 then
                ⟨true, pdesc,
                  { pinsn with insn := (pinsn.insn ||| (c / 2 % 8).toNat) % 2 ^ 32 }, endp⟩
              else ⟨false, { pdesc with result := .NASM_ERR_OUT_OF_RANGE }, pinsn, rest⟩)) := by
  have hn : ¬ (fld.parse = none ∧ fld.hw_res = HW_GPR ∧ fld.bitsize + fld.shift = 4) := by
    rintro ⟨h1, h2, h3⟩
    rcases h with h | h | h
    · exact h h1
    · exact h h2
    · exact h h3
  have hfld : parse_operand_fld r54 pdesc pinsn p fld syn
      = parse_operand_fld r54' pdesc pinsn p fld syn := by
    unfold parse_operand_fld
    rw [value_without_map r54 r54' pdesc pinsn p fld syn hn]
  refine ⟨hfld, ?_, fun f k hg h4 => keyword_value_mapped r54 f k hg h4, by decide, ?_⟩
  · intro x hx
    have hn2 : ¬ (fld.parse = none ∧ fld.hw_res = HW_GPR ∧ fld.bitsize + fld.shift = 4) := hn
    unfold parse_operand
    rw [hx]
    dsimp only
    unfold parse_operand_fld
    rw [value_without_map r54 r54' pdesc pinsn p fld x hn2]
  · intro rest endp c hmod hsharp hres hc0 hc1
    have hp := plain_int_operand r54 pdesc pinsn field_i3u1 syn false rest endp c rfl
      (Or.inr rfl) hmod (fun _ => hsharp) hres
    simp only [Bool.false_eq_true, if_false, List.nil_append] at hp
    rw [hp, wrap64_id c hc0 hc1, done_unsigned _ _ _ _ _ _ (by decide)]
    rfl

/-- C31, amended, on the field `i3u1` and the constant 4, with a map that sends
every number to 5 and with the identity map. -/
theorem remap_only_for_general_registers_witness :
    parse_operand_fld (fun _ => 5) (pdesc_with 0 (resolve_const 4)) pinsn_zero "4".toList
        field_i3u1 0x114c
      = parse_operand_fld (fun n => (n : Int)) (pdesc_with 0 (resolve_const 4)) pinsn_zero
        "4".toList field_i3u1 0x114c :=
  (remap_only_for_general_registers (fun _ => 5) (fun n => (n : Int))
    (pdesc_with 0 (resolve_const 4)) pinsn_zero "4".toList field_i3u1 0x114c
    (Or.inr (Or.inl (by decide)))).1

/-! ## Input and output elements -/

/-- C32: for every field of the general-register class, every operand text and
every prior state, `parse_operand` returns the same (flag, description,
instruction with its word and def/use mask, cursor) whether the element is tagged
input only, output only, or both: `DEF_REG (r)` and `USE_REG (r)` are the same bit
`2 ^ r`, OR-ed into the one mask `pinsn->defuse`. -/
theorem def_and_use_share_a_bit (r54 : Nat → Int) (pdesc : nds32_asm_desc)
    (pinsn : nds32_asm_insn) (p : List Char) (fld : field_t) (x1 x2 : Nat)
    (hgpr : fld.hw_res = HW_GPR)
    (h1 : x1 &&& SYN_INPUT ≠ 0 ∨ x1 &&& SYN_OUTPUT ≠ 0)
    (h2 : x2 &&& SYN_INPUT ≠ 0 ∨ x2 &&& SYN_OUTPUT ≠ 0) :
    parse_operand_fld r54 pdesc pinsn p fld x1 = parse_operand_fld r54 pdesc pinsn p fld x2
      ∧ (LEX_GET_FIELD x1 = some fld → LEX_GET_FIELD x2 = some fld →
          parse_operand r54 pdesc pinsn p x1 = parse_operand r54 pdesc pinsn p x2)
      ∧ (∀ r, DEF_REG r = 2 ^ r ∧ USE_REG r = 2 ^ r)
      ∧ (∀ k, record_defuse pinsn fld x1 k
          = { pinsn with defuse := pinsn.defuse ||| 2 ^ k.value }) := by
  have hfld : parse_operand_fld r54 pdesc pinsn p fld x1
      = parse_operand_fld r54 pdesc pinsn p fld x2 := by
    unfold parse_operand_fld
    rw [value_without_direction r54 pdesc pinsn p fld x1 x2 hgpr h1 h2]
  refine ⟨hfld, ?_, fun r => ⟨bit_eq_pow r, bit_eq_pow r⟩,
    fun k => record_defuse_tagged pinsn fld x1 k hgpr h1⟩
  intro hx1 hx2
  unfold parse_operand
  rw [hx1, hx2]
  exact hfld

/-- C32 on the field `rt` and the text `r3`: the input element, the output element
and the input-output element of the field give the same result. -/
theorem def_and_use_share_a_bit_witness :
    parse_operand (fun n => (n : Int)) (pdesc_with 0 (resolve_const 0)) pinsn_zero "r3".toList
        0x1100
      = parse_operand (fun n => (n : Int)) (pdesc_with 0 (resolve_const 0)) pinsn_zero
        "r3".toList 0x2100
    ∧ parse_operand (fun n => (n : Int)) (pdesc_with 0 (resolve_const 0)) pinsn_zero "r3".toList
        0x1100
      = parse_operand (fun n => (n : Int)) (pdesc_with 0 (resolve_const 0)) pinsn_zero
        "r3".toList 0x3100 :=
  ⟨(def_and_use_share_a_bit (fun n => (n : Int)) (pdesc_with 0 (resolve_const 0)) pinsn_zero
      "r3".toList ⟨"rt".toList, 20, 5, 0, HW_GPR, none⟩ 0x1100 0x2100 rfl
      (Or.inl (by decide)) (Or.inr (by decide))).2.1 rfl rfl,
   (def_and_use_share_a_bit (fun n => (n : Int)) (pdesc_with 0 (resolve_const 0)) pinsn_zero
      "r3".toList ⟨"rt".toList, 20, 5, 0, HW_GPR, none⟩ 0x1100 0x3100 rfl
      (Or.inl (by decide)) (Or.inl (by decide))).2.1 rfl rfl⟩

/-! ## Fields with a hook -/

/-- What `parse_operand` returns on the field `re2`, by the keyword under the
cursor. -/
theorem re2_operand (r54 : Nat → Int) (pdesc : nds32_asm_desc) (pinsn : nds32_asm_insn)
    (p : List Char) (syn : Nat) (hword : pinsn.insn < 2 ^ 32) :
    parse_operand_fld r54 pdesc pinsn p field_re2 syn
      = (match keyword_find keyword_gpr (lookup_name p) with
        | none => some ⟨false, { pdesc with result := .NASM_ERR_OUT_OF_RANGE }, pinsn, p⟩
        | some k =>
          if k.value = 6 then
            some ⟨true, pdesc, { pinsn with insn := pinsn.insn ||| 0 <<< 5 }, after_keyword p⟩
          else if k.value = 8 then
            some ⟨true, pdesc, { pinsn with insn := pinsn.insn ||| 1 <<< 5 }, after_keyword p⟩
          else if k.value = 10 then
            some ⟨true, pdesc, { pinsn with insn := pinsn.insn ||| 2 <<< 5 }, after_keyword p⟩
          else if k.value = 14 then
            some ⟨true, pdesc, { pinsn with insn := pinsn.insn ||| 3 <<< 5 }, after_keyword p⟩
          else some ⟨false, { pdesc with result := .NASM_ERR_OUT_OF_RANGE }, pinsn, p⟩) := by
  unfold parse_operand_fld
  rw [re2_stage]
  cases keyword_find keyword_gpr (lookup_name p) with
  | none =>
    dsimp only
    rw [re2_done_fail]
  | some k =>
    dsimp only
    by_cases h6 : k.value = 6
    · rw [if_pos h6, if_pos h6]
      exact congrArg some (re2_done pdesc pinsn p _ 0 (by decide) hword)
    · rw [if_neg h6, if_neg h6]
      by_cases h8 : k.value = 8
      · rw [if_pos h8, if_pos h8]
        exact congrArg some (re2_done pdesc pinsn p _ 1 (by decide) hword)
      · rw [if_neg h8, if_neg h8]
        by_cases h10 : k.value = 10
        · rw [if_pos h10, if_pos h10]
          exact congrArg some (re2_done pdesc pinsn p _ 2 (by decide) hword)
        · rw [if_neg h10, if_neg h10]
          by_cases h14 : k.value = 14
          · rw [if_pos h14, if_pos h14]
            exact congrArg some (re2_done pdesc pinsn p _ 3 (by decide) hword)
          · rw [if_neg h14, if_neg h14]
            dsimp only
            rw [re2_done_fail]

/-- The hook `parse_re2` on a keyword that is not one of its four registers: it
returns `NASM_ERR_OPERAND` and writes neither the cursor nor the value slot, and
`parse_operand` then fails on the range check of the initial value. -/
theorem re2_rejected (r54 : Nat → Int) (pdesc : nds32_asm_desc) (pinsn : nds32_asm_insn)
    (p : List Char) (syn : Nat)
    (hrej : ∀ k, keyword_find keyword_gpr (lookup_name p) = some k →
      k.value ≠ 6 ∧ k.value ≠ 8 ∧ k.value ≠ 10 ∧ k.value ≠ 14) :
    (∀ v, parse_re2 p v = ⟨.NASM_ERR_OPERAND, p, v⟩)
      ∧ parse_operand_value r54 pdesc pinsn p field_re2 syn = .parsed pinsn p 0x100000000
      ∧ parse_operand_fld r54 pdesc pinsn p field_re2 syn
        = some ⟨false, { pdesc with result := .NASM_ERR_OUT_OF_RANGE }, pinsn, p⟩ := by
  have hst : parse_operand_value r54 pdesc pinsn p field_re2 syn
      = .parsed pinsn p 0x100000000 := by
    rw [re2_stage]
    cases hk : keyword_find keyword_gpr (lookup_name p) with
    | none => rfl
    | some k =>
      obtain ⟨h6, h8, h10, h14⟩ := hrej k hk
      dsimp only
      rw [if_neg h6, if_neg h8, if_neg h10, if_neg h14]
  refine ⟨?_, hst, ?_⟩
  · intro v
    rw [parse_re2_eq]
    cases hk : keyword_find keyword_gpr (lookup_name p) with
    | none => rfl
    | some k =>
      obtain ⟨h6, h8, h10, h14⟩ := hrej k hk
      dsimp only
      rw [if_neg h6, if_neg h8, if_neg h10, if_neg h14]
  · unfold parse_operand_fld
    rw [hst]
    dsimp only
    rw [re2_done_fail]

/-- The second half of `parse_operand` writes the instruction word only. -/
theorem done_keeps_rest (pdesc : nds32_asm_desc) (pinsn : nds32_asm_insn) (p endp : List Char)
    (fld : field_t) (v : Int) :
    (parse_operand_done pdesc pinsn p endp fld v).pinsn.defuse = pinsn.defuse
      ∧ (parse_operand_done pdesc pinsn p endp fld v).pinsn.attr = pinsn.attr
      ∧ (parse_operand_done pdesc pinsn p endp fld v).pinsn.field = pinsn.field
      ∧ (parse_operand_done pdesc pinsn p endp fld v).pinsn.opcode = pinsn.opcode := by
  unfold parse_operand_done
  dsimp only
  split_ifs <;> exact ⟨rfl, rfl, rfl, rfl⟩

/-- On a field with a hook `parse_operand` returns, and leaves the def/use mask, the
attribute set and the pending field of the instruction as they were. -/
theorem hook_keeps_rest (r54 : Nat → Int) (pdesc : nds32_asm_desc) (pinsn : nds32_asm_insn)
    (p : List Char) (fld : field_t) (syn : Nat) (h : parse_hook) (hp : fld.parse = some h) :
    ∃ res, parse_operand_fld r54 pdesc pinsn p fld syn = some res
      ∧ res.pinsn.defuse = pinsn.defuse ∧ res.pinsn.attr = pinsn.attr
      ∧ res.pinsn.field = pinsn.field ∧ res.pinsn.opcode = pinsn.opcode := by
  unfold parse_operand_fld parse_operand_value
  rw [hp]
  exact ⟨_, rfl, done_keeps_rest _ _ _ _ _ _⟩

/-- The hooks `parse_fe5` and `parse_pi5` on an answer of the resolver that is not
a constant: the value goes to the label `done` as the resolver left it. -/
theorem hook_not_const (r54 : Nat → Int) (pdesc : nds32_asm_desc) (pinsn : nds32_asm_insn)
    (p : List Char) (fld : field_t) (syn : Nat) (hfld : fld = field_fe5 ∨ fld = field_pi5)
    (hr : (pdesc.parse_operand p).r ≠ .NASM_R_CONST) :
    parse_operand_fld r54 pdesc pinsn p fld syn
      = some (parse_operand_done pdesc pinsn p (pdesc.parse_operand p).pstr fld
          (wrap64 (pdesc.parse_operand p).value)) := by
  rcases hfld with rfl | rfl
  · unfold parse_operand_fld parse_operand_value
    show some (parse_operand_done pdesc pinsn p (parse_fe5 pdesc p).pstr field_fe5
      (parse_fe5 pdesc p).value) = _
    unfold parse_fe5
    dsimp only
    rw [if_pos hr]
  · unfold parse_operand_fld parse_operand_value
    show some (parse_operand_done pdesc pinsn p (parse_pi5 pdesc p).pstr field_pi5
      (parse_pi5 pdesc p).value) = _
    unfold parse_pi5
    dsimp only
    rw [if_pos hr]

/-! ## The hook of push25/pop25 and the reduced register set -/

/-- C33: the hook of the field `re2` stands in for the generic register handling.
With the reduced-register flag set, `parse_operand` on `re2` accepts `r14` (with or
without `$`) and packs its code 3 at bit 5, although the entry `r14` of
`keyword_gpr` lacks the attribute `RDREG`, for which every hook-less
general-register field refuses the same text with `NASM_ERR_REG_REDUCED`; and a
successful operand on `re2` (its keyword is then a name of the table and fits the
buffer `odstr`) leaves `pinsn->defuse` as it was.  The line `push25 $r14,8` is
encoded with `NASM_OK` in reduced-register mode, the def/use mask being the static
mask of the entry. -/
theorem re2_bypasses_register_checks (r54 : Nat → Int) (pdesc : nds32_asm_desc)
    (pinsn : nds32_asm_insn) (syn : Nat) (dollar : Bool) (rest : List Char)
    (hrest : keyword_ends rest = true) (hword : pinsn.insn < 2 ^ 32)
    (hred : pdesc.flags &&& NASM_OPEN_REDUCED_REG ≠ 0) :
    (keyword_find keyword_gpr "r14".toList = some ⟨"r14".toList, 14, 0⟩
        ∧ (0 : Nat) &&& NASM_ATTR_RDREG = 0)
      ∧ parse_operand_fld r54 pdesc pinsn
          ((if dollar then ['$'] else []) ++ ("r14".toList ++ rest)) field_re2 syn
        = some ⟨true, pdesc, { pinsn with insn := pinsn.insn ||| 3 <<< 5 }, rest⟩
      ∧ (∀ fld : field_t, fld.parse = none → fld.hw_res = HW_GPR →
          parse_operand_fld r54 pdesc pinsn
              ((if dollar then ['$'] else []) ++ ("r14".toList ++ rest)) fld syn
            = some ⟨false, { pdesc with result := .NASM_ERR_REG_REDUCED }, pinsn,
                (if dollar then ['$'] else []) ++ ("r14".toList ++ rest)⟩)
      ∧ (∀ p res, parse_operand_fld r54 pdesc pinsn p field_re2 syn = some res →
          res.ret = true → odstr_fits p = true ∧ res.pinsn.defuse = pinsn.defuse)
      ∧ (assemble_line (fun n => (n : Int)) (resolve_const 8) NASM_OPEN_REDUCED_REG
            [opcode_push25 0] "push25 $r14,8").map (fun r => (r.1, r.2.insn, r.2.defuse))
          = some (.NASM_OK, 0xfc00 ||| 3 <<< 5 ||| 1, USE_REG 31 ||| DEF_REG 31) := by
  have hk : keyword_find keyword_gpr "r14".toList = some ⟨"r14".toList, 14, 0⟩ := by decide
  obtain ⟨hname, hafter⟩ := lookup_name_token dollar "r14".toList rest (by decide) (by decide)
    hrest
  have hlow : "r14".toList.map Char.toLower = "r14".toList := by decide
  rw [hlow] at hname
  refine ⟨⟨hk, by decide⟩, ?_, ?_, ?_, by decide⟩
  · rw [re2_operand r54 pdesc pinsn _ syn hword, hname, hk, hafter]
    rfl
  · intro fld hhook hgpr
    have hhw : fld.hw_res < _HW_LAST := by rw [hgpr]; decide
    have hkt : hw_ktabs fld.hw_res = keyword_gpr := by rw [hgpr]; rfl
    unfold parse_operand_fld
    rw [keyword_stage_any r54 pdesc pinsn fld syn _ hhook hhw, hkt, hname, hk]
    dsimp only
    have hc : fld.hw_res = HW_GPR ∧ pdesc.flags &&& NASM_OPEN_REDUCED_REG ≠ 0
        ∧ (0 : Nat) &&& NASM_ATTR_RDREG = 0 := ⟨hgpr, hred, by decide⟩
    rw [if_pos hc]
  · intro p res h hret
    obtain ⟨res1, h1, hd, _⟩ := hook_keeps_rest r54 pdesc pinsn p field_re2 syn .parse_re2 rfl
    rw [h] at h1
    have hres : res = res1 := Option.some.inj h1
    refine ⟨?_, by rw [hres]; exact hd⟩
    have ho := re2_operand r54 pdesc pinsn p syn hword
    rw [h] at ho
    cases hkey : keyword_find keyword_gpr (lookup_name p) with
    | none =>
      rw [hkey] at ho
      have hr := Option.some.inj ho
      rw [hr] at hret
      cases hret
    | some k =>
      obtain ⟨hmem, hnm⟩ := keyword_find_some keyword_gpr (lookup_name p) k hkey
      have hall := table_names_fit 0 (by decide)
      rw [List.all_eq_true] at hall
      have hlen := of_decide_eq_true (hall k hmem)
      rw [hnm] at hlen
      exact (odstr_fits_iff p).2 hlen

/-- C33 at the text `$r14` in reduced-register mode. -/
theorem re2_bypasses_register_checks_witness :
    parse_operand_fld (fun n => (n : Int)) (pdesc_with NASM_OPEN_REDUCED_REG (resolve_const 0))
        pinsn_zero "$r14".toList field_re2 0x112b
      = some ⟨true, pdesc_with NASM_OPEN_REDUCED_REG (resolve_const 0),
          { pinsn_zero with insn := 3 <<< 5 }, []⟩ :=
  (re2_bypasses_register_checks (fun n => (n : Int))
    (pdesc_with NASM_OPEN_REDUCED_REG (resolve_const 0)) pinsn_zero 0x112b true [] rfl
    (by decide) (by decide)).2.1

/-! ## The return code of a hook -/

/-- C34: `parse_operand` does not test the code a hook returns.  At a cursor whose
keyword fits the buffer `odstr` of the hook (a run shorter than `MAX_KEYWORD_LEN`; a
longer run is written past the end of the buffer), when the keyword is not a
register 6, 8, 10 or 14 (an unknown name included), `parse_re2` returns
`NASM_ERR_OPERAND` and writes neither the cursor nor the value slot;
`parse_operand` goes to the label `done` with the initial value `0x100000000`,
which fails the range check, so the call returns 0 with `NASM_ERR_OUT_OF_RANGE`.
Likewise when the resolver answers `NASM_R_SYMBOL` under the hooks of `fe5` and
`pi5`, which call nothing but the resolver, the value it left is checked and packed
like a constant, and no call on these fields changes `pinsn->field`; a hook-less
integer field stores itself in `pinsn->field` on the same answer. -/
theorem hook_return_code_is_ignored (r54 : Nat → Int) (pdesc : nds32_asm_desc)
    (pinsn : nds32_asm_insn) (p : List Char) (syn : Nat)
    (hfit : odstr_fits p = true)
    (hrej : ∀ k, keyword_find keyword_gpr (lookup_name p) = some k →
      k.value ≠ 6 ∧ k.value ≠ 8 ∧ k.value ≠ 10 ∧ k.value ≠ 14) :
    (field_re2 ∈ operand_fields ∧ field_fe5 ∈ operand_fields ∧ field_pi5 ∈ operand_fields)
      ∧ ((parse_to_delimiter (if peek p = '$' then p.drop 1 else p)).2 = lookup_name p
        ∧ (lookup_name p).length + 1 ≤ MAX_KEYWORD_LEN)
      ∧ (∀ v, parse_re2 p v = ⟨.NASM_ERR_OPERAND, p, v⟩)
      ∧ parse_operand_value r54 pdesc pinsn p field_re2 syn = .parsed pinsn p 0x100000000
      ∧ parse_operand_fld r54 pdesc pinsn p field_re2 syn
        = some ⟨false, { pdesc with result := .NASM_ERR_OUT_OF_RANGE }, pinsn, p⟩
      ∧ (∀ fld, fld = field_fe5 ∨ fld = field_pi5 → ∀ q,
          (pdesc.parse_operand q).r = .NASM_R_SYMBOL →
          parse_operand_fld r54 pdesc pinsn q fld syn
            = some (parse_operand_done pdesc pinsn q (pdesc.parse_operand q).pstr fld
                (wrap64 (pdesc.parse_operand q).value)))
      ∧ (∀ fld, fld = field_fe5 ∨ fld = field_pi5 → ∀ q,
          ∃ res, parse_operand_fld r54 pdesc pinsn q fld syn = some res
            ∧ res.pinsn.field = pinsn.field)
      ∧ (∀ fld : field_t, fld.parse = none → fld.hw_res = HW_INT ∨ fld.hw_res = HW_UINT →
          ∀ q, (pdesc.parse_operand (expression_text q)).r = .NASM_R_SYMBOL →
          ∃ pinsn1 endp v, parse_operand_value r54 pdesc pinsn q fld syn
              = .parsed pinsn1 endp v ∧ pinsn1.field = some fld) := by
  obtain ⟨h1, h2, h3⟩ := re2_rejected r54 pdesc pinsn p syn hrej
  refine ⟨by decide, odstr_content p hfit, h1, h2, h3, ?_, ?_, ?_⟩
  · intro fld hfld q hq
    exact hook_not_const r54 pdesc pinsn q fld syn hfld (by rw [hq]; decide)
  · intro fld hfld q
    have hp : ∃ h, fld.parse = some h := by
      rcases hfld with rfl | rfl
      · exact ⟨_, rfl⟩
      · exact ⟨_, rfl⟩
    obtain ⟨h, hp⟩ := hp
    obtain ⟨res, hres, _, _, hf, _⟩ := hook_keeps_rest r54 pdesc pinsn q fld syn h hp
    exact ⟨res, hres, hf⟩
  · intro fld hhook hcls q hq
    rw [int_stage r54 pdesc pinsn q fld syn hhook hcls, hq]
    exact ⟨_, _, _, rfl, rfl⟩

/-- C34 at the text `r5`, a register that is not one of the four of `re2`. -/
theorem hook_return_code_is_ignored_witness :
    parse_operand_fld (fun n => (n : Int)) (pdesc_with 0 (resolve_const 0)) pinsn_zero
        "r5".toList field_re2 0x112b
      = some ⟨false, { pdesc_with 0 (resolve_const 0) with result := .NASM_ERR_OUT_OF_RANGE },
          pinsn_zero, "r5".toList⟩ := by
  have hk : keyword_find keyword_gpr (lookup_name "r5".toList)
      = some ⟨"r5".toList, 5, NASM_ATTR_RDREG⟩ := by decide
  exact (hook_return_code_is_ignored (fun n => (n : Int)) (pdesc_with 0 (resolve_const 0))
    pinsn_zero "r5".toList 0x112b (by decide) (fun k h => by
      rw [hk] at h
      injection h with h
      subst h
      decide)).2.2.2.2.1

/-! ## The prefetch entries -/

/-- The operands `srd,[$r1` of a prefetch entry: the walk over the first four
elements of the compiled pattern goes through and stands before the optional group,
with the description untouched. -/
theorem walk_prefetch_head (r54 : Nat → Int) (variant opt : Nat) (l : List Nat)
    (pdesc : nds32_asm_desc) (pinsn : nds32_asm_insn) (q : List Char)
    (hq : keyword_ends q = true) :
    ∃ pi1, parse_insn_walk r54 variant (0x1121 :: 44 :: 91 :: 0x1101 :: l) false opt pdesc pinsn
        ('s' :: 'r' :: 'd' :: ',' :: '[' :: '$' :: 'r' :: '1' :: q)
      = parse_insn_walk r54 variant l false opt pdesc pi1 q := by
  have hv1 : keyword_value r54 ⟨"dpref_st".toList, 20, 5, 0, HW_DPREF_ST, none⟩
      ⟨"srd".toList, 0, 0⟩ = 0 := by
    unfold keyword_value
    rw [if_neg (fun hc => absurd hc.1 (by decide))]
    rfl
  have h1 : parse_operand_fld r54 pdesc pinsn
      ('s' :: 'r' :: 'd' :: ',' :: '[' :: '$' :: 'r' :: '1' :: q)
      ⟨"dpref_st".toList, 20, 5, 0, HW_DPREF_ST, none⟩ 0x1121 = _ :=
    keyword_operand_ok r54 pdesc pinsn ⟨"dpref_st".toList, 20, 5, 0, HW_DPREF_ST, none⟩ 0x1121
      false "srd".toList (',' :: '[' :: '$' :: 'r' :: '1' :: q) ⟨"srd".toList, 0, 0⟩ rfl
      (by decide) (by decide) (by decide) rfl (by decide)
      (fun hc => absurd hc.1 (by decide)) (by rw [hv1]; rfl) (by rw [hv1]) (by rw [hv1]; decide)
  have hv2 : keyword_value r54 ⟨"ra".toList, 15, 5, 0, HW_GPR, none⟩
      ⟨"r1".toList, 1, NASM_ATTR_RDREG⟩ = 1 := by
    unfold keyword_value
    rw [if_neg (fun hc => absurd hc.2 (by decide))]
    rfl
  have h2 : ∀ pi : nds32_asm_insn, parse_operand_fld r54 pdesc pi ('$' :: 'r' :: '1' :: q)
      ⟨"ra".toList, 15, 5, 0, HW_GPR, none⟩ 0x1101 = _ := fun pi =>
    keyword_operand_ok r54 pdesc pi ⟨"ra".toList, 15, 5, 0, HW_GPR, none⟩ 0x1101
      true "r1".toList q ⟨"r1".toList, 1, NASM_ATTR_RDREG⟩ rfl
      (by decide) (by decide) (by decide) hq (by decide)
      (fun hc => absurd hc.2.2 (by decide)) (by rw [hv2]; rfl) (by rw [hv2]; decide)
      (by rw [hv2]; decide)
  apply Exists.intro
  rw [walk_field _ _ 0x1121 _ _ _ _ _ (by decide) (by decide) (by decide) (by decide),
    parse_operand_eq r54 pdesc pinsn _ 0x1121 ⟨"dpref_st".toList, 20, 5, 0, HW_DPREF_ST, none⟩
      (by decide), h1]
  dsimp only
  rw [if_pos rfl, walk_char_eq _ _ 44 _ _ _ _ ',' _ (by decide) (by decide) (by decide),
    walk_char_eq _ _ 91 _ _ _ _ '[' _ (by decide) (by decide) (by decide),
    walk_field _ _ 0x1101 _ _ _ _ _ (by decide) (by decide) (by decide) (by decide),
    parse_operand_eq r54 pdesc _ _ 0x1101 ⟨"ra".toList, 15, 5, 0, HW_GPR, none⟩ (by decide),
    h2]
  dsimp only
  rw [if_pos rfl]

/-- The variant loop of an entry with one optional group: combination 0, then
combination 1 from the state combination 0 left. -/
theorem loop_two (r54 : Nat → Int) (pdesc : nds32_asm_desc) (pinsn : nds32_asm_insn)
    (s : List Char) (opc : nds32_opcode) (hvar : opc.variant = 1) :
    parse_insn r54 pdesc pinsn s opc
      = match parse_insn_variant r54 pdesc pinsn s opc 0 with
        | none => none
        | some (true, pd, pi) => some (true, pd, pi)
        | some (false, pd, pi) => parse_insn_variant r54 pd pi s opc 1 := by
  have h2 : (1 <<< opc.variant : Nat) = 1 + 1 := by rw [hvar]; rfl
  unfold parse_insn
  rw [h2, parse_insn_loop]
  cases parse_insn_variant r54 pdesc pinsn s opc 0 with
  | none => rfl
  | some o =>
    obtain ⟨b, pd, pi⟩ := o
    cases b with
    | true => rfl
    | false =>
      dsimp only
      have hlt : 0 + 1 < 1 <<< opc.variant := by rw [h2]; decide
      rw [if_pos hlt]
      show parse_insn_loop r54 s opc (0 + 1) (0 + 1) pd pi = _
      rw [parse_insn_loop]
      cases parse_insn_variant r54 pd pi s opc (0 + 1) with
      | none => rfl
      | some o2 =>
        obtain ⟨b2, pd2, pi2⟩ := o2
        cases b2 with
        | true => rfl
        | false =>
          dsimp only
          have hge : ¬ (0 + 1 + 1 < 1 <<< opc.variant) := by rw [h2]; decide
          rw [if_neg hge]

/-- Combination 1 of a prefetch entry on `srd,[$r1` followed by `q`: the optional
group is left out, and the combination is accepted when `q` ends the
instruction. -/
theorem prefetch_variant_1 (r54 : Nat → Int) (pdesc : nds32_asm_desc) (pinsn : nds32_asm_insn)
    (opc : nds32_opcode) (x : Nat) (q : List Char)
    (hlex : opc.lexes = some (lex_dprefi x)) (hx : plain_lex x = true)
    (hq : keyword_ends q = true) :
    ∃ pi1, parse_insn_variant r54 pdesc pinsn
        ('s' :: 'r' :: 'd' :: ',' :: '[' :: '$' :: 'r' :: '1' :: q) opc 1
      = some (at_insn_end q, pdesc, pi1) := by
  obtain ⟨pi1, h⟩ := walk_prefetch_head r54 1 0 [SYN_LOPT, 43, x, 93, SYN_ROPT, 0] pdesc
    { pinsn with insn := opc.value } q hq
  have hg : [43, x, 93].all plain_lex = true := by
    simp only [List.all_cons, List.all_nil, hx, Bool.and_true, Bool.true_and]
    decide
  have hl := walk_lopt r54 1 0 [43, x, 93] [0] hg pdesc pi1 q
  refine ⟨pi1, ?_⟩
  unfold parse_insn_variant
  rw [hlex]
  dsimp only
  have h' : parse_insn_walk r54 1 (lex_dprefi x) false 0 pdesc { pinsn with insn := opc.value }
      ('s' :: 'r' :: 'd' :: ',' :: '[' :: '$' :: 'r' :: '1' :: q)
      = some ⟨true, pdesc, pi1, q⟩ := by
    refine h.trans (hl.trans ?_)
    rw [if_pos (by decide), walk_end]
  rw [h']
  rfl

/-- Combination 0 of a prefetch entry on `srd,[$r1` followed by a text that does
not start with `+`: the literal `+` of the optional group is not matched. -/
theorem prefetch_variant_0_bare (r54 : Nat → Int) (pdesc : nds32_asm_desc)
    (pinsn : nds32_asm_insn) (opc : nds32_opcode) (x : Nat) (q : List Char)
    (hlex : opc.lexes = some (lex_dprefi x)) (hx : plain_lex x = true)
    (hq : keyword_ends q = true) (hplus : peek q ≠ '+') :
    ∃ pi1, parse_insn_variant r54 pdesc pinsn
        ('s' :: 'r' :: 'd' :: ',' :: '[' :: '$' :: 'r' :: '1' :: q) opc 0
      = some (false, { pdesc with result := .NASM_ERR_SYNTAX }, pi1) := by
  obtain ⟨pi1, h⟩ := walk_prefetch_head r54 0 0 [SYN_LOPT, 43, x, 93, SYN_ROPT, 0] pdesc
    { pinsn with insn := opc.value } q hq
  have hg : [43, x, 93].all plain_lex = true := by
    simp only [List.all_cons, List.all_nil, hx, Bool.and_true, Bool.true_and]
    decide
  have hl := walk_lopt r54 0 0 [43, x, 93] [0] hg pdesc pi1 q
  refine ⟨pi1, ?_⟩
  unfold parse_insn_variant
  rw [hlex]
  dsimp only
  have h' : parse_insn_walk r54 0 (lex_dprefi x) false 0 pdesc { pinsn with insn := opc.value }
      ('s' :: 'r' :: 'd' :: ',' :: '[' :: '$' :: 'r' :: '1' :: q)
      = some ⟨false, { pdesc with result := .NASM_ERR_SYNTAX }, pi1, q⟩ := by
    refine h.trans (hl.trans ?_)
    rw [if_neg (by decide)]
    exact walk_char_ne r54 0 43 _ _ pdesc pi1 q (by decide) (by decide)
      (fun hc => hplus (by
        have h43 : (peek q).toNat = 43 := hc.symm
        rw [← Char.ofNat_toNat (peek q), h43]))
  rw [h']
  rfl

/-- A prefetch entry on `srd,[$r1` followed by a text `q` that does not start with
`+`: the matcher accepts exactly when `q` ends the instruction. -/
theorem prefetch_bare (r54 : Nat → Int) (pdesc : nds32_asm_desc) (pinsn : nds32_asm_insn)
    (opc : nds32_opcode) (x : Nat) (q : List Char)
    (hlex : opc.lexes = some (lex_dprefi x)) (hvar : opc.variant = 1)
    (hx : plain_lex x = true) (hq : keyword_ends q = true) (hplus : peek q ≠ '+') :
    (parse_insn r54 pdesc pinsn
        ('s' :: 'r' :: 'd' :: ',' :: '[' :: '$' :: 'r' :: '1' :: q) opc).map (fun o => o.1)
      = some (at_insn_end q) := by
  obtain ⟨pi0, h0⟩ := prefetch_variant_0_bare r54 pdesc pinsn opc x q hlex hx hq hplus
  obtain ⟨pi1, h1⟩ := prefetch_variant_1 r54 { pdesc with result := .NASM_ERR_SYNTAX } pi0 opc x
    q hlex hx hq
  rw [loop_two r54 pdesc pinsn _ opc hvar, h0]
  dsimp only
  rw [h1]
  rfl

/-- The encode call on a table of one compiled entry without overloads, once the
mnemonic is found: `NASM_OK` and the entry when the matcher accepts the operand
text, `NASM_ERR_SYNTAX` and a null opcode when it does not. -/
theorem found_single (r54 : Nat → Int) (e : nds32_opcode) (pdesc : nds32_asm_desc)
    (pinsn : nds32_asm_insn) (s : List Char) (l : List Nat)
    (hlex : e.lexes = some l) (hnext : e.next = none) :
    (nds32_assemble_found r54 [e] pdesc pinsn s 0).map
        (fun r => (r.pdesc.result, r.pinsn.opcode))
      = (parse_insn r54 pdesc
          { pinsn with defuse := e.defuse, insn := 0, field := none, attr := e.attr } s e).map
        (fun o => if o.1 = true then (nasm_code.NASM_OK, some 0)
          else (nasm_code.NASM_ERR_SYNTAX, none)) := by
  have hb : ( build_opcode_syntax e) = some e := by
    unfold build_opcode_syntax
    rw [hlex]
  unfold nds32_assemble_found
  simp only [List.length_cons, List.length_nil, nds32_assemble_chain, List.getElem?_cons_zero,
    hb]
  cases parse_insn r54 pdesc
      { pinsn with defuse := e.defuse, insn := 0, field := none, attr := e.attr } s e with
  | none => rfl
  | some o =>
    obtain ⟨b, pd, pi⟩ := o
    cases b with
    | true => rfl
    | false =>
      dsimp only
      rw [hnext]
      rfl

/-! ## A failed variant leaves no trace -/

/-- C24: on an entry whose compiled pattern has no optional group, or one optional
group of the kind `one_group` (every pattern of `nds32_opcodes` is of one of the
two kinds), when the variants below `w` are abandoned and variant `w` is accepted,
`parse_insn` returns success with the very instruction (word, def/use mask,
attribute set, pending field) that variant `w` alone produces on the instruction
the call started with.  The only abandoned variant that a later one can follow keeps
the group and stops at the literal that opens it, after the operands before the
group, which the accepted variant reads again. -/
theorem failed_variant_leaves_no_trace (r54 : Nat → Int) (pdesc : nds32_asm_desc)
    (pinsn : nds32_asm_insn) (str : List Char) (opc : nds32_opcode) (lex : List Nat)
    (hlex : opc.lexes = some lex)
    (hkind : opc.variant = 0 ∨ (opc.variant = 1 ∧ one_group lex = true))
    (w : Nat) (pdf : nds32_asm_desc) (pif : nds32_asm_insn) (hw : w < 2 ^ opc.variant)
    (hacc : parse_insn_variant r54 pdesc pinsn str opc w = some (true, pdf, pif))
    (hrej : ∀ u, u < w →
      ∃ pd pi, parse_insn_variant r54 pdesc pinsn str opc u = some (false, pd, pi)) :
    (∃ pd, parse_insn r54 pdesc pinsn str opc = some (true, pd, pif))
      ∧ (∀ pat ∈ nds32_patterns, ∀ e c : nds32_opcode, e.lexes = none →
          e.instruction = pat.toList → build_opcode_syntax e = some c →
          ∃ l, c.lexes = some l ∧ (c.variant = 0 ∨ (c.variant = 1 ∧ one_group l = true))) := by
  have htab : ∀ pat ∈ nds32_patterns, ∀ e c : nds32_opcode, e.lexes = none →
      e.instruction = pat.toList → build_opcode_syntax e = some c →
      ∃ l, c.lexes = some l ∧ (c.variant = 0 ∨ (c.variant = 1 ∧ one_group l = true)) := by
    intro pat hpat e c hfresh hi hc
    have hall := table_group_kind
    rw [List.all_eq_true] at hall
    exact group_kind_entry pat.toList (hall pat hpat) e c hfresh hi hc
  refine ⟨?_, htab⟩
  have hK : 1 <<< opc.variant = 2 ^ opc.variant := by rw [Nat.shiftLeft_eq, Nat.one_mul]
  by_cases hw0 : w = 0
  · subst hw0
    obtain ⟨n, hn⟩ : ∃ n, 1 <<< opc.variant = n + 1 :=
      ⟨2 ^ opc.variant - 1, by rw [hK]; omega⟩
    refine ⟨pdf, ?_⟩
    unfold parse_insn
    rw [hn, parse_insn_loop, hacc]
  · rcases hkind with hv | ⟨hv, hshape⟩
    · rw [hv] at hw
      omega
    · have hw1 : w = 1 := by
        rw [hv] at hw
        omega
      subst hw1
      obtain ⟨pd0, pi0, h0⟩ := hrej 0 (by decide)
      obtain ⟨hpi0, hpd0⟩ := one_group_refused r54 pdesc pinsn str opc lex hlex hshape pdf pd0
        pif pi0 hacc h0
      obtain ⟨hle, hfl, hcb⟩ := variant_grows r54 pdesc pinsn str opc 1 true pdf pif hacc
      have hop := variant_opcode r54 pdesc pinsn str opc 1 true pdf pif hacc
      have hrel := variant_rel_of (both_see pdesc.flags pdesc.parse_operand)
        (fun a b => a.defuse = b.defuse ||| pif.defuse ∧ a.attr = b.attr ||| pif.attr
          ∧ (a.field = b.field ∨ a.field = pif.field) ∧ a.opcode = b.opcode)
        (both_see_tracks _ _) (plus_tracks pif) r54 pd0 pdesc pi0 pinsn str opc 1
        (by
          rw [hpd0]
          exact ⟨⟨hfl, hcb⟩, rfl, rfl⟩)
        (by
          rw [hpi0]
          exact ⟨by rw [hle.1], by rw [hle.2], Or.inr rfl, hop⟩)
      rw [loop_two r54 pdesc pinsn str opc hv, h0]
      dsimp only
      rw [hacc] at hrel
      cases h2 : parse_insn_variant r54 pd0 pi0 str opc 1 with
      | none =>
        rw [h2] at hrel
        cases hrel
      | some o =>
        rw [h2] at hrel
        obtain ⟨b2, pd2, pi2⟩ := o
        cases hrel with
        | some hab =>
          obtain ⟨hb, hi, hR, _⟩ := hab
          dsimp only at hb hi hR
          subst hb
          obtain ⟨hd, ha, hf, ho⟩ := hR
          rw [Nat.or_self] at hd ha
          have hf2 : pi2.field = pif.field := by
            rcases hf with h | h <;> exact h
          refine ⟨pd2, ?_⟩
          have hpi : pi2 = pif := by
            obtain ⟨o1, i1, a1, d1, f1⟩ := pi2
            obtain ⟨o2, i2, a2, d2, f2⟩ := pif
            simp only at hd ha hf2 ho hi
            subst hd ha hf2 ho hi
            rfl
          rw [hpi]

/-- C24 on the pattern `=rt,[%ra+%rb{<<%sv}]` of the table and the text
`r1,[r2+r3]`: the variant with the group is abandoned at `<`, the variant without it
is accepted, and the instruction returned is the one it produces alone. -/
theorem failed_variant_leaves_no_trace_witness :
    ∃ pd, parse_insn (fun n => (n : Int)) (pdesc_with 0 (resolve_const 0)) pinsn_zero
        "r1,[r2+r3]".toList (compiled (opcode_entry "lw" "=rt,[%ra+%rb\x7b<<%sv\x7d]" 0 4 0 0))
      = some (true, pd, ⟨none, 1 <<< 20 ||| 2 <<< 15 ||| 3 <<< 10, 0, 14, none⟩) :=
  (failed_variant_leaves_no_trace (fun n => (n : Int)) (pdesc_with 0 (resolve_const 0))
    pinsn_zero "r1,[r2+r3]".toList
    (compiled (opcode_entry "lw" "=rt,[%ra+%rb\x7b<<%sv\x7d]" 0 4 0 0))
    [8448, 44, 91, 4353, 43, 4354, 16384, 60, 60, 4365, 32768, 93, 0] rfl
    (Or.inr ⟨rfl, by decide⟩) 1 (pdesc_with 0 (resolve_const 0))
    ⟨none, 1 <<< 20 ||| 2 <<< 15 ||| 3 <<< 10, 0, 14, none⟩ (by decide) rfl
    (fun u hu => by
      have hu0 : u = 0 := by omega
      subst hu0
      exact ⟨_, _, rfl⟩)).1

/-! ## The closing bracket of the prefetch patterns -/

/-- C35: the pattern of `dprefi.w` compiles to a list whose closing bracket `]`
(element 93) stands before the end of the optional group, so the bracket belongs to
the group.  On a table holding the entry, whatever its base value, the line
`dprefi.w srd,[$r1]` ends with `NASM_ERR_SYNTAX` and a null opcode, and the line
`dprefi.w srd,[$r1`, without the bracket, ends with `NASM_OK` and the entry. -/
theorem prefetch_bracket_inside_group (r54 : Nat → Int) (pdesc0 : nds32_asm_desc)
    (pinsn : nds32_asm_insn) (flags B A : Nat) :
    ( build_opcode_syntax (opcode_dprefi_w B A))
        = some { opcode_dprefi_w B A with
            lexes := some [0x1121, 44, 91, 0x1101, SYN_LOPT, 43, 0x1140, 93, SYN_ROPT, 0],
            variant := 1 }
      ∧ ∃ pdesc tbl htab,
        nds32_asm_init pdesc0 flags [opcode_dprefi_w B A] = some (pdesc, tbl, htab)
          ∧ (nds32_assemble r54 tbl htab pdesc pinsn "dprefi.w srd,[$r1]".toList).map
              (fun r => (r.pdesc.result, r.pinsn.opcode))
            = some (.NASM_ERR_SYNTAX, none)
          ∧ (nds32_assemble r54 tbl htab pdesc pinsn "dprefi.w srd,[$r1".toList).map
              (fun r => (r.pdesc.result, r.pinsn.opcode))
            = some (.NASM_OK, some 0) := by
  refine ⟨rfl, { pdesc0 with flags := flags, mach := flags &&& NASM_OPEN_ARCH_MASK },
    [{ opcode_dprefi_w B A with lexes := some (lex_dprefi 0x1140), variant := 1 }],
    [("dprefi.w".toList, 0)], rfl, ?_, ?_⟩
  · have key := assemble_found r54
      [{ opcode_dprefi_w B A with lexes := some (lex_dprefi 0x1140), variant := 1 }]
      [("dprefi.w".toList, 0)]
      ({ pdesc0 with flags := flags, mach := flags &&& NASM_OPEN_ARCH_MASK }) pinsn
      "dprefi.w".toList ' ' "srd,[$r1]".toList 0 (by decide) (Or.inl rfl) (by decide)
      (by decide)
    have hv := prefetch_bare r54
      ({ pdesc0 with flags := flags, mach := flags &&& NASM_OPEN_ARCH_MASK })
      { pinsn with defuse := 0, insn := 0, field := none, attr := A }
      { opcode_dprefi_w B A with lexes := some (lex_dprefi 0x1140), variant := 1 }
      0x1140 "]".toList rfl rfl (by decide) (by decide) (by decide)
    refine (congrArg _ key).trans ?_
    rw [found_single r54 _ _ _ _ (lex_dprefi 0x1140) rfl rfl]
    cases hp : parse_insn r54
        ({ pdesc0 with flags := flags, mach := flags &&& NASM_OPEN_ARCH_MASK })
        { pinsn with defuse := 0, insn := 0, field := none, attr := A }
        "srd,[$r1]".toList
        { opcode_dprefi_w B A with lexes := some (lex_dprefi 0x1140), variant := 1 } with
    | none =>
      erw [hp] at hv
      cases hv
    | some o =>
      erw [hp] at hv
      have ho : o.1 = false := Option.some.inj hv
      erw [hp]
      show some (if o.1 = true then _ else _) = _
      rw [ho]
      rfl
  · have key := assemble_found r54
      [{ opcode_dprefi_w B A with lexes := some (lex_dprefi 0x1140), variant := 1 }]
      [("dprefi.w".toList, 0)]
      ({ pdesc0 with flags := flags, mach := flags &&& NASM_OPEN_ARCH_MASK }) pinsn
      "dprefi.w".toList ' ' "srd,[$r1".toList 0 (by decide) (Or.inl rfl) (by decide)
      (by decide)
    have hv := prefetch_bare r54
      ({ pdesc0 with flags := flags, mach := flags &&& NASM_OPEN_ARCH_MASK })
      { pinsn with defuse := 0, insn := 0, field := none, attr := A }
      { opcode_dprefi_w B A with lexes := some (lex_dprefi 0x1140), variant := 1 }
      0x1140 [] rfl rfl (by decide) (by decide) (by decide)
    refine (congrArg _ key).trans ?_
    rw [found_single r54 _ _ _ _ (lex_dprefi 0x1140) rfl rfl]
    cases hp : parse_insn r54
        ({ pdesc0 with flags := flags, mach := flags &&& NASM_OPEN_ARCH_MASK })
        { pinsn with defuse := 0, insn := 0, field := none, attr := A }
        "srd,[$r1".toList
        { opcode_dprefi_w B A with lexes := some (lex_dprefi 0x1140), variant := 1 } with
    | none =>
      erw [hp] at hv
      cases hv
    | some o =>
      erw [hp] at hv
      have ho : o.1 = true := Option.some.inj hv
      erw [hp]
      show some (if o.1 = true then _ else _) = _
      rw [ho]
      rfl

/-! ## Prefetch entries with an offset -/

/-- Combination 0 of a prefetch entry on `srd,[$r1+` followed by an offset text
`q` that the offset field reads as the value `v`, stopping at a closing bracket:
the combination is accepted when the value passes the checks of the field and
the instruction ends after the bracket. -/
theorem prefetch_variant_0_offset (r54 : Nat → Int) (pdesc : nds32_asm_desc)
    (pinsn : nds32_asm_insn) (opc : nds32_opcode) (x : Nat) (fld : field_t)
    (q tail : List Char) (v : Int)
    (hlex : opc.lexes = some (lex_dprefi x)) (hx : plain_lex x = true)
    (hchar : IS_LEX_CHAR x = false) (hl : x &&& SYN_LOPT = 0) (hr : x &&& SYN_ROPT = 0)
    (hop : ∀ pi, parse_operand r54 pdesc pi q x
      = some (parse_operand_done pdesc pi q (']' :: tail) fld v)) :
    ∃ pd1 pi1, parse_insn_variant r54 pdesc pinsn
        ('s' :: 'r' :: 'd' :: ',' :: '[' :: '$' :: 'r' :: '1' :: '+' :: q) opc 0
      = some ((parse_operand_done pdesc pinsn q (']' :: tail) fld v).ret && at_insn_end tail,
          pd1, pi1) := by
  obtain ⟨pi1, h⟩ := walk_prefetch_head r54 0 0 [SYN_LOPT, 43, x, 93, SYN_ROPT, 0] pdesc
    { pinsn with insn := opc.value } ('+' :: q) rfl
  have hg : [43, x, 93].all plain_lex = true := by
    simp only [List.all_cons, List.all_nil, hx, Bool.and_true, Bool.true_and]
    decide
  have hx0 : x ≠ 0 := by
    intro h0
    rw [h0] at hx
    exact absurd hx (by decide)
  have hl0 := walk_lopt r54 0 0 [43, x, 93] [0] hg pdesc pi1 ('+' :: q)
  rw [if_neg (by decide)] at hl0
  have hc := walk_char_eq r54 0 43 (x :: 93 :: SYN_ROPT :: [0]) (0 + 1) pdesc pi1 '+' q
    (by decide) (by decide) (by decide)
  have hf := walk_field r54 0 x (93 :: SYN_ROPT :: [0]) (0 + 1) pdesc pi1 q hx0 hchar hl hr
  rw [hop pi1] at hf
  dsimp only at hf
  have hret := done_ret pdesc pdesc pi1 pinsn q q (']' :: tail) (']' :: tail) fld v
  have hwalk : parse_insn_walk r54 0 (lex_dprefi x) false 0 pdesc { pinsn with insn := opc.value }
      ('s' :: 'r' :: 'd' :: ',' :: '[' :: '$' :: 'r' :: '1' :: '+' :: q)
      = if (parse_operand_done pdesc pi1 q (']' :: tail) fld v).ret = true then
          parse_insn_walk r54 0 (93 :: SYN_ROPT :: [0]) false (0 + 1)
            (parse_operand_done pdesc pi1 q (']' :: tail) fld v).pdesc
            (parse_operand_done pdesc pi1 q (']' :: tail) fld v).pinsn
            (parse_operand_done pdesc pi1 q (']' :: tail) fld v).str
        else some ⟨false, (parse_operand_done pdesc pi1 q (']' :: tail) fld v).pdesc,
          (parse_operand_done pdesc pi1 q (']' :: tail) fld v).pinsn, q⟩ :=
    h.trans (hl0.trans (hc.trans hf))
  unfold parse_insn_variant
  rw [hlex]
  dsimp only
  rw [hwalk, ← hret]
  cases hb : (parse_operand_done pdesc pi1 q (']' :: tail) fld v).ret with
  | false =>
    rw [if_neg (by simp)]
    exact ⟨_, _, rfl⟩
  | true =>
    rw [if_pos rfl, (done_ok pdesc pi1 q (']' :: tail) fld v hb).1,
      walk_char_eq r54 0 93 _ _ _ _ ']' tail (by decide) (by decide) (by decide),
      walk_ropt, walk_end]
    exact ⟨_, _, rfl⟩

/-- A prefetch entry on `srd,[$r1+` followed by an offset text: the matcher accepts
exactly when the offset passes the checks of the field and the instruction ends
after the closing bracket. -/
theorem prefetch_offset (r54 : Nat → Int) (pdesc : nds32_asm_desc)
    (pinsn : nds32_asm_insn) (opc : nds32_opcode) (x : Nat) (fld : field_t)
    (q tail : List Char) (v : Int)
    (hlex : opc.lexes = some (lex_dprefi x)) (hvar : opc.variant = 1)
    (hx : plain_lex x = true)
    (hchar : IS_LEX_CHAR x = false) (hl : x &&& SYN_LOPT = 0) (hr : x &&& SYN_ROPT = 0)
    (hop : ∀ pi, parse_operand r54 pdesc pi q x
      = some (parse_operand_done pdesc pi q (']' :: tail) fld v)) :
    (parse_insn r54 pdesc pinsn
        ('s' :: 'r' :: 'd' :: ',' :: '[' :: '$' :: 'r' :: '1' :: '+' :: q) opc).map
        (fun o => o.1)
      = some ((parse_operand_done pdesc pinsn q (']' :: tail) fld v).ret
          && at_insn_end tail) := by
  obtain ⟨pd0, pi0, h0⟩ := prefetch_variant_0_offset r54 pdesc pinsn opc x fld q tail v hlex hx
    hchar hl hr hop
  obtain ⟨pi1, h1⟩ := prefetch_variant_1 r54 pd0 pi0 opc x ('+' :: q) hlex hx rfl
  rw [loop_two r54 pdesc pinsn _ opc hvar, h0]
  cases hb : ((parse_operand_done pdesc pinsn q (']' :: tail) fld v).ret && at_insn_end tail) with
  | true => rfl
  | false =>
    dsimp only
    rw [h1]
    rfl

/-- The line made of a prefetch mnemonic `m` and `srd,[$r1+E]`, on the table that
holds the compiled entry alone, where the resolver reads `E]` as the constant `c`
and stops at the bracket: the call ends with `NASM_OK` and the entry when `c`
passes the checks of the offset field, with `NASM_ERR_SYNTAX` and a null opcode
otherwise. -/
theorem prefetch_line (r54 : Nat → Int) (pdesc : nds32_asm_desc) (pinsn : nds32_asm_insn)
    (e : nds32_opcode) (m : List Char) (x : Nat) (fld : field_t) (q : List Char) (c : Int)
    (hm : m.all is_mnemonic_char = true)
    (hlex : e.lexes = some (lex_dprefi x)) (hvar : e.variant = 1) (hnext : e.next = none)
    (hx : plain_lex x = true) (hfld : LEX_GET_FIELD x = some fld) (hhook : fld.parse = none)
    (hcls : fld.hw_res = HW_INT ∨ fld.hw_res = HW_UINT)
    (hchar : IS_LEX_CHAR x = false) (hl : x &&& SYN_LOPT = 0) (hr : x &&& SYN_ROPT = 0)
    (hq : nul_free q = true) (hsharp : peek (q ++ [']']) ≠ '#')
    (hmod : modifier_at (q ++ [']']) = 0)
    (hres : pdesc.parse_operand (q ++ [']']) = ⟨.NASM_R_CONST, [']'], c⟩)
    (hc0 : -2 ^ 63 ≤ c) (hc1 : c < 2 ^ 63) :
    (nds32_assemble r54 [e] [(m, 0)] pdesc pinsn
        (m ++ ' ' :: ("srd,[$r1+".toList ++ (q ++ [']'])))).map
        (fun r => (r.pdesc.result, r.pinsn.opcode))
      = some (if (parse_operand_done pdesc pinsn (q ++ [']']) [']'] fld c).ret = true
          then (nasm_code.NASM_OK, some 0) else (nasm_code.NASM_ERR_SYNTAX, none)) := by
  have hnf : nul_free ("srd,[$r1+".toList ++ (q ++ [']'])) = true :=
    nul_free_append _ _ (by decide) (nul_free_append _ _ hq (by decide))
  have hfind : opcode_find [(m, 0)] m = some 0 := by
    simp [opcode_find, List.find?]
  have key := assemble_found r54 [e] [(m, 0)] pdesc pinsn m ' ' _ 0 hm (Or.inl rfl) hnf hfind
  have hop : ∀ pi, parse_operand r54 pdesc pi (q ++ [']']) x
      = some (parse_operand_done pdesc pi (q ++ [']']) [']'] fld c) := by
    intro pi
    rw [int_operand_const r54 pdesc pi fld x _ _ c hfld hhook hcls hsharp hmod hres,
      wrap64_id c hc0 hc1]
  have hv := prefetch_offset r54 pdesc
    { pinsn with defuse := e.defuse, insn := 0, field := none, attr := e.attr } e x fld
    (q ++ [']']) [] c hlex hvar hx hchar hl hr hop
  have hend : at_insn_end [] = true := by decide
  rw [hend, Bool.and_true,
    done_ret pdesc pdesc _ pinsn (q ++ [']']) (q ++ [']']) [']'] [']'] fld c] at hv
  refine (congrArg _ key).trans ?_
  rw [found_single r54 e pdesc pinsn _ (lex_dprefi x) hlex hnext]
  cases hp : parse_insn r54 pdesc
      { pinsn with defuse := e.defuse, insn := 0, field := none, attr := e.attr }
      ("srd,[$r1+".toList ++ (q ++ [']'])) e with
  | none =>
    erw [hp] at hv
    cases hv
  | some o =>
    erw [hp] at hv
    have ho : o.1 = (parse_operand_done pdesc pinsn (q ++ [']']) [']'] fld c).ret :=
      Option.some.inj hv
    show some (if o.1 = true then _ else _) = _
    rw [ho]

/-- When the second half of `parse_operand` accepts a value under a field that is
not of the signed class. -/
theorem unsigned_ret (pdesc : nds32_asm_desc) (pinsn : nds32_asm_insn) (str endp : List Char)
    (fld : field_t) (v : Int) (hcls : fld.hw_res ≠ HW_INT) :
    (parse_operand_done pdesc pinsn str endp fld v).ret = true
      ↔ v % 2 ^ fld.shift = 0 ∧ 0 ≤ v ∧ v < 2 ^ (fld.bitsize + fld.shift) := by
  rw [done_unsigned pdesc pinsn str endp fld v hcls]
  split_ifs with h
  · exact ⟨fun _ => h, fun _ => rfl⟩
  · exact ⟨fun hf => (by cases hf), fun hc => absurd hc h⟩

/-- When the second half of `parse_operand` accepts a value under a signed field. -/
theorem signed_ret (pdesc : nds32_asm_desc) (pinsn : nds32_asm_insn) (str endp : List Char)
    (fld : field_t) (v : Int) (hcls : fld.hw_res = HW_INT)
    (hn1 : 1 ≤ fld.bitsize + fld.shift) (hn : fld.bitsize + fld.shift ≤ 31)
    (hv0 : -2 ^ 63 ≤ v) (hv1 : v < 2 ^ 63) :
    (parse_operand_done pdesc pinsn str endp fld v).ret = true
      ↔ v % 2 ^ fld.shift = 0 ∧ -2 ^ (fld.bitsize + fld.shift - 1) ≤ sext32 v
          ∧ sext32 v < 2 ^ (fld.bitsize + fld.shift - 1) := by
  rw [done_signed pdesc pinsn str endp fld v hcls hn1 hn hv0 hv1]
  split_ifs with h
  · exact ⟨fun _ => h, fun _ => rfl⟩
  · exact ⟨fun hf => (by cases hf), fun hc => absurd hc h⟩

/-! ## The offset fields of the prefetch entries -/

/-- C36: the offset field `i15s3` of `dprefi.d` is of the unsigned class and the
offset field `i15s2` of `dprefi.w` of the signed class.  For a resolver that reads
the offset text as the 64-bit constant `c` and stops at the closing bracket, the
line `dprefi.d srd,[$r1+c]` ends with `NASM_OK` exactly when `c` is a multiple of
8 with `0 ≤ c < 2^18`, and with `NASM_ERR_SYNTAX` otherwise, so for every negative
`c`.  The line `dprefi.w srd,[$r1+c]` ends with `NASM_OK` exactly when `c` is a
multiple of 4 and the value read by the signed branch, `sext32 c`, lies in
`[-2^16, 2^16)`; every multiple of 4 in `[-2^16, 2^16)` is accepted. -/
theorem prefetch_offset_classes (r54 : Nat → Int) (pdesc0 : nds32_asm_desc)
    (pinsn : nds32_asm_insn) (flags B A : Nat) (q : List Char) (c : Int)
    (hq : nul_free q = true) (hsharp : peek (q ++ [']']) ≠ '#')
    (hmod : modifier_at (q ++ [']']) = 0)
    (hres : pdesc0.parse_operand (q ++ [']']) = ⟨.NASM_R_CONST, [']'], c⟩)
    (hc0 : -2 ^ 63 ≤ c) (hc1 : c < 2 ^ 63) :
    (LEX_GET_FIELD 0x1152 = some field_i15s3 ∧ field_i15s3.hw_res = HW_UINT
        ∧ LEX_GET_FIELD 0x1140 = some field_i15s2 ∧ field_i15s2.hw_res = HW_INT)
      ∧ (∃ pdesc tbl htab,
          nds32_asm_init pdesc0 flags [opcode_dprefi_d B A] = some (pdesc, tbl, htab)
            ∧ (tbl[0]?).map (fun e => e.lexes) = some (some (lex_dprefi 0x1152))
            ∧ (nds32_assemble r54 tbl htab pdesc pinsn
                  ("dprefi.d srd,[$r1+".toList ++ (q ++ [']']))).map
                (fun r => (r.pdesc.result, r.pinsn.opcode))
              = some (if c % 2 ^ 3 = 0 ∧ 0 ≤ c ∧ c < 2 ^ 18 then (.NASM_OK, some 0)
                  else (.NASM_ERR_SYNTAX, none))
            ∧ (c < 0 → (nds32_assemble r54 tbl htab pdesc pinsn
                  ("dprefi.d srd,[$r1+".toList ++ (q ++ [']']))).map
                (fun r => (r.pdesc.result, r.pinsn.opcode)) = some (.NASM_ERR_SYNTAX, none)))
      ∧ (∃ pdesc tbl htab,
          nds32_asm_init pdesc0 flags [opcode_dprefi_w B A] = some (pdesc, tbl, htab)
            ∧ (tbl[0]?).map (fun e => e.lexes) = some (some (lex_dprefi 0x1140))
            ∧ (nds32_assemble r54 tbl htab pdesc pinsn
                  ("dprefi.w srd,[$r1+".toList ++ (q ++ [']']))).map
                (fun r => (r.pdesc.result, r.pinsn.opcode))
              = some (if c % 2 ^ 2 = 0 ∧ -2 ^ 16 ≤ sext32 c ∧ sext32 c < 2 ^ 16
                  then (.NASM_OK, some 0) else (.NASM_ERR_SYNTAX, none))
            ∧ (c % 2 ^ 2 = 0 → -2 ^ 16 ≤ c → c < 2 ^ 16 →
                (nds32_assemble r54 tbl htab pdesc pinsn
                  ("dprefi.w srd,[$r1+".toList ++ (q ++ [']']))).map
                (fun r => (r.pdesc.result, r.pinsn.opcode)) = some (.NASM_OK, some 0))) := by
  have hd := prefetch_line r54
    ({ pdesc0 with flags := flags, mach := flags &&& NASM_OPEN_ARCH_MASK }) pinsn
    { opcode_dprefi_d B A with lexes := some (lex_dprefi 0x1152), variant := 1 }
    "dprefi.d".toList 0x1152 field_i15s3 q c (by decide) rfl rfl rfl (by decide) (by decide)
    rfl (Or.inr rfl) (by decide) (by decide) (by decide) hq hsharp hmod hres hc0 hc1
  have hw := prefetch_line r54
    ({ pdesc0 with flags := flags, mach := flags &&& NASM_OPEN_ARCH_MASK }) pinsn
    { opcode_dprefi_w B A with lexes := some (lex_dprefi 0x1140), variant := 1 }
    "dprefi.w".toList 0x1140 field_i15s2 q c (by decide) rfl rfl rfl (by decide) (by decide)
    rfl (Or.inl rfl) (by decide) (by decide) (by decide) hq hsharp hmod hres hc0 hc1
  have hdr := unsigned_ret ({ pdesc0 with flags := flags, mach := flags &&& NASM_OPEN_ARCH_MASK })
    pinsn (q ++ [']']) [']'] field_i15s3 c (by decide)
  have hwr := signed_ret ({ pdesc0 with flags := flags, mach := flags &&& NASM_OPEN_ARCH_MASK })
    pinsn (q ++ [']']) [']'] field_i15s2 c rfl (by decide) (by decide) hc0 hc1
  have hd2 : (nds32_assemble r54
        [{ opcode_dprefi_d B A with lexes := some (lex_dprefi 0x1152), variant := 1 }]
        [("dprefi.d".toList, 0)]
        ({ pdesc0 with flags := flags, mach := flags &&& NASM_OPEN_ARCH_MASK }) pinsn
        ("dprefi.d srd,[$r1+".toList ++ (q ++ [']']))).map
        (fun r => (r.pdesc.result, r.pinsn.opcode))
      = some (if c % 2 ^ 3 = 0 ∧ 0 ≤ c ∧ c < 2 ^ 18 then (.NASM_OK, some 0)
          else (.NASM_ERR_SYNTAX, none)) := by
    refine hd.trans ?_
    by_cases hcond : c % 2 ^ 3 = 0 ∧ 0 ≤ c ∧ c < 2 ^ 18
    · rw [if_pos (hdr.2 hcond), if_pos hcond]
    · rw [if_neg (fun h => hcond (hdr.1 h)), if_neg hcond]
  have hw2 : (nds32_assemble r54
        [{ opcode_dprefi_w B A with lexes := some (lex_dprefi 0x1140), variant := 1 }]
        [("dprefi.w".toList, 0)]
        ({ pdesc0 with flags := flags, mach := flags &&& NASM_OPEN_ARCH_MASK }) pinsn
        ("dprefi.w srd,[$r1+".toList ++ (q ++ [']']))).map
        (fun r => (r.pdesc.result, r.pinsn.opcode))
      = some (if c % 2 ^ 2 = 0 ∧ -2 ^ 16 ≤ sext32 c ∧ sext32 c < 2 ^ 16
          then (.NASM_OK, some 0) else (.NASM_ERR_SYNTAX, none)) := by
    refine hw.trans ?_
    by_cases hcond : c % 2 ^ 2 = 0 ∧ -2 ^ 16 ≤ sext32 c ∧ sext32 c < 2 ^ 16
    · rw [if_pos (hwr.2 hcond), if_pos hcond]
    · rw [if_neg (fun h => hcond (hwr.1 h)), if_neg hcond]
  refine ⟨⟨by decide, rfl, by decide, rfl⟩,
    ⟨{ pdesc0 with flags := flags, mach := flags &&& NASM_OPEN_ARCH_MASK },
      [{ opcode_dprefi_d B A with lexes := some (lex_dprefi 0x1152), variant := 1 }],
      [("dprefi.d".toList, 0)], rfl, rfl, hd2, ?_⟩,
    ⟨{ pdesc0 with flags := flags, mach := flags &&& NASM_OPEN_ARCH_MASK },
      [{ opcode_dprefi_w B A with lexes := some (lex_dprefi 0x1140), variant := 1 }],
      [("dprefi.w".toList, 0)], rfl, rfl, hw2, ?_⟩⟩
  · intro hneg
    rw [hd2, if_neg (fun h => absurd h.2.1 (not_le.2 hneg))]
  · intro h4 hlo hhi
    have hs : sext32 c = c := by
      unfold sext32
      rw [if_neg (fun h => by omega)]
    rw [hw2, if_pos ⟨h4, by rw [hs]; exact hlo, by rw [hs]; exact hhi⟩]

/-- C36 at the offset text `-8`, read as the constant -8. -/
theorem prefetch_offset_classes_witness :
    (LEX_GET_FIELD 0x1152 = some field_i15s3 ∧ field_i15s3.hw_res = HW_UINT
        ∧ LEX_GET_FIELD 0x1140 = some field_i15s2 ∧ field_i15s2.hw_res = HW_INT)
      ∧ (∃ pdesc tbl htab,
          nds32_asm_init (pdesc_with 0 (resolve_to_bracket (-8))) 0 [opcode_dprefi_d 0 0]
              = some (pdesc, tbl, htab)
            ∧ (tbl[0]?).map (fun e => e.lexes) = some (some (lex_dprefi 0x1152))
            ∧ (nds32_assemble (fun n => (n : Int)) tbl htab pdesc pinsn_zero
                  ("dprefi.d srd,[$r1+".toList ++ ("-8".toList ++ [']']))).map
                (fun r => (r.pdesc.result, r.pinsn.opcode))
              = some (if (-8 : Int) % 2 ^ 3 = 0 ∧ (0 : Int) ≤ -8 ∧ (-8 : Int) < 2 ^ 18
                  then (.NASM_OK, some 0) else (.NASM_ERR_SYNTAX, none))
            ∧ ((-8 : Int) < 0 → (nds32_assemble (fun n => (n : Int)) tbl htab pdesc pinsn_zero
                  ("dprefi.d srd,[$r1+".toList ++ ("-8".toList ++ [']']))).map
                (fun r => (r.pdesc.result, r.pinsn.opcode)) = some (.NASM_ERR_SYNTAX, none)))
      ∧ (∃ pdesc tbl htab,
          nds32_asm_init (pdesc_with 0 (resolve_to_bracket (-8))) 0 [opcode_dprefi_w 0 0]
              = some (pdesc, tbl, htab)
            ∧ (tbl[0]?).map (fun e => e.lexes) = some (some (lex_dprefi 0x1140))
            ∧ (nds32_assemble (fun n => (n : Int)) tbl htab pdesc pinsn_zero
                  ("dprefi.w srd,[$r1+".toList ++ ("-8".toList ++ [']']))).map
                (fun r => (r.pdesc.result, r.pinsn.opcode))
              = some (if (-8 : Int) % 2 ^ 2 = 0 ∧ -2 ^ 16 ≤ sext32 (-8) ∧ sext32 (-8) < 2 ^ 16
                  then (.NASM_OK, some 0) else (.NASM_ERR_SYNTAX, none))
            ∧ ((-8 : Int) % 2 ^ 2 = 0 → -2 ^ 16 ≤ (-8 : Int) → (-8 : Int) < 2 ^ 16 →
                (nds32_assemble (fun n => (n : Int)) tbl htab pdesc pinsn_zero
                  ("dprefi.w srd,[$r1+".toList ++ ("-8".toList ++ [']']))).map
                (fun r => (r.pdesc.result, r.pinsn.opcode)) = some (.NASM_OK, some 0))) :=
  prefetch_offset_classes (fun n => (n : Int)) (pdesc_with 0 (resolve_to_bracket (-8)))
    pinsn_zero 0 0 0 "-8".toList (-8) (by decide) (by decide) (by decide) rfl (by decide)
    (by decide)

/-! ## The values selected by the modifiers -/

theorem land_fffff (v : Int) : Int.land v 0xfffff = v % 2 ^ 20 :=
  land_mask v 20

theorem land_fff (v : Int) : Int.land v 0xfff = v % 2 ^ 12 :=
  land_mask v 12

/-- The part of a constant the modifier `lo20(` selects. -/
theorem modifier_value_lo20 (v : Int) : modifier_value NASM_ATTR_LO20 v = v % 2 ^ 20 := by
  unfold modifier_value
  rw [if_neg (by decide), if_neg (by decide), if_pos (by decide)]
  exact land_fffff v

/-- The part of a constant the modifier `lo12(` selects. -/
theorem modifier_value_lo12 (v : Int) : modifier_value NASM_ATTR_LO12 v = v % 2 ^ 12 := by
  unfold modifier_value
  rw [if_neg (by decide), if_pos (by decide)]
  exact land_fff v

/-- The part of a constant the modifier `hi20(` selects. -/
theorem modifier_value_hi20 (v : Int) :
    modifier_value NASM_ATTR_HI20 v = v / 2 ^ 12 % 2 ^ 20 := by
  unfold modifier_value
  rw [if_pos (by decide), shr_eq_div]
  exact land_fffff _

/-- A value in `[0, 2^31)` is left alone by the sign extension of the signed
branch. -/
theorem sext32_small (v : Int) (h : v < 2 ^ 31) : sext32 v = v := by
  unfold sext32
  rw [if_neg (fun hc => by omega)]

/-- Bits `[12, 32)` of a constant, put back above its bits `[0, 12)`, give its
32 low bits. -/
theorem split_join (c : Int) :
    ((c / 2 ^ 12 % 2 ^ 20).toNat <<< 12) ||| (c % 2 ^ 12).toNat = (c % 2 ^ 32).toNat := by
  have hl : (c % 2 ^ 12).toNat < 2 ^ 12 := by
    norm_num
    omega
  rw [Nat.shiftLeft_eq, Nat.mul_comm, ← Nat.mul_add_lt_is_or hl]
  norm_num
  omega

/-! ## The modifier lo20 under a signed field -/

/-- C37: `i20s`, the immediate field of movi, is signed, 20 bits wide, of scale 0.
When the resolver answers the text after `lo20(` with the 64-bit constant `c`,
`parse_operand` on `lo20(...` under that field submits `c & 0xFFFFF` to the signed
range check as it is: the operand is accepted, packing the 20 low bits of `c`,
exactly when bit 19 of `c` is clear, and refused with `NASM_ERR_OUT_OF_RANGE`
when it is set.  On `movi $r0,lo20(0x80000)` the matcher fails with
`NASM_ERR_OUT_OF_RANGE`, and the encode call rejects the line. -/
theorem lo20_is_not_sign_extended (r54 : Nat → Int) (pdesc : nds32_asm_desc)
    (pinsn : nds32_asm_insn) (rest endp : List Char) (c : Int)
    (hres : pdesc.parse_operand rest = ⟨.NASM_R_CONST, endp, c⟩)
    (hc0 : -2 ^ 63 ≤ c) (hc1 : c < 2 ^ 63) :
    LEX_GET_FIELD 0x1136 = some field_i20s
      ∧ (compiled (opcode_movi 0 0)).lexes = some [0x2100, 44, 0x1136, 0]
      ∧ parse_operand r54 pdesc pinsn ("lo20(".toList ++ rest) 0x1136
        = some (if c / 2 ^ 19 % 2 = 0 then
            ⟨true, pdesc,
              { pinsn with
                attr := pinsn.attr ||| NASM_ATTR_LO20,
                insn := (pinsn.insn ||| (c % 2 ^ 20).toNat) % 2 ^ 32 },
              endp.drop 1⟩
          else
            ⟨false, { pdesc with result := .NASM_ERR_OUT_OF_RANGE },
              { pinsn with attr := pinsn.attr ||| NASM_ATTR_LO20 }, "lo20(".toList ++ rest⟩)
      ∧ (parse_insn (fun n => (n : Int)) (pdesc_with 0 (resolve_to_paren 0x80000)) pinsn_zero
            "$r0,lo20(0x80000)".toList (compiled (opcode_movi 0 0))).map
          (fun o => (o.1, o.2.1.result)) = some (false, .NASM_ERR_OUT_OF_RANGE)
      ∧ (assemble_line (fun n => (n : Int)) (resolve_to_paren 0x80000) 0 [opcode_movi 0 0]
            "movi $r0,lo20(0x80000)").map (fun r => (r.1, r.2.opcode))
          = some (.NASM_ERR_SYNTAX, none)
      ∧ (assemble_line (fun n => (n : Int)) (resolve_to_paren 0x7ffff) 0 [opcode_movi 0 0]
            "movi $r0,lo20(0x7ffff)").map (fun r => (r.1, r.2.insn))
          = some (.NASM_OK, 0x7ffff) := by
  refine ⟨by decide, by decide, ?_, by decide, by decide, by decide⟩
  have hm0 : (0 : Int) ≤ c % 2 ^ 20 := Int.emod_nonneg _ (by norm_num)
  have hm1 : c % 2 ^ 20 < 2 ^ 20 := Int.emod_lt_of_pos _ (by norm_num)
  have h := modifier_operand r54 pdesc pinsn field_i20s 0x1136 false "lo20(".toList rest endp c
    NASM_ATTR_LO20 rfl (Or.inl rfl) (modifier_at_lo20 _ _ rfl) (by decide) rfl
    (modifier_head_not_sharp _ _ _ rfl (by decide) (by decide)) hres
  rw [parse_operand_eq r54 pdesc pinsn _ 0x1136 field_i20s (by decide)]
  refine h.trans ?_
  rw [wrap64_id c hc0 hc1, modifier_value_lo20,
    done_signed _ _ _ _ field_i20s (c % 2 ^ 20) rfl (by decide) (by decide) (by omega) (by omega),
    sext32_small (c % 2 ^ 20) (by omega)]
  have hshift : (2 : Int) ^ field_i20s.shift = 1 := rfl
  have hwide : (2 : Int) ^ (field_i20s.bitsize + field_i20s.shift - 1) = 2 ^ 19 := rfl
  have hsize : (2 : Int) ^ field_i20s.bitsize = 2 ^ 20 := rfl
  have hpos : field_i20s.bitpos = 0 := rfl
  rw [hshift, hwide, hsize, hpos, Int.ediv_one, Int.emod_emod_of_dvd _ (dvd_refl _),
    Nat.shiftLeft_zero]
  by_cases hbit : c / 2 ^ 19 % 2 = 0
  · have hlt : c % 2 ^ 20 < 2 ^ 19 := by
      norm_num at hbit ⊢
      omega
    rw [if_pos hbit, if_pos ⟨Int.emod_one _, by omega, hlt⟩]
  · have hge : ¬ c % 2 ^ 20 < 2 ^ 19 := by
      norm_num at hbit ⊢
      omega
    rw [if_neg hbit, if_neg (fun hc => hge hc.2.2)]
    rfl

/-- C37 at the operand `lo20(0x80000)`, whose bit 19 is set. -/
theorem lo20_is_not_sign_extended_witness :
    LEX_GET_FIELD 0x1136 = some field_i20s
      ∧ (compiled (opcode_movi 0 0)).lexes = some [0x2100, 44, 0x1136, 0]
      ∧ parse_operand (fun n => (n : Int)) (pdesc_with 0 (resolve_to_paren 0x80000)) pinsn_zero
          ("lo20(".toList ++ "0x80000)".toList) 0x1136
        = some (if (0x80000 : Int) / 2 ^ 19 % 2 = 0 then
            ⟨true, pdesc_with 0 (resolve_to_paren 0x80000),
              { pinsn_zero with
                attr := pinsn_zero.attr ||| NASM_ATTR_LO20,
                insn := (pinsn_zero.insn ||| ((0x80000 : Int) % 2 ^ 20).toNat) % 2 ^ 32 },
              [')'].drop 1⟩
          else
            ⟨false, { pdesc_with 0 (resolve_to_paren 0x80000) with
                result := .NASM_ERR_OUT_OF_RANGE },
              { pinsn_zero with attr := pinsn_zero.attr ||| NASM_ATTR_LO20 },
              "lo20(".toList ++ "0x80000)".toList⟩)
      ∧ (parse_insn (fun n => (n : Int)) (pdesc_with 0 (resolve_to_paren 0x80000)) pinsn_zero
            "$r0,lo20(0x80000)".toList (compiled (opcode_movi 0 0))).map
          (fun o => (o.1, o.2.1.result)) = some (false, .NASM_ERR_OUT_OF_RANGE)
      ∧ (assemble_line (fun n => (n : Int)) (resolve_to_paren 0x80000) 0 [opcode_movi 0 0]
            "movi $r0,lo20(0x80000)").map (fun r => (r.1, r.2.opcode))
          = some (.NASM_ERR_SYNTAX, none)
      ∧ (assemble_line (fun n => (n : Int)) (resolve_to_paren 0x7ffff) 0 [opcode_movi 0 0]
            "movi $r0,lo20(0x7ffff)").map (fun r => (r.1, r.2.insn))
          = some (.NASM_OK, 0x7ffff) :=
  lo20_is_not_sign_extended (fun n => (n : Int)) (pdesc_with 0 (resolve_to_paren 0x80000))
    pinsn_zero "0x80000)".toList [')'] 0x80000 rfl (by decide) (by decide)

/-! ## The modifiers hi20 and lo12 split a constant -/

/-- C38: for every 64-bit constant `c`, the values selected by the modifiers are
`hi20(c) = (c >> 12) & 0xFFFFF` and `lo12(c) = c & 0xFFF`, and
`(hi20(c) << 12) | lo12(c)` is `c mod 2^32`: nothing is lost and no carry is
added.  Under `i20u`, the 20-bit unsigned field of scale 0 of sethi, the operand
`hi20(...` is accepted whatever `c` is and packs `hi20(c)`; under a hook-less
unsigned field of scale 0 with at least 12 bits the operand `lo12(...` is accepted
and packs `lo12(c)`. -/
theorem hi20_lo12_split (r54 : Nat → Int) (pdesc : nds32_asm_desc) (pinsn : nds32_asm_insn)
    (fld : field_t) (syn : Nat) (rest endp : List Char) (c : Int)
    (hhook : fld.parse = none) (hu : fld.hw_res = HW_UINT) (hshift : fld.shift = 0)
    (hsize : 12 ≤ fld.bitsize)
    (hres : pdesc.parse_operand rest = ⟨.NASM_R_CONST, endp, c⟩)
    (hc0 : -2 ^ 63 ≤ c) (hc1 : c < 2 ^ 63) :
    (modifier_value NASM_ATTR_HI20 c = Int.land (c >>> (12 : Nat)) 0xfffff
        ∧ modifier_value NASM_ATTR_LO12 c = Int.land c 0xfff)
      ∧ ((modifier_value NASM_ATTR_HI20 c).toNat <<< 12
            ||| (modifier_value NASM_ATTR_LO12 c).toNat = (c % 2 ^ 32).toNat)
      ∧ LEX_GET_FIELD 0x114b = some field_i20u
      ∧ parse_operand r54 pdesc pinsn ("hi20(".toList ++ rest) 0x114b
        = some ⟨true, pdesc,
            { pinsn with
              attr := pinsn.attr ||| NASM_ATTR_HI20,
              insn := (pinsn.insn ||| (modifier_value NASM_ATTR_HI20 c).toNat) % 2 ^ 32 },
            endp.drop 1⟩
      ∧ parse_operand_fld r54 pdesc pinsn ("lo12(".toList ++ rest) fld syn
        = some ⟨true, pdesc,
            { pinsn with
              attr := pinsn.attr ||| NASM_ATTR_LO12,
              insn := (pinsn.insn
                ||| ((modifier_value NASM_ATTR_LO12 c).toNat <<< fld.bitpos)) % 2 ^ 32 },
            endp.drop 1⟩ := by
  have hh0 : (0 : Int) ≤ c / 2 ^ 12 % 2 ^ 20 := Int.emod_nonneg _ (by norm_num)
  have hh1 : c / 2 ^ 12 % 2 ^ 20 < 2 ^ 20 := Int.emod_lt_of_pos _ (by norm_num)
  have hl0 : (0 : Int) ≤ c % 2 ^ 12 := Int.emod_nonneg _ (by norm_num)
  have hl1 : c % 2 ^ 12 < 2 ^ 12 := Int.emod_lt_of_pos _ (by norm_num)
  refine ⟨⟨rfl, rfl⟩, ?_, by decide, ?_, ?_⟩
  · rw [modifier_value_hi20, modifier_value_lo12]
    exact split_join c
  · have h := modifier_operand r54 pdesc pinsn field_i20u 0x114b false "hi20(".toList rest endp c
      NASM_ATTR_HI20 rfl (Or.inr rfl) (modifier_at_hi20 _ _ rfl) (by decide) rfl
      (modifier_head_not_sharp _ _ _ rfl (by decide) (by decide)) hres
    rw [parse_operand_eq r54 pdesc pinsn _ 0x114b field_i20u (by decide)]
    refine h.trans ?_
    rw [wrap64_id c hc0 hc1, modifier_value_hi20,
      done_unsigned _ _ _ _ field_i20u (c / 2 ^ 12 % 2 ^ 20) (by decide)]
    have hshift0 : (2 : Int) ^ field_i20u.shift = 1 := rfl
    have hwide : (2 : Int) ^ (field_i20u.bitsize + field_i20u.shift) = 2 ^ 20 := rfl
    have hsize0 : (2 : Int) ^ field_i20u.bitsize = 2 ^ 20 := rfl
    have hpos : field_i20u.bitpos = 0 := rfl
    rw [hshift0, hwide, hsize0, hpos, Int.ediv_one, Int.emod_emod_of_dvd _ (dvd_refl _),
      Nat.shiftLeft_zero, if_pos ⟨Int.emod_one _, hh0, hh1⟩]
  · have hpow : (2 : Int) ^ 12 ≤ 2 ^ fld.bitsize :=
      pow_le_pow_right₀ (by norm_num) hsize
    have h := modifier_operand r54 pdesc pinsn fld syn false "lo12(".toList rest endp c
      NASM_ATTR_LO12 hhook (Or.inr hu) (modifier_at_lo12 _ _ rfl) (by decide) rfl
      (modifier_head_not_sharp _ _ _ rfl (by decide) (by decide)) hres
    refine h.trans ?_
    rw [wrap64_id c hc0 hc1, modifier_value_lo12,
      done_unsigned _ _ _ _ fld (c % 2 ^ 12) (by rw [hu]; decide), hshift, Nat.add_zero,
      pow_zero, Int.ediv_one, Int.emod_eq_of_lt hl0 (lt_of_lt_of_le hl1 hpow),
      if_pos ⟨Int.emod_one _, hl0, lt_of_lt_of_le hl1 hpow⟩]

/-- C38 at the constant -1 and the field `i15u` of ori. -/
theorem hi20_lo12_split_witness :
    (modifier_value NASM_ATTR_HI20 (-1) = Int.land ((-1 : Int) >>> (12 : Nat)) 0xfffff
        ∧ modifier_value NASM_ATTR_LO12 (-1) = Int.land (-1) 0xfff)
      ∧ ((modifier_value NASM_ATTR_HI20 (-1)).toNat <<< 12
            ||| (modifier_value NASM_ATTR_LO12 (-1)).toNat = ((-1 : Int) % 2 ^ 32).toNat)
      ∧ LEX_GET_FIELD 0x114b = some field_i20u
      ∧ parse_operand (fun n => (n : Int)) (pdesc_with 0 (resolve_to_paren (-1))) pinsn_zero
          ("hi20(".toList ++ "x)".toList) 0x114b
        = some ⟨true, pdesc_with 0 (resolve_to_paren (-1)),
            { pinsn_zero with
              attr := pinsn_zero.attr ||| NASM_ATTR_HI20,
              insn := (pinsn_zero.insn
                ||| (modifier_value NASM_ATTR_HI20 (-1)).toNat) % 2 ^ 32 },
            [')'].drop 1⟩
      ∧ parse_operand_fld (fun n => (n : Int)) (pdesc_with 0 (resolve_to_paren (-1)))
          pinsn_zero ("lo12(".toList ++ "x)".toList)
          field_i15u 0x1100
        = some ⟨true, pdesc_with 0 (resolve_to_paren (-1)),
            { pinsn_zero with
              attr := pinsn_zero.attr ||| NASM_ATTR_LO12,
              insn := (pinsn_zero.insn
                ||| ((modifier_value NASM_ATTR_LO12 (-1)).toNat <<< 0)) % 2 ^ 32 },
            [')'].drop 1⟩ :=
  hi20_lo12_split (fun n => (n : Int)) (pdesc_with 0 (resolve_to_paren (-1))) pinsn_zero
    field_i15u 0x1100 "x)".toList [')'] (-1) rfl rfl rfl
    (by decide) rfl (by decide) (by decide)

/-! ## The cursor after a modifier -/

/-- The outcome of the second half of `parse_operand`, its cursor apart, does not
depend on the cursors it is given. -/
theorem done_frame (pdesc : nds32_asm_desc) (pinsn : nds32_asm_insn)
    (str1 str2 endp1 endp2 : List Char) (fld : field_t) (v : Int) :
    (parse_operand_done pdesc pinsn str1 endp1 fld v).ret
        = (parse_operand_done pdesc pinsn str2 endp2 fld v).ret
      ∧ (parse_operand_done pdesc pinsn str1 endp1 fld v).pdesc
        = (parse_operand_done pdesc pinsn str2 endp2 fld v).pdesc
      ∧ (parse_operand_done pdesc pinsn str1 endp1 fld v).pinsn
        = (parse_operand_done pdesc pinsn str2 endp2 fld v).pinsn := by
  unfold parse_operand_done
  dsimp only
  split_ifs <;> exact ⟨rfl, rfl, rfl⟩

/-- A modifier prefix, read without regard to the case of its letters, and the
attribute bit it stands for. -/
theorem modifier_prefix_bit (pre : List Char)
    (hpre : pre.map Char.toLower = "hi20(".toList ∨ pre.map Char.toLower = "lo12(".toList
      ∨ pre.map Char.toLower = "lo20(".toList) :
    ∃ m, m ≠ 0 ∧ pre.length = 5
      ∧ (m = NASM_ATTR_HI20 ∨ m = NASM_ATTR_LO12 ∨ m = NASM_ATTR_LO20)
      ∧ ∀ rest, modifier_at (pre ++ rest) = m ∧ peek (pre ++ rest) ≠ '#' := by
  rcases hpre with h | h | h
  · refine ⟨NASM_ATTR_HI20, by decide, ?_, Or.inl rfl, fun rest =>
      ⟨modifier_at_hi20 pre rest h, modifier_head_not_sharp pre rest _ h (by decide) (by decide)⟩⟩
    have := congrArg List.length h
    rwa [List.length_map] at this
  · refine ⟨NASM_ATTR_LO12, by decide, ?_, Or.inr (Or.inl rfl), fun rest =>
      ⟨modifier_at_lo12 pre rest h, modifier_head_not_sharp pre rest _ h (by decide) (by decide)⟩⟩
    have := congrArg List.length h
    rwa [List.length_map] at this
  · refine ⟨NASM_ATTR_LO20, by decide, ?_, Or.inr (Or.inr rfl), fun rest =>
      ⟨modifier_at_lo20 pre rest h, modifier_head_not_sharp pre rest _ h (by decide) (by decide)⟩⟩
    have := congrArg List.length h
    rwa [List.length_map] at this

/-! ## The closing parenthesis of a modifier -/

/-- C39: under a hook-less integer field, after a prefix `hi20(`, `lo12(` or
`lo20(` (in any case of letters), when the resolver answers with a constant and
stops at a cursor `ch :: tail`, `parse_operand` goes on from `tail`: the character
`ch` is stepped over without being looked at.  Hence two operand texts whose
sub-expressions resolve to the same constant and that differ in the character the
resolver stops at give the same verdict, the same description and the same
instruction, and on success leave the same cursor `tail`.  With a resolver that
reads one digit, `ori $r0,$r1,lo12(4]` is encoded exactly like
`ori $r0,$r1,lo12(4)`. -/
theorem modifier_close_is_unchecked (r54 : Nat → Int) (pdesc : nds32_asm_desc)
    (pinsn : nds32_asm_insn) (fld : field_t) (syn : Nat)
    (pre rest1 rest2 tail : List Char) (ch1 ch2 : Char) (c : Int)
    (hhook : fld.parse = none) (hcls : fld.hw_res = HW_INT ∨ fld.hw_res = HW_UINT)
    (hpre : pre.map Char.toLower = "hi20(".toList ∨ pre.map Char.toLower = "lo12(".toList
      ∨ pre.map Char.toLower = "lo20(".toList)
    (h1 : pdesc.parse_operand rest1 = ⟨.NASM_R_CONST, ch1 :: tail, c⟩)
    (h2 : pdesc.parse_operand rest2 = ⟨.NASM_R_CONST, ch2 :: tail, c⟩) :
    (∃ m res1 res2, (m = NASM_ATTR_HI20 ∨ m = NASM_ATTR_LO12 ∨ m = NASM_ATTR_LO20)
        ∧ parse_operand_fld r54 pdesc pinsn (pre ++ rest1) fld syn = some res1
        ∧ parse_operand_fld r54 pdesc pinsn (pre ++ rest2) fld syn = some res2
        ∧ res1 = parse_operand_done pdesc { pinsn with attr := pinsn.attr ||| m }
            (pre ++ rest1) tail fld (modifier_value m (wrap64 c))
        ∧ res2 = parse_operand_done pdesc { pinsn with attr := pinsn.attr ||| m }
            (pre ++ rest2) tail fld (modifier_value m (wrap64 c))
        ∧ res1.ret = res2.ret ∧ res1.pdesc = res2.pdesc ∧ res1.pinsn = res2.pinsn
        ∧ (res1.ret = true → res1.str = tail ∧ res2.str = tail))
      ∧ (assemble_line (fun n => (n : Int)) resolve_digit 0 [opcode_ori 0 0]
            "ori $r0,$r1,lo12(4]").map (fun r => (r.1, r.2.insn, r.2.attr, r.2.defuse))
          = some (.NASM_OK, 1 <<< 15 ||| 4, NASM_ATTR_LO12, 3)
      ∧ (assemble_line (fun n => (n : Int)) resolve_digit 0 [opcode_ori 0 0]
            "ori $r0,$r1,lo12(4)").map (fun r => (r.1, r.2.insn, r.2.attr, r.2.defuse))
          = some (.NASM_OK, 1 <<< 15 ||| 4, NASM_ATTR_LO12, 3) := by
  refine ⟨?_, by decide, by decide⟩
  obtain ⟨m, hm0, hlen, hm, hat⟩ := modifier_prefix_bit pre hpre
  have e1 := modifier_operand r54 pdesc pinsn fld syn false pre rest1 (ch1 :: tail) c m hhook
    hcls (hat rest1).1 hm0 hlen (hat rest1).2 h1
  have e2 := modifier_operand r54 pdesc pinsn fld syn false pre rest2 (ch2 :: tail) c m hhook
    hcls (hat rest2).1 hm0 hlen (hat rest2).2 h2
  have hf := done_frame pdesc { pinsn with attr := pinsn.attr ||| m } (pre ++ rest1)
    (pre ++ rest2) tail tail fld (modifier_value m (wrap64 c))
  refine ⟨m, _, _, hm, e1, e2, rfl, rfl, hf.1, hf.2.1, hf.2.2, fun hret => ?_⟩
  have hret2 : (parse_operand_done pdesc { pinsn with attr := pinsn.attr ||| m } (pre ++ rest2)
      tail fld (modifier_value m (wrap64 c))).ret = true := by
    rw [← hf.1]
    exact hret
  exact ⟨(done_ok _ _ _ _ _ _ hret).1, (done_ok _ _ _ _ _ _ hret2).1⟩

/-- C39 at `lo12(4]` and `lo12(4)` under the field `i15u`. -/
theorem modifier_close_is_unchecked_witness :
    (∃ m res1 res2, (m = NASM_ATTR_HI20 ∨ m = NASM_ATTR_LO12 ∨ m = NASM_ATTR_LO20)
        ∧ parse_operand_fld (fun n => (n : Int)) (pdesc_with 0 resolve_digit) pinsn_zero
            ("lo12(".toList ++ "4]".toList) field_i15u 0x1100 = some res1
        ∧ parse_operand_fld (fun n => (n : Int)) (pdesc_with 0 resolve_digit) pinsn_zero
            ("lo12(".toList ++ "4)".toList) field_i15u 0x1100 = some res2
        ∧ res1 = parse_operand_done (pdesc_with 0 resolve_digit)
            { pinsn_zero with attr := pinsn_zero.attr ||| m }
            ("lo12(".toList ++ "4]".toList) [] field_i15u (modifier_value m (wrap64 4))
        ∧ res2 = parse_operand_done (pdesc_with 0 resolve_digit)
            { pinsn_zero with attr := pinsn_zero.attr ||| m }
            ("lo12(".toList ++ "4)".toList) [] field_i15u (modifier_value m (wrap64 4))
        ∧ res1.ret = res2.ret ∧ res1.pdesc = res2.pdesc ∧ res1.pinsn = res2.pinsn
        ∧ (res1.ret = true → res1.str = [] ∧ res2.str = []))
      ∧ (assemble_line (fun n => (n : Int)) resolve_digit 0 [opcode_ori 0 0]
            "ori $r0,$r1,lo12(4]").map (fun r => (r.1, r.2.insn, r.2.attr, r.2.defuse))
          = some (.NASM_OK, 1 <<< 15 ||| 4, NASM_ATTR_LO12, 3)
      ∧ (assemble_line (fun n => (n : Int)) resolve_digit 0 [opcode_ori 0 0]
            "ori $r0,$r1,lo12(4)").map (fun r => (r.1, r.2.insn, r.2.attr, r.2.defuse))
          = some (.NASM_OK, 1 <<< 15 ||| 4, NASM_ATTR_LO12, 3) :=
  modifier_close_is_unchecked (fun n => (n : Int)) (pdesc_with 0 resolve_digit) pinsn_zero
    field_i15u 0x1100 "lo12(".toList "4]".toList "4)".toList [] ']' ')' 4 rfl (Or.inr rfl)
    (Or.inr (Or.inl rfl)) rfl rfl

/-! ## The unknown mnemonic and the instruction -/

/-- C40: a call of `nds32_assemble` that ends with `NASM_ERR_UNKNOWN_OP` leaves the
in-progress instruction exactly as it was (`insn`, `opcode`, `field`, `attr` and
`defuse` keep their values), leaves the table as it was, and changes nothing in
the description but `result`.  A line whose mnemonic `m`, followed by a blank or a
tab, is not in the table, and that holds no dot or has an unknown prefix before
its first dot, ends that way.  A call that ends with `NASM_ERR_SYNTAX` has set
`pinsn->opcode` to null: with `opcode` naming entry 7 before the call, the unknown
mnemonic `foo` leaves it at 7 and the mismatch `add r1,r2` resets it. -/
theorem unknown_mnemonic_keeps_instruction (r54 : Nat → Int) (tbl : List nds32_opcode)
    (htab : List (List Char × Nat)) (pdesc : nds32_asm_desc) (pinsn : nds32_asm_insn)
    (str : List Char) (r : assemble_result)
    (h : nds32_assemble r54 tbl htab pdesc pinsn str = some r)
    (hcode : r.pdesc.result = .NASM_ERR_UNKNOWN_OP) :
    r.pinsn = pinsn
      ∧ (r.pinsn.insn = pinsn.insn ∧ r.pinsn.opcode = pinsn.opcode
        ∧ r.pinsn.field = pinsn.field ∧ r.pinsn.attr = pinsn.attr
        ∧ r.pinsn.defuse = pinsn.defuse)
      ∧ r.pdesc = { pdesc with result := .NASM_ERR_UNKNOWN_OP }
      ∧ r.tbl = tbl
      ∧ (∀ m sep t, m.all is_mnemonic_char = true → (sep = ' ' ∨ sep = '\t') →
          nul_free t = true →
          (opcode_find htab m = none
            ∧ ('.' ∉ m ∨ opcode_find htab (m.takeWhile (fun c => c != '.')) = none)) →
          nds32_assemble r54 tbl htab pdesc pinsn (m ++ sep :: t)
            = some ⟨{ pdesc with result := .NASM_ERR_UNKNOWN_OP }, pinsn, tbl⟩)
      ∧ (∀ s r2, nds32_assemble r54 tbl htab pdesc pinsn s = some r2 →
          r2.pdesc.result = .NASM_ERR_SYNTAX → r2.pinsn.opcode = none)
      ∧ (nds32_assemble (fun n => (n : Int))
            [compiled (opcode_add 0)] [("add".toList, 0)] (pdesc_with 0 (resolve_const 0))
            { pinsn_zero with opcode := some 7 } "foo r1,r2".toList).map
          (fun x => (x.pdesc.result, x.pinsn.opcode)) = some (.NASM_ERR_UNKNOWN_OP, some 7)
      ∧ (nds32_assemble (fun n => (n : Int))
            [compiled (opcode_add 0)] [("add".toList, 0)] (pdesc_with 0 (resolve_const 0))
            { pinsn_zero with opcode := some 7 } "add r1,r2".toList).map
          (fun x => (x.pdesc.result, x.pinsn.opcode)) = some (.NASM_ERR_SYNTAX, none) := by
  have hr : r = ⟨{ pdesc with result := .NASM_ERR_UNKNOWN_OP }, pinsn, tbl⟩ := by
    rcases assemble_cases r54 tbl htab pdesc pinsn str with hu | ⟨s, i, hf⟩
    · rw [hu] at h
      exact (Option.some.inj h).symm
    · rw [hf] at h
      rcases found_codes r54 tbl pdesc pinsn s i r h with h1 | h1
      · rw [h1.1] at hcode
        cases hcode
      · rw [h1.1] at hcode
        cases hcode
  refine ⟨by rw [hr], by rw [hr]; exact ⟨rfl, rfl, rfl, rfl, rfl⟩, by rw [hr], by rw [hr],
    fun m sep t hm hsep ht hunk =>
      (unknown_op_iff_with_operands r54 tbl htab pdesc pinsn m sep t hm hsep ht).1 hunk,
    fun s r2 h2 hs => ?_, by decide, by decide⟩
  rcases assemble_cases r54 tbl htab pdesc pinsn s with hu | ⟨s1, i, hf⟩
  · rw [hu] at h2
    have h3 := Option.some.inj h2
    rw [← h3] at hs
    cases hs
  · rw [hf] at h2
    rcases found_codes r54 tbl pdesc pinsn s1 i r2 h2 with h1 | h1
    · rw [h1.1] at hs
      cases hs
    · exact h1.2

/-- C40 at the line `foo r1,r2` against the table of the single entry `add`, the
instruction having `opcode` 7, `insn` 5, `attr` 3 and `defuse` 9 before the call. -/
theorem unknown_mnemonic_keeps_instruction_witness :
    ∃ r, nds32_assemble (fun n => (n : Int)) [compiled (opcode_add 0)] [("add".toList, 0)]
          (pdesc_with 0 (resolve_const 0)) ⟨some 7, 5, 3, 9, none⟩ "foo r1,r2".toList = some r
      ∧ r.pdesc.result = .NASM_ERR_UNKNOWN_OP
      ∧ r.pinsn = ⟨some 7, 5, 3, 9, none⟩
      ∧ (r.pinsn.insn = 5 ∧ r.pinsn.opcode = some 7 ∧ r.pinsn.field = none ∧ r.pinsn.attr = 3
        ∧ r.pinsn.defuse = 9)
      ∧ r.pdesc = { pdesc_with 0 (resolve_const 0) with result := .NASM_ERR_UNKNOWN_OP }
      ∧ r.tbl = [compiled (opcode_add 0)] :=
  have h := assemble_no_dot (fun n => (n : Int)) [compiled (opcode_add 0)] [("add".toList, 0)]
    (pdesc_with 0 (resolve_const 0)) ⟨some 7, 5, 3, 9, none⟩ "foo".toList ' ' "r1,r2".toList
    (by decide) (Or.inl rfl) (by decide) (by decide) (by decide)
  have hT := unknown_mnemonic_keeps_instruction (fun n => (n : Int)) [compiled (opcode_add 0)]
    [("add".toList, 0)] (pdesc_with 0 (resolve_const 0)) ⟨some 7, 5, 3, 9, none⟩
    "foo r1,r2".toList _ h rfl
  ⟨_, h, rfl, hT.1, hT.2.1, hT.2.2.1, hT.2.2.2.1⟩

end Nds32
